import Mathlib

/-!
# FontSDF: TrueType reader and atlas packing

A shallow embedding of `FontSDF/FontLoader.h` (namespace `ttf`), of the atlas
generator `FontSDF/FontSDF.cpp` (namespace `FontSDF`), of the binary serializer
under `FontSDF/include/Serializer` (namespace `serializer`) and of the JSON
parser `FontSDF/jsonParse.h` (namespace `mj`).

Conventions of the embedding.

* Machine integers are natural numbers; every place where the C++ arithmetic
  is carried out in a fixed width shows the reduction `% 2 ^ w` explicitly.
* A pointer into the font blob is the index of the byte it points to; the null
  pointer is `none`.
* A run of the code has an `Outcome`: it returns a value (`ok`), or it reads
  outside the blob or outside a `std::vector` (`bounds`, undefined behaviour in
  C++), or it is cut off because the `fuel` of the embedding ran out (`fuel`).
  Only loops and recursions whose termination depends on the data take fuel.
* `float` arithmetic is taken exact: coordinates are rational numbers. Where a
  statement depends on the rounding of `float`, it is made for the functions
  named `..._binary32`, the same code with every `float` operation rounded to
  the nearest binary32 number, or for every value that the `float` expression
  may have, taken as a parameter.
-/

/-- The outcome of a run: a returned value, a read outside the blob or outside a
vector, or a cut-off by lack of fuel. -/
inductive Outcome (α : Type) where
  | ok (a : α)
  | bounds
  | fuel
deriving DecidableEq, Repr

instance : Monad Outcome where
  pure := Outcome.ok
  bind x f :=
    match x with
    | .ok a => f a
    | .bounds => .bounds
    | .fuel => .fuel

namespace ttf

/-! ## Data model -/

/-- One entry of the table directory (`FontLoader::DirEntry`). -/
structure DirEntry where
  tag : Nat
  checksum : Nat
  offset : Nat
  length : Nat
deriving DecidableEq, Repr

/-- One segment of a format-4 cmap (`FontLoader::Cmap4Seg`), all fields `uint16_t`. -/
structure Cmap4Seg where
  end_code : Nat
  start_code : Nat
  id_delta : Nat
  id_range_offset : Nat
deriving DecidableEq, Repr

/-- One group of a format-12 cmap (`FontLoader::Cmap12Group`), all fields `uint32_t`. -/
structure Cmap12Group where
  start_char_code : Nat
  end_char_code : Nat
  start_glyph_id : Nat
deriving DecidableEq, Repr

/-- The member variables of `ttf::FontLoader`. `data` is the blob (`data_`,
`size_` is its length); `loca`, `glyf`, `hmtx` are byte indices into the blob. -/
structure FontLoader where
  data : List Nat
  directory : List DirEntry
  units_per_em : Nat
  num_glyphs : Nat
  index_to_loc_format : Nat
  num_long_hor_metrics : Nat
  loca : Option Nat
  glyf : Option Nat
  hmtx : Option Nat
  cmap4 : List Cmap4Seg
  glyph_id_array4 : List Nat
  cmap12 : List Cmap12Group
  advance_widths : List Nat
deriving DecidableEq, Repr

/-- The state of a `FontLoader` before its constructor body runs: the members
hold their default initialisers. -/
def FontLoader.init (blob : List Nat) : FontLoader :=
  { data := blob, directory := [], units_per_em := 0, num_glyphs := 0,
    index_to_loc_format := 0, num_long_hor_metrics := 0,
    loca := none, glyf := none, hmtx := none,
    cmap4 := [], glyph_id_array4 := [], cmap12 := [], advance_widths := [] }

/-! ## Code point to glyph id (`FontLoader::GlyphId`) -/

/-- The loop `while (lo < hi)` of `GlyphId` over `cmap12_`, with `lo`, `hi`,
`mid` of type `uint32_t`. Result `ok none`: the loop ended without a hit;
`ok (some gid)`: the `return` inside the loop was taken. -/
def search12 (cmap12 : List Cmap12Group) (code_point : Nat) :
    Nat → Nat → Nat → Outcome (Option Nat)
  | 0, _, _ => .fuel
  | fuel + 1, lo, hi =>
    if lo < hi then
      let mid := (lo + hi) % 2 ^ 32 / 2
      match cmap12[mid]? with
      | none => .bounds
      | some g =>
        if code_point < g.start_char_code then
          search12 cmap12 code_point fuel lo mid
        else if code_point > g.end_char_code then
          search12 cmap12 code_point fuel ((mid + 1) % 2 ^ 32) hi
        else
          .ok (some
            ((g.start_glyph_id + (code_point - g.start_char_code)) % 2 ^ 32 % 2 ^ 16))
    else .ok none

/-- The bisection loop of `std::lower_bound(first, last, ch, comp)` with
`comp(seg, c) = seg.end_code < c`: `first` is the index of the current
iterator, `count` the length of the remaining range. -/
def lower_bound_loop (cmap4 : List Cmap4Seg) (ch : Nat) : Nat → Nat → Nat → Nat
  | 0, first, _ => first
  | fuel + 1, first, count =>
    if 0 < count then
      let step := count / 2
      match cmap4[first + step]? with
      | none => first
      | some seg =>
        if seg.end_code < ch then
          lower_bound_loop cmap4 ch fuel (first + step + 1) (count - (step + 1))
        else
          lower_bound_loop cmap4 ch fuel first step
    else first

/-- The call `std::lower_bound(cmap4_.begin(), cmap4_.end(), ch, comp)`; the
result is the index of the returned iterator (`cmap4_.size()` for `end()`).
The remaining range shrinks in every round, so `cmap4_.size()` rounds of the
loop are always enough. -/
def lower_bound (cmap4 : List Cmap4Seg) (ch : Nat) : Nat :=
  lower_bound_loop cmap4 ch cmap4.length 0 cmap4.length

/-- The second half of `GlyphId`: the format-4 lookup, reached when the
format-12 loop did not return. -/
def GlyphId4 (f : FontLoader) (code_point : Nat) : Nat :=
  if f.cmap4 ≠ [] ∧ code_point ≤ 0xFFFF then
    let ch := code_point % 2 ^ 16
    let it := lower_bound f.cmap4 ch
    match f.cmap4[it]? with
    | none => 0
    | some seg =>
      if seg.start_code ≤ ch ∧ ch ≤ seg.end_code then
        if seg.id_range_offset = 0 then
          (ch + seg.id_delta) % 2 ^ 16
        else
          let idx := it % 2 ^ 32
          let ofs := (seg.id_range_offset / 2 + (ch - seg.start_code) + idx
                      + (2 ^ 32 - f.cmap4.length % 2 ^ 32)) % 2 ^ 32
          match f.glyph_id_array4[ofs]? with
          | none => 0
          | some gid =>
            if gid ≠ 0 then (gid + seg.id_delta) % 2 ^ 16 else gid
      else 0
  else 0

/-- The function `FontLoader::GlyphId(code_point)`. `fuel` bounds the number of
rounds of the format-12 loop. -/
def GlyphId (f : FontLoader) (fuel : Nat) (code_point : Nat) : Outcome Nat :=
  if code_point > 0x10FFFF then .ok 0
  else
    let r12 :=
      if f.cmap12 ≠ [] then search12 f.cmap12 code_point fuel 0 (f.cmap12.length % 2 ^ 32)
      else .ok none
    match r12 with
    | .fuel => .fuel
    | .bounds => .bounds
    | .ok (some gid) => .ok gid
    | .ok none => .ok (GlyphId4 f code_point)

/-- A font that has only cmap data, for examples. -/
def cmapOnly (c4 : List Cmap4Seg) (arr : List Nat) (c12 : List Cmap12Group) : FontLoader :=
  { FontLoader.init [] with cmap4 := c4, glyph_id_array4 := arr, cmap12 := c12 }

/-- The format-12 groups are ordered ascending and do not overlap: every group
is a range `start_char_code ≤ end_char_code`, and a group ends before every
later group starts. -/
def Cmap12Ordered (gs : List Cmap12Group) : Prop :=
  (∀ g ∈ gs, g.start_char_code ≤ g.end_char_code) ∧
  gs.Pairwise (fun a b => a.end_char_code < b.start_char_code)

/-- The format-4 segments are ordered ascending by `end_code` and do not
overlap: every segment is a range `start_code ≤ end_code`, and a segment ends
before every later segment starts. -/
def Cmap4Ordered (segs : List Cmap4Seg) : Prop :=
  (∀ s ∈ segs, s.start_code ≤ s.end_code) ∧
  segs.Pairwise (fun a b => a.end_code < b.start_code)

/-- The format-12 index has fewer than `2^31` groups, so that the `uint32_t` sum
`lo + hi` of the search loop cannot wrap. (An index that is read from one cmap
subtable, 12 bytes per group, of 32-bit length has fewer than `2^32 / 12`.) -/
def Cmap12NoWrap (f : FontLoader) : Prop :=
  f.cmap12.length < 2 ^ 31

/-- The ranges of the C++ types of the format-4 index: the fields of a segment
are `uint16_t`, the segment count is half a `uint16_t`, and the length of the
glyph-id array is a `uint16_t` (see `ParseCmap4`). -/
def Cmap4Typed (f : FontLoader) : Prop :=
  (∀ s ∈ f.cmap4, s.end_code < 2 ^ 16 ∧ s.start_code < 2 ^ 16 ∧
    s.id_delta < 2 ^ 16 ∧ s.id_range_offset < 2 ^ 16) ∧
  f.cmap4.length < 2 ^ 15 ∧ f.glyph_id_array4.length < 2 ^ 16

/-- The code point lies in no format-12 group. -/
def NotIn12 (f : FontLoader) (cp : Nat) : Prop :=
  ∀ g ∈ f.cmap12, ¬ (g.start_char_code ≤ cp ∧ cp ≤ g.end_char_code)

/-- The code point lies in no format-4 segment. -/
def NotIn4 (f : FontLoader) (cp : Nat) : Prop :=
  ∀ s ∈ f.cmap4, ¬ (s.start_code ≤ cp ∧ cp ≤ s.end_code)

/-! ## Big-endian readers -/

/-- The byte `p[0]` of the blob; a read at an index `≥ size_` is out of bounds. -/
def byteAt (d : List Nat) (p : Nat) : Outcome Nat :=
  match d[p]? with
  | some b => .ok b
  | none => .bounds

/-- The function `ReadU16(p)`: `(uint16_t(p[0]) << 8) | p[1]`. -/
def ReadU16 (d : List Nat) (p : Nat) : Outcome Nat := do
  let b0 ← byteAt d p
  let b1 ← byteAt d (p + 1)
  pure (((b0 <<< 8) ||| b1) % 2 ^ 16)

/-- The conversion of a value to `int16_t` (two's complement). -/
def toInt16 (v : Nat) : Int :=
  if v % 2 ^ 16 < 2 ^ 15 then ((v % 2 ^ 16 : Nat) : Int) else ((v % 2 ^ 16 : Nat) : Int) - 2 ^ 16

/-- The conversion of a byte to `int8_t` (two's complement). -/
def toInt8 (v : Nat) : Int :=
  if v % 2 ^ 8 < 2 ^ 7 then ((v % 2 ^ 8 : Nat) : Int) else ((v % 2 ^ 8 : Nat) : Int) - 2 ^ 8

/-- The function `ReadS16(p)`: `int16_t(ReadU16(p))`. -/
def ReadS16 (d : List Nat) (p : Nat) : Outcome Int := do
  let v ← ReadU16 d p
  pure (toInt16 v)

/-- The function `ReadU32(p)`. -/
def ReadU32 (d : List Nat) (p : Nat) : Outcome Nat := do
  let b0 ← byteAt d p
  let b1 ← byteAt d (p + 1)
  let b2 ← byteAt d (p + 2)
  let b3 ← byteAt d (p + 3)
  pure (((b0 <<< 24) ||| (b1 <<< 16) ||| (b2 <<< 8) ||| b3) % 2 ^ 32)

/-- A counted loop `for (i = i0; i < i0 + n; ++i) v[i] = g(i)` that fills a vector. -/
def readEach {α : Type} (g : Nat → Outcome α) : Nat → Nat → Outcome (List α)
  | 0, _ => pure []
  | n + 1, i => do
    let a ← g i
    let rest ← readEach g n (i + 1)
    pure (a :: rest)

/-! ## The constructor of `FontLoader` -/

/-- The function `Tag4(a, b, c, d)`. -/
def Tag4 (a b c d : Char) : Nat :=
  ((a.toNat <<< 24) ||| (b.toNat <<< 16) ||| (c.toNat <<< 8) ||| d.toNat) % 2 ^ 32

/-- The function `TablePtr(tag)`: the blob index `data_ + it->offset` of the
first directory entry with this tag, `none` for `nullptr`. -/
def TablePtr (directory : List DirEntry) (tag : Nat) : Option Nat :=
  (directory.find? (fun e => e.tag = tag)).map (fun e => e.offset)

/-- The loop of `ParseDirectory`: `n` entries are still to be read, `p` is the
read pointer. The sum `e.offset + e.length` is a `uint32_t`. -/
def ParseDirectory_loop (d : List Nat) : Nat → Nat → List DirEntry → Outcome (List DirEntry)
  | 0, _, directory => pure directory
  | n + 1, p, directory => do
    let tag ← ReadU32 d p
    let checksum ← ReadU32 d (p + 4)
    let offset ← ReadU32 d (p + 8)
    let length ← ReadU32 d (p + 12)
    let e : DirEntry := ⟨tag, checksum, offset, length⟩
    if (e.offset + e.length) % 2 ^ 32 ≤ d.length then
      ParseDirectory_loop d n (p + 16) (directory ++ [e])
    else
      ParseDirectory_loop d n (p + 16) directory

/-- The function `ParseDirectory()`; the result is `directory_`. -/
def ParseDirectory (d : List Nat) : Outcome (List DirEntry) := do
  let num_tables ← ReadU16 d 4
  ParseDirectory_loop d num_tables 12 []

/-- The function `ParseEssentialTables()`. -/
def ParseEssentialTables (f : FontLoader) : Outcome FontLoader := do
  let f1 ←
    match TablePtr f.directory (Tag4 'h' 'e' 'a' 'd') with
    | some head => do
      let upm ← ReadU16 f.data (head + 18)
      let fmt ← ReadU16 f.data (head + 50)
      pure { f with units_per_em := upm, index_to_loc_format := fmt }
    | none => pure f
  let f2 ←
    match TablePtr f.directory (Tag4 'm' 'a' 'x' 'p') with
    | some maxp => do
      let n ← ReadU16 f.data (maxp + 4)
      pure { f1 with num_glyphs := n }
    | none => pure f1
  let f3 : FontLoader :=
    { f2 with loca := TablePtr f.directory (Tag4 'l' 'o' 'c' 'a'),
              glyf := TablePtr f.directory (Tag4 'g' 'l' 'y' 'f') }
  let f4 ←
    match TablePtr f.directory (Tag4 'h' 'h' 'e' 'a') with
    | some hhea => do
      let n ← ReadU16 f.data (hhea + 34)
      pure { f3 with num_long_hor_metrics := n }
    | none => pure f3
  pure { f4 with hmtx := TablePtr f.directory (Tag4 'h' 'm' 't' 'x') }

/-- The function `ParseCmap4(p)`; the result is `(cmap4_, glyph_id_array4_)`. The
length of the glyph-id array is computed in `int` and stored in a `uint16_t`. -/
def ParseCmap4 (d : List Nat) (p : Nat) : Outcome (List Cmap4Seg × List Nat) := do
  let w6 ← ReadU16 d (p + 6)
  let seg_count := w6 / 2
  let end_codes := p + 14
  let start_codes := end_codes + seg_count * 2 + 2
  let id_deltas := start_codes + seg_count * 2
  let id_r_offsets := id_deltas + seg_count * 2
  let w2 ← ReadU16 d (p + 2)
  let glyph_id_array_len :=
    (Int.tdiv ((w2 : Int) - (16 + (seg_count : Int) * 8)) 2 % 2 ^ 16).toNat
  let gid_array := id_r_offsets + seg_count * 2
  let segs ← readEach (fun i => do
      let e ← ReadU16 d (end_codes + i * 2)
      let s ← ReadU16 d (start_codes + i * 2)
      let dl ← ReadU16 d (id_deltas + i * 2)
      let ro ← ReadU16 d (id_r_offsets + i * 2)
      pure (⟨e, s, dl, ro⟩ : Cmap4Seg)) seg_count 0
  let arr ← readEach (fun i => ReadU16 d (gid_array + i * 2)) glyph_id_array_len 0
  pure (segs, arr)

/-- The function `ParseCmap12(p)`; the result is `cmap12_`. -/
def ParseCmap12 (d : List Nat) (p : Nat) : Outcome (List Cmap12Group) := do
  let num_groups ← ReadU32 d (p + 12)
  readEach (fun i => do
      let s ← ReadU32 d (p + 16 + 12 * i)
      let e ← ReadU32 d (p + 16 + 12 * i + 4)
      let g ← ReadU32 d (p + 16 + 12 * i + 8)
      pure (⟨s, e, g⟩ : Cmap12Group)) num_groups 0

/-- The read `ReadU16(best - 4)` of `BuildCmapIndex`, four bytes in front of a
subtable. -/
def ReadU16_before (d : List Nat) (best : Nat) : Outcome Nat :=
  if 4 ≤ best then ReadU16 d (best - 4) else .bounds

/-- The test `!best || (plat == 3 && ReadU16(best - 4) != 3)` of
`BuildCmapIndex`, evaluated left to right. -/
def takes_over (d : List Nat) (best : Option Nat) (plat : Nat) : Outcome Bool :=
  match best with
  | none => pure true
  | some b =>
    if plat = 3 then do
      let w ← ReadU16_before d b
      pure (decide (w ≠ 3))
    else pure false

/-- The loop of `BuildCmapIndex` over the encoding records: `n` records are
still to be read, `sub` is the read pointer; the result is `(best4, best12)`. -/
def BuildCmapIndex_loop (d : List Nat) (cmap : Nat) :
    Nat → Nat → Option Nat → Option Nat → Outcome (Option Nat × Option Nat)
  | 0, _, best4, best12 => pure (best4, best12)
  | n + 1, sub, best4, best12 => do
    let plat ← ReadU16 d sub
    let _enc ← ReadU16 d (sub + 2)
    let offset ← ReadU32 d (sub + 4)
    let ptr := cmap + offset
    let fmt ← ReadU16 d ptr
    if fmt = 12 then do
      let t ← takes_over d best12 plat
      BuildCmapIndex_loop d cmap n (sub + 8) best4 (if t then some ptr else best12)
    else if fmt = 4 then do
      let t ← takes_over d best4 plat
      BuildCmapIndex_loop d cmap n (sub + 8) (if t then some ptr else best4) best12
    else
      BuildCmapIndex_loop d cmap n (sub + 8) best4 best12

/-- The function `BuildCmapIndex()`. -/
def BuildCmapIndex (f : FontLoader) : Outcome FontLoader :=
  match TablePtr f.directory (Tag4 'c' 'm' 'a' 'p') with
  | none => pure f
  | some cmap => do
    let num_sub ← ReadU16 f.data (cmap + 2)
    let (best4, best12) ← BuildCmapIndex_loop f.data cmap num_sub (cmap + 4) none none
    let f1 ←
      match best4 with
      | some p => do
        let (segs, arr) ← ParseCmap4 f.data p
        pure { f with cmap4 := segs, glyph_id_array4 := arr }
      | none => pure f
    match best12 with
    | some p => do
      let gs ← ParseCmap12 f.data p
      pure { f1 with cmap12 := gs }
    | none => pure f1

/-- The loop of `BuildHMetrics`: `n` glyphs are still to be filled, `i` is the
loop variable, `widths` holds the entries `0 .. i-1` of `advance_widths_`. -/
def BuildHMetrics_loop (d : List Nat) (hmtx num_long_hor_metrics : Nat) :
    Nat → Nat → List Nat → Outcome (List Nat)
  | 0, _, widths => pure widths
  | n + 1, i, widths => do
    let aw ←
      if i < num_long_hor_metrics then ReadU16 d (hmtx + i * 4)
      else
        match widths[num_long_hor_metrics - 1]? with
        | some a => pure a
        | none => .bounds
    BuildHMetrics_loop d hmtx num_long_hor_metrics n (i + 1) (widths ++ [aw])

/-- The function `BuildHMetrics()`. -/
def BuildHMetrics (f : FontLoader) : Outcome FontLoader :=
  match f.hmtx with
  | none => pure f
  | some hmtx =>
    if f.num_long_hor_metrics = 0 then pure f
    else do
      let widths ← BuildHMetrics_loop f.data hmtx f.num_long_hor_metrics f.num_glyphs 0 []
      pure { f with advance_widths := widths }

/-- The constructor `FontLoader(blob)`. -/
def FontLoader.construct (blob : List Nat) : Outcome FontLoader := do
  let directory ← ParseDirectory blob
  let f1 ← ParseEssentialTables { FontLoader.init blob with directory := directory }
  let f2 ← BuildCmapIndex f1
  BuildHMetrics f2


/-! ## Glyph outlines (`FontLoader::Extract`) -/

/-- The record `GlyphContour::Segment`: a quadratic Bézier segment. -/
structure Segment where
  x0 : ℚ
  y0 : ℚ
  cx : ℚ
  cy : ℚ
  x1 : ℚ
  y1 : ℚ
deriving DecidableEq, Repr

/-- The record `GlyphContour`: the segments, the index of the first segment of
every contour, and the advance width. -/
structure GlyphContour where
  segments : List Segment
  contours : List Nat
  advance_width : Int
deriving DecidableEq, Repr

/-- An element `v[i]` of a vector; an index `≥ v.size()` is out of bounds. -/
def vecAt {α : Type} (v : List α) (i : Nat) : Outcome α :=
  match v[i]? with
  | some a => .ok a
  | none => .bounds

/-- The function `AdvanceWidth(gid)`. -/
def AdvanceWidth (f : FontLoader) (gid : Nat) : Nat :=
  match f.advance_widths[gid]? with
  | some w => w
  | none => 0

/-- The function `GlyphOffset(gid, ptr, len)`: `ok none` for the result `false`,
`ok (some (ptr, len))` for the result `true`. -/
def GlyphOffset (f : FontLoader) (gid : Nat) : Outcome (Option (Nat × Nat)) :=
  match f.glyf, f.loca with
  | some glyf, some loca =>
    if gid ≥ f.num_glyphs then pure none
    else do
      let r ←
        (if f.index_to_loc_format = 0 then do
          let a ← ReadU16 f.data (loca + gid * 2)
          let b ← ReadU16 f.data (loca + (gid + 1) * 2)
          pure ((a * 2) % 2 ^ 32, (b * 2) % 2 ^ 32)
        else do
          let a ← ReadU32 f.data (loca + gid * 4)
          let b ← ReadU32 f.data (loca + (gid + 1) * 4)
          pure (a, b) : Outcome (Nat × Nat))
      let offset := r.1
      let next := r.2
      if offset = next then pure none
      else pure (some (glyf + offset, (next + 2 ^ 32 - offset) % 2 ^ 32))
  | _, _ => pure none

/-- The function `AddLine`: a line is stored as a quadratic whose control point
is the midpoint. -/
def AddLine (x0 y0 x1 y1 : ℚ) (out : GlyphContour) : GlyphContour :=
  { out with segments := out.segments ++ [⟨x0, y0, (x0 + x1) / 2, (y0 + y1) / 2, x1, y1⟩] }

/-- The function `AddQuad`. -/
def AddQuad (x0 y0 cx cy x1 y1 : ℚ) (out : GlyphContour) : GlyphContour :=
  { out with segments := out.segments ++ [⟨x0, y0, cx, cy, x1, y1⟩] }

/-- The lambda `Next` of `EmitContour`. -/
def Next (first_idx last_idx i : Nat) : Nat :=
  if i = last_idx then first_idx else (i + 1) % 2 ^ 16

/-- The lambda `IsOn` of `EmitContour`: `flags[i] & 1u`. -/
def IsOn (flags : List Nat) (i : Nat) : Outcome Bool := do
  let fl ← vecAt flags i
  pure (decide (fl &&& 1 ≠ 0))

/-- The lambda `Pt` of `EmitContour`: `{float(xs[i]) + dx, float(ys[i]) + dy}`. -/
def Pt (xs ys : List Int) (dx dy : Int) (i : Nat) : Outcome (ℚ × ℚ) := do
  let x ← vecAt xs i
  let y ← vecAt ys i
  pure ((x : ℚ) + (dx : ℚ), (y : ℚ) + (dy : ℚ))

/-- The loop `while (!IsOn(start) && start != Next(start)) start = Next(start)`
of `EmitContour`. -/
def EmitContour_start (flags : List Nat) (first_idx last_idx : Nat) : Nat → Nat → Outcome Nat
  | 0, _ => .fuel
  | fuel + 1, start => do
    let is_on ← IsOn flags start
    if is_on = false ∧ start ≠ Next first_idx last_idx start then
      EmitContour_start flags first_idx last_idx fuel (Next first_idx last_idx start)
    else pure start

/-- The loop `for (i_cur = Next(start);; i_cur = Next(i_cur))` of `EmitContour`.
The third branch ends with `continue`, which skips the test
`if (i_cur == start) break` and the update of the previous point. -/
def EmitContour_loop (xs ys : List Int) (flags : List Nat) (first_idx last_idx : Nat)
    (dx dy : Int) (start : Nat) :
    Nat → Nat → ℚ → ℚ → Bool → GlyphContour → Outcome GlyphContour
  | 0, _, _, _, _, _ => .fuel
  | fuel + 1, i_cur, prev_x, prev_y, prev_on, out => do
    let cur ← Pt xs ys dx dy i_cur
    let cur_x := cur.1
    let cur_y := cur.2
    let cur_on ← IsOn flags i_cur
    if prev_on = true ∧ cur_on = true then
      let out1 := AddLine prev_x prev_y cur_x cur_y out
      if i_cur = start then pure out1
      else
        EmitContour_loop xs ys flags first_idx last_idx dx dy start fuel
          (Next first_idx last_idx i_cur) cur_x cur_y cur_on out1
    else if prev_on = true ∧ cur_on = false then
      if i_cur = start then pure out
      else
        EmitContour_loop xs ys flags first_idx last_idx dx dy start fuel
          (Next first_idx last_idx i_cur) cur_x cur_y cur_on out
    else if prev_on = false ∧ cur_on = false then
      let mx := (prev_x + cur_x) / 2
      let my := (prev_y + cur_y) / 2
      let out1 := AddQuad prev_x prev_y prev_x prev_y mx my out
      EmitContour_loop xs ys flags first_idx last_idx dx dy start fuel
        (Next first_idx last_idx i_cur) mx my true out1
    else
      let out1 := AddQuad prev_x prev_y prev_x prev_y cur_x cur_y out
      if i_cur = start then pure out1
      else
        EmitContour_loop xs ys flags first_idx last_idx dx dy start fuel
          (Next first_idx last_idx i_cur) cur_x cur_y cur_on out1

/-- The function `EmitContour(xs, ys, flags, first_idx, last_idx, dx, dy, out)`. -/
def EmitContour (xs ys : List Int) (flags : List Nat) (first_idx last_idx : Nat)
    (dx dy : Int) (fuel : Nat) (out : GlyphContour) : Outcome GlyphContour :=
  let n := (last_idx + 2 ^ 16 - first_idx + 1) % 2 ^ 16
  if n = 0 then pure out
  else do
    let start ← EmitContour_start flags first_idx last_idx fuel first_idx
    let prev ← Pt xs ys dx dy start
    let prev_on ← IsOn flags start
    EmitContour_loop xs ys flags first_idx last_idx dx dy start fuel
      (Next first_idx last_idx start) prev.1 prev.2 prev_on out

/-- The flag loop of `ParseSimple`: `bytes` is the blob from the read pointer
on, `i` the `uint16_t` loop variable, `ptr` the read pointer. The result is the
vector `flags` and the read pointer after the loop. -/
def readFlags (n_pts : Nat) : List Nat → Nat → Nat → List Nat → Outcome (List Nat × Nat)
  | [], i, ptr, flags => if i < n_pts then .bounds else pure (flags, ptr)
  | f :: rest, i, ptr, flags =>
    if i < n_pts then
      if f &&& 0x08 ≠ 0 then
        match rest with
        | [] => .bounds
        | rep :: rest1 =>
          readFlags n_pts rest1 ((i + 1 + rep) % 2 ^ 16) (ptr + 2)
            (flags ++ f :: List.replicate rep f)
      else readFlags n_pts rest ((i + 1) % 2 ^ 16) (ptr + 1) (flags ++ [f])
    else pure (flags, ptr)

/-- A coordinate loop of `ParseSimple` (`short_bit = 0x02`, `same_bit = 0x10` for
x; `0x04`, `0x20` for y): `n` points are still to be read, `i` is the loop
variable. The result is the vector of deltas and the read pointer. -/
def readCoords (d : List Nat) (flags : List Nat) (short_bit same_bit : Nat) :
    Nat → Nat → Nat → Outcome (List Int × Nat)
  | 0, _, ptr => pure ([], ptr)
  | n + 1, i, ptr => do
    let fl ← vecAt flags i
    if fl &&& short_bit ≠ 0 then do
      let b ← byteAt d ptr
      let v : Int := if fl &&& same_bit ≠ 0 then (b : Int) else -(b : Int)
      let r ← readCoords d flags short_bit same_bit n (i + 1) (ptr + 1)
      pure (v :: r.1, r.2)
    else if fl &&& same_bit = 0 then do
      let v ← ReadS16 d ptr
      let r ← readCoords d flags short_bit same_bit n (i + 1) (ptr + 2)
      pure (v :: r.1, r.2)
    else do
      let r ← readCoords d flags short_bit same_bit n (i + 1) ptr
      pure (0 :: r.1, r.2)

/-- The result of an `int` sum stored in an `int16_t`. -/
def wrapInt16 (z : Int) : Int := (z + 2 ^ 15) % 2 ^ 16 - 2 ^ 15

/-- The loop `for (i = 1; i < n_pts; ++i) xs[i] += xs[i - 1]`, from the element
after `acc` on. -/
def running_sum : Int → List Int → List Int
  | _, [] => []
  | acc, x :: rest => wrapInt16 (x + acc) :: running_sum (wrapInt16 (x + acc)) rest

/-- The vector of absolute coordinates from the vector of deltas. -/
def absolute (deltas : List Int) : List Int :=
  match deltas with
  | [] => []
  | x :: rest => x :: running_sum x rest

/-- The contour loop of `ParseSimple` over the remaining `end_pts`; `start` is
the `uint16_t` index of the first point of the next contour. -/
def ParseSimple_contours (xs ys : List Int) (flags : List Nat) (dx dy : Int) (fuel : Nat) :
    List Nat → Nat → GlyphContour → Outcome GlyphContour
  | [], _, out => pure out
  | e :: rest, start, out => do
    let out1 : GlyphContour := { out with contours := out.contours ++ [out.segments.length] }
    let out2 ← EmitContour xs ys flags start e dx dy fuel out1
    ParseSimple_contours xs ys flags dx dy fuel rest ((e + 1) % 2 ^ 16) out2

/-- The decoded point data of a simple glyph: `end_pts`, `flags`, `xs`, `ys`. -/
structure SimplePoints where
  end_pts : List Nat
  flags : List Nat
  xs : List Int
  ys : List Int
deriving DecidableEq, Repr

/-- The first part of `ParseSimple(g, ...)`, up to the contour loop: the reads
of the end points, the flags and the coordinates. `end_pts.back()` of an empty
vector is out of bounds. -/
def ParseSimple_points (d : List Nat) (g : Nat) : Outcome SimplePoints := do
  let n_contours ← ReadS16 d g
  let ptr := g + 10
  let end_pts ← readEach (fun i => ReadU16 d (ptr + i * 2)) n_contours.toNat 0
  let ptr := ptr + n_contours.toNat * 2
  let instr_len ← ReadU16 d ptr
  let ptr := ptr + 2 + instr_len
  let last ← (match end_pts.getLast? with
    | some e => pure e
    | none => .bounds : Outcome Nat)
  let n_pts := (last + 1) % 2 ^ 16
  let fl ← readFlags n_pts (d.drop ptr) 0 ptr []
  let rx ← readCoords d fl.1 0x02 0x10 n_pts 0 fl.2
  let ry ← readCoords d fl.1 0x04 0x20 n_pts 0 rx.2
  pure ⟨end_pts, fl.1, absolute rx.1, absolute ry.1⟩

/-- The function `ParseSimple(g, glen, dx, dy, out)`. -/
def ParseSimple (d : List Nat) (g : Nat) (dx dy : Int) (fuel : Nat) (out : GlyphContour) :
    Outcome GlyphContour := do
  let p ← ParseSimple_points d g
  ParseSimple_contours p.xs p.ys p.flags dx dy fuel p.end_pts 0 out

/-- The loop `do { ... } while (more)` of `ParseComposite`; `visit` is the
recursive call `Visit(cid, cdx, cdy, out)`. The transform bytes are skipped.
The `int32_t` sums `cdx`, `cdy` are taken exact. -/
def ParseComposite_loop (d : List Nat)
    (visit : Nat → Int → Int → GlyphContour → Outcome GlyphContour) (dx dy : Int) :
    Nat → Nat → GlyphContour → Outcome GlyphContour
  | 0, _, _ => .fuel
  | fuel + 1, ptr, out => do
    let flags ← ReadU16 d ptr
    let cid ← ReadU16 d (ptr + 2)
    let ptr := ptr + 4
    let args ←
      (if flags &&& 1 ≠ 0 then do
        let a1 ← ReadS16 d ptr
        let a2 ← ReadS16 d (ptr + 2)
        pure (a1, a2, ptr + 4)
      else do
        let b1 ← byteAt d ptr
        let b2 ← byteAt d (ptr + 1)
        pure (toInt8 b1, toInt8 b2, ptr + 2) : Outcome (Int × Int × Nat))
    let arg1 := args.1
    let arg2 := args.2.1
    let ptr := args.2.2
    let cdx := if flags &&& 2 ≠ 0 then dx + arg1 else dx
    let cdy := if flags &&& 2 ≠ 0 then dy + arg2 else dy
    let out1 ← visit cid cdx cdy out
    let ptr :=
      if flags &&& 8 ≠ 0 then ptr + 2
      else if flags &&& 0x40 ≠ 0 then ptr + 4
      else if flags &&& 0x80 ≠ 0 then ptr + 8
      else ptr
    if flags &&& 0x20 ≠ 0 then ParseComposite_loop d visit dx dy fuel ptr out1
    else pure out1

/-- The function `GlyphReader::Visit(gid, dx, dy, out)`; `fuel` bounds the depth
of the recursion through composite glyphs and the rounds of every loop. -/
def Visit (f : FontLoader) : Nat → Nat → Int → Int → GlyphContour → Outcome GlyphContour
  | 0, _, _, _, _ => .fuel
  | fuel + 1, gid, dx, dy, out => do
    let r ← GlyphOffset f gid
    match r with
    | none => pure out
    | some (gptr, _) => do
      let n_contours ← ReadS16 f.data gptr
      if n_contours ≥ 0 then ParseSimple f.data gptr dx dy fuel out
      else ParseComposite_loop f.data (Visit f fuel) dx dy fuel (gptr + 10) out

/-- The function `FontLoader::Extract(glyph_id)` (`GlyphReader::Run`). -/
def Extract (f : FontLoader) (fuel : Nat) (glyph_id : Nat) : Outcome GlyphContour :=
  Visit f fuel glyph_id 0 0 ⟨[], [], toInt16 (AdvanceWidth f glyph_id)⟩

/-! ## Notions used to state the structure of an outline -/

/-- The pairs `(first_idx, last_idx)` that the contour loop of `ParseSimple`
passes to `EmitContour` for the remaining `end_pts`, from `start` on. -/
def contour_ranges : List Nat → Nat → List (Nat × Nat)
  | [], _ => []
  | e :: rest, start => (start, e) :: contour_ranges rest ((e + 1) % 2 ^ 16)

/-- The segments that `EmitContour` emits for one contour, run on its own on an
empty outline (the empty list if that run does not return). -/
def contour_segments (p : SimplePoints) (dx dy : Int) (fuel : Nat) (r : Nat × Nat) :
    List Segment :=
  match EmitContour p.xs p.ys p.flags r.1 r.2 dx dy fuel ⟨[], [], 0⟩ with
  | .ok o => o.segments
  | _ => []

/-- The contour-start indices of an outline that consists of the given runs of
segments, appended after `acc` earlier segments. -/
def contour_starts : Nat → List (List Segment) → List Nat
  | _, [] => []
  | acc, s :: rest => acc :: contour_starts (acc + s.length) rest

/-- A contour `first .. last` can be walked: it has at least one point, its
points exist in `flags`, `xs` and `ys`, and it is a single point or has an
on-curve point. -/
def ContourWellFormed (p : SimplePoints) (r : Nat × Nat) : Prop :=
  r.1 ≤ r.2 ∧ r.2 + 1 < 2 ^ 16 ∧ r.2 < p.flags.length ∧ r.2 < p.xs.length ∧
  r.2 < p.ys.length ∧
  (r.1 = r.2 ∨ ∃ k fl, r.1 ≤ k ∧ k ≤ r.2 ∧ p.flags[k]? = some fl ∧ fl &&& 1 ≠ 0)

/-- The contours of decoded point data are well formed: every contour has at
least one point (its last index is not below its first index, and, like the
point count, stays below 65535), and it is a single point or has an on-curve
point. -/
def ContoursWellFormed (p : SimplePoints) : Prop :=
  ∀ r ∈ contour_ranges p.end_pts 0,
    r.1 ≤ r.2 ∧ r.2 + 1 < 2 ^ 16 ∧
    (r.1 = r.2 ∨ ∃ k fl, r.1 ≤ k ∧ k ≤ r.2 ∧ p.flags[k]? = some fl ∧ fl &&& 1 ≠ 0)

/-- The outline `o`, appended to the outline `base`. -/
def rebase (base o : GlyphContour) : GlyphContour :=
  ⟨base.segments ++ o.segments, base.contours, base.advance_width⟩

/-- The image of an outcome under a function on the returned value. -/
def Outcome.map {α β : Type} (g : α → β) : Outcome α → Outcome β
  | .ok a => .ok (g a)
  | .bounds => .bounds
  | .fuel => .fuel

/-- A font for examples, with a short `loca` table at byte 0 and a `glyf` table
at byte 12. Glyph 0 is empty; glyph 1 is a simple glyph, one contour through the
on-curve points (0,0), (10,0), (10,10); glyph 2 is a composite glyph whose only
component is glyph 0; glyph 3 is a simple glyph with the end points `[0, 0]`,
so that its second contour has no point; glyph 4 is a simple glyph whose only
contour consists of two off-curve points. -/
def exampleFont : FontLoader :=
  { FontLoader.init
      [0, 0, 0, 0, 0, 12, 0, 20, 0, 30, 0, 40,
       0, 1, 0, 0, 0, 0, 0, 0, 0, 0, 0, 2, 0, 0, 0x37, 0x37, 0x37, 0, 10, 0, 0, 0, 10, 0,
       0xFF, 0xFF, 0, 0, 0, 0, 0, 0, 0, 0, 0, 2, 0, 0, 0, 0,
       0, 2, 0, 0, 0, 0, 0, 0, 0, 0, 0, 0, 0, 0, 0, 0, 0x37, 5, 5, 0,
       0, 1, 0, 0, 0, 0, 0, 0, 0, 0, 0, 1, 0, 0, 0x36, 0x36, 5, 5, 5, 5] with
    num_glyphs := 5, loca := some 0, glyf := some 12 }

/-! ## Notions used to state how outlines are merged -/

/-- A segment with all six coordinates shifted by `(dx, dy)`. -/
def Segment.translate (dx dy : Int) (s : Segment) : Segment :=
  ⟨s.x0 + (dx : ℚ), s.y0 + (dy : ℚ), s.cx + (dx : ℚ), s.cy + (dy : ℚ),
   s.x1 + (dx : ℚ), s.y1 + (dy : ℚ)⟩

/-- The outline `out` after the outline `own` of a glyph has been appended to
it under the translation `(dx, dy)`: the segments of `own` are translated, and
its contour starts are shifted by the number of segments that `out` had. -/
def merge (out own : GlyphContour) (dx dy : Int) : GlyphContour :=
  ⟨out.segments ++ own.segments.map (Segment.translate dx dy),
   out.contours ++ own.contours.map (fun c => c + out.segments.length),
   out.advance_width⟩

/-- One component record of a composite glyph, as one round of `ParseComposite`
reads it: the flags, the child glyph id and the two arguments. -/
structure Component where
  flags : Nat
  cid : Nat
  arg1 : Int
  arg2 : Int
deriving DecidableEq, Repr

/-- The reads of one round of `ParseComposite` in front of the call of `Visit`:
the component record and the read pointer behind the arguments. -/
def read_component (d : List Nat) (ptr : Nat) : Outcome (Component × Nat) := do
  let flags ← ReadU16 d ptr
  let cid ← ReadU16 d (ptr + 2)
  let ptr := ptr + 4
  let args ←
    (if flags &&& 1 ≠ 0 then do
      let a1 ← ReadS16 d ptr
      let a2 ← ReadS16 d (ptr + 2)
      pure (a1, a2, ptr + 4)
    else do
      let b1 ← byteAt d ptr
      let b2 ← byteAt d (ptr + 1)
      pure (toInt8 b1, toInt8 b2, ptr + 2) : Outcome (Int × Int × Nat))
  pure (⟨flags, cid, args.1, args.2.1⟩, args.2.2)

/-- The number of transform bytes that `ParseComposite` skips behind the
arguments: 2 for `WE_HAVE_SCALE`, else 4 for `WE_HAVE_XY_SCALE`, else 8 for
`WE_HAVE_2X2`. -/
def transform_size (flags : Nat) : Nat :=
  if flags &&& 8 ≠ 0 then 2
  else if flags &&& 0x40 ≠ 0 then 4
  else if flags &&& 0x80 ≠ 0 then 8
  else 0

/-- The component records of a composite glyph from `ptr` on, as the loop of
`ParseComposite` reads them, up to the record without `MORE_COMPONENTS`. -/
def read_components (d : List Nat) : Nat → Nat → Outcome (List Component)
  | 0, _ => .fuel
  | fuel + 1, ptr => do
    let r ← read_component d ptr
    if r.1.flags &&& 0x20 ≠ 0 then do
      let rest ← read_components d fuel (r.2 + transform_size r.1.flags)
      pure (r.1 :: rest)
    else pure [r.1]

/-- The value `cdx` that `ParseComposite` passes to `Visit` for a component. -/
def child_dx (c : Component) (dx : Int) : Int :=
  if c.flags &&& 2 ≠ 0 then dx + c.arg1 else dx

/-- The value `cdy` that `ParseComposite` passes to `Visit` for a component. -/
def child_dy (c : Component) (dy : Int) : Int :=
  if c.flags &&& 2 ≠ 0 then dy + c.arg2 else dy

/-- The outline `out` after the outlines of the components have been appended
in order, each under the translation that `ParseComposite` passes for it. -/
def merge_components (dx dy : Int) : GlyphContour → List (Component × GlyphContour) → GlyphContour
  | out, [] => out
  | out, q :: rest =>
    merge_components dx dy (merge out q.2 (child_dx q.1 dx) (child_dy q.1 dy)) rest

/-- The contour starts of the given outlines, each shifted by the number of
segments in front of it, `acc` at the beginning. -/
def shifted_contours : Nat → List GlyphContour → List Nat
  | _, [] => []
  | acc, own :: rest =>
    own.contours.map (fun c => c + acc) ++ shifted_contours (acc + own.segments.length) rest

/-- The outline without segments and contours. -/
def no_outline : GlyphContour := ⟨[], [], 0⟩

/-- A second font state for the statements about composite glyphs: short `loca`
at offset 0, `glyf` at offset 12. Glyph 0 is the triangle `(0,0) (10,0) (10,10)`
of on-curve points. Glyph 1 is a composite of two components, both with
`ARGS_ARE_XY` and word arguments, `(10, -5)` and `(0, 0)`, both of glyph 0.
Glyph 2 is a composite whose only component has word arguments `(10, 5)` and
no `ARGS_ARE_XY`. Glyph 3 is glyph 1 with `WE_HAVE_SCALE` and the two transform
bytes `0x40 0x00` on its first component. Glyph 4 is a composite whose only
component is glyph 4. -/
def compositeFont : FontLoader :=
  { FontLoader.init
      [0, 0, 0, 12, 0, 25, 0, 34, 0, 48, 0, 57,
       0, 1, 0, 0, 0, 0, 0, 0, 0, 0, 0, 2, 0, 0, 0x37, 0x37, 0x37, 0, 10, 0, 0, 0, 10, 0,
       0xFF, 0xFF, 0, 0, 0, 0, 0, 0, 0, 0,
       0, 0x23, 0, 0, 0, 10, 0xFF, 0xFB, 0, 3, 0, 0, 0, 0, 0, 0,
       0xFF, 0xFF, 0, 0, 0, 0, 0, 0, 0, 0, 0, 1, 0, 0, 0, 10, 0, 5,
       0xFF, 0xFF, 0, 0, 0, 0, 0, 0, 0, 0,
       0, 0x2B, 0, 0, 0, 10, 0xFF, 0xFB, 0x40, 0, 0, 3, 0, 0, 0, 0, 0, 0,
       0xFF, 0xFF, 0, 0, 0, 0, 0, 0, 0, 0, 0, 3, 0, 4, 0, 0, 0, 0] with
    num_glyphs := 5, loca := some 0, glyf := some 12 }

/-- The outline of the triangle `(0,0) (10,0) (10,10)`: three lines. -/
def triangle : GlyphContour :=
  ⟨[⟨0, 0, 5, 0, 10, 0⟩, ⟨10, 0, 10, 5, 10, 10⟩, ⟨10, 10, 5, 5, 0, 0⟩], [0], 0⟩

/-! ## Notions used to state where the coordinates of a simple glyph lie -/

/-- The number of bytes by which a coordinate loop of `ParseSimple` advances
the read pointer for a point with the flag byte `fl`. -/
def coord_size (fl short_bit same_bit : Nat) : Nat :=
  if fl &&& short_bit ≠ 0 then 1 else if fl &&& same_bit = 0 then 2 else 0

/-- The read pointer of a coordinate loop of `ParseSimple` after `k` rounds
that began at the point `i` with the read pointer `ptr`. -/
def coord_pos (flags : List Nat) (short_bit same_bit : Nat) : Nat → Nat → Nat → Nat
  | 0, _, ptr => ptr
  | k + 1, i, ptr =>
    coord_pos flags short_bit same_bit k (i + 1)
      (ptr + coord_size (flags.getD i 0) short_bit same_bit)

/-- The decoded point data of glyph 1 of `exampleFont`, a triangle. -/
def trianglePoints : SimplePoints := ⟨[2], [0x37, 0x37, 0x37], [0, 10, 10], [0, 0, 10]⟩

/-! ## A font blob for the selection of the cmap subtables -/

/-- A font blob with the one table `cmap` at offset 28. The table lists two
format-4 subtables: the first record has platform 0 and the subtable at table
offset 44, which maps the code point 65 to the glyph 66; the second record has
platform 3 and the subtable at table offset 20, which maps 65 to `65 + delta`.
The platform-3 subtable lies in front of the other one, and its last segment
has the `idDelta` value `delta`, 4 bytes in front of the platform-0 subtable. -/
def cmapBlob (delta : Nat) : List Nat :=
  [0, 1, 0, 0, 0, 1, 0, 0, 0, 0, 0, 0, 99, 109, 97, 112,
   0, 0, 0, 0, 0, 0, 0, 28, 0, 0, 0, 68, 0, 0, 0, 2,
   0, 0, 0, 3, 0, 0, 0, 44, 0, 3, 0, 1, 0, 0, 0, 20,
   0, 4, 0, 24, 0, 0, 0, 2, 0, 2, 0, 0, 0, 0, 0, 65,
   0, 0, 0, 65, 0, delta, 0, 0, 0, 4, 0, 24, 0, 0, 0, 2,
   0, 2, 0, 0, 0, 0, 0, 65, 0, 0, 0, 65, 0, 1, 0, 0]

/-- The font `exampleFont` with a cmap, for examples: `B` is mapped to glyph 1,
the triangle, and `C` to the glyph id 7, for which the font has no glyph. -/
def mappedFont : FontLoader :=
  { exampleFont with cmap12 := [⟨66, 66, 1⟩, ⟨67, 67, 7⟩] }

/-! ## Notions used to state the segments of a polygonal contour -/

/-- The point number `k` of the contour that starts at the index `first`, under
the translation `(dx, dy)`. -/
def contour_point (xs ys : List Int) (dx dy : Int) (first k : Nat) : ℚ × ℚ :=
  (((xs.getD (first + k) 0 : Int) : ℚ) + (dx : ℚ), ((ys.getD (first + k) 0 : Int) : ℚ) + (dy : ℚ))

/-- The degenerate quadratic from `p` to `q`: its control point is the midpoint
of the two. -/
def line_segment (p q : ℚ × ℚ) : Segment :=
  ⟨p.1, p.2, (p.1 + q.1) / 2, (p.2 + q.2) / 2, q.1, q.2⟩

/-- The closed polygon through the `n` points of a contour: segment `k` leads
from point `k` to point `(k + 1) mod n`. -/
def polygon_segments (xs ys : List Int) (dx dy : Int) (first n : Nat) : List Segment :=
  (List.range n).map (fun k =>
    line_segment (contour_point xs ys dx dy first k) (contour_point xs ys dx dy first ((k + 1) % n)))

/-- The example font with the middle point of the contour of glyph 1 turned
into an off-curve point (flag byte `0x36`): the contour is on-curve (0,0),
off-curve (10,0), on-curve (10,10). -/
def curveFont : FontLoader :=
  { exampleFont with data := exampleFont.data.set 27 0x36 }

/-! ## The outline reader in `float` arithmetic

The functions of this section are the functions of the outline reader with
every `float` operation rounded: a sum, a product or a conversion from an
integer yields the binary32 number nearest to its exact result, ties to even.
The values of the reader are sums and halves of 16-bit and 32-bit integers, far
from the range in which a `float` overflows. -/

/-- The spacing of the binary32 numbers at the magnitude `a`, searched upward
from the candidate `u`, a power of 2: the first candidate with `a < 2^24 * u`;
`k` doublings are left. -/
def binary32_ulp_loop : Nat → ℚ → ℚ → ℚ
  | 0, _, u => u
  | k + 1, a, u => if a < 2 ^ 24 * u then u else binary32_ulp_loop k a (2 * u)

/-- The spacing of the binary32 numbers at the magnitude `a`: `2^-149` below
`2^-125`, and `2^(e - 23)` for `2^e ≤ a < 2^(e + 1)` up to `e = 127`. -/
def binary32_ulp (a : ℚ) : ℚ := binary32_ulp_loop 253 a (1 / 2 ^ 149)

/-- The integer nearest to `q`, the even one of the two when `q` lies halfway
between two integers. -/
def round_half_even (q : ℚ) : Int :=
  if q - (Rat.floor q : ℚ) < 1 / 2 then Rat.floor q
  else if 1 / 2 < q - (Rat.floor q : ℚ) then Rat.floor q + 1
  else if Rat.floor q % 2 = 0 then Rat.floor q
  else Rat.floor q + 1

/-- The `float` (IEEE 754 binary32, 24 significant bits) that a `float`
operation with the exact result `q` yields: the binary32 number nearest to `q`,
ties to even. (Magnitudes from `2^128` on, where the result is infinite, do not
occur in the outline reader: its values are sums and halves of 16-bit and
32-bit integers.) -/
def binary32 (q : ℚ) : ℚ :=
  (round_half_even (q / binary32_ulp |q|) : ℚ) * binary32_ulp |q|

/-- The lambda `Pt` of `EmitContour` in `float` arithmetic: the coordinate and
the `int32_t` translation are converted to `float`, and their sum is a `float`
sum. -/
def Pt_binary32 (xs ys : List Int) (dx dy : Int) (i : Nat) : Outcome (ℚ × ℚ) := do
  let x ← vecAt xs i
  let y ← vecAt ys i
  pure (binary32 (binary32 (x : ℚ) + binary32 (dx : ℚ)),
    binary32 (binary32 (y : ℚ) + binary32 (dy : ℚ)))

/-- The function `AddLine` in `float` arithmetic: `(x0 + x1) * 0.5f` is a
`float` sum followed by a `float` product. -/
def AddLine_binary32 (x0 y0 x1 y1 : ℚ) (out : GlyphContour) : GlyphContour :=
  { out with segments := out.segments ++
      [⟨x0, y0, binary32 (binary32 (x0 + x1) * (1 / 2)), binary32 (binary32 (y0 + y1) * (1 / 2)),
        x1, y1⟩] }

/-- The loop `for (i_cur = Next(start);; i_cur = Next(i_cur))` of `EmitContour`
in `float` arithmetic. -/
def EmitContour_loop_binary32 (xs ys : List Int) (flags : List Nat) (first_idx last_idx : Nat)
    (dx dy : Int) (start : Nat) :
    Nat → Nat → ℚ → ℚ → Bool → GlyphContour → Outcome GlyphContour
  | 0, _, _, _, _, _ => .fuel
  | fuel + 1, i_cur, prev_x, prev_y, prev_on, out => do
    let cur ← Pt_binary32 xs ys dx dy i_cur
    let cur_x := cur.1
    let cur_y := cur.2
    let cur_on ← IsOn flags i_cur
    if prev_on = true ∧ cur_on = true then
      let out1 := AddLine_binary32 prev_x prev_y cur_x cur_y out
      if i_cur = start then pure out1
      else
        EmitContour_loop_binary32 xs ys flags first_idx last_idx dx dy start fuel
          (Next first_idx last_idx i_cur) cur_x cur_y cur_on out1
    else if prev_on = true ∧ cur_on = false then
      if i_cur = start then pure out
      else
        EmitContour_loop_binary32 xs ys flags first_idx last_idx dx dy start fuel
          (Next first_idx last_idx i_cur) cur_x cur_y cur_on out
    else if prev_on = false ∧ cur_on = false then
      let mx := binary32 (binary32 (prev_x + cur_x) * (1 / 2))
      let my := binary32 (binary32 (prev_y + cur_y) * (1 / 2))
      let out1 := AddQuad prev_x prev_y prev_x prev_y mx my out
      EmitContour_loop_binary32 xs ys flags first_idx last_idx dx dy start fuel
        (Next first_idx last_idx i_cur) mx my true out1
    else
      let out1 := AddQuad prev_x prev_y prev_x prev_y cur_x cur_y out
      if i_cur = start then pure out1
      else
        EmitContour_loop_binary32 xs ys flags first_idx last_idx dx dy start fuel
          (Next first_idx last_idx i_cur) cur_x cur_y cur_on out1

/-- The function `EmitContour` in `float` arithmetic. -/
def EmitContour_binary32 (xs ys : List Int) (flags : List Nat) (first_idx last_idx : Nat)
    (dx dy : Int) (fuel : Nat) (out : GlyphContour) : Outcome GlyphContour :=
  let n := (last_idx + 2 ^ 16 - first_idx + 1) % 2 ^ 16
  if n = 0 then pure out
  else do
    let start ← EmitContour_start flags first_idx last_idx fuel first_idx
    let prev ← Pt_binary32 xs ys dx dy start
    let prev_on ← IsOn flags start
    EmitContour_loop_binary32 xs ys flags first_idx last_idx dx dy start fuel
      (Next first_idx last_idx start) prev.1 prev.2 prev_on out

/-- The contour loop of `ParseSimple` in `float` arithmetic. -/
def ParseSimple_contours_binary32 (xs ys : List Int) (flags : List Nat) (dx dy : Int)
    (fuel : Nat) : List Nat → Nat → GlyphContour → Outcome GlyphContour
  | [], _, out => pure out
  | e :: rest, start, out => do
    let out1 : GlyphContour := { out with contours := out.contours ++ [out.segments.length] }
    let out2 ← EmitContour_binary32 xs ys flags start e dx dy fuel out1
    ParseSimple_contours_binary32 xs ys flags dx dy fuel rest ((e + 1) % 2 ^ 16) out2

/-- The function `ParseSimple` in `float` arithmetic. -/
def ParseSimple_binary32 (d : List Nat) (g : Nat) (dx dy : Int) (fuel : Nat)
    (out : GlyphContour) : Outcome GlyphContour := do
  let p ← ParseSimple_points d g
  ParseSimple_contours_binary32 p.xs p.ys p.flags dx dy fuel p.end_pts 0 out

/-- The function `GlyphReader::Visit` in `float` arithmetic. The loop of
`ParseComposite` computes no `float`; its `int32_t` sums `cdx`, `cdy` are taken
exact. -/
def Visit_binary32 (f : FontLoader) :
    Nat → Nat → Int → Int → GlyphContour → Outcome GlyphContour
  | 0, _, _, _, _ => .fuel
  | fuel + 1, gid, dx, dy, out => do
    let r ← GlyphOffset f gid
    match r with
    | none => pure out
    | some (gptr, _) => do
      let n_contours ← ReadS16 f.data gptr
      if n_contours ≥ 0 then ParseSimple_binary32 f.data gptr dx dy fuel out
      else ParseComposite_loop f.data (Visit_binary32 f fuel) dx dy fuel (gptr + 10) out

/-- The function `FontLoader::Extract` in `float` arithmetic. -/
def Extract_binary32 (f : FontLoader) (fuel : Nat) (glyph_id : Nat) : Outcome GlyphContour :=
  Visit_binary32 f fuel glyph_id 0 0 ⟨[], [], toInt16 (AdvanceWidth f glyph_id)⟩

/-- The glyph has an outline with a contour count `≥ 0`: `Visit` hands it to
`ParseSimple`. -/
def is_simple_glyph (f : FontLoader) (gid : Nat) : Bool :=
  match GlyphOffset f gid with
  | .ok (some (gptr, _)) =>
    (match ReadS16 f.data gptr with
     | .ok n => decide (0 ≤ n)
     | _ => false)
  | _ => false

/-- An integer of magnitude at most `2^21 + 2^16`: the sum of a 16-bit
coordinate and a translation of magnitude at most `2^21 + 2^15`. -/
def coord_whole (q : ℚ) : Prop := ∃ m : Int, q = (m : ℚ) ∧ |m| ≤ 2 ^ 21 + 2 ^ 16

/-- A multiple of `1/2` of magnitude at most `2^21 + 2^16`: a point of a contour
or the midpoint of two. -/
def coord_half (q : ℚ) : Prop := ∃ m : Int, q = (m : ℚ) / 2 ∧ |m| ≤ 2 ^ 22 + 2 ^ 17

/-- Point `k` of the contour that starts at the index `first`, as the lambda
`Pt` computes it in `float` arithmetic. -/
def contour_point_binary32 (xs ys : List Int) (dx dy : Int) (first k : Nat) : ℚ × ℚ :=
  (binary32 (binary32 ((xs.getD (first + k) 0 : Int) : ℚ) + binary32 (dx : ℚ)),
   binary32 (binary32 ((ys.getD (first + k) 0 : Int) : ℚ) + binary32 (dy : ℚ)))

/-- The quadratic that `AddLine` stores for the line from `p` to `q`: its
control point is the `float` value of `(p + q) * 0.5f`. -/
def line_segment_binary32 (p q : ℚ × ℚ) : Segment :=
  ⟨p.1, p.2, binary32 (binary32 (p.1 + q.1) * (1 / 2)),
    binary32 (binary32 (p.2 + q.2) * (1 / 2)), q.1, q.2⟩

/-- The closed polygon through the `n` points of a contour in `float`
arithmetic: segment `k` leads from point `k` to point `(k + 1) mod n`. -/
def polygon_segments_binary32 (xs ys : List Int) (dx dy : Int) (first n : Nat) :
    List Segment :=
  (List.range n).map (fun k =>
    line_segment_binary32 (contour_point_binary32 xs ys dx dy first k)
      (contour_point_binary32 xs ys dx dy first ((k + 1) % n)))

/-- A table of `n` rows, from the row number `k` on. -/
def table_rows (row : Nat → List Nat) : Nat → Nat → List Nat
  | 0, _ => []
  | n + 1, k => row k ++ table_rows row n (k + 1)

/-- The `loca` entry number `i` of `deepFont`: half the offset of the glyph. -/
def deep_loca_row (i : Nat) : List Nat :=
  [(if i = 0 then 0 else 9 * i + 3) / 256, (if i = 0 then 0 else 9 * i + 3) % 256]

/-- The bytes of the composite glyph `k + 1` of `deepFont`: the contour count
`-1`, the box, and one component record with the flags `ARGS_ARE_WORDS` and
`ARGS_ARE_XY`, the child `k` and the offset `(32767, 0)`. -/
def deep_composite_row (k : Nat) : List Nat :=
  [0xFF, 0xFF, 0, 0, 0, 0, 0, 0, 0, 0, 0, 3, k / 256, k % 256, 0x7F, 0xFF, 0, 0]

/-- A font with a chain of 513 composite glyphs: short `loca` at offset 0 (515
entries), `glyf` at offset 1030. Glyph 0 is the triangle `(0,0) (10,0) (10,10)`
of on-curve points, 24 bytes. Glyph `k + 1` is a composite glyph of 18 bytes
with one component, the glyph `k`, under the offset `(32767, 0)`. -/
def deepFont : FontLoader :=
  { FontLoader.init
      (table_rows deep_loca_row 515 0 ++
        ([0, 1, 0, 0, 0, 0, 0, 0, 0, 0, 0, 2, 0, 0, 0x37, 0x37, 0x37, 0, 10, 0, 0, 0, 10, 0] ++
        table_rows deep_composite_row 513 0)) with
    num_glyphs := 514, loca := some 0, glyf := some 1030 }

end ttf

namespace FontSDF

/-! ## Atlas packing (`wmain`) and the blit of `Worker` -/

/-- The constant `kBorderPX`. -/
def kBorderPX : Int := 4
/-- The constant `kGlyphPX`. -/
def kGlyphPX : Int := 16
/-- The constant `kAtlasW`. -/
def kAtlasW : Int := 1024

/-- The record `GlyphMeta`: a code point and two `uint16_t` atlas coordinates. -/
structure GlyphMeta where
  cp : Nat
  u : Nat
  v : Nat
deriving DecidableEq, Repr

/-- The `int` variables of the packing loop of `wmain`. The embedding does not
reduce them; the statements about them are restricted to values that fit a
32-bit `int`. -/
structure PackState where
  cur_x : Int
  cur_y : Int
  row_h : Int
  atlas_h : Int
deriving DecidableEq, Repr

/-- The values of the packing variables in front of the loop. -/
def pack_init : PackState := ⟨kBorderPX, kBorderPX, 0, kBorderPX⟩

/-- One round of the packing loop of `wmain` for the code point `cp`: the new
variables and the stored `metas[i]`, whose coordinates are cast to `uint16_t`. -/
def pack_step (st : PackState) (cp : Nat) : PackState × GlyphMeta :=
  let st1 : PackState :=
    if st.cur_x + kGlyphPX + 2 * kBorderPX > kAtlasW then
      { st with cur_x := kBorderPX, cur_y := st.cur_y + st.row_h + kBorderPX, row_h := 0 }
    else st
  let m : GlyphMeta :=
    ⟨cp, ((st1.cur_x + kBorderPX) % 2 ^ 16).toNat, ((st1.cur_y + kBorderPX) % 2 ^ 16).toNat⟩
  let row_h := kGlyphPX + 2 * kBorderPX
  ({ cur_x := st1.cur_x + (kGlyphPX + 2 * kBorderPX), cur_y := st1.cur_y, row_h := row_h,
     atlas_h := max st1.atlas_h (st1.cur_y + row_h + kBorderPX) }, m)

/-- The packing loop of `wmain` over the code points: the vector `metas` and the
variables after the loop. -/
def pack_loop : PackState → List Nat → List GlyphMeta × PackState
  | st, [] => ([], st)
  | st, cp :: rest =>
    let r := pack_step st cp
    let t := pack_loop r.1 rest
    (r.2 :: t.1, t.2)

/-- The vector `metas` that `wmain` computes for the code points `cps`. -/
def metas (cps : List Nat) : List GlyphMeta := (pack_loop pack_init cps).1

/-- The value of `atlas_h` after the packing loop; the atlas buffer has
`kAtlasW * atlas_h` bytes. -/
def atlas_h (cps : List Nat) : Int := (pack_loop pack_init cps).2.atlas_h

/-- The value of `cur_y` in the round that places glyph number `i`: the top of
its row. It is the value of `cur_y` after the rounds `0 .. i`. -/
def row_top (cps : List Nat) (i : Nat) : Int := (pack_loop pack_init (cps.take (i + 1))).2.cur_y

/-- The side `lo_side` of the tile that `Worker` writes. -/
def lo_side : Int := kGlyphPX + 2 * kBorderPX

/-- The atlas index of byte `x` of row `y` of the tile that `Worker` copies for
the glyph with record `m`: `(dst_y + y) * atlas_pitch + dst_x + x`. -/
def blit_index (m : GlyphMeta) (x y : Int) : Int :=
  (((m.v : Int) - kBorderPX) + y) * kAtlasW + ((m.u : Int) - kBorderPX) + x

/-- The pixel `(px, py)` lies in the tile region `[u-4, u+20) x [v-4, v+20)` that
`Worker` writes for `m`. -/
def in_tile (m : GlyphMeta) (px py : Int) : Prop :=
  (m.u : Int) - kBorderPX ≤ px ∧ px < (m.u : Int) - kBorderPX + lo_side ∧
  (m.v : Int) - kBorderPX ≤ py ∧ py < (m.v : Int) - kBorderPX + lo_side

/-- The pixel `(px, py)` lies in the glyph rectangle `{u, v, 16, 16}` of `m`. -/
def in_rect (m : GlyphMeta) (px py : Int) : Prop :=
  (m.u : Int) ≤ px ∧ px < (m.u : Int) + kGlyphPX ∧
  (m.v : Int) ≤ py ∧ py < (m.v : Int) + kGlyphPX

/-- The packing variables after `k` rounds of the loop, in closed form: 42 tiles
of 24 pixels per row, rows 28 pixels apart. -/
def pack_state_after (k : Nat) : PackState :=
  if k = 0 then pack_init
  else ⟨4 + 24 * (((k - 1) % 42 : Nat) + 1), 4 + 28 * ((k - 1) / 42 : Nat), 24,
        32 + 28 * ((k - 1) / 42 : Nat)⟩

/-- The record stored for glyph number `k`, in closed form. -/
def meta_at (k cp : Nat) : GlyphMeta :=
  ⟨cp, ((8 + 24 * ((k % 42 : Nat) : Int)) % 2 ^ 16).toNat,
       ((8 + 28 * ((k / 42 : Nat) : Int)) % 2 ^ 16).toNat⟩

/-! ## The coverage bitplane and the distance search of `Worker` -/

/-- The constant `kSupersample`. -/
def kSupersample : Int := 64
/-- The constant `kRadiusPX`. -/
def kRadiusPX : Int := 5

/-- The struct `BitPlane`: width, height, bytes per row and the bytes. -/
structure BitPlane where
  w : Int
  h : Int
  pitch : Int
  data : List Nat
deriving DecidableEq, Repr

/-- The constructor `BitPlane(width, height)`: `pitch = (w + 7) >> 3` and
`pitch * h` bytes, all 0. -/
def BitPlane.new (width height : Int) : BitPlane :=
  ⟨width, height, (width + 7) / 8, List.replicate (((width + 7) / 8) * height).toNat 0⟩

/-- The function `BitPlane::Get(x, y)`: `false` outside the plane, else bit
`0x80 >> (x & 7)` of the byte `data[y * pitch + (x >> 3)]`. -/
def BitPlane.Get (b : BitPlane) (x y : Int) : Bool :=
  if x < 0 ∨ y < 0 ∨ x ≥ b.w ∨ y ≥ b.h then false
  else decide ((b.data.getD (y * b.pitch + x / 8).toNat 0) &&& (0x80 >>> (x % 8).toNat) ≠ 0)

/-- The side `hi_side` of the coverage bitplane of `Worker`. -/
def hi_side : Int := (kGlyphPX + 2 * kBorderPX) * kSupersample

/-- The search radius `R` of `Worker`, in supersampled units. -/
def R : Int := kRadiusPX * kSupersample

/-- The function `RasterOutline(g, bmp)`: it returns at once on an outline
without segments; `fill` is the rest of the function on other outlines. -/
def RasterOutline (fill : ttf.GlyphContour → BitPlane → BitPlane) (g : ttf.GlyphContour)
    (bmp : BitPlane) : BitPlane :=
  if g.segments.isEmpty then bmp else fill g bmp

/-- The loops over `sy` and `sx` of `Worker` for the output pixel `(x, y)`: the
number `in_cnt` of covered samples among the 16 of the pixel. -/
def in_cnt (hi : BitPlane) (x y : Int) : Nat :=
  (((List.range 4).map (fun (sy : Nat) => ((List.range 4).map (fun (sx : Nat) =>
    if hi.Get (x * kSupersample + (sx : Int) * (kSupersample / 4) + (kSupersample / 4) / 2)
        (y * kSupersample + (sy : Int) * (kSupersample / 4) + (kSupersample / 4) / 2)
    then 1 else 0)).sum)).sum)

/-- The classification `inside = in_cnt >= 8` of the output pixel `(x, y)`. -/
def pixel_inside (hi : BitPlane) (x y : Int) : Bool := decide (in_cnt hi x y ≥ 8)

/-- The loop `for (int dx = -R; dx <= R; ++dx)` of `Worker` in the row `yy`:
`n` rounds are left, `dx` is the loop variable, `best` the running minimum. -/
def search_row (hi : BitPlane) (inside : Bool) (cx yy dyy : Int) : Nat → Int → Int → Int
  | 0, _, best => best
  | n + 1, dx, best =>
    let dxx := dx * dx
    let d2 := dxx + dyy
    if d2 ≥ best then search_row hi inside cx yy dyy n (dx + 1) best
    else
      let pix := hi.Get (cx + dx) yy
      if pix ≠ inside then search_row hi inside cx yy dyy n (dx + 1) d2
      else search_row hi inside cx yy dyy n (dx + 1) best

/-- The loop `for (int dy = -R; dy <= R; ++dy)` of `Worker`: `n` rounds are
left, `dy` is the loop variable, `best` the running minimum. -/
def search_rows (hi : BitPlane) (inside : Bool) (cx cy : Int) : Nat → Int → Int → Int
  | 0, _, best => best
  | n + 1, dy, best =>
    let yy := cy + dy
    let dyy := dy * dy
    if dyy ≥ best then search_rows hi inside cx cy n (dy + 1) best
    else
      search_rows hi inside cx cy n (dy + 1)
        (search_row hi inside cx yy dyy (2 * R + 1).toNat (-R) best)

/-- The value of `best` after the pruned double loop of `Worker`, from
`best = R2`, for the centre `(cx, cy)` and the classification `inside`. -/
def search_best (hi : BitPlane) (inside : Bool) (cx cy : Int) : Int :=
  search_rows hi inside cx cy (2 * R + 1).toNat (-R) (R * R)

/-- The value of `best` of the output pixel `(x, y)`. -/
def pixel_best (hi : BitPlane) (x y : Int) : Int :=
  search_best hi (pixel_inside hi x y) (x * kSupersample + kSupersample / 2)
    (y * kSupersample + kSupersample / 2)

/-- The offsets `-R .. R` of the search window. -/
def window : List Int :=
  List.map (fun (k : Nat) => (k : Int) - R) (List.range (2 * R + 1).toNat)

/-- The exhaustive search that the specification describes: the minimum of
`R * R` and of `dx * dx + dy * dy` over all samples of the window whose
coverage differs from `inside`. -/
def exhaustive_best (hi : BitPlane) (inside : Bool) (cx cy : Int) : Int :=
  ((window.map (fun dy => (window.map (fun dx =>
    if hi.Get (cx + dx) (cy + dy) ≠ inside then dx * dx + dy * dy else R * R)).foldl min
      (R * R))).foldl min (R * R))

/-- The function `std::clamp(v, lo, hi)`. -/
def clamp (v lo hi : ℚ) : ℚ := if v < lo then lo else if hi < v then hi else v

/-- The byte that `Worker` stores for a pixel with the squared distance `best`
and the classification `inside`; `sqrtf` is `std::sqrt` on `float`, the other
`float` operations are taken exact, and the conversion to `uint8_t` truncates. -/
def encode (sqrtf : ℚ → ℚ) (best : Int) (inside : Bool) : Nat :=
  let norm : ℚ := sqrtf (best : ℚ) / (R : ℚ)
  let signed_n : ℚ := if inside then norm else -norm
  ((Rat.floor (clamp (128 + signed_n * 127) 0 255)) % 2 ^ 8).toNat

/-- The byte `sdf[y * lo_side + x]` of `Worker` for the bitplane `hi`. -/
def sdf_pixel (sqrtf : ℚ → ℚ) (hi : BitPlane) (x y : Int) : Nat :=
  encode sqrtf (pixel_best hi x y) (pixel_inside hi x y)

/-- The vector `sdf` after the pixel loops of `Worker`: index `y * lo_side + x`. -/
def sdf_tile (sqrtf : ℚ → ℚ) (hi : BitPlane) : List Nat :=
  (List.range (lo_side * lo_side).toNat).map (fun (k : Nat) =>
    sdf_pixel sqrtf hi ((k : Int) % lo_side) ((k : Int) / lo_side))

/-- The vector `sdf` that `Worker` computes for the outline of a glyph with a
non-zero glyph id: the outline is rastered into a new bitplane. -/
def Worker_sdf (fill : ttf.GlyphContour → BitPlane → BitPlane) (sqrtf : ℚ → ℚ)
    (outline : ttf.GlyphContour) : List Nat :=
  sdf_tile sqrtf (RasterOutline fill outline (BitPlane.new hi_side hi_side))

/-- A square root that is exact on the squares of natural numbers (the integer
square root of the integer part), used as an instance of `sqrtf` in examples. -/
def sqrt_floor (q : ℚ) : ℚ := ((Nat.sqrt (Rat.floor q).toNat : Nat) : ℚ)

/-! ## The decoding of the character list (`wmain`) -/

/-- The read `s[i]` of a `std::string`: the byte at `i`, the terminating zero
at `i = s.size()`, and outside the string beyond that. -/
def str_at (s : List Nat) (i : Nat) : Outcome Nat :=
  match s[i]? with
  | some b => .ok b
  | none => if i = s.length then .ok 0 else .bounds

/-- The loop `while (i < s.size())` of the lambda `decode` of `wmain`; the
bytes of `s` are the values of `unsigned char`. -/
def decode_loop (s : List Nat) : Nat → Nat → List Nat → Outcome (List Nat)
  | 0, i, out => if i < s.length then .fuel else .ok out
  | fuel + 1, i, out =>
    if i < s.length then do
      let c ← str_at s i
      if c < 0x80 then decode_loop s fuel (i + 1) (out ++ [c])
      else if c &&& 0xE0 = 0xC0 then do
        let b1 ← str_at s (i + 1)
        decode_loop s fuel (i + 2) (out ++ [((c &&& 0x1F) <<< 6) ||| (b1 &&& 0x3F)])
      else if c &&& 0xF0 = 0xE0 then do
        let b1 ← str_at s (i + 1)
        let b2 ← str_at s (i + 2)
        decode_loop s fuel (i + 3)
          (out ++ [((c &&& 0x0F) <<< 12) ||| ((b1 &&& 0x3F) <<< 6) ||| (b2 &&& 0x3F)])
      else do
        let b1 ← str_at s (i + 1)
        let b2 ← str_at s (i + 2)
        let b3 ← str_at s (i + 3)
        decode_loop s fuel (i + 4)
          (out ++ [((c &&& 0x07) <<< 18) ||| ((b1 &&& 0x3F) <<< 12) |||
            ((b2 &&& 0x3F) <<< 6) ||| (b3 &&& 0x3F)])
    else .ok out

/-- The lambda `decode(s)` of `wmain`; `fuel` bounds the rounds of its loop. -/
def decode (s : List Nat) (fuel : Nat) : Outcome (List Nat) := decode_loop s fuel 0 []

/-! ## The rasterisation of an outline (`RasterOutline`) -/

/-- The constant `FLT_MAX`. -/
def FLT_MAX : ℚ := (2 ^ 24 - 1) * 2 ^ 104

/-- The variables `min_x`, `min_y`, `max_x`, `max_y` of `RasterOutline`. -/
structure BBox where
  min_x : ℚ
  min_y : ℚ
  max_x : ℚ
  max_y : ℚ
deriving DecidableEq, Repr

/-- One round of the loop of `RasterOutline` over the segments. -/
def bbox_step (b : BBox) (s : ttf.Segment) : BBox :=
  ⟨min (min (min b.min_x s.x0) s.cx) s.x1, min (min (min b.min_y s.y0) s.cy) s.y1,
   max (max (max b.max_x s.x0) s.cx) s.x1, max (max (max b.max_y s.y0) s.cy) s.y1⟩

/-- The bounding box of the control points that `RasterOutline` computes. -/
def bbox (g : ttf.GlyphContour) : BBox :=
  g.segments.foldl bbox_step ⟨FLT_MAX, FLT_MAX, -FLT_MAX, -FLT_MAX⟩

/-- The longer side `std::max(max_x - min_x, max_y - min_y)` of the box. -/
def bbox_side (g : ttf.GlyphContour) : ℚ :=
  max ((bbox g).max_x - (bbox g).min_x) ((bbox g).max_y - (bbox g).min_y)

/-- The value `drawable = kGlyphPX * kSupersample`. -/
def drawable : ℚ := ((kGlyphPX * kSupersample : Int) : ℚ)

/-- The value `scale` of `RasterOutline`, for a box with a longer side other
than 0 (the `float` quotient by 0 is infinite, see `RasterOutline_fill`). -/
def raster_scale (g : ttf.GlyphContour) : ℚ := drawable / bbox_side g

/-- The value `off_x` of `RasterOutline`. -/
def raster_off_x (g : ttf.GlyphContour) : ℚ :=
  ((kBorderPX * kSupersample : Int) : ℚ) - (bbox g).min_x * raster_scale g

/-- The value `off_y` of `RasterOutline`. -/
def raster_off_y (g : ttf.GlyphContour) : ℚ :=
  ((kBorderPX * kSupersample : Int) : ℚ) - (bbox g).min_y * raster_scale g

/-- The function `BitPlane::Set(x, y)`:
`data[y * pitch + (x >> 3)] |= 0x80 >> (x & 7)`; a byte outside the vector is
out of bounds. -/
def BitPlane.Set (b : BitPlane) (x y : Int) : Outcome BitPlane :=
  let idx := y * b.pitch + x / 8
  let byte := (b.data.getD idx.toNat 0 ||| (0x80 >>> (x % 8).toNat)) % 2 ^ 8
  if 0 ≤ idx ∧ idx < b.data.length then .ok ⟨b.w, b.h, b.pitch, b.data.set idx.toNat byte⟩
  else .bounds

/-- The function `FlattenQuadR`: the points appended to `out`. `fuel` bounds
the depth of the recursion. -/
def FlattenQuadR : Nat → ℚ → ℚ → ℚ → ℚ → ℚ → ℚ → ℚ → List (ℚ × ℚ) → Outcome (List (ℚ × ℚ))
  | 0, _, _, _, _, _, _, _, _ => .fuel
  | fuel + 1, x0, y0, cx, cy, x1, y1, tol2, out =>
    let mx := (x0 + 2 * cx + x1) * (1 / 4)
    let my := (y0 + 2 * cy + y1) * (1 / 4)
    let lx := (x0 + x1) * (1 / 2)
    let ly := (y0 + y1) * (1 / 2)
    let dx := mx - lx
    let dy := my - ly
    if dx * dx + dy * dy ≤ tol2 then .ok (out ++ [(x1, y1)])
    else
      let q0x := (x0 + cx) * (1 / 2)
      let q0y := (y0 + cy) * (1 / 2)
      let q1x := (cx + x1) * (1 / 2)
      let q1y := (cy + y1) * (1 / 2)
      let qmx := (q0x + q1x) * (1 / 2)
      let qmy := (q0y + q1y) * (1 / 2)
      match FlattenQuadR fuel x0 y0 q0x q0y qmx qmy tol2 out with
      | .ok out1 => FlattenQuadR fuel qmx qmy q1x q1y x1 y1 tol2 out1
      | .bounds => .bounds
      | .fuel => .fuel

/-- The value `tol2 = 1.0f / (512.0f * 512.0f)`. -/
def tol2 : ℚ := 1 / (512 * 512)

/-- The value `eps = 1e-5f`, the `float` nearest to `0.00001`. -/
def eps : ℚ := 2748779 / 2 ^ 38

/-- The loop `for (size_t i = b; i < e; ++i)` of `RasterOutline` that builds the
polygon of a contour: `n` segments are left, `i` is the loop variable. -/
def poly_loop (fuel : Nat) (segs : List ttf.Segment) :
    Nat → Nat → List (ℚ × ℚ) → Outcome (List (ℚ × ℚ))
  | 0, _, poly => .ok poly
  | n + 1, i, poly => do
    let s ← ttf.vecAt segs i
    let poly1 := poly ++ [(s.x0, s.y0)]
    let poly2 ←
      (if s.cx = (s.x0 + s.x1) * (1 / 2) ∧ s.cy = (s.y0 + s.y1) * (1 / 2) then
        .ok (poly1 ++ [(s.x1, s.y1)])
      else FlattenQuadR fuel s.x0 s.y0 s.cx s.cy s.x1 s.y1 tol2 poly1 :
        Outcome (List (ℚ × ℚ)))
    poly_loop fuel segs n (i + 1) poly2

/-- The polygon `poly` of the contour number `c`. -/
def contour_poly (fuel : Nat) (g : ttf.GlyphContour) (c : Nat) : Outcome (List (ℚ × ℚ)) := do
  let b ← ttf.vecAt g.contours c
  let e ←
    (if c + 1 = g.contours.length then .ok g.segments.length
     else ttf.vecAt g.contours (c + 1) : Outcome Nat)
  poly_loop fuel g.segments (e - b) b []

/-- The loop `for (size_t i = 0, N = poly.size(); i < N; ++i)` of
`RasterOutline`: the intersections of the closed polygon with the scanline
`py_unit`. The value `none` of `py_unit` is the `float` NaN, for which both
comparisons are false. -/
def crossings (poly : List (ℚ × ℚ)) (py_unit : Option ℚ) : List ℚ :=
  match py_unit with
  | none => []
  | some py =>
    (List.range poly.length).filterMap (fun (i : Nat) =>
      let p := poly.getD i (0, 0)
      let q := poly.getD ((i + 1) % poly.length) (0, 0)
      if decide (p.2 > py) ≠ decide (q.2 > py) then
        some (p.1 + (py - p.2) / (q.2 - p.2) * (q.1 - p.1))
      else none)

/-- The loop of `RasterOutline` over the contours for one scanline: `n`
contours are left, `c` is the loop variable, `x_int` the intersections so
far. -/
def row_crossings (fuel : Nat) (g : ttf.GlyphContour) (py_unit : Option ℚ) :
    Nat → Nat → List ℚ → Outcome (List ℚ)
  | 0, _, x_int => .ok x_int
  | n + 1, c, x_int => do
    let poly ← contour_poly fuel g c
    if poly.length < 2 then row_crossings fuel g py_unit n (c + 1) x_int
    else row_crossings fuel g py_unit n (c + 1) (x_int ++ crossings poly py_unit)

/-- The same loop over the contours with the polygons `polys` of the contours
given, as the program has built them (whatever the `float` operations of the
flattening gave): a polygon with fewer than 2 points is skipped, the
intersections of every other polygon are appended to `x_int`. -/
def collect_crossings (py_unit : Option ℚ) : List (List (ℚ × ℚ)) → List ℚ → List ℚ
  | [], x_int => x_int
  | poly :: rest, x_int =>
    if poly.length < 2 then collect_crossings py_unit rest x_int
    else collect_crossings py_unit rest (x_int ++ crossings poly py_unit)

/-- The loop of `RasterOutline` that drops an entry of the sorted `x_int` when
it is within `eps` of the entry kept last: `kept` holds `x_int[0 .. w-1]`. -/
def dedup_loop : List ℚ → List ℚ → List ℚ
  | [], kept => kept
  | x :: rest, kept =>
    match kept.getLast? with
    | none => dedup_loop rest (kept ++ [x])
    | some l => if |x - l| > eps then dedup_loop rest (kept ++ [x]) else dedup_loop rest kept

/-- The vector `x_int` of a scanline after `std::sort` and the removal of near
duplicates. -/
def sorted_dedup (x_int : List ℚ) : List ℚ :=
  dedup_loop (x_int.insertionSort (fun a b => a ≤ b)) []

/-- The conversion `int(v)` of a `float`: truncation toward zero. -/
def trunc (v : ℚ) : Int := if 0 ≤ v then Rat.floor v else -Rat.floor (-v)

/-- The function `std::clamp(v, lo, hi)` on `int`. -/
def clampInt (v lo hi : Int) : Int := if v < lo then lo else if hi < v then hi else v

/-- The pairs `(x_int[k], x_int[k + 1])` of the loop
`for (size_t k = 0; k + 1 < x_int.size(); k += 2)`. -/
def span_pairs : List ℚ → List (ℚ × ℚ)
  | a :: b :: rest => (a, b) :: span_pairs rest
  | _ => []

/-- The columns `sx0`, `sx1` of a span after the conversion and the clamp. -/
def span_cols (w : Int) (scale off_x : ℚ) (p : ℚ × ℚ) : Int × Int :=
  (clampInt (trunc (p.1 * scale + off_x)) 0 (w - 1),
   clampInt (trunc (p.2 * scale + off_x)) 0 (w - 1))

/-- The loop `for (int sx = sx0; sx <= sx1; ++sx) bmp.Set(sx, sy)`: `n` calls
are left, `sx` is the loop variable. -/
def set_run (sy : Int) : Nat → Int → BitPlane → Outcome BitPlane
  | 0, _, b => .ok b
  | n + 1, sx, b => do
    let b1 ← b.Set sx sy
    set_run sy n (sx + 1) b1

/-- The loop over the spans of a scanline. -/
def fill_spans (sy : Int) (scale off_x : ℚ) : List (ℚ × ℚ) → BitPlane → Outcome BitPlane
  | [], b => .ok b
  | p :: rest, b => do
    let b1 ← set_run sy ((span_cols b.w scale off_x p).2 - (span_cols b.w scale off_x p).1 + 1).toNat
      (span_cols b.w scale off_x p).1 b
    fill_spans sy scale off_x rest b1

/-- The columns `sx0`, `sx1` of a span after the clamp. The function `conv`
stands for the conversion `int(x_int[k] * scale + off_x)` of the program: the
value that its `float` product, its `float` sum and the conversion to `int`
give for an entry of `x_int`. -/
def span_cols_of (w : Int) (conv : ℚ → Int) (p : ℚ × ℚ) : Int × Int :=
  (clampInt (conv p.1) 0 (w - 1), clampInt (conv p.2) 0 (w - 1))

/-- The loop `for (size_t k = 0; k + 1 < x_int.size(); k += 2)` of
`RasterOutline` on the vector `x_int` of the scanline `sy`, with the loop over
the columns of each span. -/
def fill_loop (sy : Int) (conv : ℚ → Int) : List ℚ → BitPlane → Outcome BitPlane
  | a :: c :: rest, b => do
    let b1 ← set_run sy
      ((span_cols_of b.w conv (a, c)).2 - (span_cols_of b.w conv (a, c)).1 + 1).toNat
      (span_cols_of b.w conv (a, c)).1 b
    fill_loop sy conv rest b1
  | _, b => .ok b

/-- The loop `for (int sy = 0; sy < bmp.h; ++sy)` of `RasterOutline` with the
vectors of the scanlines given: `rows sy` is the vector `x_int` of the scanline
`sy` as the program has it in front of the span loop, after the sort and the
removal of near duplicates (for a scanline that `continue` skips, the vector of
fewer than 2 entries). `n` scanlines are left, `sy` is the loop variable. -/
def fill_rows (conv : ℚ → Int) (rows : Int → List ℚ) : Nat → Int → BitPlane → Outcome BitPlane
  | 0, _, b => .ok b
  | n + 1, sy, b => do
    let b1 ← fill_loop sy conv (rows sy) b
    fill_rows conv rows n (sy + 1) b1

/-- The value `py_unit` of the scanline `sy`; `none` is the `float` NaN that
results when the longer side of the box is 0 and the scale is infinite. -/
def py_unit (g : ttf.GlyphContour) (h sy : Int) : Option ℚ :=
  if bbox_side g = 0 then none
  else some ((((h - 1 - sy : Int) : ℚ) + 1 / 2 - raster_off_y g) / raster_scale g)

/-- One round of the loop `for (int sy = 0; sy < bmp.h; ++sy)` of
`RasterOutline`. -/
def raster_row (fuel : Nat) (g : ttf.GlyphContour) (sy : Int) (b : BitPlane) :
    Outcome BitPlane := do
  let x_int ← row_crossings fuel g (py_unit g b.h sy) g.contours.length 0 []
  if x_int.length < 2 then .ok b
  else fill_spans sy (raster_scale g) (raster_off_x g) (span_pairs (sorted_dedup x_int)) b

/-- The loop `for (int sy = 0; sy < bmp.h; ++sy)` of `RasterOutline`: `n`
scanlines are left, `sy` is the loop variable. -/
def raster_rows (fuel : Nat) (g : ttf.GlyphContour) : Nat → Int → BitPlane → Outcome BitPlane
  | 0, _, b => .ok b
  | n + 1, sy, b => do
    let b1 ← raster_row fuel g sy b
    raster_rows fuel g n (sy + 1) b1

/-- The part of `RasterOutline(g, bmp)` behind its first line. -/
def RasterOutline_fill (fuel : Nat) (g : ttf.GlyphContour) (bmp : BitPlane) : Outcome BitPlane :=
  raster_rows fuel g bmp.h.toNat 0 bmp

/-- The function `RasterOutline(g, bmp)` with the run of its second part made
explicit: the result `bmp` of that part, and `bmp` unchanged where the
embedding of that part does not return. -/
def fill_total (fuel : Nat) (g : ttf.GlyphContour) (bmp : BitPlane) : BitPlane :=
  match RasterOutline_fill fuel g bmp with
  | .ok b => b
  | _ => bmp

/-- A bitplane as the constructor builds it and `Set` keeps it: a positive
width, `pitch = (w + 7) >> 3` and `pitch * h` bytes. -/
def BitPlane.wf (b : BitPlane) : Prop :=
  0 < b.w ∧ 0 ≤ b.h ∧ b.pitch = (b.w + 7) / 8 ∧ (b.data.length : Int) = b.pitch * b.h

/-- The column `x` lies in one of the spans, given as pairs of columns. -/
def in_spans (cols : List (Int × Int)) (x : Int) : Prop :=
  ∃ c ∈ cols, c.1 ≤ x ∧ x ≤ c.2

/-! ## The atlas and the work of `Worker` on one index -/

/-- The call `std::memcpy(&dst[pos], src, n)` with the `n` bytes `src`: a range
that does not lie inside `dst` is out of bounds. -/
def memcpy (dst : List Nat) (pos : Int) (src : List Nat) : Outcome (List Nat) :=
  if 0 ≤ pos ∧ pos + src.length ≤ dst.length then
    .ok (dst.take pos.toNat ++ src ++ dst.drop (pos.toNat + src.length))
  else .bounds

/-- The loop `for (int y = 0; y < lo_side; ++y) memcpy(...)` of `Worker`: `n`
rows are left, `y` is the loop variable. -/
def blit_loop (m : GlyphMeta) (sdf : List Nat) : Nat → Int → List Nat → Outcome (List Nat)
  | 0, _, atlas => .ok atlas
  | n + 1, y, atlas => do
    let a1 ← memcpy atlas (blit_index m 0 y) ((sdf.drop (y * lo_side).toNat).take lo_side.toNat)
    blit_loop m sdf n (y + 1) a1

/-- The copy of the vector `sdf` into the tile of the record `m`. -/
def blit (m : GlyphMeta) (sdf : List Nat) (atlas : List Nat) : Outcome (List Nat) :=
  blit_loop m sdf lo_side.toNat 0 atlas

/-- The part of one round of `Worker` that does not touch the atlas, for the
code point `cp`: `none` when the glyph id is 0 (`continue`), else the vector
`sdf` of the glyph. -/
def glyph_sdf (f : ttf.FontLoader) (fill : ttf.GlyphContour → BitPlane → BitPlane)
    (sqrtf : ℚ → ℚ) (fuel : Nat) (cp : Nat) : Outcome (Option (List Nat)) := do
  let gid ← ttf.GlyphId f fuel cp
  if gid = 0 then pure none
  else do
    let outline ← ttf.Extract f fuel gid
    pure (some (Worker_sdf fill sqrtf outline))

/-- One round of the loop of `Worker`, for the index `idx` it has claimed. -/
def Worker_step (f : ttf.FontLoader) (fill : ttf.GlyphContour → BitPlane → BitPlane)
    (sqrtf : ℚ → ℚ) (fuel : Nat) (cps : List Nat) (ms : List GlyphMeta) (idx : Nat)
    (atlas : List Nat) : Outcome (List Nat) := do
  let cp ← ttf.vecAt cps idx
  let t ← glyph_sdf f fill sqrtf fuel cp
  match t with
  | none => pure atlas
  | some sdf => do
    let m ← ttf.vecAt ms idx
    blit m sdf atlas

/-- The atlas after the indices of `order` have been processed one after the
other. -/
def run_order (f : ttf.FontLoader) (fill : ttf.GlyphContour → BitPlane → BitPlane)
    (sqrtf : ℚ → ℚ) (fuel : Nat) (cps : List Nat) (ms : List GlyphMeta) (order : List Nat)
    (atlas : List Nat) : Outcome (List Nat) :=
  order.foldl (fun acc idx => acc >>= Worker_step f fill sqrtf fuel cps ms idx) (.ok atlas)

/-- The vector `atlas` of `wmain` in front of the workers: `kAtlasW * atlas_h`
bytes 0. -/
def atlas_init (cps : List Nat) : List Nat := List.replicate (kAtlasW * atlas_h cps).toNat 0

/-- The byte of the tile of `m` with content `sdf` at the atlas index `p`, if
`p` lies in the tile. -/
def tile_byte (m : GlyphMeta) (sdf : List Nat) (p : Nat) : Option Nat :=
  let q : Int := (p : Int) - blit_index m 0 0
  if 0 ≤ q ∧ q / kAtlasW < lo_side ∧ q % kAtlasW < lo_side then
    some (sdf.getD ((q / kAtlasW) * lo_side + q % kAtlasW).toNat 0)
  else none

/-- The record `GlyphRecord` of the asset file. -/
structure GlyphRecord where
  codePoint : Nat
  u : Nat
  v : Nat
  w : Nat
  h : Nat
  bearingX : Int
  bearingY : Int
  advance : Nat
  atlasId : Nat
  flags : Nat
deriving DecidableEq, Repr

/-- The records that `WriteFontAsset` writes, one for every entry of `metas`. -/
def glyph_records (ms : List GlyphMeta) : List GlyphRecord :=
  ms.map (fun m => ⟨m.cp % 2 ^ 32, m.u, m.v, kGlyphPX.toNat, kGlyphPX.toNat, 0, 0,
    kGlyphPX.toNat, 0, 0⟩)

/-- The field `glyphCount` of the header that `WriteFontAsset` writes. -/
def header_glyphCount (ms : List GlyphMeta) : Nat := ms.length % 2 ^ 32

/-! ## Notions used to state what a run of the workers leaves in the atlas -/

/-- The byte that the round for the index `k` writes at the atlas index `p`:
`none` when the round does not write there (the glyph id is 0, or `p` lies
outside the tile of `metas[k]`). -/
def tile_of (f : ttf.FontLoader) (fill : ttf.GlyphContour → BitPlane → BitPlane)
    (sqrtf : ℚ → ℚ) (fuel : Nat) (cps : List Nat) (k p : Nat) : Option Nat :=
  match cps[k]?, (metas cps)[k]? with
  | some cp, some m =>
    match glyph_sdf f fill sqrtf fuel cp with
    | .ok (some sdf) => tile_byte m sdf p
    | _ => none
  | _, _ => none

/-- The byte that the last round of `order` that writes at the atlas index `p`
has written there. -/
def last_write (f : ttf.FontLoader) (fill : ttf.GlyphContour → BitPlane → BitPlane)
    (sqrtf : ℚ → ℚ) (fuel : Nat) (cps : List Nat) (order : List Nat) (p : Nat) : Option Nat :=
  order.reverse.findSome? (fun k => tile_of f fill sqrtf fuel cps k p)

/-! ## The thread pool of `wmain` and the counter `Shared::next` -/

/-- The place of one thread in the loop of `Worker`: in front of the call of
`fetch_add`, behind it with the index `idx < cps.size()` it has got, or
returned (after `break`). -/
inductive WorkerState where
  | idle
  | claimed (idx : Nat)
  | exited
deriving DecidableEq, Repr

/-- The counter `sh.next` (an `atomic_uint` of 32 bits), the threads of `pool`,
and the rounds of the loop of `Worker` that have been completed, as pairs of
the thread and its index, in the order of their completion. -/
structure PoolState where
  next : Nat
  pool : List WorkerState
  log : List (Nat × Nat)
deriving DecidableEq, Repr

/-- The state in which `wmain` has created `T` threads: `sh.next` is 0 and no
thread has made a step. -/
def PoolState.start (T : Nat) : PoolState := ⟨0, List.replicate T .idle, []⟩

/-- One step of the thread `t` for `n = cps.size()` code points. A thread in
front of `fetch_add` gets `idx`, the value of the counter, which goes up by one
modulo `2^32`, and returns when `idx >= n`; a thread that holds an index
completes the round for it (with or without a glyph). A thread that has
returned makes no step. -/
def PoolState.step (n : Nat) (s : PoolState) (t : Nat) : Option PoolState :=
  match s.pool[t]? with
  | some .idle =>
    let idx := s.next
    some ⟨(s.next + 1) % 2 ^ 32,
      s.pool.set t (if idx ≥ n then .exited else .claimed idx), s.log⟩
  | some (.claimed idx) => some ⟨s.next, s.pool.set t .idle, s.log ++ [(t, idx)]⟩
  | _ => none

/-- The state after the threads have made steps in the order `sched`; an entry
that names no thread, or a thread that has returned, is skipped. -/
def PoolState.run (n : Nat) (s : PoolState) (sched : List Nat) : PoolState :=
  sched.foldl (fun s t => (PoolState.step n s t).getD s) s

/-- The loop `for (auto& t : pool) t.join()` of `wmain` can be left: every
thread of `pool` has returned. -/
def PoolState.joined (s : PoolState) : Prop := ∀ w ∈ s.pool, w = WorkerState.exited

/-- The indices that the threads hold. -/
def claimed_of (ws : List WorkerState) : List Nat :=
  ws.filterMap (fun w => match w with
    | .claimed i => some i
    | _ => none)

/-- The invariant of the thread pool for `n` code points and `T` threads: the
counter has been read once for every completed round, every index held and
every thread that has returned; the indices of the completed rounds and the
indices held are, in some order, the numbers below `min next n`; and every
completed round belongs to a thread of the pool. -/
def PoolInv (n T : Nat) (s : PoolState) : Prop :=
  s.pool.length = T ∧
  s.next = s.log.length + (claimed_of s.pool).length + s.pool.count WorkerState.exited ∧
  (s.log.map Prod.snd ++ claimed_of s.pool).Perm (List.range (min s.next n)) ∧
  ∀ e ∈ s.log, e.1 < T

/-! ## A bitplane that holds a filled disk, for examples -/

/-- The byte of a bitplane row for eight positions: position `i` is the bit
`0x80 >> i`. -/
def pack_bits (g : Nat → Bool) : Nat :=
  (if g 0 then 128 else 0) + (if g 1 then 64 else 0) + (if g 2 then 32 else 0) +
  (if g 3 then 16 else 0) + (if g 4 then 8 else 0) + (if g 5 then 4 else 0) +
  (if g 6 then 2 else 0) + (if g 7 then 1 else 0)

/-- The bytes of a bitplane of width and height 1536 whose bit at `(x, y)` is
`p x y`: 192 bytes per row. -/
def of_pred_data (p : Int → Int → Bool) : List Nat :=
  (List.range (192 * 1536)).map (fun (k : Nat) =>
    pack_bits (fun i => p (8 * ((k : Int) % 192) + (i : Int)) ((k : Int) / 192)))

/-- The bitplane of width and height 1536 (`hi_side`) whose bit at `(x, y)` is
`p x y`, in the layout of `BitPlane`: 192 bytes per row. -/
def BitPlane.of_pred (p : Int → Int → Bool) : BitPlane :=
  ⟨1536, 1536, 192, of_pred_data p⟩

/-- The filled disk with the centre `(768, 768)`, the centre of the bitplane,
and the squared radius `r2`. -/
def disk (r2 : Int) (px py : Int) : Bool :=
  decide ((px - 768) * (px - 768) + (py - 768) * (py - 768) ≤ r2)

/-- The bitplane that holds the disk of radius 512, which fills the box of a
glyph of 16 pixels inside the border of 4 pixels. -/
def disk_plane : BitPlane := BitPlane.of_pred (disk (512 * 512))

/-! ## Notions used to state the packing before the cast to `uint16_t` -/

/-- The first statement of a round of the packing loop: the wrap to a new row
when the tile does not fit the current one. -/
def wrap_row (st : PackState) : PackState :=
  if st.cur_x + kGlyphPX + 2 * kBorderPX > kAtlasW then
    { st with cur_x := kBorderPX, cur_y := st.cur_y + st.row_h + kBorderPX, row_h := 0 }
  else st

/-- The values `cur_x + kBorderPX` and `cur_y + kBorderPX` of the round of the
packing loop for glyph number `i`, in front of their cast to `uint16_t`. -/
def placed (cps : List Nat) (i : Nat) : Int × Int :=
  ((wrap_row (pack_loop pack_init (cps.take i)).2).cur_x + kBorderPX,
   (wrap_row (pack_loop pack_init (cps.take i)).2).cur_y + kBorderPX)

/-! ## Notions used to state the flattening of a quadratic -/

/-- The value `dx * dx + dy * dy` that `FlattenQuadR` compares with `tol2`: the
squared distance between the midpoint of the curve and the midpoint of the
chord. -/
def deviation (x0 y0 cx cy x1 y1 : ℚ) : ℚ :=
  ((x0 + 2 * cx + x1) * (1 / 4) - (x0 + x1) * (1 / 2)) *
      ((x0 + 2 * cx + x1) * (1 / 4) - (x0 + x1) * (1 / 2)) +
    ((y0 + 2 * cy + y1) * (1 / 4) - (y0 + y1) * (1 / 2)) *
      ((y0 + 2 * cy + y1) * (1 / 4) - (y0 + y1) * (1 / 2))

end FontSDF

namespace mj

/-! ## The UTF-8 writer of the JSON parser (`jsonParse.h`) -/

/-- The function `mj::Parser::append_utf8(out, cp)`: the bytes that it appends to
`out`, as values of `unsigned char`; `cp` is a `uint32_t`. -/
def append_utf8 (cp : Nat) : List Nat :=
  if cp ≤ 0x7F then [cp % 2 ^ 8]
  else if cp ≤ 0x7FF then
    [(0xC0 ||| (cp >>> 6)) % 2 ^ 8, (0x80 ||| (cp &&& 0x3F)) % 2 ^ 8]
  else if cp ≤ 0xFFFF then
    [(0xE0 ||| (cp >>> 12)) % 2 ^ 8, (0x80 ||| ((cp >>> 6) &&& 0x3F)) % 2 ^ 8,
     (0x80 ||| (cp &&& 0x3F)) % 2 ^ 8]
  else
    [(0xF0 ||| (cp >>> 18)) % 2 ^ 8, (0x80 ||| ((cp >>> 12) &&& 0x3F)) % 2 ^ 8,
     (0x80 ||| ((cp >>> 6) &&& 0x3F)) % 2 ^ 8, (0x80 ||| (cp &&& 0x3F)) % 2 ^ 8]

/-- The string that `append_utf8` builds for a list of code points. -/
def utf8 (cps : List Nat) : List Nat := (cps.map append_utf8).flatten

/-! ## The JSON parser (`jsonParse.h`)

The text is a list of bytes (values of `unsigned char`). The pointer `p_` of the
parser is represented by the characters from `p_` to `end_`; the offset
`off() = p_ - begin_` is the length of the text minus the number of these
characters. `fuel` bounds the nesting depth of the values and the number of
rounds of the loops over array elements, object members and escaped string
characters. -/

/-- The record `Str`: a view into the text, or an owned string. -/
structure Str where
  view : List Nat
  owned : List Nat
deriving DecidableEq, Repr

/-- The function `Str::owning()`: `!owned.empty()`. -/
def Str.owning (s : Str) : Bool := !s.owned.isEmpty

/-- The function `Str::sv()`. -/
def Str.sv (s : Str) : List Nat := if s.owning = true then s.owned else s.view

/-- The type `Value`: `std::monostate`, `bool`, `Number` (an `int64_t` or a
`double`, the latter a rational number), `Str`, `Array`, `Object`. -/
inductive Value where
  | null
  | bool (b : Bool)
  | num_int (i : Int)
  | num_double (d : ℚ)
  | str (s : Str)
  | array (a : List Value)
  | object (o : List (Str × Value))

/-- The record `Error`. -/
structure Error where
  offset : Nat
  message : String
deriving DecidableEq, Repr

/-- The result of a member function of `Parser`: `ok` for the result `true`,
with the value read and the characters from the new `p_` on; `fail rem msg` for
the result of `fail(msg)` called with `rem` characters left from `p_` on;
`bounds` for a read of `*p_` at `end_`; `fuel` for a run cut off. -/
inductive Result (α : Type) where
  | ok (a : α)
  | fail (rem : Nat) (message : String)
  | bounds
  | fuel

/-- The function `skip_ws`. -/
def skip_ws : List Nat → List Nat
  | [] => []
  | c :: rest =>
    if c = 32 ∨ c = 10 ∨ c = 13 ∨ c = 9 then skip_ws rest else c :: rest

/-- The loop of `parse_lit`: the characters after the literal, when the text at
`q` starts with it. -/
def parse_lit_loop : List Nat → List Nat → Option (List Nat)
  | [], q => some q
  | _ :: _, [] => none
  | l :: lit, c :: q => if c ≠ l then none else parse_lit_loop lit q

/-- The function `parse_lit(lit, out, v)`. -/
def parse_lit (lit : List Nat) (v : Value) (inp : List Nat) : Result (Value × List Nat) :=
  match parse_lit_loop lit inp with
  | none => .fail inp.length "Invalid literal"
  | some q => .ok (v, q)

/-- The function `hexv(c)`; `none` for the result `-1`. -/
def hexv (c : Nat) : Option Nat :=
  if 48 ≤ c ∧ c ≤ 57 then some (c - 48)
  else if 97 ≤ c ∧ c ≤ 102 then some (c - 97 + 10)
  else if 65 ≤ c ∧ c ≤ 70 then some (c - 65 + 10)
  else none

/-- The value `(h0 << 12) | (h1 << 8) | (h2 << 4) | h3` of four hexadecimal
digits; `none` when `(h0 | h1 | h2 | h3) < 0`. -/
def hex4 (c0 c1 c2 c3 : Nat) : Option Nat :=
  match hexv c0, hexv c1, hexv c2, hexv c3 with
  | some h0, some h1, some h2, some h3 => some ((h0 <<< 12) ||| (h1 <<< 8) ||| (h2 <<< 4) ||| h3)
  | _, _, _, _ => none

/-- The result of the first loop of `parse_string`: the closing quote was found
(`closed`, with the view and the characters after the quote), or the loop
stopped in front of a backslash or a control character or at the end of the text
(`stopped`, with the characters passed and the characters from `p_` on). -/
inductive Scan where
  | closed (view : List Nat) (rest : List Nat)
  | stopped (plain : List Nat) (rest : List Nat)

/-- The first loop of `parse_string`; `plain` holds the characters from `start`
to `p_`. -/
def parse_string_scan : List Nat → List Nat → Scan
  | [], plain => .stopped plain []
  | c :: rest, plain =>
    if c = 34 then .closed plain rest
    else if c = 92 ∨ c < 32 then .stopped plain (c :: rest)
    else parse_string_scan rest (plain ++ [c])

/-- The case `'u'` of the second loop of `parse_string`, from the character
after the `u` on: the code point and the characters after the escape. -/
def parse_string_u (p : List Nat) : Result (Nat × List Nat) :=
  match p with
  | c0 :: c1 :: c2 :: c3 :: p1 =>
    match hex4 c0 c1 c2 c3 with
    | none => .fail p.length "Bad \\u hex"
    | some cp =>
      if cp ≥ 0xD800 ∧ cp ≤ 0xDBFF then
        match p1 with
        | b :: u :: g0 :: g1 :: g2 :: g3 :: p2 =>
          if b ≠ 92 ∨ u ≠ 117 then .fail p1.length "Isolated high surrogate"
          else
            match hex4 g0 g1 g2 g3 with
            | none => .fail p1.length "Bad low surrogate"
            | some low =>
              if low < 0xDC00 ∨ low > 0xDFFF then .fail p1.length "Invalid low surrogate"
              else .ok ((0x10000 + ((((cp - 0xD800) <<< 10) ||| (low - 0xDC00)) % 2 ^ 32)) % 2 ^ 32,
                p2)
        | _ => .fail p1.length "Isolated high surrogate"
      else if cp ≥ 0xDC00 ∧ cp ≤ 0xDFFF then .fail p1.length "Isolated low surrogate"
      else .ok (cp, p1)
  | _ => .fail p.length "Bad \\u escape"

/-- The escape after a backslash in the second loop of `parse_string`, from the
character after the backslash on: the characters pushed to `buf` and the
characters after the escape. -/
def parse_string_escape (p : List Nat) : Result (List Nat × List Nat) :=
  match p with
  | [] => .fail 0 "Bad escape"
  | e :: p1 =>
    if e = 34 then .ok ([34], p1)
    else if e = 92 then .ok ([92], p1)
    else if e = 47 then .ok ([47], p1)
    else if e = 98 then .ok ([8], p1)
    else if e = 102 then .ok ([12], p1)
    else if e = 110 then .ok ([10], p1)
    else if e = 114 then .ok ([13], p1)
    else if e = 116 then .ok ([9], p1)
    else if e = 117 then
      match parse_string_u p1 with
      | .ok (cp, p2) => .ok (append_utf8 cp, p2)
      | .fail rem msg => .fail rem msg
      | .bounds => .bounds
      | .fuel => .fuel
    else .fail p1.length "Unknown escape"

/-- The second loop of `parse_string`: `buf` is the string built so far. -/
def parse_string_slow : Nat → List Nat → List Nat → Result (Str × List Nat)
  | _, [], _ => .fail 0 "Unterminated string"
  | 0, _ :: _, _ => .fuel
  | n + 1, c :: p, buf =>
    if c = 34 then .ok (⟨[], buf⟩, p)
    else if c = 92 then
      match parse_string_escape p with
      | .ok (bytes, p1) => parse_string_slow n p1 (buf ++ bytes)
      | .fail rem msg => .fail rem msg
      | .bounds => .bounds
      | .fuel => .fuel
    else if c < 32 then .fail p.length "Control char in string"
    else parse_string_slow n p (buf ++ [c])

/-- The function `parse_string(out)`. -/
def parse_string (fuel : Nat) (inp : List Nat) : Result (Str × List Nat) :=
  match inp with
  | [] => .bounds
  | c :: s =>
    if c ≠ 34 then .fail inp.length "Expected \x27\x22\x27 for string"
    else
      match parse_string_scan s [] with
      | .closed view rest => .ok (⟨view, []⟩, rest)
      | .stopped _ [] => .fail 0 "Unterminated string"
      | .stopped plain (c1 :: rest) => parse_string_slow fuel (c1 :: rest) plain

/-- The function `std::isdigit` on an `unsigned char`. -/
def isdigit (c : Nat) : Bool := decide (48 ≤ c ∧ c ≤ 57)

/-- The loop `while (p_ < end_ && std::isdigit(*p_)) ++p_`. -/
def skip_digits : List Nat → List Nat
  | [] => []
  | c :: rest => if isdigit c = true then skip_digits rest else c :: rest

/-- The value of a run of decimal digits. -/
def digits_value (ds : List Nat) : Nat := ds.foldl (fun a c => 10 * a + (c - 48)) 0

/-- The function `std::from_chars` for `int64_t` and base 10 on a text of the
form `-?[0-9]+`: `none` when the value is out of range. -/
def from_chars_int64 (sv : List Nat) : Option Int :=
  if sv.head? = some 45 then
    (if digits_value sv.tail ≤ 2 ^ 63 then some (-(digits_value sv.tail : Int)) else none)
  else if digits_value sv < 2 ^ 63 then some (digits_value sv : Int) else none

/-- The integer part of `parse_number`, from the character after the sign on. -/
def parse_number_int (p : List Nat) : Result (List Nat) :=
  match p with
  | [] => .fail 0 "Invalid number"
  | d :: p1 =>
    if d = 48 then .ok p1
    else if isdigit d = false then .fail p.length "Invalid number"
    else .ok (skip_digits p)

/-- The fraction part of `parse_number`: whether there is one, and the
characters after it. -/
def parse_number_frac (p : List Nat) : Result (Bool × List Nat) :=
  match p with
  | [] => .ok (false, p)
  | c :: p1 =>
    if c = 46 then
      match p1 with
      | [] => .fail 0 "Invalid fraction"
      | d :: _ =>
        if isdigit d = false then .fail p1.length "Invalid fraction"
        else .ok (true, skip_digits p1)
    else .ok (false, p)

/-- The exponent part of `parse_number`: whether there is one, and the
characters after it. -/
def parse_number_exp (p : List Nat) : Result (Bool × List Nat) :=
  match p with
  | [] => .ok (false, p)
  | e :: p1 =>
    if e = 101 ∨ e = 69 then
      let p2 := (match p1 with
        | [] => p1
        | s :: p3 => if s = 43 ∨ s = 45 then p3 else p1)
      match p2 with
      | [] => .fail 0 "Invalid exponent"
      | d :: _ =>
        if isdigit d = false then .fail p2.length "Invalid exponent"
        else .ok (true, skip_digits p2)
    else .ok (false, p)

/-- The function `parse_number(out)`; `fcd` is `std::from_chars` for `double`,
`none` when it reports an error. -/
def parse_number (fcd : List Nat → Option ℚ) (inp : List Nat) : Result (Value × List Nat) :=
  match inp with
  | [] => .bounds
  | c :: p0 =>
    match parse_number_int (if c = 45 then p0 else inp) with
    | .ok p1 =>
      match parse_number_frac p1 with
      | .ok (f1, p2) =>
        match parse_number_exp p2 with
        | .ok (f2, p3) =>
          let numsv := inp.take (inp.length - p3.length)
          match (if f1 = false ∧ f2 = false then from_chars_int64 numsv else none) with
          | some iv => .ok (.num_int iv, p3)
          | none =>
            match fcd numsv with
            | none => .fail p3.length "Invalid number"
            | some dv => .ok (.num_double dv, p3)
        | .fail rem msg => .fail rem msg
        | .bounds => .bounds
        | .fuel => .fuel
      | .fail rem msg => .fail rem msg
      | .bounds => .bounds
      | .fuel => .fuel
    | .fail rem msg => .fail rem msg
    | .bounds => .bounds
    | .fuel => .fuel

/-- The loop `for (;;)` of `parse_array`; `pv` is `parse_value`. -/
def parse_array_loop (pv : List Nat → Result (Value × List Nat)) :
    Nat → List Nat → List Value → Result (List Value × List Nat)
  | 0, _, _ => .fuel
  | n + 1, p, out =>
    match pv (skip_ws p) with
    | .ok (v, p1) =>
      match skip_ws p1 with
      | [] => .fail 0 "Unterminated array"
      | c :: p2 =>
        if c = 93 then .ok (out ++ [v], p2)
        else if c ≠ 44 then .fail p2.length "Expected \x27,\x27 or \x27]\x27"
        else parse_array_loop pv n p2 (out ++ [v])
    | .fail rem msg => .fail rem msg
    | .bounds => .bounds
    | .fuel => .fuel

/-- The function `parse_array(out)`. -/
def parse_array (pv : List Nat → Result (Value × List Nat)) (fuel : Nat) (inp : List Nat) :
    Result (List Value × List Nat) :=
  match inp with
  | [] => .bounds
  | c :: p =>
    if c ≠ 91 then .fail inp.length "Expected \x27[\x27"
    else
      match skip_ws p with
      | [] => parse_array_loop pv fuel [] []
      | c1 :: p1 =>
        if c1 = 93 then .ok ([], p1) else parse_array_loop pv fuel (c1 :: p1) []

/-- The loop `for (;;)` of `parse_object`; `pv` is `parse_value`. -/
def parse_object_loop (pv : List Nat → Result (Value × List Nat)) (fuel : Nat) :
    Nat → List Nat → List (Str × Value) → Result (List (Str × Value) × List Nat)
  | 0, _, _ => .fuel
  | n + 1, p, out =>
    match skip_ws p with
    | [] => .fail 0 "Object key must be string"
    | q :: p1 =>
      if q ≠ 34 then .fail (q :: p1).length "Object key must be string"
      else
        match parse_string fuel (q :: p1) with
        | .ok (key, p2) =>
          match skip_ws p2 with
          | [] => .fail 0 "Expected \x27:\x27 after key"
          | c :: p3 =>
            if c ≠ 58 then .fail (c :: p3).length "Expected \x27:\x27 after key"
            else
              match pv (skip_ws p3) with
              | .ok (val, p4) =>
                match skip_ws p4 with
                | [] => .fail 0 "Unterminated object"
                | c1 :: p5 =>
                  if c1 = 125 then .ok (out ++ [(key, val)], p5)
                  else if c1 ≠ 44 then .fail p5.length "Expected \x27,\x27 or \x27\x7d\x27"
                  else parse_object_loop pv fuel n p5 (out ++ [(key, val)])
              | .fail rem msg => .fail rem msg
              | .bounds => .bounds
              | .fuel => .fuel
        | .fail rem msg => .fail rem msg
        | .bounds => .bounds
        | .fuel => .fuel

/-- The function `parse_object(out)`. -/
def parse_object (pv : List Nat → Result (Value × List Nat)) (fuel : Nat) (inp : List Nat) :
    Result (List (Str × Value) × List Nat) :=
  match inp with
  | [] => .bounds
  | c :: p =>
    if c ≠ 123 then .fail inp.length "Expected \x27\x7b\x27"
    else
      match skip_ws p with
      | [] => parse_object_loop pv fuel fuel [] []
      | c1 :: p1 =>
        if c1 = 125 then .ok ([], p1) else parse_object_loop pv fuel fuel (c1 :: p1) []

/-- The function `parse_value(out)`. -/
def parse_value (fcd : List Nat → Option ℚ) : Nat → List Nat → Result (Value × List Nat)
  | 0, _ => .fuel
  | fuel + 1, inp =>
    match inp with
    | [] => .fail 0 "Unexpected end of input"
    | c :: _ =>
      if c = 110 then parse_lit [110, 117, 108, 108] .null inp
      else if c = 116 then parse_lit [116, 114, 117, 101] (.bool true) inp
      else if c = 102 then parse_lit [102, 97, 108, 115, 101] (.bool false) inp
      else if c = 34 then
        match parse_string fuel inp with
        | .ok (s, p) => .ok (.str s, p)
        | .fail rem msg => .fail rem msg
        | .bounds => .bounds
        | .fuel => .fuel
      else if c = 91 then
        match parse_array (parse_value fcd fuel) fuel inp with
        | .ok (a, p) => .ok (.array a, p)
        | .fail rem msg => .fail rem msg
        | .bounds => .bounds
        | .fuel => .fuel
      else if c = 123 then
        match parse_object (parse_value fcd fuel) fuel inp with
        | .ok (o, p) => .ok (.object o, p)
        | .fail rem msg => .fail rem msg
        | .bounds => .bounds
        | .fuel => .fuel
      else parse_number fcd inp

/-- The function `Parser::parse(out)`. -/
def Parser.parse (fcd : List Nat → Option ℚ) (fuel : Nat) (json : List Nat) : Result Value :=
  match parse_value fcd fuel (skip_ws json) with
  | .ok (v, p) =>
    match skip_ws p with
    | [] => .ok v
    | c :: p1 => .fail (c :: p1).length "Trailing characters after JSON"
  | .fail rem msg => .fail rem msg
  | .bounds => .bounds
  | .fuel => .fuel

/-- The outcome of `mj::parse(json, out, err)`: `success out` for the result
`true`, with the value stored to `out` and `err = {}`; `failure err` for the
result `false`. -/
inductive Parsed where
  | success (out : Value)
  | failure (err : Error)

/-- The function `mj::parse(json, out, err)`. -/
def parse (fcd : List Nat → Option ℚ) (fuel : Nat) (json : List Nat) : Outcome Parsed :=
  match Parser.parse fcd fuel json with
  | .ok v => .ok (.success v)
  | .fail rem msg => .ok (.failure ⟨json.length - rem, msg⟩)
  | .bounds => .bounds
  | .fuel => .fuel

/-- The function `mj::find(obj, key)`; `none` is the null pointer. -/
def find : List (Str × Value) → List Nat → Option Value
  | [], _ => none
  | (k, v) :: rest, key => if k.sv = key then some v else find rest key

/-- The text `json` of `jsonHoge`. -/
def demo_json : List Nat :=
  ("\x7b\n        \"title\": \"Mini JSON\",\n        \"version\": 1,\n" ++
   "        \"pi\": 3.14159,\n        \"ok\": true,\n" ++
   "        \"tags\": [\"fast\",\"tiny\",\"C++20\"],\n" ++
   "        \"meta\": \x7b \"author\": \"you\", \"year\": 2025 \x7d\n    \x7d").toList.map Char.toNat

/-- The bytes of a text of ASCII characters. -/
def ascii (s : String) : List Nat := s.toList.map Char.toNat

/-! ## Notions used to state how `mj::parse` consumes the text -/

/-- The function `Value::is_num()`. -/
def Value.is_num : Value → Bool
  | .num_int _ => true
  | .num_double _ => true
  | _ => false

/-- The character is one of those that `skip_ws` passes: space, line feed,
carriage return, tab. -/
def is_ws (c : Nat) : Prop := c = 32 ∨ c = 10 ∨ c = 13 ∨ c = 9

/-- The character can continue the text of a number: a digit, `.`, `e` or `E`. -/
def continues_number (c : Nat) : Prop := isdigit c = true ∨ c = 46 ∨ c = 101 ∨ c = 69

/-- The text `t` does not start with a character that continues a number. -/
def no_continuation (t : List Nat) : Prop := ∀ c ∈ t.head?, ¬ continues_number c

/-- The reader `pv` of a value reads the same value when the text `t` is
appended, unless a number ends at the end of the text and `t` continues it; and
it reads no value from the empty text. -/
def Stable (t : List Nat) (pv : List Nat → Result (Value × List Nat)) : Prop :=
  (∀ inp v rest, pv inp = .ok (v, rest) →
    (v.is_num = false ∨ rest ≠ [] ∨ no_continuation t) → pv (inp ++ t) = .ok (v, rest ++ t)) ∧
  ∀ r, pv [] ≠ .ok r

/-- A `Str` that is a view of an ASCII text. -/
def view_of (s : String) : Str := ⟨ascii s, []⟩

/-- The value of the text of `jsonHoge`, with `d` for the `double` of `3.14159`. -/
def demo_value (d : ℚ) : Value :=
  .object
    [(view_of "title", .str (view_of "Mini JSON")),
     (view_of "version", .num_int 1),
     (view_of "pi", .num_double d),
     (view_of "ok", .bool true),
     (view_of "tags", .array [.str (view_of "fast"), .str (view_of "tiny"), .str (view_of "C++20")]),
     (view_of "meta", .object [(view_of "author", .str (view_of "you")),
       (view_of "year", .num_int 2025)])]

end mj

namespace serializer

/-! ## The binary serializer (`include/Serializer`) -/

/-- The object representation of a `uint32_t`: four bytes, the least significant
first (the target stores integers little-endian). -/
def bytes_u32 (v : Nat) : List Nat :=
  [v % 256, v / 256 % 256, v / 65536 % 256, v / 16777216 % 256]

/-- The `uint32_t` whose object representation is the first four bytes of `b`. -/
def u32_of_bytes (b : List Nat) : Nat :=
  b.getD 0 0 + 256 * b.getD 1 0 + 65536 * b.getD 2 0 + 16777216 * b.getD 3 0

/-- The object representation of an `int`: that of its two's-complement value. -/
def bytes_int (v : Int) : List Nat := bytes_u32 (v % 2 ^ 32).toNat

/-- The `int` whose object representation is the first four bytes of `b`. -/
def int_of_bytes (b : List Nat) : Int :=
  if u32_of_bytes b < 2 ^ 31 then (u32_of_bytes b : Int) else (u32_of_bytes b : Int) - 2 ^ 32

/-- The object representation of an array of `int`. -/
def bytes_ints (v : List Int) : List Nat := (v.map bytes_int).flatten

/-- The array of `n` values of `int` whose object representation is `b`. -/
def ints_of_bytes : Nat → List Nat → List Int
  | 0, _ => []
  | n + 1, b => int_of_bytes (b.take 4) :: ints_of_bytes n (b.drop 4)

/-- The record `BinaryWriter`: the buffer that `buffer` points to, and `pos`. -/
structure BinaryWriter where
  buffer : List Nat
  pos : Nat
deriving DecidableEq, Repr

/-- The record `BinaryReader`: the buffer that `buffer` points to, and `pos`. -/
structure BinaryReader where
  buffer : List Nat
  pos : Nat
deriving DecidableEq, Repr

/-- The function `BinaryWriter::write_bytes(data, size)`:
`memcpy(buffer + pos, data, size); pos += size`. A range outside the buffer is
out of bounds. -/
def BinaryWriter.write_bytes (w : BinaryWriter) (data : List Nat) : Outcome BinaryWriter :=
  if w.pos + data.length ≤ w.buffer.length then
    .ok ⟨w.buffer.take w.pos ++ data ++ w.buffer.drop (w.pos + data.length),
      w.pos + data.length⟩
  else .bounds

/-- The function `BinaryWriter::access` for `uint32_t`:
`memcpy(buffer + pos, &value, sizeof(T)); pos += sizeof(T)`. -/
def BinaryWriter.access_u32 (w : BinaryWriter) (value : Nat) : Outcome BinaryWriter :=
  if w.pos + 4 ≤ w.buffer.length then
    .ok ⟨w.buffer.take w.pos ++ bytes_u32 value ++ w.buffer.drop (w.pos + 4), w.pos + 4⟩
  else .bounds

/-- The function `BinaryWriter::access` for `int`. -/
def BinaryWriter.access_int (w : BinaryWriter) (value : Int) : Outcome BinaryWriter :=
  if w.pos + 4 ≤ w.buffer.length then
    .ok ⟨w.buffer.take w.pos ++ bytes_int value ++ w.buffer.drop (w.pos + 4), w.pos + 4⟩
  else .bounds

/-- The function `BinaryReader::read_bytes(data, size)`:
`memcpy(data, buffer + pos, size); pos += size`; the result holds the bytes
copied to `data`. -/
def BinaryReader.read_bytes (r : BinaryReader) (size : Nat) :
    Outcome (List Nat × BinaryReader) :=
  if r.pos + size ≤ r.buffer.length then
    .ok ((r.buffer.drop r.pos).take size, ⟨r.buffer, r.pos + size⟩)
  else .bounds

/-- The function `BinaryReader::access` for `uint32_t`. -/
def BinaryReader.access_u32 (r : BinaryReader) : Outcome (Nat × BinaryReader) :=
  if r.pos + 4 ≤ r.buffer.length then
    .ok (u32_of_bytes ((r.buffer.drop r.pos).take 4), ⟨r.buffer, r.pos + 4⟩)
  else .bounds

/-- The function `BinaryReader::access` for `int`. -/
def BinaryReader.access_int (r : BinaryReader) : Outcome (Int × BinaryReader) :=
  if r.pos + 4 ≤ r.buffer.length then
    .ok (int_of_bytes ((r.buffer.drop r.pos).take 4), ⟨r.buffer, r.pos + 4⟩)
  else .bounds

/-- The function `serialize(std::string&, A&)` for the binary writer: the
length cast to `uint32_t`, then `field_bytes(str.data(), len)`. -/
def serialize_string (w : BinaryWriter) (str : List Nat) : Outcome BinaryWriter := do
  let len := str.length % 2 ^ 32
  let w1 ← w.access_u32 len
  w1.write_bytes (str.take len)

/-- The function `deserialize(std::string&, A&)` for the binary reader: the
length, `str.resize(len)`, then `field_bytes(str.data(), len)`. -/
def deserialize_string (r : BinaryReader) : Outcome (List Nat × BinaryReader) := do
  let p ← r.access_u32
  p.2.read_bytes p.1

/-- The function `serialize(T (&arr)[N], A&)` for `int` and the binary writer:
`field_bytes(arr, N * sizeof(T))`. -/
def serialize_array (w : BinaryWriter) (arr : List Int) : Outcome BinaryWriter :=
  w.write_bytes (bytes_ints arr)

/-- The function `deserialize(T (&arr)[N], A&)` for `int` and the binary reader:
`field_bytes(arr, N * sizeof(T))`. -/
def deserialize_array (n : Nat) (r : BinaryReader) : Outcome (List Int × BinaryReader) := do
  let p ← r.read_bytes (n * 4)
  pure (ints_of_bytes n p.1, p.2)

/-- The function `serialize(std::vector<T>&, A&)` for `int` and the binary
writer: the length cast to `uint32_t`, then, when it is not 0,
`field_bytes(vec.data(), len * sizeof(T))`. -/
def serialize_vector_int (w : BinaryWriter) (vec : List Int) : Outcome BinaryWriter := do
  let len := vec.length % 2 ^ 32
  let w1 ← w.access_u32 len
  if len > 0 then w1.write_bytes (bytes_ints (vec.take len)) else pure w1

/-- The function `deserialize(std::vector<T>&, A&)` for `int` and the binary
reader. -/
def deserialize_vector_int (r : BinaryReader) : Outcome (List Int × BinaryReader) := do
  let p ← r.access_u32
  if p.1 > 0 then do
    let q ← p.2.read_bytes (p.1 * 4)
    pure (ints_of_bytes p.1 q.1, q.2)
  else pure ([], p.2)

/-- The loop `for (uint32_t i = 0; i < len; ++i) a.field(nullptr, vec[i])` of
`serialize(std::vector<T>&, A&)` for `std::string`: `n` rounds are left, `i` is
the loop variable. -/
def serialize_vector_loop (vec : List (List Nat)) : Nat → Nat → BinaryWriter → Outcome BinaryWriter
  | 0, _, w => .ok w
  | n + 1, i, w =>
    match vec[i]? with
    | none => .bounds
    | some s => do
      let w1 ← serialize_string w s
      serialize_vector_loop vec n (i + 1) w1

/-- The function `serialize(std::vector<T>&, A&)` for `std::string`. -/
def serialize_vector_string (w : BinaryWriter) (vec : List (List Nat)) :
    Outcome BinaryWriter := do
  let len := vec.length % 2 ^ 32
  let w1 ← w.access_u32 len
  serialize_vector_loop vec len 0 w1

/-- The loop `for (uint32_t i = 0; i < len; ++i) a.field(nullptr, vec[i])` of
`deserialize(std::vector<T>&, A&)` for `std::string`: `n` rounds are left,
`done` holds the elements read so far. -/
def deserialize_vector_loop : Nat → BinaryReader → List (List Nat) →
    Outcome (List (List Nat) × BinaryReader)
  | 0, r, done => .ok (done, r)
  | n + 1, r, done => do
    let p ← deserialize_string r
    deserialize_vector_loop n p.2 (done ++ [p.1])

/-- The function `deserialize(std::vector<T>&, A&)` for `std::string`. -/
def deserialize_vector_string (r : BinaryReader) :
    Outcome (List (List Nat) × BinaryReader) := do
  let p ← r.access_u32
  deserialize_vector_loop p.1 p.2 []

/-- The record `Player` of `SerializeDemo.h`; `arrays` is the member
`int arrays[5]`. -/
structure Player where
  id : Int
  name : List Nat
  arrays : List Int
  vec_arrays : List Int
  vec_str_arrays : List (List Nat)
deriving DecidableEq, Repr

/-- The call `Serialize(writer, player)`: `Player::reflect` with the fields
`id`, `name`, `array`, `vec_array`, `vec_str_array` in this order. -/
def Serialize_writer (w : BinaryWriter) (p : Player) : Outcome BinaryWriter := do
  let w1 ← w.access_int p.id
  let w2 ← serialize_string w1 p.name
  let w3 ← serialize_array w2 p.arrays
  let w4 ← serialize_vector_int w3 p.vec_arrays
  serialize_vector_string w4 p.vec_str_arrays

/-- The call `Serialize(reader, new_player)`: `Player::reflect` on the reader. -/
def Serialize_reader (r : BinaryReader) : Outcome (Player × BinaryReader) := do
  let a ← r.access_int
  let b ← deserialize_string a.2
  let c ← deserialize_array 5 b.2
  let d ← deserialize_vector_int c.2
  let e ← deserialize_vector_string d.2
  pure (⟨a.1, b.1, c.1, d.1, e.1⟩, e.2)

/-- The body of `Hoge` up to the assertion: `player` is written to `buffer`
with a `BinaryWriter` and read back from `buffer` with a `BinaryReader`. The
result is the writer, the player read and the reader. -/
def round_trip (buffer : List Nat) (player : Player) :
    Outcome (BinaryWriter × Player × BinaryReader) := do
  let w ← Serialize_writer ⟨buffer, 0⟩ player
  let r ← Serialize_reader ⟨w.buffer, 0⟩
  pure (w, r.1, r.2)

/-- The player of `Hoge`. -/
def demo_player : Player :=
  ⟨123, [83, 97, 116, 111, 115, 104, 105], [5, 10, 15, 20, 25], [1],
    [[80, 105, 107, 97], [80, 97, 108, 108]]⟩

/-! ## Notions used to state the encoding -/

/-- A string as a 32-bit length followed by its bytes. -/
def enc_string (s : List Nat) : List Nat := bytes_u32 s.length ++ s

/-- A vector of `int` as a 32-bit length followed by its elements. -/
def enc_vector_int (v : List Int) : List Nat := bytes_u32 v.length ++ bytes_ints v

/-- A vector of strings as a 32-bit length followed by its elements. -/
def enc_vector_string (v : List (List Nat)) : List Nat :=
  bytes_u32 v.length ++ (v.map enc_string).flatten

/-- The encoding of a player: the reflected fields in their order. -/
def enc_player (p : Player) : List Nat :=
  bytes_int p.id ++ enc_string p.name ++ bytes_ints p.arrays ++ enc_vector_int p.vec_arrays ++
    enc_vector_string p.vec_str_arrays

/-- The values of a player fit their C++ types: `int` members are in the range
of `int`, `arrays` has 5 elements. -/
def Player.typed (p : Player) : Prop :=
  (-2 ^ 31 ≤ p.id ∧ p.id < 2 ^ 31) ∧ p.arrays.length = 5 ∧
  (∀ v ∈ p.arrays, -2 ^ 31 ≤ v ∧ v < 2 ^ 31) ∧
  (∀ v ∈ p.vec_arrays, -2 ^ 31 ≤ v ∧ v < 2 ^ 31)

/-- The sizes of the strings and vectors of a player fit the 32-bit length. -/
def Player.sized (p : Player) : Prop :=
  p.name.length < 2 ^ 32 ∧ p.vec_arrays.length < 2 ^ 32 ∧ p.vec_str_arrays.length < 2 ^ 32 ∧
  ∀ s ∈ p.vec_str_arrays, s.length < 2 ^ 32

/-- The writer `w1` is the writer `w` after the bytes `data` were written. -/
def written (w w1 : BinaryWriter) (data : List Nat) : Prop :=
  w1.pos = w.pos + data.length ∧ w1.buffer.length = w.buffer.length ∧
  w1.buffer.take w1.pos = w.buffer.take w.pos ++ data

/-- The player of `Hoge` without a name. -/
def unnamed_player : Player :=
  ⟨123, [], [5, 10, 15, 20, 25], [1], [[80, 105, 107, 97], [80, 97, 108, 108]]⟩

/-- The player of `Hoge` with a name of `2^32` characters. -/
def long_named_player : Player :=
  ⟨123, List.replicate (2 ^ 32) 83, [5, 10, 15, 20, 25], [1],
    [[80, 105, 107, 97], [80, 97, 108, 108]]⟩

end serializer

/-! # Theorems -/

/-! ## The outcome monad -/

@[simp] theorem Outcome.ok_bind {α β : Type} (a : α) (f : α → Outcome β) :
    (Outcome.ok a >>= f) = f a := rfl

@[simp] theorem Outcome.bounds_bind {α β : Type} (f : α → Outcome β) :
    ((Outcome.bounds : Outcome α) >>= f) = Outcome.bounds := rfl

@[simp] theorem Outcome.fuel_bind {α β : Type} (f : α → Outcome β) :
    ((Outcome.fuel : Outcome α) >>= f) = Outcome.fuel := rfl

@[simp] theorem Outcome.pure_eq {α : Type} (a : α) : (pure a : Outcome α) = Outcome.ok a := rfl

/-- A sequence returns exactly when both of its parts return. -/
theorem Outcome.bind_eq_ok {α β : Type} (x : Outcome α) (f : α → Outcome β) (b : β) :
    (x >>= f) = Outcome.ok b ↔ ∃ a, x = Outcome.ok a ∧ f a = Outcome.ok b := by
  cases x with
  | ok a => simp
  | bounds => simp
  | fuel => simp

namespace ttf

/-! ## The format-12 loop -/

/-- Without a group that contains the code point the format-12 loop ends
without a hit, as long as the midpoint does not wrap. -/
theorem search12_miss (gs : List Cmap12Group) (cp : Nat) (hlen : gs.length < 2 ^ 31)
    (hno : ∀ g ∈ gs, ¬ (g.start_char_code ≤ cp ∧ cp ≤ g.end_char_code)) :
    ∀ (fuel lo hi : Nat), hi ≤ gs.length → hi - lo < fuel →
      search12 gs cp fuel lo hi = .ok none := by
  intro fuel
  induction fuel with
  | zero => intro lo hi _ h; omega
  | succ n ih =>
    intro lo hi hhi hfuel
    unfold search12
    by_cases hlt : lo < hi
    · have hmid : (lo + hi) % 2 ^ 32 / 2 = (lo + hi) / 2 := by
        rw [Nat.mod_eq_of_lt (by omega)]
      have hm : (lo + hi) / 2 < gs.length := by omega
      simp only [hlt, if_true, hmid, List.getElem?_eq_getElem hm]
      have hmem : gs[(lo + hi) / 2] ∈ gs := List.getElem_mem hm
      have hnot := hno _ hmem
      by_cases h1 : cp < gs[(lo + hi) / 2].start_char_code
      · simp only [h1, if_true]
        exact ih lo ((lo + hi) / 2) (by omega) (by omega)
      · by_cases h2 : cp > gs[(lo + hi) / 2].end_char_code
        · simp only [h1, h2, if_true, if_false]
          rw [Nat.mod_eq_of_lt (by omega)]
          exact ih ((lo + hi) / 2 + 1) hi hhi (by omega)
        · exfalso; apply hnot; omega
    · simp [hlt]

/-- In an ordered index the group number `i` starts at a code point `≥ i`. -/
theorem index_le_start (gs : List Cmap12Group) (hord : Cmap12Ordered gs) :
    ∀ (i : Nat) (h : i < gs.length), i ≤ gs[i].start_char_code := by
  intro i
  induction i with
  | zero => intro _; exact Nat.zero_le _
  | succ k ih =>
    intro h
    have hk : k < gs.length := by omega
    have h1 := ih hk
    have h2 := hord.1 _ (List.getElem_mem hk)
    have h3 := (List.pairwise_iff_getElem.mp hord.2) k (k + 1) hk h (by omega)
    omega

/-- In an ordered index the format-12 loop returns at the group that contains
the code point. The midpoint never wraps, whatever the number of groups,
because the loop only moves `lo` below the index of the hit. -/
theorem search12_hit (gs : List Cmap12Group) (cp : Nat) (hord : Cmap12Ordered gs)
    (hlen : gs.length < 2 ^ 32) (t : Nat) (ht : t < gs.length)
    (hin : gs[t].start_char_code ≤ cp ∧ cp ≤ gs[t].end_char_code) (hcp : cp ≤ 0x10FFFF) :
    ∀ (fuel lo hi : Nat), lo ≤ t → t < hi → hi ≤ gs.length → lo + hi < 2 ^ 32 →
      hi - lo < fuel →
      search12 gs cp fuel lo hi =
        .ok (some ((gs[t].start_glyph_id + (cp - gs[t].start_char_code)) % 2 ^ 32 % 2 ^ 16)) := by
  have htcp : t ≤ cp := le_trans (index_le_start gs hord t ht) hin.1
  have hpw := List.pairwise_iff_getElem.mp hord.2
  intro fuel
  induction fuel with
  | zero => intro lo hi _ _ _ _ h; omega
  | succ n ih =>
    intro lo hi hlo hthi hhi hsum hfuel
    unfold search12
    have hlt : lo < hi := by omega
    have hmid : (lo + hi) % 2 ^ 32 / 2 = (lo + hi) / 2 := by
      rw [Nat.mod_eq_of_lt hsum]
    have hm : (lo + hi) / 2 < gs.length := by omega
    simp only [hlt, if_true, hmid, List.getElem?_eq_getElem hm]
    rcases Nat.lt_trichotomy ((lo + hi) / 2) t with hc | hc | hc
    · -- the midpoint lies before the hit
      have h1 := hpw _ _ hm ht hc
      have h2 := hord.1 _ (List.getElem_mem hm)
      have n1 : ¬ cp < gs[(lo + hi) / 2].start_char_code := by omega
      have n2 : cp > gs[(lo + hi) / 2].end_char_code := by omega
      simp only [n1, n2, if_true, if_false]
      rw [Nat.mod_eq_of_lt (by omega)]
      exact ih ((lo + hi) / 2 + 1) hi (by omega) hthi hhi (by omega) (by omega)
    · -- the midpoint is the hit
      subst hc
      have n1 : ¬ cp < gs[(lo + hi) / 2].start_char_code := by omega
      have n2 : ¬ cp > gs[(lo + hi) / 2].end_char_code := by omega
      simp only [n1, n2, if_false]
    · -- the midpoint lies after the hit
      have h1 := hpw _ _ ht hm hc
      have n1 : cp < gs[(lo + hi) / 2].start_char_code := by omega
      simp only [n1, if_true]
      exact ih lo ((lo + hi) / 2) hlo hc (by omega) (by omega) (by omega)

/-- The function `GlyphId` on a code point that lies in a group of an ordered
format-12 index. -/
theorem GlyphId_of_mem12 (f : FontLoader) (hlen : f.cmap12.length < 2 ^ 32)
    (hord : Cmap12Ordered f.cmap12) (g : Cmap12Group) (hg : g ∈ f.cmap12) (cp : Nat)
    (hin : g.start_char_code ≤ cp ∧ cp ≤ g.end_char_code) (hcp : cp ≤ 0x10FFFF)
    (fuel : Nat) (hfuel : f.cmap12.length < fuel) :
    GlyphId f fuel cp = .ok ((g.start_glyph_id + (cp - g.start_char_code)) % 65536) := by
  obtain ⟨t, ht, rfl⟩ := List.getElem_of_mem hg
  have hne : f.cmap12 ≠ [] := by
    intro h; rw [h] at ht; simp at ht
  have hs := search12_hit f.cmap12 cp hord hlen t ht hin hcp fuel 0 f.cmap12.length
    (Nat.zero_le _) ht (le_refl _) (by omega) (by omega)
  unfold GlyphId
  have n1 : ¬ cp > 0x10FFFF := by omega
  simp only [n1, if_false, hne, ne_eq, not_false_eq_true, if_true,
    Nat.mod_eq_of_lt hlen, hs]
  congr 1
  omega

/-- C1 (amended). For an ordered, non-overlapping format-12 index (of `uint32_t`
size) and every group `g` of it: if `g.start_char_code ≤ 0x10FFFF` then
`GlyphId(g.start_char_code)` is `g.start_glyph_id` reduced modulo 65536, and if
`g.end_char_code ≤ 0x10FFFF` then `GlyphId(g.end_char_code)` is
`g.start_glyph_id + (g.end_char_code - g.start_char_code)` reduced modulo 65536,
whatever the format-4 index contains. -/
theorem C1_format12_round_trip (f : FontLoader) (hlen : f.cmap12.length < 2 ^ 32)
    (hord : Cmap12Ordered f.cmap12) (g : Cmap12Group) (hg : g ∈ f.cmap12)
    (fuel : Nat) (hfuel : f.cmap12.length < fuel) :
    (g.start_char_code ≤ 0x10FFFF →
      GlyphId f fuel g.start_char_code = .ok (g.start_glyph_id % 65536)) ∧
    (g.end_char_code ≤ 0x10FFFF →
      GlyphId f fuel g.end_char_code =
        .ok ((g.start_glyph_id + (g.end_char_code - g.start_char_code)) % 65536)) := by
  have hv := hord.1 g hg
  constructor
  · intro h
    have := GlyphId_of_mem12 f hlen hord g hg g.start_char_code ⟨le_refl _, hv⟩ h fuel hfuel
    simpa using this
  · intro h
    exact GlyphId_of_mem12 f hlen hord g hg g.end_char_code ⟨hv, le_refl _⟩ h fuel hfuel

/-- Witness of C1: a two-group index in front of a format-4 segment that maps
the same code points elsewhere. -/
theorem C1_format12_round_trip_witness :
    (GlyphId (cmapOnly [⟨100, 0, 7, 0⟩] [] [⟨65, 90, 3⟩, ⟨97, 99, 65540⟩]) 3 97 = .ok 4) ∧
    (GlyphId (cmapOnly [⟨100, 0, 7, 0⟩] [] [⟨65, 90, 3⟩, ⟨97, 99, 65540⟩]) 3 99 = .ok 6) := by
  have h := C1_format12_round_trip
    (cmapOnly [⟨100, 0, 7, 0⟩] [] [⟨65, 90, 3⟩, ⟨97, 99, 65540⟩])
    (by decide) (by unfold Cmap12Ordered; decide) ⟨97, 99, 65540⟩ (by decide) 3 (by decide)
  exact ⟨h.1 (by decide), h.2 (by decide)⟩

/-- C1 as stated fails: the result is a `uint16_t`, so a group whose
`start_glyph_id` is 65536 resolves to 0, and a group that starts above
`0x10FFFF` is cut off by the first test of `GlyphId`. -/
theorem C1_counterexample :
    (Cmap12Ordered [⟨65, 65, 65536⟩] ∧
      GlyphId (cmapOnly [] [] [⟨65, 65, 65536⟩]) 2 65 = .ok 0 ∧ (0 : Nat) ≠ 65536) ∧
    (Cmap12Ordered [⟨0x110000, 0x110000, 1⟩] ∧
      GlyphId (cmapOnly [] [] [⟨0x110000, 0x110000, 1⟩]) 2 0x110000 = .ok 0 ∧
      (0 : Nat) ≠ 1) := by
  refine ⟨⟨?_, by decide, by decide⟩, ⟨?_, by decide, by decide⟩⟩ <;>
    (unfold Cmap12Ordered; decide)

/-! ## The format-4 lookup -/

/-- In an ordered format-4 index `std::lower_bound` returns the segment that
contains the character. -/
theorem lower_bound_loop_hit (segs : List Cmap4Seg) (c : Nat) (hord : Cmap4Ordered segs)
    (k : Nat) (hk : k < segs.length)
    (hin : segs[k].start_code ≤ c ∧ c ≤ segs[k].end_code) :
    ∀ (fuel first count : Nat), first ≤ k → k ≤ first + count →
      first + count ≤ segs.length → count ≤ fuel →
      lower_bound_loop segs c fuel first count = k := by
  have hpw := List.pairwise_iff_getElem.mp hord.2
  intro fuel
  induction fuel with
  | zero =>
    intro first count h1 h2 _ h4
    unfold lower_bound_loop
    omega
  | succ n ih =>
    intro first count h1 h2 h3 h4
    unfold lower_bound_loop
    by_cases hc : 0 < count
    · have hm : first + count / 2 < segs.length := by omega
      simp only [hc, if_true, List.getElem?_eq_getElem hm]
      rcases Nat.lt_trichotomy (first + count / 2) k with hlt | heq | hgt
      · have := hpw _ _ hm hk hlt
        have b : segs[first + count / 2].end_code < c := by omega
        simp only [b, if_true]
        exact ih _ _ (by omega) (by omega) (by omega) (by omega)
      · have b : ¬ segs[first + count / 2].end_code < c := by
          simp only [heq]; omega
        simp only [b, if_false]
        exact ih _ _ h1 (by omega) (by omega) (by omega)
      · have := hpw _ _ hk hm hgt
        have := hord.1 _ (List.getElem_mem hm)
        have b : ¬ segs[first + count / 2].end_code < c := by omega
        simp only [b, if_false]
        exact ih _ _ h1 (by omega) (by omega) (by omega)
    · simp only [hc, if_false]
      omega

/-- The iterator that `std::lower_bound` returns in an ordered index. -/
theorem lower_bound_hit (segs : List Cmap4Seg) (c : Nat) (hord : Cmap4Ordered segs)
    (k : Nat) (hk : k < segs.length)
    (hin : segs[k].start_code ≤ c ∧ c ≤ segs[k].end_code) :
    lower_bound segs c = k :=
  lower_bound_loop_hit segs c hord k hk hin _ 0 _ (Nat.zero_le _) (by omega) (by omega)
    (le_refl _)

/-- When no format-12 group contains the code point, `GlyphId` goes on to the
format-4 lookup. -/
theorem GlyphId_of_not_in12 (f : FontLoader) (h12 : Cmap12NoWrap f) (cp : Nat)
    (hcp : cp ≤ 0x10FFFF) (hno : NotIn12 f cp) (fuel : Nat) (hfuel : f.cmap12.length < fuel) :
    GlyphId f fuel cp = .ok (GlyphId4 f cp) := by
  unfold Cmap12NoWrap at h12
  unfold GlyphId
  have n1 : ¬ cp > 0x10FFFF := by omega
  simp only [n1, if_false]
  by_cases hne : f.cmap12 = []
  · simp [hne]
  · have hs := search12_miss f.cmap12 cp (by omega) hno fuel 0 f.cmap12.length (le_refl _)
      (by omega)
    simp only [ne_eq, hne, not_false_eq_true, if_true, Nat.mod_eq_of_lt (show
      f.cmap12.length < 2 ^ 32 by omega), hs]

/-- The format-4 lookup on a character of segment number `i` of an ordered
index: the segment found is that one. -/
theorem GlyphId4_of_mem (f : FontLoader) (hty : Cmap4Typed f) (hord : Cmap4Ordered f.cmap4)
    (i : Nat) (hi : i < f.cmap4.length) (c : Nat)
    (hin : f.cmap4[i].start_code ≤ c ∧ c ≤ f.cmap4[i].end_code) :
    GlyphId4 f c =
      if f.cmap4[i].id_range_offset = 0 then (c + f.cmap4[i].id_delta) % 2 ^ 16
      else
        match f.glyph_id_array4[(f.cmap4[i].id_range_offset / 2 + (c - f.cmap4[i].start_code)
            + i + (2 ^ 32 - f.cmap4.length)) % 2 ^ 32]? with
        | none => 0
        | some gid => if gid ≠ 0 then (gid + f.cmap4[i].id_delta) % 2 ^ 16 else gid := by
  have hb := hty.1 _ (List.getElem_mem hi)
  have hc : c ≤ 0xFFFF := by omega
  have hne : f.cmap4 ≠ [] := by
    intro h; rw [h] at hi; simp at hi
  have hmod : c % 2 ^ 16 = c := Nat.mod_eq_of_lt (by omega)
  have hlb := lower_bound_hit f.cmap4 c hord i hi hin
  have hn := hty.2.1
  unfold GlyphId4
  simp only [hne, ne_eq, not_false_eq_true, hc, and_self, if_true, hmod, hlb,
    List.getElem?_eq_getElem hi, hin,
    Nat.mod_eq_of_lt (show i < 2 ^ 32 by omega),
    Nat.mod_eq_of_lt (show f.cmap4.length < 2 ^ 32 by omega)]

/-- C2. Format-4 direct mapping: in a font whose format-4 segments are ordered
and non-overlapping, for a segment `s` with `id_range_offset = 0` and a code
point `c` with `start_code ≤ c ≤ end_code` that no format-12 group contains,
`GlyphId(c) = (c + id_delta) mod 65536`. -/
theorem C2_format4_direct (f : FontLoader) (hty : Cmap4Typed f) (h12 : Cmap12NoWrap f)
    (hord : Cmap4Ordered f.cmap4) (s : Cmap4Seg) (hs : s ∈ f.cmap4)
    (h0 : s.id_range_offset = 0) (c : Nat) (hin : s.start_code ≤ c ∧ c ≤ s.end_code)
    (hno : NotIn12 f c) (fuel : Nat) (hfuel : f.cmap12.length < fuel) :
    GlyphId f fuel c = .ok ((c + s.id_delta) % 65536) := by
  obtain ⟨i, hi, rfl⟩ := List.getElem_of_mem hs
  have hb := hty.1 _ (List.getElem_mem hi)
  rw [GlyphId_of_not_in12 f h12 c (by omega) hno fuel hfuel,
    GlyphId4_of_mem f hty hord i hi c hin]
  simp [h0]

/-- Witness of C2: the font of the scenario, whose only cmap is a format-4 index
that maps U+0041 to glyph 5. -/
theorem C2_format4_direct_witness :
    GlyphId (cmapOnly [⟨65, 65, 65476, 0⟩, ⟨0xFFFF, 0xFFFF, 1, 0⟩] [] []) 1 65 = .ok 5 :=
  C2_format4_direct (cmapOnly [⟨65, 65, 65476, 0⟩, ⟨0xFFFF, 0xFFFF, 1, 0⟩] [] [])
    (by unfold Cmap4Typed; decide) (by unfold Cmap12NoWrap; decide)
    (by unfold Cmap4Ordered; decide) ⟨65, 65, 65476, 0⟩ (by decide) rfl 65 (by decide)
    (by unfold NotIn12; decide) 1 (by decide)

/-- C3 (amended). Format-4 indirect mapping: for a code point `c` inside segment
number `i` of an ordered, non-overlapping format-4 index of `n` segments, with
`id_range_offset ≠ 0`, when no format-12 group contains `c`: with
`k = id_range_offset/2 + (c - start_code) + i - n` as an integer, `GlyphId(c)` is
0 if `k` is negative or not an index of the glyph-id array, 0 if the entry at
`k` is 0, and `(entry + id_delta) mod 65536` otherwise. -/
theorem C3_format4_indirect (f : FontLoader) (hty : Cmap4Typed f) (h12 : Cmap12NoWrap f)
    (hord : Cmap4Ordered f.cmap4) (i : Nat) (hi : i < f.cmap4.length)
    (hne : f.cmap4[i].id_range_offset ≠ 0) (c : Nat)
    (hin : f.cmap4[i].start_code ≤ c ∧ c ≤ f.cmap4[i].end_code)
    (hno : NotIn12 f c) (fuel : Nat) (hfuel : f.cmap12.length < fuel) :
    GlyphId f fuel c = .ok (
      let k : Int := ((f.cmap4[i].id_range_offset / 2 : Nat) : Int)
        + ((c : Int) - (f.cmap4[i].start_code : Int)) + (i : Int) - (f.cmap4.length : Int)
      if 0 ≤ k ∧ k < (f.glyph_id_array4.length : Int) then
        match f.glyph_id_array4[k.toNat]? with
        | none => 0
        | some entry => if entry = 0 then 0 else (entry + f.cmap4[i].id_delta) % 65536
      else 0) := by
  have hb := hty.1 _ (List.getElem_mem hi)
  have hn := hty.2.1
  have ha := hty.2.2
  rw [GlyphId_of_not_in12 f h12 c (by omega) hno fuel hfuel,
    GlyphId4_of_mem f hty hord i hi c hin]
  simp only [hne, if_false]
  congr 1
  by_cases hk : 0 ≤ ((f.cmap4[i].id_range_offset / 2 : Nat) : Int)
        + ((c : Int) - (f.cmap4[i].start_code : Int)) + (i : Int) - (f.cmap4.length : Int) ∧
      ((f.cmap4[i].id_range_offset / 2 : Nat) : Int)
        + ((c : Int) - (f.cmap4[i].start_code : Int)) + (i : Int) - (f.cmap4.length : Int)
        < (f.glyph_id_array4.length : Int)
  · have e : (f.cmap4[i].id_range_offset / 2 + (c - f.cmap4[i].start_code) + i
        + (2 ^ 32 - f.cmap4.length)) % 2 ^ 32 =
        (((f.cmap4[i].id_range_offset / 2 : Nat) : Int)
        + ((c : Int) - (f.cmap4[i].start_code : Int)) + (i : Int)
        - (f.cmap4.length : Int)).toNat := by
      omega
    simp only [hk, and_self, if_true, e]
    cases f.glyph_id_array4[(((f.cmap4[i].id_range_offset / 2 : Nat) : Int)
        + ((c : Int) - (f.cmap4[i].start_code : Int)) + (i : Int)
        - (f.cmap4.length : Int)).toNat]? with
    | none => rfl
    | some e0 =>
      by_cases hz : e0 = 0
      · simp [hz]
      · simp [hz]
  · have e : f.glyph_id_array4.length ≤
        (f.cmap4[i].id_range_offset / 2 + (c - f.cmap4[i].start_code) + i
        + (2 ^ 32 - f.cmap4.length)) % 2 ^ 32 := by
      omega
    simp only [hk, if_false, List.getElem?_eq_none e]

/-- Witness of C3: one segment `[65, 70]` with `id_range_offset = 2` over the
glyph-id array `[9, 0, 11]` and `id_delta = 1`; the character 67 reads entry 2. -/
theorem C3_format4_indirect_witness :
    GlyphId (cmapOnly [⟨70, 65, 1, 2⟩] [9, 0, 11] []) 1 67 = .ok 12 := by
  have h := C3_format4_indirect (cmapOnly [⟨70, 65, 1, 2⟩] [9, 0, 11] [])
    (by unfold Cmap4Typed; decide) (by unfold Cmap12NoWrap; decide)
    (by unfold Cmap4Ordered; decide) 0 (by decide) (by decide) 67 (by decide)
    (by unfold NotIn12; decide) 1 (by decide)
  simpa [cmapOnly, FontLoader.init] using h

/-- C3 as stated fails: a code point inside a format-4 segment that a format-12
group contains as well is resolved by the format-12 group. The segment would
read the entry 9 of the glyph-id array; the result is the glyph 7 of the group. -/
theorem C3_counterexample :
    Cmap4Ordered [⟨65, 65, 0, 2⟩] ∧
    (⟨65, 65, 0, 2⟩ : Cmap4Seg).id_range_offset / 2 + (65 - 65) + 0 - 1 = 0 ∧
    [9][0]? = some 9 ∧
    GlyphId (cmapOnly [⟨65, 65, 0, 2⟩] [9] [⟨65, 65, 7⟩]) 2 65 = .ok 7 ∧
    (7 : Nat) ≠ (9 + 0) % 65536 := by
  refine ⟨?_, by decide, by decide, by decide, by decide⟩
  unfold Cmap4Ordered; decide

/-- C4. Missing glyph: with no assumption on the ordering of the cmap data, a
code point above `0x10FFFF`, or one that lies in no format-12 group and in no
format-4 segment, resolves to glyph id 0. -/
theorem C4_missing_glyph (f : FontLoader) (h12 : Cmap12NoWrap f) (cp : Nat)
    (h : cp > 0x10FFFF ∨ (NotIn12 f cp ∧ NotIn4 f cp))
    (fuel : Nat) (hfuel : f.cmap12.length < fuel) :
    GlyphId f fuel cp = .ok 0 := by
  by_cases hbig : cp > 0x10FFFF
  · unfold GlyphId
    simp [hbig]
  · rcases h with h | ⟨hn12, hn4⟩
    · exact absurd h hbig
    · rw [GlyphId_of_not_in12 f h12 cp (by omega) hn12 fuel hfuel]
      congr 1
      unfold GlyphId4
      by_cases hc : f.cmap4 ≠ [] ∧ cp ≤ 0xFFFF
      · have hmod : cp % 2 ^ 16 = cp := Nat.mod_eq_of_lt (by omega)
        rw [if_pos hc]
        simp only [hmod]
        cases hq : f.cmap4[lower_bound f.cmap4 cp]? with
        | none => rfl
        | some seg =>
          have hmem : seg ∈ f.cmap4 := List.mem_iff_getElem?.mpr ⟨_, hq⟩
          have := hn4 seg hmem
          simp only [this, if_false]
      · rw [if_neg hc]

/-- Witness of C4: an unordered font in which 66 lies in no group and in no
segment. -/
theorem C4_missing_glyph_witness :
    GlyphId (cmapOnly [⟨90, 70, 1, 0⟩, ⟨65, 60, 1, 0⟩] [] [⟨100, 200, 1⟩, ⟨10, 20, 5⟩]) 3 66
      = .ok 0 :=
  C4_missing_glyph (cmapOnly [⟨90, 70, 1, 0⟩, ⟨65, 60, 1, 0⟩] [] [⟨100, 200, 1⟩, ⟨10, 20, 5⟩])
    (by unfold Cmap12NoWrap; decide) 66
    (Or.inr ⟨by unfold NotIn12; decide, by unfold NotIn4; decide⟩) 3 (by decide)

/-! ## The table directory -/

/-- A read inside the blob returns. -/
theorem byteAt_ok (d : List Nat) (p : Nat) (h : p < d.length) : byteAt d p = .ok d[p] := by
  unfold byteAt
  rw [List.getElem?_eq_getElem h]

/-- Four bytes inside the blob are read without leaving it. -/
theorem ReadU32_ok (d : List Nat) (p : Nat) (h : p + 4 ≤ d.length) :
    ∃ v, ReadU32 d p = .ok v := by
  unfold ReadU32
  rw [byteAt_ok d p (by omega), byteAt_ok d (p + 1) (by omega), byteAt_ok d (p + 2) (by omega),
    byteAt_ok d (p + 3) (by omega)]
  exact ⟨_, rfl⟩

/-- Two bytes inside the blob are read without leaving it. -/
theorem ReadU16_ok (d : List Nat) (p : Nat) (h : p + 2 ≤ d.length) :
    ∃ v, ReadU16 d p = .ok v := by
  unfold ReadU16
  rw [byteAt_ok d p (by omega), byteAt_ok d (p + 1) (by omega)]
  exact ⟨_, rfl⟩

/-- The loop of `ParseDirectory` stays inside the blob when the remaining
entries do, and it keeps only entries that pass the 32-bit test. -/
theorem ParseDirectory_loop_ok (d : List Nat) :
    ∀ (n p : Nat) (directory : List DirEntry), p + 16 * n ≤ d.length →
      (∀ e ∈ directory, (e.offset + e.length) % 2 ^ 32 ≤ d.length) →
      ∃ dir, ParseDirectory_loop d n p directory = .ok dir ∧
        ∀ e ∈ dir, (e.offset + e.length) % 2 ^ 32 ≤ d.length := by
  intro n
  induction n with
  | zero =>
    intro p directory _ h
    exact ⟨directory, rfl, h⟩
  | succ n ih =>
    intro p directory hp h
    obtain ⟨v0, h0⟩ := ReadU32_ok d p (by omega)
    obtain ⟨v1, h1⟩ := ReadU32_ok d (p + 4) (by omega)
    obtain ⟨v2, h2⟩ := ReadU32_ok d (p + 8) (by omega)
    obtain ⟨v3, h3⟩ := ReadU32_ok d (p + 12) (by omega)
    unfold ParseDirectory_loop
    simp only [h0, h1, h2, h3, Outcome.ok_bind]
    by_cases hc : (v2 + v3) % 2 ^ 32 ≤ d.length
    · rw [if_pos hc]
      apply ih (p + 16) _ (by omega)
      intro e he
      rcases List.mem_append.mp he with he | he
      · exact h e he
      · rw [List.mem_singleton.mp he]; exact hc
    · rw [if_neg hc]
      exact ih (p + 16) _ (by omega) h

/-- C5 fails on the code: the test `e.offset + e.length <= size_` adds two
`uint32_t` values, so the sum wraps. On a 28-byte blob whose only directory
entry has offset `0xFFFFFFFF` and length 1 the entry is kept although
`offset + length = 2^32 > 28`, and `TablePtr` reports the table present. -/
theorem C5_directory_overflow :
    ParseDirectory [0, 1, 0, 0, 0, 1, 0, 0, 0, 0, 0, 0,
        0x67, 0x6C, 0x79, 0x66, 0, 0, 0, 0, 0xFF, 0xFF, 0xFF, 0xFF, 0, 0, 0, 1]
      = .ok [⟨Tag4 'g' 'l' 'y' 'f', 0, 0xFFFFFFFF, 1⟩] ∧
    ¬ ((0xFFFFFFFF : Nat) + 1 ≤ 28) ∧
    TablePtr [⟨Tag4 'g' 'l' 'y' 'f', 0, 0xFFFFFFFF, 1⟩] (Tag4 'g' 'l' 'y' 'f')
      = some 0xFFFFFFFF := by
  refine ⟨by decide, by decide, by decide⟩

/-- C6 (amended). For every blob longer than 12 bytes whose table directory, 12
header bytes and 16 bytes per announced table, lies inside the blob,
`ParseDirectory` reads no byte outside the blob, and every entry it keeps
satisfies `(offset + length) mod 2^32 ≤ size`. -/
theorem C6_directory_reads_in_bounds (blob : List Nat) (_hlen : 12 < blob.length)
    (n : Nat) (hn : ReadU16 blob 4 = .ok n) (hfit : 12 + 16 * n ≤ blob.length) :
    ∃ dir, ParseDirectory blob = .ok dir ∧
      ∀ e ∈ dir, (e.offset + e.length) % 2 ^ 32 ≤ blob.length := by
  unfold ParseDirectory
  simp only [hn, Outcome.ok_bind]
  exact ParseDirectory_loop_ok blob n 12 [] hfit (by simp)

/-- Witness of C6: a 28-byte blob with one directory entry. -/
theorem C6_directory_reads_in_bounds_witness :
    ∃ dir, ParseDirectory [0, 1, 0, 0, 0, 1, 0, 0, 0, 0, 0, 0,
        0x67, 0x6C, 0x79, 0x66, 0, 0, 0, 0, 0, 0, 0, 28, 0, 0, 0, 0] = .ok dir ∧
      ∀ e ∈ dir, (e.offset + e.length) % 2 ^ 32 ≤
        ([0, 1, 0, 0, 0, 1, 0, 0, 0, 0, 0, 0,
          0x67, 0x6C, 0x79, 0x66, 0, 0, 0, 0, 0, 0, 0, 28, 0, 0, 0, 0] : List Nat).length :=
  C6_directory_reads_in_bounds _ (by decide) 1 (by decide) (by decide)

/-- C6 as stated fails. A 13-byte blob that announces one table makes
`ParseDirectory` read the entry behind the end of the blob. A 28-byte blob
whose directory is complete and whose `head` entry (offset 28, length 0) passes
the test makes `ParseEssentialTables` read `head + 18` behind the end. -/
theorem C6_counterexample :
    (12 < ([0, 1, 0, 0, 0, 1, 0, 0, 0, 0, 0, 0, 0] : List Nat).length ∧
      FontLoader.construct [0, 1, 0, 0, 0, 1, 0, 0, 0, 0, 0, 0, 0] = .bounds) ∧
    (ParseDirectory [0, 1, 0, 0, 0, 1, 0, 0, 0, 0, 0, 0,
        0x68, 0x65, 0x61, 0x64, 0, 0, 0, 0, 0, 0, 0, 28, 0, 0, 0, 0]
      = .ok [⟨Tag4 'h' 'e' 'a' 'd', 0, 28, 0⟩] ∧
      FontLoader.construct [0, 1, 0, 0, 0, 1, 0, 0, 0, 0, 0, 0,
        0x68, 0x65, 0x61, 0x64, 0, 0, 0, 0, 0, 0, 0, 28, 0, 0, 0, 0] = .bounds) := by
  refine ⟨⟨by decide, by decide⟩, ⟨by decide, by decide⟩⟩

/-! ## Contours -/

theorem AddLine_rebase (base o : GlyphContour) (x0 y0 x1 y1 : ℚ) :
    AddLine x0 y0 x1 y1 (rebase base o) = rebase base (AddLine x0 y0 x1 y1 o) := by
  simp [AddLine, rebase]

theorem AddQuad_rebase (base o : GlyphContour) (x0 y0 cx cy x1 y1 : ℚ) :
    AddQuad x0 y0 cx cy x1 y1 (rebase base o) = rebase base (AddQuad x0 y0 cx cy x1 y1 o) := by
  simp [AddQuad, rebase]

theorem rebase_empty (out : GlyphContour) : rebase out ⟨[], [], 0⟩ = out := by
  simp [rebase]

/-- The walk over a contour only appends segments: run on an outline that comes
after `base`, it yields the run without `base`, appended to `base`. -/
theorem EmitContour_loop_rebase (xs ys : List Int) (flags : List Nat) (first_idx last_idx : Nat)
    (dx dy : Int) (start : Nat) (base : GlyphContour) :
    ∀ (fuel i_cur : Nat) (prev_x prev_y : ℚ) (prev_on : Bool) (o : GlyphContour),
      EmitContour_loop xs ys flags first_idx last_idx dx dy start fuel i_cur prev_x prev_y
          prev_on (rebase base o) =
        Outcome.map (rebase base)
          (EmitContour_loop xs ys flags first_idx last_idx dx dy start fuel i_cur prev_x prev_y
            prev_on o) := by
  intro fuel
  induction fuel with
  | zero => intro _ _ _ _ _; rfl
  | succ n ih =>
    intro i_cur prev_x prev_y prev_on o
    unfold EmitContour_loop
    cases hp : Pt xs ys dx dy i_cur with
    | bounds => rfl
    | fuel => rfl
    | ok cur =>
      cases hc : IsOn flags i_cur with
      | bounds => rfl
      | fuel => rfl
      | ok cur_on =>
        simp only [Outcome.ok_bind, Outcome.pure_eq, AddLine_rebase, AddQuad_rebase, ih]
        split_ifs <;> rfl

/-- The function `EmitContour` only appends segments. -/
theorem EmitContour_rebase (xs ys : List Int) (flags : List Nat) (first_idx last_idx : Nat)
    (dx dy : Int) (fuel : Nat) (out : GlyphContour) :
    EmitContour xs ys flags first_idx last_idx dx dy fuel out =
      Outcome.map (rebase out)
        (EmitContour xs ys flags first_idx last_idx dx dy fuel ⟨[], [], 0⟩) := by
  unfold EmitContour
  by_cases hn : (last_idx + 2 ^ 16 - first_idx + 1) % 2 ^ 16 = 0
  · rw [if_pos hn, if_pos hn]
    simp [Outcome.map, rebase_empty]
  · rw [if_neg hn, if_neg hn]
    cases hs : EmitContour_start flags first_idx last_idx fuel first_idx with
    | bounds => rfl
    | fuel => rfl
    | ok start =>
      simp only [Outcome.ok_bind]
      cases hp : Pt xs ys dx dy start with
      | bounds => rfl
      | fuel => rfl
      | ok prev =>
        simp only [Outcome.ok_bind]
        cases hc : IsOn flags start with
        | bounds => rfl
        | fuel => rfl
        | ok prev_on =>
          simp only [Outcome.ok_bind]
          have h := EmitContour_loop_rebase xs ys flags first_idx last_idx dx dy start out fuel
            (Next first_idx last_idx start) prev.1 prev.2 prev_on ⟨[], [], 0⟩
          rw [rebase_empty] at h
          exact h

/-- An element inside a vector is read. -/
theorem vecAt_ok {α : Type} (v : List α) (i : Nat) (h : i < v.length) : vecAt v i = .ok v[i] := by
  unfold vecAt
  rw [List.getElem?_eq_getElem h]

theorem IsOn_ok (flags : List Nat) (i : Nat) (h : i < flags.length) :
    IsOn flags i = .ok (decide (flags[i] &&& 1 ≠ 0)) := by
  unfold IsOn
  rw [vecAt_ok flags i h]
  rfl

theorem Pt_ok (xs ys : List Int) (dx dy : Int) (i : Nat) (hx : i < xs.length)
    (hy : i < ys.length) :
    Pt xs ys dx dy i = .ok ((xs[i] : ℚ) + (dx : ℚ), (ys[i] : ℚ) + (dy : ℚ)) := by
  unfold Pt
  rw [vecAt_ok xs i hx, vecAt_ok ys i hy]
  rfl

/-- Inside a contour `Next` steps to the following point. -/
theorem Next_lt (first_idx last_idx i : Nat) (h : i < last_idx) (hl : last_idx < 2 ^ 16) :
    Next first_idx last_idx i = i + 1 := by
  unfold Next
  rw [if_neg (by omega), Nat.mod_eq_of_lt (by omega)]

/-- At the last point of a contour `Next` steps back to the first. -/
theorem Next_last (first_idx last_idx : Nat) : Next first_idx last_idx last_idx = first_idx := by
  unfold Next
  rw [if_pos rfl]

/-- The search for the first on-curve point ends at the first on-curve point at
or after `s`. -/
theorem EmitContour_start_on (flags : List Nat) (first_idx last_idx k : Nat)
    (hk : k ≤ last_idx) (hl : last_idx < 2 ^ 16) (hfl : last_idx < flags.length)
    (hon : IsOn flags k = .ok true) :
    ∀ (fuel s : Nat), s ≤ k → k - s < fuel →
      ∃ t, EmitContour_start flags first_idx last_idx fuel s = .ok t ∧ s ≤ t ∧ t ≤ k ∧
        IsOn flags t = .ok true := by
  intro fuel
  induction fuel with
  | zero => intro s _ h; omega
  | succ n ih =>
    intro s hs hf
    unfold EmitContour_start
    have hs1 : s < flags.length := by omega
    rw [IsOn_ok flags s hs1]
    simp only [Outcome.ok_bind]
    by_cases hb : (decide (flags[s] &&& 1 ≠ 0)) = true
    · have hcond : ¬ ((decide (flags[s] &&& 1 ≠ 0)) = false ∧
          s ≠ Next first_idx last_idx s) := by
        rw [hb]; simp
      rw [if_neg hcond]
      exact ⟨s, rfl, le_refl _, hs, by rw [IsOn_ok flags s hs1, hb]⟩
    · have hb0 : (decide (flags[s] &&& 1 ≠ 0)) = false := by
        simpa using hb
      have hsk : s ≠ k := by
        intro h
        subst h
        rw [IsOn_ok flags s hs1, hb0] at hon
        exact absurd hon (by simp)
      have hnext := Next_lt first_idx last_idx s (by omega) hl
      have hcond : (decide (flags[s] &&& 1 ≠ 0)) = false ∧ s ≠ Next first_idx last_idx s := by
        refine ⟨hb0, ?_⟩
        rw [hnext]; omega
      rw [if_pos hcond, hnext]
      obtain ⟨t, h1, h2, h3, h4⟩ := ih (s + 1) (by omega) (by omega)
      exact ⟨t, h1, by omega, h3, h4⟩

/-- On a single-point contour the search ends at once. -/
theorem EmitContour_start_single (flags : List Nat) (i : Nat) (hfl : i < flags.length)
    (fuel : Nat) :
    EmitContour_start flags i i (fuel + 1) i = .ok i := by
  unfold EmitContour_start
  rw [IsOn_ok flags i hfl]
  simp [Next_last]

/-- The walk over a contour whose start point is on-curve ends when it comes
back to the start point, and it has emitted a segment by then. -/
theorem EmitContour_loop_on (xs ys : List Int) (flags : List Nat) (first_idx last_idx : Nat)
    (dx dy : Int) (t : Nat) (hft : first_idx ≤ t) (htl : t ≤ last_idx)
    (hl : last_idx < 2 ^ 16) (hfl : last_idx < flags.length) (hx : last_idx < xs.length)
    (hy : last_idx < ys.length) (hon : IsOn flags t = .ok true) :
    ∀ (fuel i : Nat) (px py : ℚ) (pon : Bool) (o : GlyphContour), first_idx ≤ i →
      i ≤ last_idx → (if i ≤ t then t - i else last_idx - i + 1 + (t - first_idx)) < fuel →
      ∃ o1, EmitContour_loop xs ys flags first_idx last_idx dx dy t fuel i px py pon o = .ok o1 ∧
        o1.contours = o.contours ∧ o.segments.length < o1.segments.length := by
  intro fuel
  induction fuel with
  | zero => intro i _ _ _ _ _ _ h; omega
  | succ n ih =>
    intro i px py pon o hfi hil hd
    unfold EmitContour_loop
    rw [Pt_ok xs ys dx dy i (by omega) (by omega), IsOn_ok flags i (by omega)]
    simp only [Outcome.ok_bind, Outcome.pure_eq]
    by_cases hit : i = t
    · subst hit
      rw [IsOn_ok flags i (by omega)] at hon
      have hc : decide (flags[i] &&& 1 ≠ 0) = true := by
        injection hon
      rw [hc]
      cases pon with
      | true => simp [AddLine]
      | false => simp [AddQuad]
    · have hnext : first_idx ≤ Next first_idx last_idx i ∧ Next first_idx last_idx i ≤ last_idx ∧
          (if Next first_idx last_idx i ≤ t then t - Next first_idx last_idx i
            else last_idx - Next first_idx last_idx i + 1 + (t - first_idx)) < n := by
        by_cases hlast : i = last_idx
        · subst hlast
          rw [Next_last]
          refine ⟨le_refl _, by omega, ?_⟩
          split_ifs at hd ⊢ <;> omega
        · rw [Next_lt first_idx last_idx i (by omega) hl]
          refine ⟨by omega, by omega, ?_⟩
          split_ifs at hd ⊢ <;> omega
      have step : ∀ (px1 py1 : ℚ) (pon1 : Bool) (o1 : GlyphContour),
          o1.contours = o.contours → o.segments.length ≤ o1.segments.length →
          ∃ o2, EmitContour_loop xs ys flags first_idx last_idx dx dy t n
              (Next first_idx last_idx i) px1 py1 pon1 o1 = .ok o2 ∧
            o2.contours = o.contours ∧ o.segments.length < o2.segments.length := by
        intro px1 py1 pon1 o1 h1 h2
        obtain ⟨o2, e, c, l⟩ := ih (Next first_idx last_idx i) px1 py1 pon1 o1 hnext.1 hnext.2.1
          hnext.2.2
        exact ⟨o2, e, by rw [c, h1], by omega⟩
      simp only [hit, if_false]
      generalize decide (flags[i] &&& 1 ≠ 0) = c
      cases pon <;> cases c
      · simp only [Bool.false_eq_true, false_and, and_self, if_false, if_true]
        exact step _ _ _ _ (by simp [AddQuad]) (by simp [AddQuad])
      · simp only [Bool.false_eq_true, false_and, and_false, and_true, if_false]
        exact step _ _ _ _ (by simp [AddQuad]) (by simp [AddQuad])
      · simp only [Bool.false_eq_true, and_false, and_self, if_false, if_true]
        exact step _ _ _ _ rfl (le_refl _)
      · simp only [and_self, if_true]
        exact step _ _ _ _ (by simp [AddLine]) (by simp [AddLine])

/-- The walk over a contour that is a single off-curve point emits one segment. -/
theorem EmitContour_loop_single_off (xs ys : List Int) (flags : List Nat) (i : Nat)
    (dx dy : Int) (hfl : i < flags.length) (hx : i < xs.length) (hy : i < ys.length)
    (hoff : IsOn flags i = .ok false) (fuel : Nat) (px py : ℚ) (o : GlyphContour) :
    ∃ o1, EmitContour_loop xs ys flags i i dx dy i (fuel + 2) i px py false o = .ok o1 ∧
      o1.contours = o.contours ∧ o.segments.length < o1.segments.length := by
  rw [IsOn_ok flags i hfl] at hoff
  have hc : decide (flags[i] &&& 1 ≠ 0) = false := by
    injection hoff
  unfold EmitContour_loop
  rw [Pt_ok xs ys dx dy i hx hy, IsOn_ok flags i hfl, hc]
  simp only [Outcome.ok_bind, Outcome.pure_eq, Next_last, Bool.false_eq_true, false_and,
    and_self, if_false, if_true]
  unfold EmitContour_loop
  rw [Pt_ok xs ys dx dy i hx hy, IsOn_ok flags i hfl, hc]
  simp only [Outcome.ok_bind, Outcome.pure_eq, Bool.false_eq_true, and_false, and_self,
    if_false, if_true]
  exact ⟨_, rfl, by simp [AddQuad], by simp [AddQuad]⟩

/-- The function `EmitContour` returns on a well-formed contour and emits at
least one segment, leaving the contour starts alone. -/
theorem EmitContour_wf (p : SimplePoints) (dx dy : Int) (r : Nat × Nat)
    (hwf : ContourWellFormed p r) (fuel : Nat) (hfuel : r.2 - r.1 + 2 ≤ fuel)
    (out : GlyphContour) :
    ∃ o, EmitContour p.xs p.ys p.flags r.1 r.2 dx dy fuel out = .ok o ∧
      o.contours = out.contours ∧ out.segments.length < o.segments.length := by
  obtain ⟨h1, h2, hfl, hx, hy, hon⟩ := hwf
  unfold EmitContour
  have hn : ¬ (r.2 + 2 ^ 16 - r.1 + 1) % 2 ^ 16 = 0 := by omega
  rw [if_neg hn]
  rcases hon with heq | ⟨k, fl, hk1, hk2, hkf, hkon⟩
  · -- a single point
    obtain ⟨f2, rfl⟩ : ∃ f2, fuel = f2 + 2 := ⟨fuel - 2, by omega⟩
    rw [← heq] at hfl hx hy ⊢
    rw [EmitContour_start_single p.flags r.1 hfl (f2 + 1)]
    simp only [Outcome.ok_bind]
    rw [Pt_ok p.xs p.ys dx dy r.1 hx hy]
    simp only [Outcome.ok_bind]
    cases hb : IsOn p.flags r.1 with
    | bounds => rw [IsOn_ok p.flags r.1 hfl] at hb; exact absurd hb (by simp)
    | fuel => rw [IsOn_ok p.flags r.1 hfl] at hb; exact absurd hb (by simp)
    | ok b =>
      simp only [Outcome.ok_bind, Next_last]
      cases b with
      | true =>
        exact EmitContour_loop_on p.xs p.ys p.flags r.1 r.1 dx dy r.1 (le_refl _) (le_refl _)
          (by omega) hfl hx hy hb (f2 + 2) r.1 _ _ _ out (le_refl _) (le_refl _) (by simp)
      | false =>
        exact EmitContour_loop_single_off p.xs p.ys p.flags r.1 dx dy hfl hx hy hb f2 _ _ out
  · -- a contour with an on-curve point
    have hkon1 : IsOn p.flags k = .ok true := by
      unfold IsOn vecAt
      rw [hkf]
      simp only [Outcome.ok_bind, Outcome.pure_eq]
      rw [decide_eq_true hkon]
    obtain ⟨t, hs, ht1, ht2, hton⟩ := EmitContour_start_on p.flags r.1 r.2 k hk2 (by omega) hfl
      hkon1 fuel r.1 hk1 (by omega)
    rw [hs]
    simp only [Outcome.ok_bind]
    rw [Pt_ok p.xs p.ys dx dy t (by omega) (by omega), hton]
    simp only [Outcome.ok_bind]
    apply EmitContour_loop_on p.xs p.ys p.flags r.1 r.2 dx dy t ht1 (by omega) (by omega) hfl hx
      hy hton fuel
    · unfold Next; split_ifs <;> omega
    · unfold Next; split_ifs <;> omega
    · by_cases hlast : t = r.2
      · subst hlast
        rw [Next_last]
        simp only [ht1, if_true]
        omega
      · rw [Next_lt r.1 r.2 t (by omega) (by omega)]
        rw [if_neg (by omega)]
        omega

/-- On a well-formed contour `EmitContour` appends the segments of the contour
to the outline, and these are at least one. -/
theorem EmitContour_eq (p : SimplePoints) (dx dy : Int) (r : Nat × Nat)
    (hwf : ContourWellFormed p r) (fuel : Nat) (hfuel : r.2 - r.1 + 2 ≤ fuel)
    (out : GlyphContour) :
    EmitContour p.xs p.ys p.flags r.1 r.2 dx dy fuel out =
      .ok ⟨out.segments ++ contour_segments p dx dy fuel r, out.contours, out.advance_width⟩ ∧
    contour_segments p dx dy fuel r ≠ [] := by
  obtain ⟨o, ho, _, hlen⟩ := EmitContour_wf p dx dy r hwf fuel hfuel ⟨[], [], 0⟩
  have hs : contour_segments p dx dy fuel r = o.segments := by
    unfold contour_segments
    rw [ho]
  refine ⟨?_, ?_⟩
  · rw [EmitContour_rebase, ho, hs]
    rfl
  · rw [hs]
    intro h
    rw [h] at hlen
    simp at hlen

/-- The contour loop of `ParseSimple` on well-formed contours: every contour
records the number of segments emitted so far and appends its own. -/
theorem ParseSimple_contours_wf (p : SimplePoints) (dx dy : Int) (fuel : Nat) :
    ∀ (es : List Nat) (start : Nat) (out : GlyphContour),
      (∀ r ∈ contour_ranges es start, ContourWellFormed p r ∧ r.2 - r.1 + 2 ≤ fuel) →
      ParseSimple_contours p.xs p.ys p.flags dx dy fuel es start out =
        .ok ⟨out.segments ++
              ((contour_ranges es start).map (contour_segments p dx dy fuel)).flatten,
            out.contours ++ contour_starts out.segments.length
              ((contour_ranges es start).map (contour_segments p dx dy fuel)),
            out.advance_width⟩ := by
  intro es
  induction es with
  | nil =>
    intro start out _
    simp [ParseSimple_contours, contour_ranges, contour_starts]
  | cons e rest ih =>
    intro start out h
    have h0 := h (start, e) (by simp [contour_ranges])
    have hrest : ∀ r ∈ contour_ranges rest ((e + 1) % 2 ^ 16),
        ContourWellFormed p r ∧ r.2 - r.1 + 2 ≤ fuel := by
      intro r hr
      exact h r (List.mem_cons_of_mem _ hr)
    have he := (EmitContour_eq p dx dy (start, e) h0.1 fuel h0.2
      { out with contours := out.contours ++ [out.segments.length] }).1
    simp only at he
    unfold ParseSimple_contours
    simp only [he, Outcome.ok_bind]
    rw [ih _ _ hrest]
    simp [contour_ranges, contour_starts, List.append_assoc]

/-- The contour starts of an outline made of non-empty runs: they increase
strictly, from `acc` on, and stay below the number of segments. -/
theorem contour_starts_props :
    ∀ (L : List (List Segment)) (acc : Nat), (∀ s ∈ L, s ≠ []) →
      (contour_starts acc L).Pairwise (fun a b => a < b) ∧
      (∀ c ∈ contour_starts acc L, acc ≤ c ∧ c < acc + L.flatten.length) ∧
      (contour_starts acc L).length = L.length := by
  intro L
  induction L with
  | nil => intro acc _; simp [contour_starts]
  | cons s rest ih =>
    intro acc h
    have hs : 0 < s.length := List.length_pos.mpr (h s (by simp))
    obtain ⟨h1, h2, h3⟩ := ih (acc + s.length) (fun t ht => h t (by simp [ht]))
    simp only [contour_starts, List.pairwise_cons, List.mem_cons, List.flatten_cons,
      List.length_append, List.length_cons]
    refine ⟨⟨?_, h1⟩, ?_, by omega⟩
    · intro c hc
      have := (h2 c hc).1
      omega
    · intro c hc
      rcases hc with rfl | hc
      · omega
      · have := h2 c hc
        omega

/-! ## The decoded point data -/

/-- Decoded point data has at least one end point: `end_pts.back()` was read. -/
theorem ParseSimple_points_end_pts (d : List Nat) (g : Nat) (p : SimplePoints)
    (hp : ParseSimple_points d g = .ok p) : p.end_pts ≠ [] := by
  simp only [ParseSimple_points, Outcome.bind_eq_ok] at hp
  obtain ⟨n, _, eps, _, il, _, last, hlast, fl, _, rx, _, ry, _, hpe⟩ := hp
  have hpe1 : p = ⟨eps, fl.1, absolute rx.1, absolute ry.1⟩ := by
    simp only [Outcome.pure_eq, Outcome.ok.injEq] at hpe
    exact hpe.symm
  rw [hpe1]
  intro h
  simp only at h
  rw [h] at hlast
  simp at hlast

/-- A coordinate loop fills one entry per point. -/
theorem readCoords_length (d : List Nat) (flags : List Nat) (short_bit same_bit : Nat) :
    ∀ (n i ptr : Nat) (r : List Int × Nat),
      readCoords d flags short_bit same_bit n i ptr = .ok r → r.1.length = n := by
  intro n
  induction n with
  | zero =>
    intro i ptr r h
    simp only [readCoords, Outcome.pure_eq, Outcome.ok.injEq] at h
    rw [← h]
    rfl
  | succ n ih =>
    intro i ptr r h
    unfold readCoords at h
    simp only [Outcome.bind_eq_ok] at h
    obtain ⟨fl, _, h⟩ := h
    split_ifs at h <;>
      simp only [Outcome.bind_eq_ok, Outcome.pure_eq, Outcome.ok.injEq] at h
    all_goals first
      | (obtain ⟨_, _, r1, hr1, rfl⟩ := h
         simp [ih _ _ _ hr1])
      | (obtain ⟨r1, hr1, rfl⟩ := h
         simp [ih _ _ _ hr1])

theorem running_sum_length : ∀ (l : List Int) (acc : Int), (running_sum acc l).length = l.length := by
  intro l
  induction l with
  | nil => intro _; rfl
  | cons x rest ih => intro acc; simp [running_sum, ih]

theorem absolute_length (l : List Int) : (absolute l).length = l.length := by
  cases l with
  | nil => rfl
  | cons x rest => simp [absolute, running_sum_length]

/-- The flag loop ends with at least `n_pts` flags. -/
theorem readFlags_length (n_pts : Nat) :
    ∀ (k : Nat) (bytes : List Nat) (i ptr : Nat) (flags : List Nat) (r : List Nat × Nat),
      bytes.length ≤ k → readFlags n_pts bytes i ptr flags = .ok r → i ≤ flags.length →
      n_pts ≤ r.1.length := by
  intro k
  induction k with
  | zero =>
    intro bytes i ptr flags r hk h hi
    have hb : bytes = [] := List.length_eq_zero.mp (by omega)
    subst hb
    unfold readFlags at h
    split_ifs at h with hc
    simp only [Outcome.pure_eq, Outcome.ok.injEq] at h
    rw [← h]
    simp only
    omega
  | succ k ih =>
    intro bytes i ptr flags r hk h hi
    cases bytes with
    | nil =>
      unfold readFlags at h
      split_ifs at h with hc
      simp only [Outcome.pure_eq, Outcome.ok.injEq] at h
      rw [← h]
      simp only
      omega
    | cons f rest =>
      unfold readFlags at h
      split_ifs at h with hc h8
      · cases rest with
        | nil => simp at h
        | cons rep rest1 =>
          simp only at h
          refine ih rest1 _ _ _ r (by simp only [List.length_cons] at hk; omega) h ?_
          simp only [List.length_append, List.length_cons, List.length_replicate]
          have := Nat.mod_le (i + 1 + rep) (2 ^ 16)
          omega
      · refine ih rest _ _ _ r (by simp only [List.length_cons] at hk; omega) h ?_
        simp only [List.length_append, List.length_singleton]
        have := Nat.mod_le (i + 1) (2 ^ 16)
        omega
      · simp only [Outcome.pure_eq, Outcome.ok.injEq] at h
        rw [← h]
        simp only
        omega

/-- The lengths of decoded point data: with `last` the final end point, there
are `(last + 1) mod 65536` coordinates and at least as many flags. -/
theorem ParseSimple_points_lengths (d : List Nat) (g : Nat) (p : SimplePoints)
    (hp : ParseSimple_points d g = .ok p) :
    ∃ last, p.end_pts.getLast? = some last ∧ p.xs.length = (last + 1) % 2 ^ 16 ∧
      p.ys.length = (last + 1) % 2 ^ 16 ∧ (last + 1) % 2 ^ 16 ≤ p.flags.length := by
  simp only [ParseSimple_points, Outcome.bind_eq_ok] at hp
  obtain ⟨n, _, eps, _, il, _, last, hlast, fl, hfl, rx, hrx, ry, hry, hpe⟩ := hp
  have hpe1 : p = ⟨eps, fl.1, absolute rx.1, absolute ry.1⟩ := by
    simp only [Outcome.pure_eq, Outcome.ok.injEq] at hpe
    exact hpe.symm
  have hl : eps.getLast? = some last := by
    cases hq : eps.getLast? with
    | none => rw [hq] at hlast; simp at hlast
    | some e =>
      rw [hq] at hlast
      simp only [Outcome.pure_eq, Outcome.ok.injEq] at hlast
      rw [hlast]
  rw [hpe1]
  refine ⟨last, hl, ?_, ?_, ?_⟩
  · simp only [absolute_length]
    exact readCoords_length _ _ _ _ _ _ _ _ hrx
  · simp only [absolute_length]
    exact readCoords_length _ _ _ _ _ _ _ _ hry
  · exact readFlags_length _ _ _ _ _ _ _ (le_refl _) hfl (Nat.zero_le _)

/-- In a chain of non-empty contours no contour ends after the final end point. -/
theorem contour_ranges_le_last :
    ∀ (es : List Nat) (start last : Nat),
      (∀ r ∈ contour_ranges es start, r.1 ≤ r.2 ∧ r.2 + 1 < 2 ^ 16) →
      es.getLast? = some last → ∀ r ∈ contour_ranges es start, r.2 ≤ last := by
  intro es
  induction es with
  | nil => intro _ _ _ _ r hr; simp [contour_ranges] at hr
  | cons e rest ih =>
    intro start last h hl r hr
    cases rest with
    | nil =>
      simp only [contour_ranges, List.mem_singleton] at hr
      simp only [List.getLast?_singleton, Option.some.injEq] at hl
      rw [hr]
      simp only
      omega
    | cons e2 rest2 =>
      have hl2 : (e2 :: rest2).getLast? = some last := by
        rw [List.getLast?_cons_cons] at hl
        exact hl
      have hrest : ∀ r ∈ contour_ranges (e2 :: rest2) ((e + 1) % 2 ^ 16),
          r.1 ≤ r.2 ∧ r.2 + 1 < 2 ^ 16 := fun r hr => h r (List.mem_cons_of_mem _ hr)
      have hih := ih _ last hrest hl2
      have hr1 : r ∈ (start, e) :: contour_ranges (e2 :: rest2) ((e + 1) % 2 ^ 16) := hr
      rcases List.mem_cons.mp hr1 with rfl | hr2
      · have hm0 : (start, e) ∈ contour_ranges (e :: e2 :: rest2) start :=
          List.mem_cons_self _ _
        have hm1 : ((e + 1) % 2 ^ 16, e2) ∈ contour_ranges (e2 :: rest2) ((e + 1) % 2 ^ 16) :=
          List.mem_cons_self _ _
        have h0 := h _ hm0
        have h1 := hrest _ hm1
        have h2 := hih _ hm1
        simp only at h0 h1 h2 ⊢
        have : (e + 1) % 2 ^ 16 = e + 1 := Nat.mod_eq_of_lt (by omega)
        omega
      · exact hih r hr2

/-- Well-formed contours of decoded point data can be walked. -/
theorem ContourWellFormed_of_points (d : List Nat) (g : Nat) (p : SimplePoints)
    (hp : ParseSimple_points d g = .ok p) (hwf : ContoursWellFormed p) :
    ∀ r ∈ contour_ranges p.end_pts 0, ContourWellFormed p r := by
  obtain ⟨last, hl, hx, hy, hfl⟩ := ParseSimple_points_lengths d g p hp
  have hle := contour_ranges_le_last p.end_pts 0 last
    (fun r hr => ⟨(hwf r hr).1, (hwf r hr).2.1⟩) hl
  have hends := ParseSimple_points_end_pts d g p hp
  -- the final end point is the end of the last contour
  have hlast_lt : last + 1 < 2 ^ 16 := by
    have hmem : ∃ r ∈ contour_ranges p.end_pts 0, r.2 = last := by
      have key : ∀ (es : List Nat) (start : Nat), es.getLast? = some last →
          ∃ r ∈ contour_ranges es start, r.2 = last := by
        intro es
        induction es with
        | nil => intro _ h; simp at h
        | cons e rest ih =>
          intro start h
          cases rest with
          | nil =>
            simp only [List.getLast?_singleton, Option.some.injEq] at h
            exact ⟨(start, e), by simp [contour_ranges], h⟩
          | cons e2 rest2 =>
            rw [List.getLast?_cons_cons] at h
            obtain ⟨r, hr, hr2⟩ := ih ((e + 1) % 2 ^ 16) h
            exact ⟨r, List.mem_cons_of_mem _ hr, hr2⟩
      exact key p.end_pts 0 hl
    obtain ⟨r, hr, hr2⟩ := hmem
    have := (hwf r hr).2.1
    omega
  have hmod : (last + 1) % 2 ^ 16 = last + 1 := Nat.mod_eq_of_lt hlast_lt
  intro r hr
  have h := hwf r hr
  have h2 := hle r hr
  exact ⟨h.1, h.2.1, by omega, by omega, by omega, h.2.2⟩

/-! ## Outlines -/

/-- The result of `ReadU16` is a `uint16_t`. -/
theorem ReadU16_lt (d : List Nat) (p v : Nat) (h : ReadU16 d p = .ok v) : v < 2 ^ 16 := by
  simp only [ReadU16, Outcome.bind_eq_ok, Outcome.pure_eq, Outcome.ok.injEq] at h
  obtain ⟨b0, _, b1, _, rfl⟩ := h
  exact Nat.mod_lt _ (by decide)

/-- The result of `ReadU32` is a `uint32_t`. -/
theorem ReadU32_lt (d : List Nat) (p v : Nat) (h : ReadU32 d p = .ok v) : v < 2 ^ 32 := by
  simp only [ReadU32, Outcome.bind_eq_ok, Outcome.pure_eq, Outcome.ok.injEq] at h
  obtain ⟨b0, _, b1, _, b2, _, b3, _, rfl⟩ := h
  exact Nat.mod_lt _ (by decide)

/-- When `GlyphOffset` returns `false`, `Extract` returns the empty outline. -/
theorem Extract_of_no_offset (f : FontLoader) (g fuel : Nat) (h : GlyphOffset f g = .ok none) :
    Extract f (fuel + 1) g = .ok ⟨[], [], toInt16 (AdvanceWidth f g)⟩ := by
  unfold Extract Visit
  rw [h]
  rfl

/-- C9 (amended). Outline structure: for a glyph id `g` whose loca range is
non-empty and holds a simple glyph whose point data lies inside the blob and
whose contours are well formed (each has at least one point, and an on-curve
point unless it is a single point), `Extract(g)` returns an outline with a
non-empty contour list, one start per contour, in which the contour-start
indices are strictly increasing, each is a valid index into the segment list,
the first is 0, and the total segment count equals the sum of the numbers of
segments that `EmitContour` emits for the individual contours. -/
theorem C9_outline_structure (f : FontLoader) (g gptr glen : Nat) (n : Int)
    (p : SimplePoints) (fuel : Nat)
    (hoff : GlyphOffset f g = .ok (some (gptr, glen)))
    (hn : ReadS16 f.data gptr = .ok n) (hn0 : 0 ≤ n)
    (hp : ParseSimple_points f.data gptr = .ok p)
    (hwf : ContoursWellFormed p)
    (hfuel : p.xs.length + 1 ≤ fuel) :
    ∃ out, Extract f (fuel + 1) g = .ok out ∧
      out.contours ≠ [] ∧
      out.contours.length = p.end_pts.length ∧
      out.contours.head? = some 0 ∧
      out.contours.Pairwise (fun a b => a < b) ∧
      (∀ c ∈ out.contours, c < out.segments.length) ∧
      out.segments.length =
        ((contour_ranges p.end_pts 0).map
          (fun r => (contour_segments p 0 0 fuel r).length)).sum := by
  have hall : ∀ r ∈ contour_ranges p.end_pts 0,
      ContourWellFormed p r ∧ r.2 - r.1 + 2 ≤ fuel := by
    intro r hr
    have h := ContourWellFormed_of_points f.data gptr p hp hwf r hr
    have := h.2.2.2.1
    exact ⟨h, by omega⟩
  have hrun := ParseSimple_contours_wf p 0 0 fuel p.end_pts 0
    ⟨[], [], toInt16 (AdvanceWidth f g)⟩ hall
  have hne : ∀ s ∈ (contour_ranges p.end_pts 0).map (contour_segments p 0 0 fuel), s ≠ [] := by
    intro s hs
    obtain ⟨r, hr, rfl⟩ := List.mem_map.mp hs
    exact (EmitContour_eq p 0 0 r (hall r hr).1 fuel (hall r hr).2 ⟨[], [], 0⟩).2
  obtain ⟨hpw, hlt, hlen⟩ := contour_starts_props _ 0 hne
  have hrl : ∀ (es : List Nat) (start : Nat), (contour_ranges es start).length = es.length := by
    intro es
    induction es with
    | nil => intro _; rfl
    | cons e rest ih => intro start; simp [contour_ranges, ih]
  have hends := ParseSimple_points_end_pts f.data gptr p hp
  simp only [List.nil_append, List.length_nil] at hrun
  refine ⟨⟨((contour_ranges p.end_pts 0).map (contour_segments p 0 0 fuel)).flatten,
    contour_starts 0 ((contour_ranges p.end_pts 0).map (contour_segments p 0 0 fuel)),
    toInt16 (AdvanceWidth f g)⟩, ?_, ?_, ?_, ?_, ?_, ?_, ?_⟩
  · unfold Extract Visit
    rw [hoff]
    simp only [Outcome.ok_bind]
    rw [hn]
    simp only [Outcome.ok_bind, ge_iff_le, hn0, if_true]
    unfold ParseSimple
    rw [hp]
    simp only [Outcome.ok_bind]
    exact hrun
  · intro h
    have := congrArg List.length h
    simp only at this
    rw [hlen, List.length_map, hrl] at this
    exact hends (List.length_eq_zero.mp this)
  · simp only
    rw [hlen, List.length_map, hrl]
  · cases he : p.end_pts with
    | nil => exact absurd he hends
    | cons e rest => simp [contour_ranges, contour_starts]
  · exact hpw
  · intro c hc
    have := hlt c hc
    simpa using this.2
  · simp only
    rw [List.length_flatten, List.map_map]
    rfl

/-- Witness of C9: glyph 1 of the example font, one contour through three
on-curve points. -/
theorem C9_outline_structure_witness :
    ∃ out, Extract exampleFont 5 1 = .ok out ∧
      out.contours ≠ [] ∧
      out.contours.length = [2].length ∧
      out.contours.head? = some 0 ∧
      out.contours.Pairwise (fun a b => a < b) ∧
      (∀ c ∈ out.contours, c < out.segments.length) ∧
      out.segments.length =
        ((contour_ranges [2] 0).map
          (fun r => (contour_segments ⟨[2], [0x37, 0x37, 0x37], [0, 10, 10], [0, 0, 10]⟩
            0 0 4 r).length)).sum :=
  C9_outline_structure exampleFont 1 12 24 1
    ⟨[2], [0x37, 0x37, 0x37], [0, 10, 10], [0, 0, 10]⟩ 4
    (by decide) (by decide) (by decide) (by decide)
    (by
      intro r hr
      simp only [contour_ranges, List.mem_singleton] at hr
      subst hr
      refine ⟨by decide, by decide, Or.inr ⟨0, 0x37, ?_⟩⟩
      decide)
    (by decide)

/-- C9 as stated fails. Glyph 2 of the example font has a non-empty loca range
and is a composite glyph whose component is empty: the outline has no contour.
Glyph 3 is a simple glyph whose second contour has no point: the outline has
the contour starts `[0, 1]` and one segment, so the start 1 is no valid index.
Glyph 4 is a simple glyph whose contour has no on-curve point: `Extract` does
not return, whatever the fuel. -/
theorem C9_counterexample :
    (GlyphOffset exampleFont 2 = .ok (some (36, 16)) ∧
      Extract exampleFont 10 2 = .ok ⟨[], [], 0⟩) ∧
    (GlyphOffset exampleFont 3 = .ok (some (52, 20)) ∧
      Outcome.map (fun o => (o.contours, o.segments.length)) (Extract exampleFont 10 3)
        = .ok ([0, 1], 1)) ∧
    (GlyphOffset exampleFont 4 = .ok (some (72, 20)) ∧
      ∀ fuel, Extract exampleFont fuel 4 = .fuel) := by
  refine ⟨⟨by decide, by decide⟩, ⟨by decide, by decide⟩, ⟨by decide, ?_⟩⟩
  have hstart : ∀ (fuel s : Nat), s = 0 ∨ s = 1 →
      EmitContour_start [0x36, 0x36] 0 1 fuel s = .fuel := by
    intro fuel
    induction fuel with
    | zero => intro s _; rfl
    | succ n ih =>
      intro s hs
      rcases hs with rfl | rfl
      · unfold EmitContour_start
        have h1 : IsOn [0x36, 0x36] 0 = .ok false := by decide
        have h2 : Next 0 1 0 = 1 := by decide
        rw [h1]
        simp only [Outcome.ok_bind, h2]
        rw [if_pos (by decide)]
        exact ih 1 (Or.inr rfl)
      · unfold EmitContour_start
        have h1 : IsOn [0x36, 0x36] 1 = .ok false := by decide
        have h2 : Next 0 1 1 = 0 := by decide
        rw [h1]
        simp only [Outcome.ok_bind, h2]
        rw [if_pos (by decide)]
        exact ih 0 (Or.inl rfl)
  intro fuel
  cases fuel with
  | zero => rfl
  | succ n =>
    have hoff : GlyphOffset exampleFont 4 = .ok (some (72, 20)) := by decide
    have hn : ReadS16 exampleFont.data 72 = .ok 1 := by decide
    have hp : ParseSimple_points exampleFont.data 72 =
        .ok ⟨[1], [0x36, 0x36], [5, 10], [5, 10]⟩ := by decide
    unfold Extract Visit
    rw [hoff]
    simp only [Outcome.ok_bind]
    rw [hn]
    simp only [Outcome.ok_bind]
    rw [if_pos (by decide)]
    unfold ParseSimple
    rw [hp]
    simp only [Outcome.ok_bind]
    have hne : ¬ ((1 + 2 ^ 16 - 0 + 1) % 2 ^ 16 = 0) := by decide
    unfold ParseSimple_contours EmitContour
    simp only [hne, if_false, hstart n 0 (Or.inl rfl), Outcome.fuel_bind]

/-- C10. Empty outline instead of failure: `Extract(g)` returns the outline
without segments and contours when the glyf or the loca table is absent or `g`
is not below the glyph count, and when the loca entries for `g` and `g + 1` are
equal. Otherwise the byte range of the glyph starts `2 * loca16[g]` (short
format) or `loca32[g]` (long format) bytes into the glyf table, and its length
is the difference to `2 * loca16[g+1]` or `loca32[g+1]`, as a `uint32_t`. -/
theorem C10_empty_outline (f : FontLoader) (g fuel : Nat) :
    ((f.glyf = none ∨ f.loca = none ∨ f.num_glyphs ≤ g) →
      Extract f (fuel + 1) g = .ok ⟨[], [], toInt16 (AdvanceWidth f g)⟩) ∧
    (∀ glyf loca a b : Nat, f.glyf = some glyf → f.loca = some loca → g < f.num_glyphs →
      f.index_to_loc_format = 0 →
      ReadU16 f.data (loca + g * 2) = .ok a → ReadU16 f.data (loca + (g + 1) * 2) = .ok b →
      (a = b → Extract f (fuel + 1) g = .ok ⟨[], [], toInt16 (AdvanceWidth f g)⟩) ∧
      (a ≠ b → GlyphOffset f g =
        .ok (some (glyf + 2 * a, (2 * b + 2 ^ 32 - 2 * a) % 2 ^ 32))) ∧
      (a < b → GlyphOffset f g = .ok (some (glyf + 2 * a, 2 * b - 2 * a)))) ∧
    (∀ glyf loca a b : Nat, f.glyf = some glyf → f.loca = some loca → g < f.num_glyphs →
      f.index_to_loc_format ≠ 0 →
      ReadU32 f.data (loca + g * 4) = .ok a → ReadU32 f.data (loca + (g + 1) * 4) = .ok b →
      (a = b → Extract f (fuel + 1) g = .ok ⟨[], [], toInt16 (AdvanceWidth f g)⟩) ∧
      (a ≠ b → GlyphOffset f g = .ok (some (glyf + a, (b + 2 ^ 32 - a) % 2 ^ 32))) ∧
      (a < b → GlyphOffset f g = .ok (some (glyf + a, b - a)))) := by
  refine ⟨?_, ?_, ?_⟩
  · intro h
    apply Extract_of_no_offset
    unfold GlyphOffset
    cases hg : f.glyf with
    | none => rfl
    | some glyf =>
      cases hl : f.loca with
      | none => rfl
      | some loca =>
        have h3 : f.num_glyphs ≤ g := by
          rcases h with h | h | h
          · rw [hg] at h; exact absurd h (by simp)
          · rw [hl] at h; exact absurd h (by simp)
          · exact h
        simp only [ge_iff_le, h3, if_true, Outcome.pure_eq]
  · intro glyf loca a b hg hl hlt hfmt ha hb
    have ha1 := ReadU16_lt _ _ _ ha
    have hb1 := ReadU16_lt _ _ _ hb
    have hoff : GlyphOffset f g =
        if a = b then .ok none
        else .ok (some (glyf + 2 * a, (2 * b + 2 ^ 32 - 2 * a) % 2 ^ 32)) := by
      unfold GlyphOffset
      rw [hg, hl]
      simp only [ge_iff_le, Nat.not_le.mpr hlt, if_false, hfmt, if_true, ha, hb,
        Outcome.ok_bind, Outcome.pure_eq]
      rw [Nat.mod_eq_of_lt (show a * 2 < 2 ^ 32 by omega),
        Nat.mod_eq_of_lt (show b * 2 < 2 ^ 32 by omega)]
      by_cases hab : a = b
      · rw [if_pos (by omega), if_pos hab]
      · rw [if_neg (by omega), if_neg hab]
        congr 4 <;> omega
    refine ⟨?_, ?_, ?_⟩
    · intro hab
      apply Extract_of_no_offset
      rw [hoff, if_pos hab]
    · intro hab
      rw [hoff, if_neg hab]
    · intro hab
      rw [hoff, if_neg (by omega)]
      congr 4
      omega
  · intro glyf loca a b hg hl hlt hfmt ha hb
    have ha1 := ReadU32_lt _ _ _ ha
    have hb1 := ReadU32_lt _ _ _ hb
    have hoff : GlyphOffset f g =
        if a = b then .ok none
        else .ok (some (glyf + a, (b + 2 ^ 32 - a) % 2 ^ 32)) := by
      unfold GlyphOffset
      rw [hg, hl]
      simp only [ge_iff_le, Nat.not_le.mpr hlt, if_false, hfmt, ha, hb,
        Outcome.ok_bind, Outcome.pure_eq]
    refine ⟨?_, ?_, ?_⟩
    · intro hab
      apply Extract_of_no_offset
      rw [hoff, if_pos hab]
    · intro hab
      rw [hoff, if_neg hab]
    · intro hab
      rw [hoff, if_neg (by omega)]
      congr 4
      omega

/-- Witness of C10 on the example font: glyph 7 is beyond the glyph count, glyph
0 has equal loca entries, and glyph 1 has the byte range `[0, 24)` of the glyf
table. -/
theorem C10_empty_outline_witness :
    Extract exampleFont 1 7 = .ok ⟨[], [], 0⟩ ∧
    Extract exampleFont 1 0 = .ok ⟨[], [], 0⟩ ∧
    GlyphOffset exampleFont 1 = .ok (some (12, 24)) := by
  have h7 := (C10_empty_outline exampleFont 7 0).1 (Or.inr (Or.inr (by decide)))
  have h0 := ((C10_empty_outline exampleFont 0 0).2.1 12 0 0 0 rfl rfl (by decide) rfl
    (by decide) (by decide)).1 rfl
  have h1 := ((C10_empty_outline exampleFont 1 0).2.1 12 0 0 12 rfl rfl (by decide) rfl
    (by decide) (by decide)).2.2 (by decide)
  exact ⟨h7, h0, h1⟩

/-! ## Translation and merging -/

theorem Outcome.map_ok {α β : Type} (g : α → β) (a : α) :
    Outcome.map g (Outcome.ok a) = Outcome.ok (g a) := rfl

theorem AddLine_merge (base o : GlyphContour) (dx dy : Int) (x0 y0 x1 y1 : ℚ) :
    AddLine (x0 + (dx : ℚ)) (y0 + (dy : ℚ)) (x1 + (dx : ℚ)) (y1 + (dy : ℚ)) (merge base o dx dy)
      = merge base (AddLine x0 y0 x1 y1 o) dx dy := by
  simp only [AddLine, merge, Segment.translate, List.map_append, List.map_cons, List.map_nil,
    List.append_assoc, GlyphContour.mk.injEq, and_true, List.append_cancel_left_eq,
    List.cons.injEq, Segment.mk.injEq, true_and]
  constructor <;> ring

theorem AddQuad_merge (base o : GlyphContour) (dx dy : Int) (x0 y0 cx cy x1 y1 : ℚ) :
    AddQuad (x0 + (dx : ℚ)) (y0 + (dy : ℚ)) (cx + (dx : ℚ)) (cy + (dy : ℚ)) (x1 + (dx : ℚ))
        (y1 + (dy : ℚ)) (merge base o dx dy)
      = merge base (AddQuad x0 y0 cx cy x1 y1 o) dx dy := by
  simp [AddQuad, merge, Segment.translate]

/-- A point under the translation `(dx + a, dy + b)` is the point under `(a, b)`,
shifted by `(dx, dy)`. -/
theorem Pt_add (xs ys : List Int) (dx dy a b : Int) (i : Nat) :
    Pt xs ys (dx + a) (dy + b) i =
      Outcome.map (fun q => (q.1 + (dx : ℚ), q.2 + (dy : ℚ))) (Pt xs ys a b i) := by
  unfold Pt
  cases vecAt xs i with
  | bounds => rfl
  | fuel => rfl
  | ok x =>
    cases vecAt ys i with
    | bounds => rfl
    | fuel => rfl
    | ok y =>
      simp only [Outcome.ok_bind, Outcome.pure_eq, Outcome.map, Outcome.ok.injEq, Prod.mk.injEq]
      constructor <;> push_cast <;> ring

/-- The walk over a contour under the translation `(dx + a, dy + b)`, on an
outline merged after `base`, is the walk under `(a, b)`, merged after `base`
under `(dx, dy)`. -/
theorem EmitContour_loop_merge (xs ys : List Int) (flags : List Nat) (first_idx last_idx : Nat)
    (dx dy a b : Int) (start : Nat) (base : GlyphContour) :
    ∀ (fuel i_cur : Nat) (px py : ℚ) (pon : Bool) (o : GlyphContour),
      EmitContour_loop xs ys flags first_idx last_idx (dx + a) (dy + b) start fuel i_cur
          (px + (dx : ℚ)) (py + (dy : ℚ)) pon (merge base o dx dy) =
        Outcome.map (fun r => merge base r dx dy)
          (EmitContour_loop xs ys flags first_idx last_idx a b start fuel i_cur px py pon o) := by
  intro fuel
  induction fuel with
  | zero => intro _ _ _ _ _; rfl
  | succ n ih =>
    intro i_cur px py pon o
    unfold EmitContour_loop
    rw [Pt_add]
    cases hp : Pt xs ys a b i_cur with
    | bounds => rfl
    | fuel => rfl
    | ok cur =>
      cases hc : IsOn flags i_cur with
      | bounds => rfl
      | fuel => rfl
      | ok cur_on =>
        have hm : ∀ u v : ℚ, (px + (dx : ℚ) + (u + (dx : ℚ))) / 2 = (px + u) / 2 + (dx : ℚ) := by
          intro u v; ring
        have hm2 : ∀ u : ℚ, (py + (dy : ℚ) + (u + (dy : ℚ))) / 2 = (py + u) / 2 + (dy : ℚ) := by
          intro u; ring
        simp only [Outcome.map_ok, Outcome.ok_bind, Outcome.pure_eq, AddLine_merge,
          AddQuad_merge, hm _ 0, hm2, ih]
        split_ifs <;> rfl

/-- The function `EmitContour` under the translation `(dx + a, dy + b)`, on an
outline merged after `base`. -/
theorem EmitContour_merge (xs ys : List Int) (flags : List Nat) (first_idx last_idx : Nat)
    (dx dy a b : Int) (fuel : Nat) (base o : GlyphContour) :
    EmitContour xs ys flags first_idx last_idx (dx + a) (dy + b) fuel (merge base o dx dy) =
      Outcome.map (fun r => merge base r dx dy)
        (EmitContour xs ys flags first_idx last_idx a b fuel o) := by
  unfold EmitContour
  by_cases hn : (last_idx + 2 ^ 16 - first_idx + 1) % 2 ^ 16 = 0
  · rw [if_pos hn, if_pos hn]
    rfl
  · rw [if_neg hn, if_neg hn]
    cases hs : EmitContour_start flags first_idx last_idx fuel first_idx with
    | bounds => rfl
    | fuel => rfl
    | ok start =>
      simp only [Outcome.ok_bind]
      rw [Pt_add]
      cases hp : Pt xs ys a b start with
      | bounds => rfl
      | fuel => rfl
      | ok prev =>
        simp only [Outcome.map_ok, Outcome.ok_bind]
        cases hc : IsOn flags start with
        | bounds => rfl
        | fuel => rfl
        | ok prev_on =>
          simp only [Outcome.ok_bind]
          exact EmitContour_loop_merge xs ys flags first_idx last_idx dx dy a b start base fuel
            (Next first_idx last_idx start) prev.1 prev.2 prev_on o

/-- Recording a contour start commutes with merging. -/
theorem merge_push_contour (base o : GlyphContour) (dx dy : Int) :
    ({ merge base o dx dy with
        contours := (merge base o dx dy).contours ++ [(merge base o dx dy).segments.length] }
      : GlyphContour) =
      merge base { o with contours := o.contours ++ [o.segments.length] } dx dy := by
  simp only [merge, List.length_append, List.length_map, List.map_append, List.map_cons,
    List.map_nil, List.append_assoc, GlyphContour.mk.injEq, true_and, and_true,
    List.append_cancel_left_eq, List.cons.injEq]
  omega

/-- The contour loop of `ParseSimple` under the translation `(dx + a, dy + b)`,
on an outline merged after `base`. -/
theorem ParseSimple_contours_merge (xs ys : List Int) (flags : List Nat) (dx dy a b : Int)
    (fuel : Nat) (base : GlyphContour) :
    ∀ (es : List Nat) (start : Nat) (o : GlyphContour),
      ParseSimple_contours xs ys flags (dx + a) (dy + b) fuel es start (merge base o dx dy) =
        Outcome.map (fun r => merge base r dx dy)
          (ParseSimple_contours xs ys flags a b fuel es start o) := by
  intro es
  induction es with
  | nil => intro _ _; rfl
  | cons e rest ih =>
    intro start o
    unfold ParseSimple_contours
    simp only [merge_push_contour, EmitContour_merge]
    cases he : EmitContour xs ys flags start e a b fuel
        { o with contours := o.contours ++ [o.segments.length] } with
    | bounds => rfl
    | fuel => rfl
    | ok o2 =>
      simp only [Outcome.map_ok, Outcome.ok_bind]
      exact ih _ o2

/-- The function `ParseSimple` under the translation `(dx + a, dy + b)`, on an
outline merged after `base`. -/
theorem ParseSimple_merge (d : List Nat) (g : Nat) (dx dy a b : Int) (fuel : Nat)
    (base o : GlyphContour) :
    ParseSimple d g (dx + a) (dy + b) fuel (merge base o dx dy) =
      Outcome.map (fun r => merge base r dx dy) (ParseSimple d g a b fuel o) := by
  unfold ParseSimple
  cases hp : ParseSimple_points d g with
  | bounds => rfl
  | fuel => rfl
  | ok p =>
    simp only [Outcome.ok_bind]
    exact ParseSimple_contours_merge p.xs p.ys p.flags dx dy a b fuel base p.end_pts 0 o

/-- The component loop of `ParseComposite` under the translation
`(dx + a, dy + b)`, on an outline merged after `base`, for a `visit` that
itself merges. -/
theorem ParseComposite_loop_merge (d : List Nat)
    (visit : Nat → Int → Int → GlyphContour → Outcome GlyphContour) (dx dy : Int)
    (base : GlyphContour)
    (hv : ∀ (cid : Nat) (a b : Int) (o : GlyphContour),
      visit cid (dx + a) (dy + b) (merge base o dx dy) =
        Outcome.map (fun r => merge base r dx dy) (visit cid a b o)) :
    ∀ (fuel : Nat) (a b : Int) (ptr : Nat) (o : GlyphContour),
      ParseComposite_loop d visit (dx + a) (dy + b) fuel ptr (merge base o dx dy) =
        Outcome.map (fun r => merge base r dx dy) (ParseComposite_loop d visit a b fuel ptr o) := by
  intro fuel
  induction fuel with
  | zero => intro _ _ _ _; rfl
  | succ n ih =>
    intro a b ptr o
    unfold ParseComposite_loop
    cases hf : ReadU16 d ptr with
    | bounds => rfl
    | fuel => rfl
    | ok flags =>
      cases hc : ReadU16 d (ptr + 2) with
      | bounds => rfl
      | fuel => rfl
      | ok cid =>
        simp only [Outcome.ok_bind]
        cases ha : (if flags &&& 1 ≠ 0 then do
            let a1 ← ReadS16 d (ptr + 4)
            let a2 ← ReadS16 d (ptr + 4 + 2)
            pure (a1, a2, ptr + 4 + 4)
          else do
            let b1 ← byteAt d (ptr + 4)
            let b2 ← byteAt d (ptr + 4 + 1)
            pure (toInt8 b1, toInt8 b2, ptr + 4 + 2) : Outcome (Int × Int × Nat)) with
        | bounds => rfl
        | fuel => rfl
        | ok args =>
          simp only [Outcome.ok_bind]
          have hx : (if flags &&& 2 ≠ 0 then dx + a + args.1 else dx + a) =
              dx + (if flags &&& 2 ≠ 0 then a + args.1 else a) := by
            split_ifs <;> omega
          have hy : (if flags &&& 2 ≠ 0 then dy + b + args.2.1 else dy + b) =
              dy + (if flags &&& 2 ≠ 0 then b + args.2.1 else b) := by
            split_ifs <;> omega
          rw [hx, hy, hv]
          cases hvis : visit cid (if flags &&& 2 ≠ 0 then a + args.1 else a)
              (if flags &&& 2 ≠ 0 then b + args.2.1 else b) o with
          | bounds => rfl
          | fuel => rfl
          | ok o1 =>
            simp only [Outcome.map_ok, Outcome.ok_bind, Outcome.pure_eq]
            by_cases hm : flags &&& 0x20 ≠ 0
            · rw [if_pos hm, if_pos hm]
              exact ih a b _ o1
            · rw [if_neg hm, if_neg hm]
              rfl

/-- The function `Visit` under the translation `(dx + a, dy + b)`, on an outline
merged after `base`, is `Visit` under `(a, b)`, merged after `base` under
`(dx, dy)`: a glyph contributes its outline translated, and translations add. -/
theorem Visit_merge (f : FontLoader) (dx dy : Int) (base : GlyphContour) :
    ∀ (fuel gid : Nat) (a b : Int) (o : GlyphContour),
      Visit f fuel gid (dx + a) (dy + b) (merge base o dx dy) =
        Outcome.map (fun r => merge base r dx dy) (Visit f fuel gid a b o) := by
  intro fuel
  induction fuel with
  | zero => intro _ _ _ _; rfl
  | succ n ih =>
    intro gid a b o
    unfold Visit
    cases hg : GlyphOffset f gid with
    | bounds => rfl
    | fuel => rfl
    | ok r =>
      simp only [Outcome.ok_bind]
      cases r with
      | none => rfl
      | some q =>
        obtain ⟨gptr, glen⟩ := q
        simp only
        cases hn : ReadS16 f.data gptr with
        | bounds => rfl
        | fuel => rfl
        | ok nc =>
          simp only [Outcome.ok_bind]
          by_cases h0 : nc ≥ 0
          · rw [if_pos h0, if_pos h0]
            exact ParseSimple_merge f.data gptr dx dy a b n base o
          · rw [if_neg h0, if_neg h0]
            exact ParseComposite_loop_merge f.data (Visit f n) dx dy base
              (fun cid a b o => ih cid a b o) n a b (gptr + 10) o

/-! ## Composite glyphs -/

/-- One round of the loop of `ParseComposite`: the record is read, the child is
visited under `(cdx, cdy)`, and the next record starts behind the transform
bytes. -/
theorem ParseComposite_loop_step (d : List Nat)
    (visit : Nat → Int → Int → GlyphContour → Outcome GlyphContour) (dx dy : Int)
    (fuel ptr : Nat) (out : GlyphContour) :
    ParseComposite_loop d visit dx dy (fuel + 1) ptr out =
      (read_component d ptr >>= fun r =>
        visit r.1.cid (child_dx r.1 dx) (child_dy r.1 dy) out >>= fun out1 =>
          if r.1.flags &&& 0x20 ≠ 0 then
            ParseComposite_loop d visit dx dy fuel (r.2 + transform_size r.1.flags) out1
          else Outcome.ok out1) := by
  conv_lhs => rw [ParseComposite_loop]
  unfold read_component
  cases hf : ReadU16 d ptr with
  | bounds => rfl
  | fuel => rfl
  | ok flags =>
    cases hc : ReadU16 d (ptr + 2) with
    | bounds => rfl
    | fuel => rfl
    | ok cid =>
      simp only [Outcome.ok_bind]
      cases ha : (if flags &&& 1 ≠ 0 then do
          let a1 ← ReadS16 d (ptr + 4)
          let a2 ← ReadS16 d (ptr + 4 + 2)
          pure (a1, a2, ptr + 4 + 4)
        else do
          let b1 ← byteAt d (ptr + 4)
          let b2 ← byteAt d (ptr + 4 + 1)
          pure (toInt8 b1, toInt8 b2, ptr + 4 + 2) : Outcome (Int × Int × Nat)) with
      | bounds => rfl
      | fuel => rfl
      | ok args =>
        simp only [Outcome.ok_bind, Outcome.pure_eq, child_dx, child_dy, transform_size]
        cases visit cid (if flags &&& 2 ≠ 0 then dx + args.1 else dx)
            (if flags &&& 2 ≠ 0 then dy + args.2.1 else dy) out with
        | bounds => rfl
        | fuel => rfl
        | ok o1 =>
          simp only [Outcome.ok_bind]
          split_ifs <;> rfl

theorem merge_no_outline (out : GlyphContour) (dx dy : Int) : merge out no_outline dx dy = out := by
  simp [merge, no_outline]

/-- A glyph visited under a translation on any outline contributes what it
contributes on the empty outline without translation, merged. -/
theorem Visit_eq_merge (f : FontLoader) (fuel gid : Nat) (dx dy : Int) (out : GlyphContour) :
    Visit f fuel gid dx dy out =
      Outcome.map (fun r => merge out r dx dy) (Visit f fuel gid 0 0 no_outline) := by
  have h := Visit_merge f dx dy out fuel gid 0 0 no_outline
  rw [merge_no_outline] at h
  simpa using h

/-- Merging depends only on the segments and the contours of the appended
outline. -/
theorem merge_congr (out own own0 : GlyphContour) (dx dy : Int)
    (hs : own0.segments = own.segments) (hc : own0.contours = own.contours) :
    merge out own0 dx dy = merge out own dx dy := by
  simp [merge, hs, hc]

/-- The loop of `ParseComposite` over a chain of component records whose
children return: the outline is the one with the children merged in order. -/
theorem ParseComposite_loop_chain (d : List Nat)
    (visit : Nat → Int → Int → GlyphContour → Outcome GlyphContour) (dx dy : Int)
    (hv : ∀ (cid : Nat) (x y : Int) (o : GlyphContour),
      visit cid x y o = Outcome.map (fun r => merge o r x y) (visit cid 0 0 no_outline)) :
    ∀ (fuel ptr : Nat) (comps : List Component) (owns : List GlyphContour)
      (out : GlyphContour),
      read_components d fuel ptr = .ok comps →
      List.Forall₂ (fun c own => ∃ own0, visit c.cid 0 0 no_outline = .ok own0 ∧
        own0.segments = own.segments ∧ own0.contours = own.contours) comps owns →
      ParseComposite_loop d visit dx dy fuel ptr out =
        .ok (merge_components dx dy out (comps.zip owns)) := by
  intro fuel
  induction fuel with
  | zero =>
    intro ptr comps owns out h _
    simp [read_components] at h
  | succ n ih =>
    intro ptr comps owns out h hown
    rw [ParseComposite_loop_step]
    unfold read_components at h
    cases hr : read_component d ptr with
    | bounds => rw [hr] at h; simp at h
    | fuel => rw [hr] at h; simp at h
    | ok r =>
      rw [hr] at h
      simp only [Outcome.ok_bind] at h ⊢
      by_cases hm : r.1.flags &&& 0x20 ≠ 0
      · rw [if_pos hm] at h
        rw [Outcome.bind_eq_ok] at h
        obtain ⟨rest, hrest, hcomps⟩ := h
        simp only [Outcome.pure_eq, Outcome.ok.injEq] at hcomps
        subst hcomps
        cases hown with
        | cons h1 h2 =>
          rename_i own owns1
          obtain ⟨own0, hv0, hs, hc⟩ := h1
          rw [hv, hv0]
          simp only [Outcome.map_ok, Outcome.ok_bind, if_pos hm]
          rw [ih _ rest owns1 _ hrest h2, merge_congr _ own own0 _ _ hs hc]
          rfl
      · rw [if_neg hm] at h
        simp only [Outcome.pure_eq, Outcome.ok.injEq] at h
        subst h
        cases hown with
        | cons h1 h2 =>
          rename_i own owns1
          obtain ⟨own0, hv0, hs, hc⟩ := h1
          cases h2
          rw [hv, hv0]
          simp only [Outcome.map_ok, Outcome.ok_bind, if_neg hm]
          rw [merge_congr _ own own0 _ _ hs hc]
          rfl

/-- The segments and contours of an outline with components merged. -/
theorem merge_components_fields (dx dy : Int) :
    ∀ (qs : List (Component × GlyphContour)) (out : GlyphContour),
      (merge_components dx dy out qs).segments =
        out.segments ++ (qs.map (fun q =>
          q.2.segments.map (Segment.translate (child_dx q.1 dx) (child_dy q.1 dy)))).flatten ∧
      (merge_components dx dy out qs).contours =
        out.contours ++ shifted_contours out.segments.length (qs.map (fun q => q.2)) ∧
      (merge_components dx dy out qs).advance_width = out.advance_width := by
  intro qs
  induction qs with
  | nil => intro out; simp [merge_components, shifted_contours]
  | cons q rest ih =>
    intro out
    obtain ⟨h1, h2, h3⟩ := ih (merge out q.2 (child_dx q.1 dx) (child_dy q.1 dy))
    refine ⟨?_, ?_, ?_⟩
    · simp only [merge_components]
      rw [h1]
      simp [merge]
    · simp only [merge_components]
      rw [h2]
      simp [merge, shifted_contours]
    · simp only [merge_components]
      rw [h3]
      rfl

/-- The number of shifted contour starts is the sum of the contour counts. -/
theorem shifted_contours_length :
    ∀ (owns : List GlyphContour) (acc : Nat),
      (shifted_contours acc owns).length = (owns.map (fun own => own.contours.length)).sum := by
  intro owns
  induction owns with
  | nil => intro _; rfl
  | cons own rest ih => intro acc; simp [shifted_contours, ih]

/-- The own outline of a glyph, as `Extract` returns it, has the segments and
contours of the visit on the empty outline. -/
theorem Extract_own (f : FontLoader) (fuel gid : Nat) (own : GlyphContour)
    (h : Extract f fuel gid = .ok own) :
    ∃ own0, Visit f fuel gid 0 0 no_outline = .ok own0 ∧
      own0.segments = own.segments ∧ own0.contours = own.contours := by
  unfold Extract at h
  rw [Visit_eq_merge] at h
  cases hv : Visit f fuel gid 0 0 no_outline with
  | bounds => rw [hv] at h; simp [Outcome.map] at h
  | fuel => rw [hv] at h; simp [Outcome.map] at h
  | ok own0 =>
    rw [hv] at h
    simp only [Outcome.map_ok, Outcome.ok.injEq] at h
    refine ⟨own0, rfl, ?_, ?_⟩
    · rw [← h]
      simp only [merge, List.nil_append]
      have : Segment.translate 0 0 = id := by
        funext s
        simp [Segment.translate]
      rw [this, List.map_id]
    · rw [← h]
      simp [merge]

/-- A composite glyph whose component records can be read and whose children
return: `Visit` returns the outline with the children merged in order. -/
theorem Visit_composite (f : FontLoader) (g gptr glen fuel : Nat) (n : Int)
    (comps : List Component) (owns : List GlyphContour)
    (hoff : GlyphOffset f g = .ok (some (gptr, glen)))
    (hn : ReadS16 f.data gptr = .ok n) (hneg : n < 0)
    (hc : read_components f.data fuel (gptr + 10) = .ok comps)
    (hown : List.Forall₂ (fun c own => Extract f fuel c.cid = .ok own) comps owns)
    (dx dy : Int) (o : GlyphContour) :
    Visit f (fuel + 1) g dx dy o = .ok (merge_components dx dy o (comps.zip owns)) := by
  rw [Visit, hoff]
  simp only [Outcome.ok_bind, hn]
  rw [if_neg (by omega)]
  exact ParseComposite_loop_chain f.data (Visit f fuel) dx dy (Visit_eq_merge f fuel) fuel
    (gptr + 10) comps owns o hc (hown.imp (fun c own h => Extract_own f fuel c.cid own h))

/-- With `ARGS_ARE_XY` on every record, the translation of a child is the one of
the parent plus the arguments. -/
theorem translate_all_xy (dx dy : Int) :
    ∀ (comps : List Component) (owns : List GlyphContour),
      (∀ c ∈ comps, c.flags &&& 2 ≠ 0) →
      ((comps.zip owns).map (fun q =>
          q.2.segments.map (Segment.translate (child_dx q.1 dx) (child_dy q.1 dy)))) =
        ((comps.zip owns).map (fun q =>
          q.2.segments.map (Segment.translate (dx + q.1.arg1) (dy + q.1.arg2)))) := by
  intro comps owns hxy
  apply List.map_congr_left
  intro q hq
  have hmem : q.1 ∈ comps := (List.of_mem_zip hq).1
  have h2 := hxy q.1 hmem
  simp only [child_dx, child_dy, if_pos h2]

theorem zip_map_snd_of_forall₂ {α β : Type} {R : α → β → Prop} :
    ∀ (l1 : List α) (l2 : List β), List.Forall₂ R l1 l2 →
      (l1.zip l2).map (fun q => q.2) = l2 := by
  intro l1 l2 h
  induction h with
  | nil => rfl
  | cons _ _ ih => simp [List.zip_cons_cons, ih]

/-- C12, counterexample: the only component of glyph 2 of `compositeFont` has
the arguments `(10, 5)` and `ARGS_ARE_XY` clear; `Extract` returns the segments
of its child, the triangle, as they are, which are not the segments translated
by `(10, 5)`. -/
theorem C12_counterexample :
    read_components compositeFont.data 4 72 = .ok [⟨1, 0, 10, 5⟩] ∧
    Extract compositeFont 4 0 = .ok triangle ∧
    Extract compositeFont 5 2 = .ok triangle ∧
    triangle.segments.map (Segment.translate 10 5) ≠ triangle.segments := by
  decide!

/-- The visit of glyph 4 of `compositeFont`, whose component is glyph 4, never
returns. -/
theorem Visit_self_reference :
    ∀ (fuel : Nat) (dx dy : Int) (o : GlyphContour), Visit compositeFont fuel 4 dx dy o = .fuel := by
  intro fuel
  induction fuel with
  | zero => intro dx dy o; rfl
  | succ n ih =>
    intro dx dy o
    have hoff : GlyphOffset compositeFont 4 = .ok (some (108, 18)) := by decide!
    have hn : ReadS16 compositeFont.data 108 = .ok (-1) := by decide!
    rw [Visit, hoff]
    simp only [Outcome.ok_bind, hn]
    rw [if_neg (by omega)]
    cases n with
    | zero => rfl
    | succ m =>
      have hr : read_component compositeFont.data (108 + 10) = .ok (⟨3, 4, 0, 0⟩, 126) := by
        decide!
      rw [ParseComposite_loop_step, hr]
      simp only [Outcome.ok_bind]
      rw [ih]
      rfl

/-- C17 (amended). Composite recursion: `Extract(g)` returns for a composite
glyph whose component records can be read whenever the extraction of each of
its components returns; the depth of the recursion is the depth of the nesting.
There is no protection against cycles in the code. -/
theorem C17_composite_returns (f : FontLoader) (g gptr glen fuel : Nat) (n : Int)
    (comps : List Component) (owns : List GlyphContour)
    (hoff : GlyphOffset f g = .ok (some (gptr, glen)))
    (hn : ReadS16 f.data gptr = .ok n) (hneg : n < 0)
    (hc : read_components f.data fuel (gptr + 10) = .ok comps)
    (hown : List.Forall₂ (fun c own => Extract f fuel c.cid = .ok own) comps owns) :
    ∃ out, Extract f (fuel + 1) g = .ok out :=
  ⟨_, Visit_composite f g gptr glen fuel n comps owns hoff hn hneg hc hown 0 0 _⟩

/-- C17, witness: glyph 3 of `compositeFont`, two components of the triangle. -/
theorem C17_composite_returns_witness : ∃ out, Extract compositeFont 5 3 = .ok out :=
  C17_composite_returns compositeFont 3 80 28 4 (-1) [⟨0x2B, 0, 10, -5⟩, ⟨3, 0, 0, 0⟩]
    [triangle, triangle] (by decide!) (by decide!) (by decide) (by decide!)
    (List.Forall₂.cons (by decide!) (List.Forall₂.cons (by decide!) List.Forall₂.nil))

/-- C17, counterexample: glyph 4 of `compositeFont` is a composite glyph that
lists itself as its component; `Extract(4)` does not return, whatever the
number of steps it is given. -/
theorem C17_counterexample :
    GlyphOffset compositeFont 4 = .ok (some (108, 18)) ∧
    ReadS16 compositeFont.data 108 = .ok (-1) ∧
    read_component compositeFont.data 118 = .ok (⟨3, 4, 0, 0⟩, 126) ∧
    ∀ fuel : Nat, Extract compositeFont fuel 4 = .fuel :=
  ⟨by decide!, by decide!, by decide!, fun fuel => Visit_self_reference fuel 0 0 _⟩

/-! ## The bytes that `ParseComposite` reads -/

/-- C14 (the code departs from the claim). Curve step: on the contour of the
three points on-curve `P0 = (x0, y0)`, off-curve `C = (cx, cy)`, on-curve
`P1 = (x1, y1)`, under the translation `(dx, dy)`, `EmitContour` emits exactly
one segment for the step from `P0` over `C` to `P1`, and that segment starts at
`C`, has the control point `C` and ends at `P1`: the point `P0` does not occur
in it. The second segment is the line that closes the contour from `P1` to
`P0`. -/
theorem C14_curve_step_starts_at_control (x0 y0 cx cy x1 y1 dx dy : Int) (fuel : Nat)
    (out : GlyphContour) :
    EmitContour [x0, cx, x1] [y0, cy, y1] [1, 0, 1] 0 2 dx dy (fuel + 3) out =
      .ok { out with segments := out.segments ++
        [⟨(cx : ℚ) + dx, (cy : ℚ) + dy, (cx : ℚ) + dx, (cy : ℚ) + dy,
          (x1 : ℚ) + dx, (y1 : ℚ) + dy⟩,
         ⟨(x1 : ℚ) + dx, (y1 : ℚ) + dy,
          (((x1 : ℚ) + dx) + ((x0 : ℚ) + dx)) / 2, (((y1 : ℚ) + dy) + ((y0 : ℚ) + dy)) / 2,
          (x0 : ℚ) + dx, (y0 : ℚ) + dy⟩] } := by
  simp [EmitContour, EmitContour_start, EmitContour_loop, IsOn, Pt, vecAt, Next, AddLine,
    AddQuad]

/-- The search for the start point of a contour of at least two points, none of
them on-curve, does not end. -/
theorem EmitContour_start_all_off (flags : List Nat) (first_idx last_idx : Nat)
    (hlt : first_idx < last_idx) (hl : last_idx < 2 ^ 16)
    (hoff : ∀ i, first_idx ≤ i → i ≤ last_idx → IsOn flags i = .ok false) :
    ∀ (fuel s : Nat), first_idx ≤ s → s ≤ last_idx →
      EmitContour_start flags first_idx last_idx fuel s = .fuel := by
  intro fuel
  induction fuel with
  | zero => intro s _ _; rfl
  | succ n ih =>
    intro s h1 h2
    unfold EmitContour_start
    rw [hoff s h1 h2]
    simp only [Outcome.ok_bind]
    by_cases hs : s = last_idx
    · have hnext : Next first_idx last_idx s = first_idx := by
        unfold Next
        rw [if_pos hs]
      rw [hnext, if_pos ⟨trivial, by omega⟩]
      exact ih first_idx (le_refl _) (by omega)
    · have hnext : Next first_idx last_idx s = (s + 1) % 2 ^ 16 := by
        unfold Next
        rw [if_neg hs]
      have hw : s + 1 < 2 ^ 16 := by omega
      rw [hnext, Nat.mod_eq_of_lt hw, if_pos ⟨trivial, by omega⟩]
      exact ih (s + 1) (by omega) (by omega)

/-- C16 (the code departs from the claim). Contour walk: for a contour of at
least two points (and fewer than 65536), none of which is on-curve,
`EmitContour` does not return: the search for the start point
`while (!IsOn(start) && start != Next(start))` goes round the contour for ever
and no segment is emitted, whatever the number `fuel` of steps. -/
theorem C16_all_off_contour_never_returns (xs ys : List Int) (flags : List Nat)
    (first_idx last_idx : Nat) (dx dy : Int) (out : GlyphContour)
    (hlt : first_idx < last_idx) (hl : last_idx + 1 < 2 ^ 16)
    (hoff : ∀ i, first_idx ≤ i → i ≤ last_idx → IsOn flags i = .ok false) (fuel : Nat) :
    EmitContour xs ys flags first_idx last_idx dx dy fuel out = .fuel := by
  unfold EmitContour
  have hn : ¬ (last_idx + 2 ^ 16 - first_idx + 1) % 2 ^ 16 = 0 := by omega
  simp only [if_neg hn]
  rw [EmitContour_start_all_off flags first_idx last_idx hlt (by omega) hoff fuel first_idx
    (le_refl _) (by omega)]
  rfl

/-- C16, witness: the contour of the two off-curve points `(5, 5)` and
`(10, 10)`, the decoded points of glyph 4 of `exampleFont`, with 1000 steps. -/
theorem C16_all_off_contour_never_returns_witness :
    EmitContour [5, 10] [5, 10] [0x36, 0x36] 0 1 0 0 1000 no_outline = .fuel :=
  C16_all_off_contour_never_returns [5, 10] [5, 10] [0x36, 0x36] 0 1 0 0 no_outline
    (by decide) (by decide)
    (fun i _ h1 => by
      have hi : i = 0 ∨ i = 1 := by omega
      rcases hi with rfl | rfl <;> rfl) 1000

/-- C15 (the code departs from the claim). Implied midpoint: on the contour of
the four points on-curve `P0`, off-curve `C1`, off-curve `C2`, on-curve `P1`,
with `M = (C1 + C2) / 2`, `EmitContour` emits a segment that ends at `M` and has
the control point `C1` (its start is `C1` as well), and the following segment
starts at `M` and is the straight line to `P1`: its control point is the
midpoint of `M` and `P1`, and `C2` occurs in the outline only through `M`. The
third segment closes the contour from `P1` to `P0`. -/
theorem C15_second_off_curve_point_dropped (x0 y0 c1x c1y c2x c2y x1 y1 dx dy : Int)
    (fuel : Nat) (out : GlyphContour) :
    EmitContour [x0, c1x, c2x, x1] [y0, c1y, c2y, y1] [1, 0, 0, 1] 0 3 dx dy (fuel + 4) out =
      .ok { out with segments := out.segments ++
        [⟨(c1x : ℚ) + dx, (c1y : ℚ) + dy, (c1x : ℚ) + dx, (c1y : ℚ) + dy,
          (((c1x : ℚ) + dx) + ((c2x : ℚ) + dx)) / 2, (((c1y : ℚ) + dy) + ((c2y : ℚ) + dy)) / 2⟩,
         ⟨(((c1x : ℚ) + dx) + ((c2x : ℚ) + dx)) / 2, (((c1y : ℚ) + dy) + ((c2y : ℚ) + dy)) / 2,
          ((((c1x : ℚ) + dx) + ((c2x : ℚ) + dx)) / 2 + ((x1 : ℚ) + dx)) / 2,
          ((((c1y : ℚ) + dy) + ((c2y : ℚ) + dy)) / 2 + ((y1 : ℚ) + dy)) / 2,
          (x1 : ℚ) + dx, (y1 : ℚ) + dy⟩,
         ⟨(x1 : ℚ) + dx, (y1 : ℚ) + dy,
          (((x1 : ℚ) + dx) + ((x0 : ℚ) + dx)) / 2, (((y1 : ℚ) + dy) + ((y0 : ℚ) + dy)) / 2,
          (x0 : ℚ) + dx, (y0 : ℚ) + dy⟩] } := by
  unfold EmitContour
  simp only [EmitContour_start, IsOn, vecAt, Next, Pt, List.getElem?_cons_zero,
    List.getElem?_cons_succ, Outcome.ok_bind, Outcome.pure_eq]
  norm_num
  rw [EmitContour_loop]
  simp [IsOn, Pt, vecAt, Next]
  rw [EmitContour_loop]
  simp [IsOn, Pt, vecAt, Next]
  rw [EmitContour_loop]
  simp [IsOn, Pt, vecAt, Next]
  rw [EmitContour_loop]
  simp [IsOn, Pt, vecAt, Next, AddLine, AddQuad]


/-! ## Decoding of the coordinates of a simple glyph -/

theorem vecAt_eq_ok {α : Type} (v : List α) (i : Nat) (a : α) (h : vecAt v i = .ok a) :
    v[i]? = some a := by
  unfold vecAt at h
  cases hq : v[i]? with
  | none => rw [hq] at h; simp at h
  | some b =>
    rw [hq] at h
    simp only [Outcome.ok.injEq] at h
    rw [h]

theorem byteAt_eq_ok (d : List Nat) (p b : Nat) (h : byteAt d p = .ok b) : d[p]? = some b := by
  unfold byteAt at h
  cases hq : d[p]? with
  | none => rw [hq] at h; simp at h
  | some c =>
    rw [hq] at h
    simp only [Outcome.ok.injEq] at h
    rw [h]

/-- A coordinate loop of `ParseSimple`, point by point: where the delta of a
point lies in the stream and how it is decoded. -/
theorem readCoords_rule (d : List Nat) (flags : List Nat) (sb mb : Nat) :
    ∀ (n i ptr : Nat) (r : List Int × Nat),
      readCoords d flags sb mb n i ptr = .ok r →
      r.2 = coord_pos flags sb mb n i ptr ∧
      ∀ k, k < n → ∃ fl v, flags[i + k]? = some fl ∧ r.1[k]? = some v ∧
        (fl &&& sb ≠ 0 → fl &&& mb ≠ 0 →
          ∃ b, d[coord_pos flags sb mb k i ptr]? = some b ∧ v = (b : Int)) ∧
        (fl &&& sb ≠ 0 → fl &&& mb = 0 →
          ∃ b, d[coord_pos flags sb mb k i ptr]? = some b ∧ v = -(b : Int)) ∧
        (fl &&& sb = 0 → fl &&& mb = 0 →
          ReadS16 d (coord_pos flags sb mb k i ptr) = .ok v) ∧
        (fl &&& sb = 0 → fl &&& mb ≠ 0 → v = 0) := by
  intro n
  induction n with
  | zero =>
    intro i ptr r h
    simp only [readCoords, Outcome.pure_eq, Outcome.ok.injEq] at h
    rw [← h]
    exact ⟨rfl, fun k hk => absurd hk (by omega)⟩
  | succ n ih =>
    intro i ptr r h
    unfold readCoords at h
    rw [Outcome.bind_eq_ok] at h
    obtain ⟨fl, hfl, h⟩ := h
    have hfl1 := vecAt_eq_ok flags i fl hfl
    have hgetD : flags.getD i 0 = fl := by
      rw [List.getD_eq_getElem?_getD, hfl1]
      rfl
    have hpos : ∀ k, coord_pos flags sb mb (k + 1) i ptr =
        coord_pos flags sb mb k (i + 1) (ptr + coord_size fl sb mb) := by
      intro k
      rw [coord_pos, hgetD]
    by_cases hs : fl &&& sb ≠ 0
    · rw [if_pos hs] at h
      rw [Outcome.bind_eq_ok] at h
      obtain ⟨b, hb, h⟩ := h
      rw [Outcome.bind_eq_ok] at h
      obtain ⟨r1, hr1, h⟩ := h
      simp only [Outcome.pure_eq, Outcome.ok.injEq] at h
      have hsize : coord_size fl sb mb = 1 := by
        unfold coord_size
        rw [if_pos hs]
      obtain ⟨ih1, ih2⟩ := ih (i + 1) (ptr + 1) r1 hr1
      rw [← h]
      refine ⟨?_, ?_⟩
      · rw [hpos, hsize]
        exact ih1
      · intro k hk
        cases k with
        | zero =>
          refine ⟨fl, (if fl &&& mb ≠ 0 then (b : Int) else -(b : Int)), hfl1, by simp,
            ?_, ?_, ?_, ?_⟩
          · intro _ hm
            exact ⟨b, byteAt_eq_ok d ptr b hb, by rw [if_pos hm]⟩
          · intro _ hm
            exact ⟨b, byteAt_eq_ok d ptr b hb, by rw [if_neg (by simpa using hm)]⟩
          · intro h0 _
            exact absurd h0 hs
          · intro h0 _
            exact absurd h0 hs
        | succ k =>
          obtain ⟨fl1, v1, hf1, hv1, hrule⟩ := ih2 k (by omega)
          refine ⟨fl1, v1, ?_, ?_, ?_⟩
          · rw [← hf1]
            congr 1
            omega
          · simpa using hv1
          · rw [hpos, hsize]
            exact hrule
    · rw [if_neg hs] at h
      by_cases hm : fl &&& mb = 0
      · rw [if_pos hm] at h
        rw [Outcome.bind_eq_ok] at h
        obtain ⟨v, hv, h⟩ := h
        rw [Outcome.bind_eq_ok] at h
        obtain ⟨r1, hr1, h⟩ := h
        simp only [Outcome.pure_eq, Outcome.ok.injEq] at h
        have hsize : coord_size fl sb mb = 2 := by
          unfold coord_size
          rw [if_neg hs, if_pos hm]
        obtain ⟨ih1, ih2⟩ := ih (i + 1) (ptr + 2) r1 hr1
        rw [← h]
        refine ⟨?_, ?_⟩
        · rw [hpos, hsize]
          exact ih1
        · intro k hk
          cases k with
          | zero =>
            refine ⟨fl, v, hfl1, by simp, ?_, ?_, ?_, ?_⟩
            · intro h0 _
              exact absurd h0 hs
            · intro h0 _
              exact absurd h0 hs
            · intro _ _
              exact hv
            · intro _ h1
              exact absurd hm h1
          | succ k =>
            obtain ⟨fl1, v1, hf1, hv1, hrule⟩ := ih2 k (by omega)
            refine ⟨fl1, v1, ?_, ?_, ?_⟩
            · rw [← hf1]
              congr 1
              omega
            · simpa using hv1
            · rw [hpos, hsize]
              exact hrule
      · rw [if_neg hm] at h
        rw [Outcome.bind_eq_ok] at h
        obtain ⟨r1, hr1, h⟩ := h
        simp only [Outcome.pure_eq, Outcome.ok.injEq] at h
        have hsize : coord_size fl sb mb = 0 := by
          unfold coord_size
          rw [if_neg hs, if_neg hm]
        obtain ⟨ih1, ih2⟩ := ih (i + 1) ptr r1 hr1
        rw [← h]
        refine ⟨?_, ?_⟩
        · rw [hpos, hsize]
          exact ih1
        · intro k hk
          cases k with
          | zero =>
            refine ⟨fl, 0, hfl1, by simp, ?_, ?_, ?_, ?_⟩
            · intro h0 _
              exact absurd h0 hs
            · intro h0 _
              exact absurd h0 hs
            · intro _ h1
              exact absurd h1 hm
            · intro _ _
              rfl
          | succ k =>
            obtain ⟨fl1, v1, hf1, hv1, hrule⟩ := ih2 k (by omega)
            refine ⟨fl1, v1, ?_, ?_, ?_⟩
            · rw [← hf1]
              congr 1
              omega
            · simpa using hv1
            · rw [hpos, hsize]
              exact hrule

/-- A sum stored in an `int16_t` is the stored value of the exact sum. -/
theorem wrapInt16_add_wrap (y a : Int) : wrapInt16 (y + wrapInt16 a) = wrapInt16 (a + y) := by
  unfold wrapInt16
  omega

theorem wrapInt16_of_range (x : Int) (h1 : -2 ^ 15 ≤ x) (h2 : x < 2 ^ 15) : wrapInt16 x = x := by
  unfold wrapInt16
  omega

/-- Element `j` of the running sums is the `int16_t` value of the sum of the
elements up to `j`. -/
theorem running_sum_getElem :
    ∀ (rest : List Int) (acc a : Int) (j : Nat), acc = wrapInt16 a → j < rest.length →
      (running_sum acc rest)[j]? = some (wrapInt16 (a + (rest.take (j + 1)).sum)) := by
  intro rest
  induction rest with
  | nil => intro acc a j _ hj; simp at hj
  | cons y rest ih =>
    intro acc a j hacc hj
    have hw : wrapInt16 (y + acc) = wrapInt16 (a + y) := by
      rw [hacc]
      exact wrapInt16_add_wrap y a
    cases j with
    | zero =>
      simp only [running_sum, List.getElem?_cons_zero, List.take_succ_cons, List.take_zero,
        List.sum_cons, List.sum_nil, add_zero, zero_add]
      rw [hw]
    | succ j =>
      simp only [running_sum, List.getElem?_cons_succ, List.take_succ_cons, List.sum_cons]
      rw [ih (wrapInt16 (y + acc)) (a + y) j hw (by simpa using hj), add_assoc]

/-- The absolute coordinate of point `i` is the sum of the deltas `0 .. i` in
16-bit signed arithmetic. -/
theorem absolute_getElem (ds : List Int) (h0 : ∀ v ∈ ds, -2 ^ 15 ≤ v ∧ v < 2 ^ 15) (i : Nat)
    (hi : i < ds.length) :
    (absolute ds)[i]? = some (wrapInt16 ((ds.take (i + 1)).sum)) := by
  cases ds with
  | nil => simp at hi
  | cons x rest =>
    have hx := h0 x (by simp)
    cases i with
    | zero =>
      simp only [absolute, List.getElem?_cons_zero, List.take_succ_cons, List.take_zero,
        List.sum_cons, List.sum_nil, add_zero, zero_add]
      rw [wrapInt16_of_range x hx.1 hx.2]
    | succ j =>
      simp only [absolute, List.getElem?_cons_succ, List.take_succ_cons, List.sum_cons]
      exact running_sum_getElem rest x x j (wrapInt16_of_range x hx.1 hx.2).symm
        (by simpa using hi)

theorem toInt16_range (v : Nat) : -2 ^ 15 ≤ toInt16 v ∧ toInt16 v < 2 ^ 15 := by
  unfold toInt16
  split_ifs <;> omega

/-- The deltas that a coordinate loop reads from a blob of bytes are `int16_t`
values. -/
theorem readCoords_range (d : List Nat) (hbytes : ∀ b ∈ d, b < 256) (flags : List Nat)
    (sb mb : Nat) (n i ptr : Nat) (r : List Int × Nat)
    (h : readCoords d flags sb mb n i ptr = .ok r) :
    ∀ v ∈ r.1, -2 ^ 15 ≤ v ∧ v < 2 ^ 15 := by
  intro v hv
  obtain ⟨k, hk, hkv⟩ := List.getElem_of_mem hv
  have hlen := readCoords_length d flags sb mb n i ptr r h
  obtain ⟨fl, v1, _, hv1, r1, r2, r3, r4⟩ := (readCoords_rule d flags sb mb n i ptr r h).2 k
    (by omega)
  have hvv : v1 = v := by
    rw [List.getElem?_eq_getElem hk, hkv] at hv1
    exact (Option.some.inj hv1).symm
  subst hvv
  have hbyte : ∀ (q b : Nat), d[q]? = some b → b < 256 := by
    intro q b hq
    exact hbytes b (List.getElem?_mem hq)
  by_cases hs : fl &&& sb ≠ 0
  · by_cases hm : fl &&& mb ≠ 0
    · obtain ⟨b, hb, hvb⟩ := r1 hs hm
      have := hbyte _ b hb
      omega
    · obtain ⟨b, hb, hvb⟩ := r2 hs (by simpa using hm)
      have := hbyte _ b hb
      omega
  · have hs0 : fl &&& sb = 0 := by simpa using hs
    by_cases hm : fl &&& mb = 0
    · have hr := r3 hs0 hm
      unfold ReadS16 at hr
      rw [Outcome.bind_eq_ok] at hr
      obtain ⟨u, _, hu⟩ := hr
      simp only [Outcome.pure_eq, Outcome.ok.injEq] at hu
      rw [← hu]
      exact toInt16_range u
    · have := r4 hs0 hm
      omega

/-- C18. Simple-glyph coordinate decoding, for a blob of bytes on which the
reads of `ParseSimple` return the point data `p`. The flags are expanded: a flag
byte with bit 3 set, followed by the count `rep`, stands for `rep + 1` points,
any other flag byte for one. The x delta of point `i` is `+b` if bit 1 and
bit 4 of its flag are set, `-b` if bit 1 is set and bit 4 clear (`b` the byte
at the read pointer), the big-endian signed 16-bit value at the read pointer
if both bits are clear, and 0 if bit 1 is clear and bit 4 set; the read pointer
of point `i` is `coord_pos`, the start of the x deltas advanced by 1, 2 or 0
bytes for every earlier point. All x deltas precede all y deltas: the y deltas
start at the read pointer `yptr` at which the x loop ended. The y deltas use
bits 2 and 5 in the same way. The absolute coordinate of point `i` is the sum
of the deltas `0 .. i` in 16-bit signed arithmetic. -/
theorem C18_coordinate_decoding (d : List Nat) (g : Nat) (p : SimplePoints)
    (hbytes : ∀ b ∈ d, b < 256) (hp : ParseSimple_points d g = .ok p) :
    (∀ (n f rep i ptr : Nat) (rest acc : List Nat), i < n → f &&& 8 ≠ 0 →
      readFlags n (f :: rep :: rest) i ptr acc =
        readFlags n rest ((i + 1 + rep) % 2 ^ 16) (ptr + 2)
          (acc ++ List.replicate (rep + 1) f)) ∧
    (∀ (n f i ptr : Nat) (rest acc : List Nat), i < n → f &&& 8 = 0 →
      readFlags n (f :: rest) i ptr acc =
        readFlags n rest ((i + 1) % 2 ^ 16) (ptr + 1) (acc ++ [f])) ∧
    ∃ (n_pts fptr xptr yptr eptr : Nat) (dxs dys : List Int),
      p.xs.length = n_pts ∧ p.ys.length = n_pts ∧
      readFlags n_pts (d.drop fptr) 0 fptr [] = .ok (p.flags, xptr) ∧
      readCoords d p.flags 0x02 0x10 n_pts 0 xptr = .ok (dxs, yptr) ∧
      readCoords d p.flags 0x04 0x20 n_pts 0 yptr = .ok (dys, eptr) ∧
      yptr = coord_pos p.flags 0x02 0x10 n_pts 0 xptr ∧
      eptr = coord_pos p.flags 0x04 0x20 n_pts 0 yptr ∧
      (∀ i, i < n_pts → ∃ fl v, p.flags[i]? = some fl ∧ dxs[i]? = some v ∧
        (fl &&& 0x02 ≠ 0 → fl &&& 0x10 ≠ 0 →
          ∃ b, d[coord_pos p.flags 0x02 0x10 i 0 xptr]? = some b ∧ v = (b : Int)) ∧
        (fl &&& 0x02 ≠ 0 → fl &&& 0x10 = 0 →
          ∃ b, d[coord_pos p.flags 0x02 0x10 i 0 xptr]? = some b ∧ v = -(b : Int)) ∧
        (fl &&& 0x02 = 0 → fl &&& 0x10 = 0 →
          ReadS16 d (coord_pos p.flags 0x02 0x10 i 0 xptr) = .ok v) ∧
        (fl &&& 0x02 = 0 → fl &&& 0x10 ≠ 0 → v = 0) ∧
        p.xs[i]? = some (wrapInt16 ((dxs.take (i + 1)).sum))) ∧
      (∀ i, i < n_pts → ∃ fl v, p.flags[i]? = some fl ∧ dys[i]? = some v ∧
        (fl &&& 0x04 ≠ 0 → fl &&& 0x20 ≠ 0 →
          ∃ b, d[coord_pos p.flags 0x04 0x20 i 0 yptr]? = some b ∧ v = (b : Int)) ∧
        (fl &&& 0x04 ≠ 0 → fl &&& 0x20 = 0 →
          ∃ b, d[coord_pos p.flags 0x04 0x20 i 0 yptr]? = some b ∧ v = -(b : Int)) ∧
        (fl &&& 0x04 = 0 → fl &&& 0x20 = 0 →
          ReadS16 d (coord_pos p.flags 0x04 0x20 i 0 yptr) = .ok v) ∧
        (fl &&& 0x04 = 0 → fl &&& 0x20 ≠ 0 → v = 0) ∧
        p.ys[i]? = some (wrapInt16 ((dys.take (i + 1)).sum))) := by
  refine ⟨?_, ?_, ?_⟩
  · intro n f rep i ptr rest acc hi hf
    rw [readFlags, if_pos hi, if_pos hf, List.replicate_succ]
  · intro n f i ptr rest acc hi hf
    conv_lhs => unfold readFlags
    rw [if_pos hi, if_neg (by simpa using hf)]
  · simp only [ParseSimple_points, Outcome.bind_eq_ok] at hp
    obtain ⟨n, _, eps, _, il, _, last, hlast, fl, hfl, rx, hrx, ry, hry, hpe⟩ := hp
    have hpe1 : p = ⟨eps, fl.1, absolute rx.1, absolute ry.1⟩ := by
      simp only [Outcome.pure_eq, Outcome.ok.injEq] at hpe
      exact hpe.symm
    subst hpe1
    have hlx := readCoords_length d fl.1 0x02 0x10 _ 0 fl.2 rx hrx
    have hly := readCoords_length d fl.1 0x04 0x20 _ 0 rx.2 ry hry
    obtain ⟨hxe, hxr⟩ := readCoords_rule d fl.1 0x02 0x10 _ 0 fl.2 rx hrx
    obtain ⟨hye, hyr⟩ := readCoords_rule d fl.1 0x04 0x20 _ 0 rx.2 ry hry
    have hxg := readCoords_range d hbytes fl.1 0x02 0x10 _ 0 fl.2 rx hrx
    have hyg := readCoords_range d hbytes fl.1 0x04 0x20 _ 0 rx.2 ry hry
    refine ⟨(last + 1) % 2 ^ 16, _, fl.2, rx.2, ry.2, rx.1, ry.1, ?_, ?_, hfl, hrx, hry, hxe, hye,
      ?_, ?_⟩
    · simp only [absolute_length, hlx]
    · simp only [absolute_length, hly]
    · intro i hi
      obtain ⟨f1, v, h1, h2, r1, r2, r3, r4⟩ := hxr i hi
      rw [Nat.zero_add] at h1
      exact ⟨f1, v, h1, h2, r1, r2, r3, r4, absolute_getElem rx.1 hxg i (by omega)⟩
    · intro i hi
      obtain ⟨f1, v, h1, h2, r1, r2, r3, r4⟩ := hyr i hi
      rw [Nat.zero_add] at h1
      exact ⟨f1, v, h1, h2, r1, r2, r3, r4, absolute_getElem ry.1 hyg i (by omega)⟩

/-- C18, witness: the point data of glyph 1 of `exampleFont`, three points with
byte deltas. -/
theorem C18_coordinate_decoding_witness :
    (∀ (n f rep i ptr : Nat) (rest acc : List Nat), i < n → f &&& 8 ≠ 0 →
      readFlags n (f :: rep :: rest) i ptr acc =
        readFlags n rest ((i + 1 + rep) % 2 ^ 16) (ptr + 2)
          (acc ++ List.replicate (rep + 1) f)) ∧
    (∀ (n f i ptr : Nat) (rest acc : List Nat), i < n → f &&& 8 = 0 →
      readFlags n (f :: rest) i ptr acc =
        readFlags n rest ((i + 1) % 2 ^ 16) (ptr + 1) (acc ++ [f])) ∧
    ∃ (n_pts fptr xptr yptr eptr : Nat) (dxs dys : List Int),
      trianglePoints.xs.length = n_pts ∧ trianglePoints.ys.length = n_pts ∧
      readFlags n_pts (exampleFont.data.drop fptr) 0 fptr [] = .ok (trianglePoints.flags, xptr) ∧
      readCoords exampleFont.data trianglePoints.flags 0x02 0x10 n_pts 0 xptr = .ok (dxs, yptr) ∧
      readCoords exampleFont.data trianglePoints.flags 0x04 0x20 n_pts 0 yptr = .ok (dys, eptr) ∧
      yptr = coord_pos trianglePoints.flags 0x02 0x10 n_pts 0 xptr ∧
      eptr = coord_pos trianglePoints.flags 0x04 0x20 n_pts 0 yptr ∧
      (∀ i, i < n_pts → ∃ fl v, trianglePoints.flags[i]? = some fl ∧ dxs[i]? = some v ∧
        (fl &&& 0x02 ≠ 0 → fl &&& 0x10 ≠ 0 →
          ∃ b, exampleFont.data[coord_pos trianglePoints.flags 0x02 0x10 i 0 xptr]? = some b ∧ v = (b : Int)) ∧
        (fl &&& 0x02 ≠ 0 → fl &&& 0x10 = 0 →
          ∃ b, exampleFont.data[coord_pos trianglePoints.flags 0x02 0x10 i 0 xptr]? = some b ∧ v = -(b : Int)) ∧
        (fl &&& 0x02 = 0 → fl &&& 0x10 = 0 →
          ReadS16 exampleFont.data (coord_pos trianglePoints.flags 0x02 0x10 i 0 xptr) = .ok v) ∧
        (fl &&& 0x02 = 0 → fl &&& 0x10 ≠ 0 → v = 0) ∧
        trianglePoints.xs[i]? = some (wrapInt16 ((dxs.take (i + 1)).sum))) ∧
      (∀ i, i < n_pts → ∃ fl v, trianglePoints.flags[i]? = some fl ∧ dys[i]? = some v ∧
        (fl &&& 0x04 ≠ 0 → fl &&& 0x20 ≠ 0 →
          ∃ b, exampleFont.data[coord_pos trianglePoints.flags 0x04 0x20 i 0 yptr]? = some b ∧ v = (b : Int)) ∧
        (fl &&& 0x04 ≠ 0 → fl &&& 0x20 = 0 →
          ∃ b, exampleFont.data[coord_pos trianglePoints.flags 0x04 0x20 i 0 yptr]? = some b ∧ v = -(b : Int)) ∧
        (fl &&& 0x04 = 0 → fl &&& 0x20 = 0 →
          ReadS16 exampleFont.data (coord_pos trianglePoints.flags 0x04 0x20 i 0 yptr) = .ok v) ∧
        (fl &&& 0x04 = 0 → fl &&& 0x20 ≠ 0 → v = 0) ∧
        trianglePoints.ys[i]? = some (wrapInt16 ((dys.take (i + 1)).sum))) :=
  C18_coordinate_decoding exampleFont.data 12 trianglePoints (by decide!) (by decide!)

/-! ## The selection of the cmap subtables -/

/-- C28 (the code departs from the claim). The cmap table of `cmapBlob 3` lists
a format-4 subtable under platform 0 and then one under platform 3. The test
`plat == 3 && ReadU16(best4 - 4) != 3` of `BuildCmapIndex` reads the two bytes
that lie 4 bytes in front of the subtable chosen so far, here the `idDelta`
value 3 of the other subtable, so the platform-3 subtable does not take over:
the index is built from the platform-0 subtable and the code point 65 resolves
to the glyph 66. With the value 4 at that place (`cmapBlob 4`) the platform-3
subtable takes over and 65 resolves to 69. -/
theorem C28_platform_test_reads_subtable_bytes :
    ReadU16 (cmapBlob 3) 32 = .ok 0 ∧ ReadU16 (cmapBlob 3) 40 = .ok 3 ∧
    ReadU16_before (cmapBlob 3) 72 = .ok 3 ∧
    BuildCmapIndex_loop (cmapBlob 3) 28 2 32 none none = .ok (some 72, none) ∧
    (FontLoader.construct (cmapBlob 3) >>= fun f => pure (f.cmap4, f.cmap12)) =
      .ok ([⟨65, 65, 1, 0⟩], []) ∧
    (FontLoader.construct (cmapBlob 3) >>= fun f => GlyphId f 1 65) = .ok 66 ∧
    BuildCmapIndex_loop (cmapBlob 4) 28 2 32 none none = .ok (some 48, none) ∧
    (FontLoader.construct (cmapBlob 4) >>= fun f => pure (f.cmap4, f.cmap12)) =
      .ok ([⟨65, 65, 4, 0⟩], []) ∧
    (FontLoader.construct (cmapBlob 4) >>= fun f => GlyphId f 1 65) = .ok 69 := by
  decide!

/-! ## The big-endian readers -/

/-- A value below `2 ^ i` fills the low bits of a shifted value. -/
theorem shl_or (i b a : Nat) (h : b < 2 ^ i) : (a <<< i) ||| b = a * 2 ^ i + b := by
  rw [Nat.shiftLeft_eq, Nat.mul_comm a, Nat.mul_add_lt_is_or h]

/-- The value that `ReadU16` returns for two bytes. -/
theorem ReadU16_value (d : List Nat) (p b0 b1 : Nat) (h0 : d[p]? = some b0)
    (h1 : d[p + 1]? = some b1) (hb0 : b0 < 256) (hb1 : b1 < 256) :
    ReadU16 d p = .ok (b0 * 256 + b1) := by
  unfold ReadU16 byteAt
  rw [h0, h1]
  simp only [Outcome.ok_bind, Outcome.pure_eq]
  rw [shl_or 8 b1 b0 (by omega), Nat.mod_eq_of_lt (by omega)]
  rfl

/-- The value that `ReadU32` returns for four bytes. -/
theorem ReadU32_value (d : List Nat) (p b0 b1 b2 b3 : Nat) (h0 : d[p]? = some b0)
    (h1 : d[p + 1]? = some b1) (h2 : d[p + 2]? = some b2) (h3 : d[p + 3]? = some b3)
    (hb0 : b0 < 256) (hb1 : b1 < 256) (hb2 : b2 < 256) (hb3 : b3 < 256) :
    ReadU32 d p = .ok (b0 * 2 ^ 24 + b1 * 2 ^ 16 + b2 * 2 ^ 8 + b3) := by
  unfold ReadU32 byteAt
  rw [h0, h1, h2, h3]
  simp only [Outcome.ok_bind, Outcome.pure_eq]
  have p8 : (2 : Nat) ^ 8 = 256 := by norm_num
  have p16 : (2 : Nat) ^ 16 = 65536 := by norm_num
  have p24 : (2 : Nat) ^ 24 = 16777216 := by norm_num
  have p32 : (2 : Nat) ^ 32 = 4294967296 := by norm_num
  have s2 : b2 <<< 8 = b2 * 256 := by rw [Nat.shiftLeft_eq, p8]
  have s1 : b1 <<< 16 = b1 * 65536 := by rw [Nat.shiftLeft_eq, p16]
  have e1 : b0 <<< 24 ||| b1 * 65536 = b0 * 16777216 + b1 * 65536 := by
    rw [shl_or 24 _ b0 (by rw [p24]; omega), p24]
  have e2 : b0 * 16777216 + b1 * 65536 = (b0 * 256 + b1) <<< 16 := by
    rw [Nat.shiftLeft_eq, p16]
    omega
  have e3 : (b0 * 256 + b1) <<< 16 ||| b2 * 256 = (b0 * 256 + b1) * 65536 + b2 * 256 := by
    rw [shl_or 16 _ _ (by rw [p16]; omega), p16]
  have e4 : (b0 * 256 + b1) * 65536 + b2 * 256 = ((b0 * 256 + b1) * 256 + b2) <<< 8 := by
    rw [Nat.shiftLeft_eq, p8]
    omega
  have e5 : ((b0 * 256 + b1) * 256 + b2) <<< 8 ||| b3 = ((b0 * 256 + b1) * 256 + b2) * 256 + b3 := by
    rw [shl_or 8 _ _ (by rw [p8]; omega), p8]
  have e6 : (b0 <<< 24 ||| b1 <<< 16 ||| b2 <<< 8 ||| b3) =
      ((b0 * 256 + b1) * 256 + b2) * 256 + b3 := by
    rw [s1, s2, e1, e2, e3, e4, e5]
  have e7 : b0 * 2 ^ 24 + b1 * 2 ^ 16 + b2 * 2 ^ 8 + b3 =
      ((b0 * 256 + b1) * 256 + b2) * 256 + b3 := by
    norm_num
    omega
  rw [e6, e7]
  congr 1
  apply Nat.mod_eq_of_lt
  norm_num
  omega

/-- C32. Big-endian primitive readers: for bytes `b0 .. b3` at the read
position, `ReadU16` returns `b0 * 256 + b1`, `ReadU32` returns
`b0 * 2^24 + b1 * 2^16 + b2 * 2^8 + b3`, and `ReadS16` returns the two's
complement reading of the value of `ReadU16` (the value minus 65536 from 32768
on); each reader is injective on its 2 or 4 bytes. -/
theorem C32_big_endian_readers (d : List Nat) (p b0 b1 b2 b3 : Nat) (h0 : d[p]? = some b0)
    (h1 : d[p + 1]? = some b1) (h2 : d[p + 2]? = some b2) (h3 : d[p + 3]? = some b3)
    (hb0 : b0 < 256) (hb1 : b1 < 256) (hb2 : b2 < 256) (hb3 : b3 < 256) :
    ReadU16 d p = .ok (b0 * 256 + b1) ∧
    ReadU32 d p = .ok (b0 * 2 ^ 24 + b1 * 2 ^ 16 + b2 * 2 ^ 8 + b3) ∧
    ReadS16 d p = .ok (if b0 * 256 + b1 ≥ 32768 then ((b0 * 256 + b1 : Nat) : Int) - 65536
      else ((b0 * 256 + b1 : Nat) : Int)) ∧
    (∀ (e : List Nat) (q c0 c1 : Nat), e[q]? = some c0 → e[q + 1]? = some c1 → c0 < 256 →
      c1 < 256 → (ReadU16 e q = ReadU16 d p ∨ ReadS16 e q = ReadS16 d p) →
      c0 = b0 ∧ c1 = b1) ∧
    (∀ (e : List Nat) (q c0 c1 c2 c3 : Nat), e[q]? = some c0 → e[q + 1]? = some c1 →
      e[q + 2]? = some c2 → e[q + 3]? = some c3 → c0 < 256 → c1 < 256 → c2 < 256 → c3 < 256 →
      ReadU32 e q = ReadU32 d p → c0 = b0 ∧ c1 = b1 ∧ c2 = b2 ∧ c3 = b3) := by
  have hs : ∀ (e : List Nat) (q c0 c1 : Nat), e[q]? = some c0 → e[q + 1]? = some c1 → c0 < 256 →
      c1 < 256 → ReadS16 e q = .ok (if c0 * 256 + c1 ≥ 32768 then
        ((c0 * 256 + c1 : Nat) : Int) - 65536 else ((c0 * 256 + c1 : Nat) : Int)) := by
    intro e q c0 c1 g0 g1 gb0 gb1
    unfold ReadS16
    rw [ReadU16_value e q c0 c1 g0 g1 gb0 gb1]
    simp only [Outcome.ok_bind, Outcome.pure_eq, toInt16]
    congr 1
    split_ifs <;> omega
  refine ⟨ReadU16_value d p b0 b1 h0 h1 hb0 hb1,
    ReadU32_value d p b0 b1 b2 b3 h0 h1 h2 h3 hb0 hb1 hb2 hb3, hs d p b0 b1 h0 h1 hb0 hb1, ?_, ?_⟩
  · intro e q c0 c1 g0 g1 gb0 gb1 heq
    rcases heq with heq | heq
    · rw [ReadU16_value e q c0 c1 g0 g1 gb0 gb1, ReadU16_value d p b0 b1 h0 h1 hb0 hb1] at heq
      simp only [Outcome.ok.injEq] at heq
      omega
    · rw [hs e q c0 c1 g0 g1 gb0 gb1, hs d p b0 b1 h0 h1 hb0 hb1] at heq
      simp only [Outcome.ok.injEq] at heq
      split_ifs at heq <;> omega
  · intro e q c0 c1 c2 c3 g0 g1 g2 g3 gb0 gb1 gb2 gb3 heq
    rw [ReadU32_value e q c0 c1 c2 c3 g0 g1 g2 g3 gb0 gb1 gb2 gb3,
      ReadU32_value d p b0 b1 b2 b3 h0 h1 h2 h3 hb0 hb1 hb2 hb3] at heq
    simp only [Outcome.ok.injEq] at heq
    norm_num at heq
    omega

/-- C32, witness: the bytes `0x80 0x01 0x02 0x03`. -/
theorem C32_big_endian_readers_witness :
    ReadU16 [0x80, 1, 2, 3] 0 = .ok (0x80 * 256 + 1) ∧
    ReadU32 [0x80, 1, 2, 3] 0 = .ok (0x80 * 2 ^ 24 + 1 * 2 ^ 16 + 2 * 2 ^ 8 + 3) ∧
    ReadS16 [0x80, 1, 2, 3] 0 = .ok (if 0x80 * 256 + 1 ≥ 32768 then
      ((0x80 * 256 + 1 : Nat) : Int) - 65536 else ((0x80 * 256 + 1 : Nat) : Int)) ∧
    (∀ (e : List Nat) (q c0 c1 : Nat), e[q]? = some c0 → e[q + 1]? = some c1 → c0 < 256 →
      c1 < 256 → (ReadU16 e q = ReadU16 [0x80, 1, 2, 3] 0 ∨
        ReadS16 e q = ReadS16 [0x80, 1, 2, 3] 0) →
      c0 = 0x80 ∧ c1 = 1) ∧
    (∀ (e : List Nat) (q c0 c1 c2 c3 : Nat), e[q]? = some c0 → e[q + 1]? = some c1 →
      e[q + 2]? = some c2 → e[q + 3]? = some c3 → c0 < 256 → c1 < 256 → c2 < 256 → c3 < 256 →
      ReadU32 e q = ReadU32 [0x80, 1, 2, 3] 0 → c0 = 0x80 ∧ c1 = 1 ∧ c2 = 2 ∧ c3 = 3) :=
  C32_big_endian_readers [0x80, 1, 2, 3] 0 0x80 1 2 3 rfl rfl rfl rfl (by decide) (by decide)
    (by decide) (by decide)

/-! ## The order of the two cmap indices -/

/-- C33 (amended). Format 12 in front of format 4: a code point that a group of
an ordered format-12 index contains is resolved by that group, whatever the
format-4 index holds; a code point up to `0x10FFFF` that no format-12 group
contains is resolved by the format-4 lookup, as it is when there is no
format-12 index: the format-4 index is consulted after every miss. -/
theorem C33_format4_after_miss (f : FontLoader) (h12 : Cmap12NoWrap f) (cp : Nat)
    (hcp : cp ≤ 0x10FFFF) (fuel : Nat) (hfuel : f.cmap12.length < fuel) :
    (NotIn12 f cp → GlyphId f fuel cp = .ok (GlyphId4 f cp)) ∧
    (NotIn12 f cp → GlyphId { f with cmap12 := [] } fuel cp = GlyphId f fuel cp) ∧
    (Cmap12Ordered f.cmap12 → ∀ g ∈ f.cmap12, g.start_char_code ≤ cp ∧ cp ≤ g.end_char_code →
      GlyphId f fuel cp = .ok ((g.start_glyph_id + (cp - g.start_char_code)) % 65536)) := by
  refine ⟨fun hno => GlyphId_of_not_in12 f h12 cp hcp hno fuel hfuel, ?_, ?_⟩
  · intro hno
    rw [GlyphId_of_not_in12 f h12 cp hcp hno fuel hfuel]
    unfold GlyphId
    have n1 : ¬ cp > 0x10FFFF := by omega
    simp only [n1, if_false, ne_eq, not_true_eq_false]
    rfl
  · intro hord g hg hin
    unfold Cmap12NoWrap at h12
    exact GlyphId_of_mem12 f (by omega) hord g hg cp hin hcp fuel hfuel

/-- C33, witness: a font with a format-12 group for `B` and a format-4 segment
for `A`; the code point `A` is resolved by the format-4 segment. -/
theorem C33_format4_after_miss_witness :
    (NotIn12 (cmapOnly [⟨65, 65, 65476, 0⟩, ⟨0xFFFF, 0xFFFF, 1, 0⟩] [] [⟨66, 66, 9⟩]) 65 →
      GlyphId (cmapOnly [⟨65, 65, 65476, 0⟩, ⟨0xFFFF, 0xFFFF, 1, 0⟩] [] [⟨66, 66, 9⟩]) 2 65 =
        .ok (GlyphId4 (cmapOnly [⟨65, 65, 65476, 0⟩, ⟨0xFFFF, 0xFFFF, 1, 0⟩] [] [⟨66, 66, 9⟩])
          65)) ∧
    (NotIn12 (cmapOnly [⟨65, 65, 65476, 0⟩, ⟨0xFFFF, 0xFFFF, 1, 0⟩] [] [⟨66, 66, 9⟩]) 65 →
      GlyphId { cmapOnly [⟨65, 65, 65476, 0⟩, ⟨0xFFFF, 0xFFFF, 1, 0⟩] [] [⟨66, 66, 9⟩] with
          cmap12 := [] } 2 65 =
        GlyphId (cmapOnly [⟨65, 65, 65476, 0⟩, ⟨0xFFFF, 0xFFFF, 1, 0⟩] [] [⟨66, 66, 9⟩]) 2 65) ∧
    (Cmap12Ordered (cmapOnly [⟨65, 65, 65476, 0⟩, ⟨0xFFFF, 0xFFFF, 1, 0⟩] [] [⟨66, 66, 9⟩]).cmap12 →
      ∀ g ∈ (cmapOnly [⟨65, 65, 65476, 0⟩, ⟨0xFFFF, 0xFFFF, 1, 0⟩] [] [⟨66, 66, 9⟩]).cmap12,
        g.start_char_code ≤ 65 ∧ 65 ≤ g.end_char_code →
        GlyphId (cmapOnly [⟨65, 65, 65476, 0⟩, ⟨0xFFFF, 0xFFFF, 1, 0⟩] [] [⟨66, 66, 9⟩]) 2 65 =
          .ok ((g.start_glyph_id + (65 - g.start_char_code)) % 65536)) :=
  C33_format4_after_miss (cmapOnly [⟨65, 65, 65476, 0⟩, ⟨0xFFFF, 0xFFFF, 1, 0⟩] [] [⟨66, 66, 9⟩])
    (by unfold Cmap12NoWrap; decide) 65 (by decide) 2 (by decide)

/-- C33 as stated fails: the font has a format-12 index (one group, for `B`)
and a format-4 segment that maps `A` to the glyph 5. No format-12 group contains
`A`, and `A` resolves to the glyph 5 of the format-4 segment, not to 0. -/
theorem C33_counterexample :
    (cmapOnly [⟨65, 65, 65476, 0⟩, ⟨0xFFFF, 0xFFFF, 1, 0⟩] [] [⟨66, 66, 9⟩]).cmap12 ≠ [] ∧
    NotIn12 (cmapOnly [⟨65, 65, 65476, 0⟩, ⟨0xFFFF, 0xFFFF, 1, 0⟩] [] [⟨66, 66, 9⟩]) 65 ∧
    GlyphId (cmapOnly [⟨65, 65, 65476, 0⟩, ⟨0xFFFF, 0xFFFF, 1, 0⟩] [] [⟨66, 66, 9⟩]) 2 65 =
      .ok 5 ∧
    GlyphId (cmapOnly [⟨65, 65, 65476, 0⟩, ⟨0xFFFF, 0xFFFF, 1, 0⟩] [] [⟨66, 66, 9⟩]) 2 66 =
      .ok 9 ∧
    (5 : Nat) ≠ 0 := by
  refine ⟨by decide, ?_, by decide, by decide, by decide⟩
  unfold NotIn12
  decide

/-! ## Polygonal contours -/

theorem Pt_contour_point (xs ys : List Int) (dx dy : Int) (first k : Nat)
    (hx : first + k < xs.length) (hy : first + k < ys.length) :
    Pt xs ys dx dy (first + k) = .ok (contour_point xs ys dx dy first k) := by
  rw [Pt_ok xs ys dx dy (first + k) hx hy]
  unfold contour_point
  rw [List.getD_eq_getElem xs 0 hx, List.getD_eq_getElem ys 0 hy]

/-- The walk over a contour of on-curve points, from point `k + 1` on: it emits
the lines `k`, `k + 1`, ... up to the line that comes back to the first point. -/
theorem EmitContour_loop_polygon (xs ys : List Int) (flags : List Nat) (first last : Nat)
    (dx dy : Int) (hfl : first ≤ last) (hl : last < 2 ^ 16)
    (hxs : last < xs.length) (hys : last < ys.length)
    (hon : ∀ i, first ≤ i → i ≤ last → IsOn flags i = .ok true) :
    ∀ (c fuel k : Nat) (o : GlyphContour), k + c + 1 = last - first + 1 → c < fuel →
      EmitContour_loop xs ys flags first last dx dy first fuel
          (first + (k + 1) % (last - first + 1))
          (contour_point xs ys dx dy first k).1 (contour_point xs ys dx dy first k).2 true o =
        .ok ⟨o.segments ++ (List.range' k (c + 1)).map (fun k =>
            line_segment (contour_point xs ys dx dy first k)
              (contour_point xs ys dx dy first ((k + 1) % (last - first + 1)))),
          o.contours, o.advance_width⟩ := by
  intro c
  induction c with
  | zero =>
    intro fuel k o hk hf
    obtain ⟨f1, rfl⟩ : ∃ f1, fuel = f1 + 1 := ⟨fuel - 1, by omega⟩
    have hm : (k + 1) % (last - first + 1) = 0 := by
      rw [show k + 1 = last - first + 1 by omega, Nat.mod_self]
    unfold EmitContour_loop
    rw [hm, Pt_contour_point xs ys dx dy first 0 (by omega) (by omega),
      hon (first + 0) (by omega) (by omega)]
    simp only [Outcome.ok_bind, Outcome.pure_eq, and_self, if_true, Nat.add_zero]
    show _ = Outcome.ok ⟨o.segments ++ [line_segment (contour_point xs ys dx dy first k)
      (contour_point xs ys dx dy first ((k + 1) % (last - first + 1)))], _, _⟩
    rw [hm]
    rfl
  | succ c ih =>
    intro fuel k o hk hf
    obtain ⟨f1, rfl⟩ : ∃ f1, fuel = f1 + 1 := ⟨fuel - 1, by omega⟩
    have hm : (k + 1) % (last - first + 1) = k + 1 := Nat.mod_eq_of_lt (by omega)
    unfold EmitContour_loop
    rw [hm, Pt_contour_point xs ys dx dy first (k + 1) (by omega) (by omega),
      hon (first + (k + 1)) (by omega) (by omega)]
    simp only [Outcome.ok_bind, Outcome.pure_eq, and_self, if_true]
    rw [if_neg (by omega)]
    have hnext : Next first last (first + (k + 1)) =
        first + (k + 1 + 1) % (last - first + 1) := by
      unfold Next
      by_cases hlast : first + (k + 1) = last
      · rw [if_pos hlast, show k + 1 + 1 = last - first + 1 by omega, Nat.mod_self]
        rfl
      · rw [if_neg hlast, Nat.mod_eq_of_lt (show first + (k + 1) + 1 < 2 ^ 16 by omega),
          Nat.mod_eq_of_lt (show k + 1 + 1 < last - first + 1 by omega)]
        omega
    rw [hnext, ih f1 (k + 1) _ (by omega) (by omega)]
    simp only [AddLine, List.append_assoc, List.singleton_append]
    rw [List.range'_succ k (c + 1), List.map_cons, hm]
    rfl

/-! ## The chain of a contour with an off-curve point -/

/-- C36 (the code departs from the claim). Closed chains: glyph 1 of the font
`curveFont` is a well-formed simple glyph, one contour through the points
on-curve (0,0), off-curve (10,0), on-curve (10,10). `Extract` returns an
outline of one contour with two segments: the first starts at the off-curve
point (10,0), the last ends at (0,0), so the first segment does not start
where the last one ends. For every contour on-curve `P0`, off-curve `C`,
on-curve `P1`, `EmitContour` emits two segments, and the first starts where
the last ends only when `C` and `P0` are the same point. -/
theorem C36_chain_open_after_off_curve_point :
    (GlyphOffset curveFont 1 = .ok (some (12, 24)) ∧
      ParseSimple_points curveFont.data 12 =
        .ok ⟨[2], [0x37, 0x36, 0x37], [0, 10, 10], [0, 0, 10]⟩ ∧
      Extract curveFont 5 1 =
        .ok ⟨[⟨10, 0, 10, 0, 10, 10⟩, ⟨10, 10, 5, 5, 0, 0⟩], [0], 0⟩ ∧
      ((10 : ℚ), (0 : ℚ)) ≠ (0, 0)) ∧
    ∀ (x0 y0 cx cy x1 y1 dx dy : Int) (fuel : Nat),
      ∃ s t, EmitContour [x0, cx, x1] [y0, cy, y1] [1, 0, 1] 0 2 dx dy (fuel + 3) ⟨[], [], 0⟩ =
          .ok ⟨[s, t], [], 0⟩ ∧
        (s.x1, s.y1) = (t.x0, t.y0) ∧
        ((s.x0, s.y0) = (t.x1, t.y1) ↔ (cx, cy) = (x0, y0)) := by
  refine ⟨⟨by decide, by decide, by decide!, by decide⟩, ?_⟩
  intro x0 y0 cx cy x1 y1 dx dy fuel
  refine ⟨⟨(cx : ℚ) + dx, (cy : ℚ) + dy, (cx : ℚ) + dx, (cy : ℚ) + dy,
      (x1 : ℚ) + dx, (y1 : ℚ) + dy⟩,
    ⟨(x1 : ℚ) + dx, (y1 : ℚ) + dy,
      (((x1 : ℚ) + dx) + ((x0 : ℚ) + dx)) / 2, (((y1 : ℚ) + dy) + ((y0 : ℚ) + dy)) / 2,
      (x0 : ℚ) + dx, (y0 : ℚ) + dy⟩, ?_, rfl, ?_⟩
  · simp [EmitContour, EmitContour_start, EmitContour_loop, IsOn, Pt, vecAt, Next, AddLine,
      AddQuad]
  · simp only [Prod.mk.injEq, add_left_inj, Int.cast_inj]

/-! ## The outline reader in `float` arithmetic -/

/-- Values of the rounding: `2^24 + 1` lies halfway between two `float` numbers
and goes to the even one, `2^24`; `2^24 + 3` goes to `2^24 + 4`; `1/3` and
`1/10` go to the `float` constants `0x3EAAAAAB` and `0x3DCCCCCD`; an integer
like `16809482` below `2^25` that is even is kept. -/
theorem binary32_examples :
    binary32 (2 ^ 24 + 1) = 2 ^ 24 ∧ binary32 (2 ^ 24 + 3) = 2 ^ 24 + 4 ∧
    binary32 (-(2 ^ 24 + 3)) = -(2 ^ 24 + 4) ∧ binary32 0 = 0 ∧
    binary32 (1 / 3) = 11184811 / 2 ^ 25 ∧ binary32 (1 / 10) = 13421773 / 2 ^ 27 ∧
    binary32 16809471 = 16809472 ∧ binary32 16809482 = 16809482 ∧
    binary32 33618954 = 33618952 := by
  decide!

theorem binary32_ulp_loop_pow (a : ℚ) :
    ∀ (k j J : Nat), j ≤ J → J ≤ j + k → a < 2 ^ 24 * ((2 : ℚ) ^ J / 2 ^ 149) →
      ∃ i, j ≤ i ∧ i ≤ J ∧
        binary32_ulp_loop k a ((2 : ℚ) ^ j / 2 ^ 149) = (2 : ℚ) ^ i / 2 ^ 149 := by
  intro k
  induction k with
  | zero =>
    intro j J h1 h2 _
    exact ⟨j, le_refl _, h1, rfl⟩
  | succ k ih =>
    intro j J h1 h2 ha
    unfold binary32_ulp_loop
    by_cases hc : a < 2 ^ 24 * ((2 : ℚ) ^ j / 2 ^ 149)
    · rw [if_pos hc]
      exact ⟨j, le_refl _, h1, rfl⟩
    · rw [if_neg hc]
      have hJ : j + 1 ≤ J := by
        by_contra hlt
        have : J = j := by omega
        subst this
        exact hc ha
      have h2j : (2 : ℚ) * ((2 : ℚ) ^ j / 2 ^ 149) = (2 : ℚ) ^ (j + 1) / 2 ^ 149 := by
        rw [pow_succ]
        ring
      rw [h2j]
      obtain ⟨i, hi1, hi2, hi3⟩ := ih (j + 1) J hJ (by omega) ha
      exact ⟨i, by omega, hi2, hi3⟩

theorem round_half_even_int (n : Int) : round_half_even (n : ℚ) = n := by
  unfold round_half_even
  have hf : Rat.floor (n : ℚ) = n := by simp [Rat.floor]
  rw [hf]
  simp

/-- A number `m / 2^k` with `|m| < 2^24` and `k ≤ 149` is a binary32 number: a
`float` operation with this exact result does not round. -/
theorem binary32_dyadic (m : Int) (k : Nat) (hk : k ≤ 149) (hm : |m| < 2 ^ 24) :
    binary32 ((m : ℚ) / 2 ^ k) = (m : ℚ) / 2 ^ k := by
  have h2 : (0 : ℚ) < 2 ^ k := by positivity
  have ha : |(m : ℚ) / 2 ^ k| < 2 ^ 24 * ((2 : ℚ) ^ (149 - k) / 2 ^ 149) := by
    rw [abs_div, abs_of_pos h2]
    have hm1 : |(m : ℚ)| < 2 ^ 24 := by
      have : ((|m| : Int) : ℚ) < ((2 ^ 24 : Int) : ℚ) := by exact_mod_cast hm
      simpa using this
    have he : (2 : ℚ) ^ 24 * ((2 : ℚ) ^ (149 - k) / 2 ^ 149) = 2 ^ 24 / 2 ^ k := by
      have : (2 : ℚ) ^ 149 = 2 ^ (149 - k) * 2 ^ k := by
        rw [← pow_add]
        congr 1
        omega
      rw [this]
      field_simp
      ring
    rw [he]
    exact div_lt_div_of_pos_right hm1 h2
  obtain ⟨i, _, hi2, hi3⟩ := binary32_ulp_loop_pow _ 253 0 (149 - k) (by omega) (by omega) ha
  have hu : binary32_ulp |(m : ℚ) / 2 ^ k| = (2 : ℚ) ^ i / 2 ^ 149 := by
    unfold binary32_ulp
    have h0 : (1 : ℚ) / 2 ^ 149 = (2 : ℚ) ^ 0 / 2 ^ 149 := by norm_num
    rw [h0]
    exact hi3
  unfold binary32
  rw [hu]
  have hq : (m : ℚ) / 2 ^ k / ((2 : ℚ) ^ i / 2 ^ 149) = ((m * 2 ^ (149 - k - i) : Int) : ℚ) := by
    have e1 : (2 : ℚ) ^ 149 = 2 ^ (149 - k - i) * 2 ^ i * 2 ^ k := by
      rw [← pow_add, ← pow_add]
      congr 1
      omega
    rw [e1]
    push_cast
    field_simp
    ring
  rw [hq, round_half_even_int]
  have e1 : (2 : ℚ) ^ 149 = 2 ^ (149 - k - i) * 2 ^ i * 2 ^ k := by
    rw [← pow_add, ← pow_add]
    congr 1
    omega
  rw [e1]
  push_cast
  field_simp
  ring

theorem binary32_int (m : Int) (hm : |m| < 2 ^ 24) : binary32 (m : ℚ) = m := by
  have := binary32_dyadic m 0 (by omega) hm
  simpa using this

theorem coord_whole_half (q : ℚ) (h : coord_whole q) : coord_half q := by
  obtain ⟨m, rfl, hm⟩ := h
  refine ⟨2 * m, by push_cast; ring, ?_⟩
  rw [abs_le] at hm ⊢
  omega

/-- The sum of a 16-bit coordinate and a translation of magnitude at most
`2^21 + 2^15` is computed without rounding. -/
theorem binary32_point (x d : Int) (hx : -2 ^ 15 ≤ x ∧ x < 2 ^ 15)
    (hd : |d| ≤ 2 ^ 21 + 2 ^ 15) :
    binary32 (binary32 (x : ℚ) + binary32 (d : ℚ)) = (x : ℚ) + (d : ℚ) ∧
    coord_whole ((x : ℚ) + (d : ℚ)) := by
  have h1 : |x| < 2 ^ 24 := by rw [abs_lt]; omega
  have h2 : |d| < 2 ^ 24 := by
    rw [abs_le] at hd
    rw [abs_lt]
    omega
  have h3 : |x + d| ≤ 2 ^ 21 + 2 ^ 16 := by
    rw [abs_le] at hd ⊢
    omega
  rw [binary32_int x h1, binary32_int d h2]
  have h4 := binary32_int (x + d) (by omega)
  push_cast at h4
  exact ⟨h4, x + d, by push_cast; rfl, h3⟩

/-- The midpoint `(a + b) * 0.5f` of two multiples of `1/2` in the range of the
coordinates is computed without rounding. -/
theorem binary32_mid (a b : ℚ) (ha : coord_half a) (hb : coord_whole b) :
    binary32 (binary32 (a + b) * (1 / 2)) = (a + b) / 2 := by
  obtain ⟨m, rfl, hm⟩ := ha
  obtain ⟨n, rfl, hn⟩ := hb
  have hs : |m + 2 * n| < 2 ^ 24 := by
    rw [abs_le] at hm hn
    rw [abs_lt]
    omega
  have e1 : (m : ℚ) / 2 + (n : ℚ) = ((m + 2 * n : Int) : ℚ) / 2 ^ 1 := by
    push_cast
    ring
  have e2 : ((m + 2 * n : Int) : ℚ) / 2 ^ 1 * (1 / 2) = ((m + 2 * n : Int) : ℚ) / 2 ^ 2 := by
    ring
  rw [e1, binary32_dyadic _ 1 (by omega) hs, e2, binary32_dyadic _ 2 (by omega) hs]
  ring

/-- The midpoint of two points of a contour is a multiple of `1/2` in the range
of the coordinates. -/
theorem coord_half_mid (a b : ℚ) (ha : coord_whole a) (hb : coord_whole b) :
    coord_half ((a + b) / 2) := by
  obtain ⟨m, rfl, hm⟩ := ha
  obtain ⟨n, rfl, hn⟩ := hb
  refine ⟨m + n, by push_cast; rfl, ?_⟩
  rw [abs_le] at hm hn ⊢
  omega

/-- The 16-bit coordinates of a contour under a translation of magnitude at most
`2^21 + 2^15`: the lambda `Pt` computes no rounded sum. -/
theorem Pt_binary32_eq (xs ys : List Int) (dx dy : Int)
    (hx : ∀ v ∈ xs, -2 ^ 15 ≤ v ∧ v < 2 ^ 15) (hy : ∀ v ∈ ys, -2 ^ 15 ≤ v ∧ v < 2 ^ 15)
    (hdx : |dx| ≤ 2 ^ 21 + 2 ^ 15) (hdy : |dy| ≤ 2 ^ 21 + 2 ^ 15) (i : Nat) :
    Pt_binary32 xs ys dx dy i = Pt xs ys dx dy i ∧
    ∀ p, Pt xs ys dx dy i = .ok p → coord_whole p.1 ∧ coord_whole p.2 := by
  unfold Pt_binary32 Pt vecAt
  cases h1 : xs[i]? with
  | none => exact ⟨rfl, fun p hp => by simp at hp⟩
  | some x =>
    cases h2 : ys[i]? with
    | none => exact ⟨rfl, fun p hp => by simp at hp⟩
    | some y =>
      have bx := binary32_point x dx (hx x (List.getElem?_mem h1)) hdx
      have by1 := binary32_point y dy (hy y (List.getElem?_mem h2)) hdy
      simp only [Outcome.ok_bind, Outcome.pure_eq]
      rw [bx.1, by1.1]
      refine ⟨rfl, ?_⟩
      intro p hp
      simp only [Outcome.ok.injEq] at hp
      rw [← hp]
      exact ⟨bx.2, by1.2⟩

theorem AddLine_binary32_eq (x0 y0 x1 y1 : ℚ) (out : GlyphContour)
    (hx0 : coord_half x0) (hy0 : coord_half y0) (hx1 : coord_whole x1) (hy1 : coord_whole y1) :
    AddLine_binary32 x0 y0 x1 y1 out = AddLine x0 y0 x1 y1 out := by
  unfold AddLine_binary32 AddLine
  rw [binary32_mid x0 x1 hx0 hx1, binary32_mid y0 y1 hy0 hy1]

/-- In the range of the coordinates the loop of `EmitContour` computes no
rounded value: the previous point is a point of the contour, or the midpoint of
two when it is on-curve. -/
theorem EmitContour_loop_binary32_eq (xs ys : List Int) (flags : List Nat)
    (first_idx last_idx : Nat) (dx dy : Int) (start : Nat)
    (hx : ∀ v ∈ xs, -2 ^ 15 ≤ v ∧ v < 2 ^ 15) (hy : ∀ v ∈ ys, -2 ^ 15 ≤ v ∧ v < 2 ^ 15)
    (hdx : |dx| ≤ 2 ^ 21 + 2 ^ 15) (hdy : |dy| ≤ 2 ^ 21 + 2 ^ 15) :
    ∀ (fuel i_cur : Nat) (prev_x prev_y : ℚ) (prev_on : Bool) (out : GlyphContour),
      coord_half prev_x → coord_half prev_y →
      (prev_on = false → coord_whole prev_x ∧ coord_whole prev_y) →
      EmitContour_loop_binary32 xs ys flags first_idx last_idx dx dy start fuel i_cur
          prev_x prev_y prev_on out =
        EmitContour_loop xs ys flags first_idx last_idx dx dy start fuel i_cur
          prev_x prev_y prev_on out := by
  intro fuel
  induction fuel with
  | zero => intro _ _ _ _ _ _ _ _; rfl
  | succ n ih =>
    intro i_cur prev_x prev_y prev_on out hpx hpy hoff
    unfold EmitContour_loop_binary32 EmitContour_loop
    obtain ⟨hpt, hrange⟩ := Pt_binary32_eq xs ys dx dy hx hy hdx hdy i_cur
    rw [hpt]
    cases hp : Pt xs ys dx dy i_cur with
    | bounds => rfl
    | fuel => rfl
    | ok cur =>
      obtain ⟨hcx, hcy⟩ := hrange cur hp
      simp only [Outcome.ok_bind]
      cases hon : IsOn flags i_cur with
      | bounds => rfl
      | fuel => rfl
      | ok cur_on =>
        simp only [Outcome.ok_bind]
        cases prev_on <;> cases cur_on <;>
          simp only [Bool.false_eq_true, Bool.true_eq_false, and_self, and_false, false_and,
            and_true, true_and, if_false, if_true]
        · have hw := hoff rfl
          rw [binary32_mid prev_x cur.1 hpx hcx, binary32_mid prev_y cur.2 hpy hcy]
          exact ih _ _ _ _ _ (coord_half_mid _ _ hw.1 hcx) (coord_half_mid _ _ hw.2 hcy)
            (fun h => by simp at h)
        · split_ifs
          · rfl
          · exact ih _ _ _ _ _ (coord_whole_half _ hcx) (coord_whole_half _ hcy)
              (fun h => by simp at h)
        · split_ifs
          · rfl
          · exact ih _ _ _ _ _ (coord_whole_half _ hcx) (coord_whole_half _ hcy)
              (fun _ => ⟨hcx, hcy⟩)
        · rw [AddLine_binary32_eq prev_x prev_y cur.1 cur.2 out hpx hpy hcx hcy]
          split_ifs
          · rfl
          · exact ih _ _ _ _ _ (coord_whole_half _ hcx) (coord_whole_half _ hcy)
              (fun h => by simp at h)

/-- In the range of the coordinates `EmitContour` computes no rounded value. -/
theorem EmitContour_binary32_eq (xs ys : List Int) (flags : List Nat)
    (first_idx last_idx : Nat) (dx dy : Int) (fuel : Nat) (out : GlyphContour)
    (hx : ∀ v ∈ xs, -2 ^ 15 ≤ v ∧ v < 2 ^ 15) (hy : ∀ v ∈ ys, -2 ^ 15 ≤ v ∧ v < 2 ^ 15)
    (hdx : |dx| ≤ 2 ^ 21 + 2 ^ 15) (hdy : |dy| ≤ 2 ^ 21 + 2 ^ 15) :
    EmitContour_binary32 xs ys flags first_idx last_idx dx dy fuel out =
      EmitContour xs ys flags first_idx last_idx dx dy fuel out := by
  unfold EmitContour_binary32 EmitContour
  simp only
  split_ifs
  · rfl
  · cases hs : EmitContour_start flags first_idx last_idx fuel first_idx with
    | bounds => rfl
    | fuel => rfl
    | ok start =>
      simp only [Outcome.ok_bind]
      obtain ⟨hpt, hrange⟩ := Pt_binary32_eq xs ys dx dy hx hy hdx hdy start
      rw [hpt]
      cases hp : Pt xs ys dx dy start with
      | bounds => rfl
      | fuel => rfl
      | ok prev =>
        obtain ⟨hcx, hcy⟩ := hrange prev hp
        simp only [Outcome.ok_bind]
        cases hon : IsOn flags start with
        | bounds => rfl
        | fuel => rfl
        | ok prev_on =>
          simp only [Outcome.ok_bind]
          exact EmitContour_loop_binary32_eq xs ys flags first_idx last_idx dx dy start hx hy
            hdx hdy fuel _ _ _ _ _ (coord_whole_half _ hcx) (coord_whole_half _ hcy)
            (fun _ => ⟨hcx, hcy⟩)

theorem ParseSimple_contours_binary32_eq (xs ys : List Int) (flags : List Nat) (dx dy : Int)
    (fuel : Nat)
    (hx : ∀ v ∈ xs, -2 ^ 15 ≤ v ∧ v < 2 ^ 15) (hy : ∀ v ∈ ys, -2 ^ 15 ≤ v ∧ v < 2 ^ 15)
    (hdx : |dx| ≤ 2 ^ 21 + 2 ^ 15) (hdy : |dy| ≤ 2 ^ 21 + 2 ^ 15) :
    ∀ (end_pts : List Nat) (start : Nat) (out : GlyphContour),
      ParseSimple_contours_binary32 xs ys flags dx dy fuel end_pts start out =
        ParseSimple_contours xs ys flags dx dy fuel end_pts start out := by
  intro end_pts
  induction end_pts with
  | nil => intro _ _; rfl
  | cons e rest ih =>
    intro start out
    unfold ParseSimple_contours_binary32 ParseSimple_contours
    simp only
    rw [EmitContour_binary32_eq xs ys flags start e dx dy fuel _ hx hy hdx hdy]
    cases EmitContour xs ys flags start e dx dy fuel
        { out with contours := out.contours ++ [out.segments.length] } with
    | bounds => rfl
    | fuel => rfl
    | ok out2 =>
      simp only [Outcome.ok_bind]
      exact ih _ _

theorem running_sum_range :
    ∀ (rest : List Int) (acc : Int), ∀ v ∈ running_sum acc rest, -2 ^ 15 ≤ v ∧ v < 2 ^ 15 := by
  intro rest
  induction rest with
  | nil => intro acc v hv; simp [running_sum] at hv
  | cons y rest ih =>
    intro acc v hv
    simp only [running_sum, List.mem_cons] at hv
    rcases hv with h | h
    · rw [h]
      unfold wrapInt16
      omega
    · exact ih _ v h

/-- The absolute coordinates of 16-bit deltas are 16-bit values. -/
theorem absolute_range (ds : List Int) (h0 : ∀ v ∈ ds, -2 ^ 15 ≤ v ∧ v < 2 ^ 15) :
    ∀ v ∈ absolute ds, -2 ^ 15 ≤ v ∧ v < 2 ^ 15 := by
  cases ds with
  | nil => intro v hv; simp [absolute] at hv
  | cons x rest =>
    intro v hv
    simp only [absolute, List.mem_cons] at hv
    rcases hv with h | h
    · rw [h]
      exact h0 x (by simp)
    · exact running_sum_range rest x v h

/-- The coordinates that `ParseSimple` decodes from a blob of bytes are
`int16_t` values. -/
theorem ParseSimple_points_range (d : List Nat) (g : Nat) (p : SimplePoints)
    (hbytes : ∀ b ∈ d, b < 256) (hp : ParseSimple_points d g = .ok p) :
    (∀ v ∈ p.xs, -2 ^ 15 ≤ v ∧ v < 2 ^ 15) ∧ (∀ v ∈ p.ys, -2 ^ 15 ≤ v ∧ v < 2 ^ 15) := by
  simp only [ParseSimple_points, Outcome.bind_eq_ok] at hp
  obtain ⟨n, _, eps, _, il, _, last, hlast, fl, hfl, rx, hrx, ry, hry, hpe⟩ := hp
  have hpe1 : p = ⟨eps, fl.1, absolute rx.1, absolute ry.1⟩ := by
    simp only [Outcome.pure_eq, Outcome.ok.injEq] at hpe
    exact hpe.symm
  subst hpe1
  exact ⟨absolute_range _ (readCoords_range d hbytes _ _ _ _ _ _ rx hrx),
    absolute_range _ (readCoords_range d hbytes _ _ _ _ _ _ ry hry)⟩

/-- For a blob of bytes and a translation of magnitude at most `2^21 + 2^15`,
`ParseSimple` computes no rounded value. -/
theorem ParseSimple_binary32_eq (d : List Nat) (g : Nat) (dx dy : Int) (fuel : Nat)
    (out : GlyphContour) (hbytes : ∀ b ∈ d, b < 256)
    (hdx : |dx| ≤ 2 ^ 21 + 2 ^ 15) (hdy : |dy| ≤ 2 ^ 21 + 2 ^ 15) :
    ParseSimple_binary32 d g dx dy fuel out = ParseSimple d g dx dy fuel out := by
  unfold ParseSimple_binary32 ParseSimple
  cases hp : ParseSimple_points d g with
  | bounds => rfl
  | fuel => rfl
  | ok p =>
    simp only [Outcome.ok_bind]
    obtain ⟨hx, hy⟩ := ParseSimple_points_range d g p hbytes hp
    exact ParseSimple_contours_binary32_eq p.xs p.ys p.flags dx dy fuel hx hy hdx hdy _ _ _

/-- For a simple glyph in a blob of bytes and a translation of magnitude at
most `2^21 + 2^15`, the visit computes no rounded value. -/
theorem Visit_binary32_simple (f : FontLoader) (hbytes : ∀ b ∈ f.data, b < 256)
    (fuel gid : Nat) (dx dy : Int) (out : GlyphContour)
    (hs : is_simple_glyph f gid = true)
    (hdx : |dx| ≤ 2 ^ 21 + 2 ^ 15) (hdy : |dy| ≤ 2 ^ 21 + 2 ^ 15) :
    Visit_binary32 f fuel gid dx dy out = Visit f fuel gid dx dy out := by
  cases fuel with
  | zero => rfl
  | succ n =>
    unfold is_simple_glyph at hs
    cases hoff : GlyphOffset f gid with
    | bounds => rw [hoff] at hs; simp at hs
    | fuel => rw [hoff] at hs; simp at hs
    | ok r =>
      rw [hoff] at hs
      cases r with
      | none => simp at hs
      | some q =>
        obtain ⟨gptr, glen⟩ := q
        simp only at hs
        cases hn : ReadS16 f.data gptr with
        | bounds => rw [hn] at hs; simp at hs
        | fuel => rw [hn] at hs; simp at hs
        | ok nc =>
          rw [hn] at hs
          simp only [decide_eq_true_eq] at hs
          rw [Visit_binary32, Visit, hoff]
          simp only [Outcome.ok_bind, hn]
          rw [if_pos (by omega), if_pos (by omega)]
          exact ParseSimple_binary32_eq f.data gptr dx dy n out hbytes hdx hdy

theorem toInt8_range (v : Nat) : -2 ^ 15 ≤ toInt8 v ∧ toInt8 v < 2 ^ 15 := by
  unfold toInt8
  split_ifs <;> omega

/-- The arguments of a component record are 16-bit values. -/
theorem read_component_args (d : List Nat) (ptr : Nat) (c : Component) (e : Nat)
    (h : read_component d ptr = .ok (c, e)) :
    (-2 ^ 15 ≤ c.arg1 ∧ c.arg1 < 2 ^ 15) ∧ (-2 ^ 15 ≤ c.arg2 ∧ c.arg2 < 2 ^ 15) := by
  unfold read_component at h
  rw [Outcome.bind_eq_ok] at h
  obtain ⟨flags, _, h⟩ := h
  rw [Outcome.bind_eq_ok] at h
  obtain ⟨cid, _, h⟩ := h
  rw [Outcome.bind_eq_ok] at h
  obtain ⟨args, ha, h⟩ := h
  simp only [Outcome.pure_eq, Outcome.ok.injEq, Prod.mk.injEq] at h
  obtain ⟨hc, _⟩ := h
  subst hc
  simp only
  by_cases hw : flags &&& 1 ≠ 0
  · rw [if_pos hw] at ha
    simp only [ReadS16, Outcome.bind_eq_ok] at ha
    obtain ⟨a1, ⟨u1, _, hu1⟩, a2, ⟨u2, _, hu2⟩, hargs⟩ := ha
    simp only [Outcome.pure_eq, Outcome.ok.injEq] at hu1 hu2 hargs
    rw [← hargs, ← hu1, ← hu2]
    exact ⟨toInt16_range u1, toInt16_range u2⟩
  · rw [if_neg hw] at ha
    simp only [Outcome.bind_eq_ok] at ha
    obtain ⟨b1, _, b2, _, hargs⟩ := ha
    simp only [Outcome.pure_eq, Outcome.ok.injEq] at hargs
    rw [← hargs]
    exact ⟨toInt8_range b1, toInt8_range b2⟩

/-- The translation that `ParseComposite` passes for a component exceeds the
one of the parent by at most `2^15`. -/
theorem child_translation_range (c : Component) (dx dy : Int)
    (ha : (-2 ^ 15 ≤ c.arg1 ∧ c.arg1 < 2 ^ 15) ∧ (-2 ^ 15 ≤ c.arg2 ∧ c.arg2 < 2 ^ 15))
    (hdx : |dx| ≤ 2 ^ 21) (hdy : |dy| ≤ 2 ^ 21) :
    |child_dx c dx| ≤ 2 ^ 21 + 2 ^ 15 ∧ |child_dy c dy| ≤ 2 ^ 21 + 2 ^ 15 := by
  unfold child_dx child_dy
  rw [abs_le] at hdx hdy
  constructor <;> split_ifs <;> rw [abs_le] <;> omega

/-- The loop of `ParseComposite` with two visits that agree on the calls for
its component records. -/
theorem ParseComposite_loop_visits (d : List Nat)
    (v1 v2 : Nat → Int → Int → GlyphContour → Outcome GlyphContour) (dx dy : Int) :
    ∀ (fuel ptr : Nat) (comps : List Component) (out : GlyphContour),
      read_components d fuel ptr = .ok comps →
      (∀ c ∈ comps, ∀ o, v1 c.cid (child_dx c dx) (child_dy c dy) o =
        v2 c.cid (child_dx c dx) (child_dy c dy) o) →
      ParseComposite_loop d v1 dx dy fuel ptr out =
        ParseComposite_loop d v2 dx dy fuel ptr out := by
  intro fuel
  induction fuel with
  | zero => intro _ _ _ _ _; rfl
  | succ n ih =>
    intro ptr comps out h hv
    rw [ParseComposite_loop_step, ParseComposite_loop_step]
    unfold read_components at h
    cases hr : read_component d ptr with
    | bounds => rfl
    | fuel => rfl
    | ok r =>
      rw [hr] at h
      simp only [Outcome.ok_bind] at h ⊢
      by_cases hm : r.1.flags &&& 0x20 ≠ 0
      · rw [if_pos hm] at h
        rw [Outcome.bind_eq_ok] at h
        obtain ⟨rest, hrest, hcomps⟩ := h
        simp only [Outcome.pure_eq, Outcome.ok.injEq] at hcomps
        subst hcomps
        rw [hv r.1 (by simp)]
        cases v2 r.1.cid (child_dx r.1 dx) (child_dy r.1 dy) out with
        | bounds => rfl
        | fuel => rfl
        | ok o1 =>
          simp only [Outcome.ok_bind, if_pos hm]
          exact ih _ rest o1 hrest (fun c hc o => hv c (List.mem_cons_of_mem _ hc) o)
      · rw [if_neg hm] at h
        simp only [Outcome.pure_eq, Outcome.ok.injEq] at h
        subst h
        rw [hv r.1 (by simp)]
        cases v2 r.1.cid (child_dx r.1 dx) (child_dy r.1 dy) out with
        | bounds => rfl
        | fuel => rfl
        | ok o1 =>
          simp only [Outcome.ok_bind, if_neg hm]

/-- The arguments of the component records of a composite glyph are 16-bit
values. -/
theorem read_components_args (d : List Nat) :
    ∀ (fuel ptr : Nat) (comps : List Component), read_components d fuel ptr = .ok comps →
      ∀ c ∈ comps,
        (-2 ^ 15 ≤ c.arg1 ∧ c.arg1 < 2 ^ 15) ∧ (-2 ^ 15 ≤ c.arg2 ∧ c.arg2 < 2 ^ 15) := by
  intro fuel
  induction fuel with
  | zero => intro ptr comps h; simp [read_components] at h
  | succ n ih =>
    intro ptr comps h
    unfold read_components at h
    cases hr : read_component d ptr with
    | bounds => rw [hr] at h; simp at h
    | fuel => rw [hr] at h; simp at h
    | ok r =>
      rw [hr] at h
      simp only [Outcome.ok_bind] at h
      have hargs := read_component_args d ptr r.1 r.2 hr
      by_cases hm : r.1.flags &&& 0x20 ≠ 0
      · rw [if_pos hm] at h
        rw [Outcome.bind_eq_ok] at h
        obtain ⟨rest, hrest, hcomps⟩ := h
        simp only [Outcome.pure_eq, Outcome.ok.injEq] at hcomps
        subst hcomps
        intro c hc
        rcases List.mem_cons.mp hc with h1 | h1
        · rw [h1]; exact hargs
        · exact ih _ rest hrest c h1
      · rw [if_neg hm] at h
        simp only [Outcome.pure_eq, Outcome.ok.injEq] at h
        subst h
        intro c hc
        rw [List.mem_singleton] at hc
        rw [hc]; exact hargs

/-- For a composite glyph of simple glyphs in a blob of bytes, visited under a
translation of magnitude at most `2^21`, the visit computes no rounded value. -/
theorem Visit_binary32_composite (f : FontLoader) (hbytes : ∀ b ∈ f.data, b < 256)
    (g gptr glen fuel : Nat) (n : Int) (comps : List Component)
    (hoff : GlyphOffset f g = .ok (some (gptr, glen)))
    (hn : ReadS16 f.data gptr = .ok n) (hneg : n < 0)
    (hc : read_components f.data fuel (gptr + 10) = .ok comps)
    (hsimple : ∀ c ∈ comps, is_simple_glyph f c.cid = true)
    (dx dy : Int) (hdx : |dx| ≤ 2 ^ 21) (hdy : |dy| ≤ 2 ^ 21) (o : GlyphContour) :
    Visit_binary32 f (fuel + 1) g dx dy o = Visit f (fuel + 1) g dx dy o := by
  rw [Visit_binary32, Visit, hoff]
  simp only [Outcome.ok_bind, hn]
  rw [if_neg (by omega), if_neg (by omega)]
  apply ParseComposite_loop_visits f.data _ _ dx dy fuel (gptr + 10) comps o hc
  intro c hcm o1
  obtain ⟨h1, h2⟩ := child_translation_range c dx dy
    (read_components_args f.data fuel (gptr + 10) comps hc c hcm) hdx hdy
  exact Visit_binary32_simple f hbytes fuel c.cid _ _ o1 (hsimple c hcm) h1 h2

/-- The outline of a simple glyph in a blob of bytes is computed without
rounding. -/
theorem Extract_binary32_simple (f : FontLoader) (hbytes : ∀ b ∈ f.data, b < 256)
    (fuel gid : Nat) (hs : is_simple_glyph f gid = true) :
    Extract_binary32 f fuel gid = Extract f fuel gid := by
  unfold Extract_binary32 Extract
  exact Visit_binary32_simple f hbytes fuel gid 0 0 _ hs (by decide) (by decide)

theorem Pt_binary32_contour_point (xs ys : List Int) (dx dy : Int) (first k : Nat)
    (hx : first + k < xs.length) (hy : first + k < ys.length) :
    Pt_binary32 xs ys dx dy (first + k) = .ok (contour_point_binary32 xs ys dx dy first k) := by
  unfold Pt_binary32 contour_point_binary32
  rw [vecAt_ok xs (first + k) hx, vecAt_ok ys (first + k) hy,
    List.getD_eq_getElem xs 0 hx, List.getD_eq_getElem ys 0 hy]
  rfl

/-- The walk over a contour of on-curve points in `float` arithmetic, from
point `k + 1` on: it emits the lines `k`, `k + 1`, ... up to the line that comes
back to the first point. -/
theorem EmitContour_loop_binary32_polygon (xs ys : List Int) (flags : List Nat)
    (first last : Nat) (dx dy : Int) (hfl : first ≤ last) (hl : last < 2 ^ 16)
    (hxs : last < xs.length) (hys : last < ys.length)
    (hon : ∀ i, first ≤ i → i ≤ last → IsOn flags i = .ok true) :
    ∀ (c fuel k : Nat) (o : GlyphContour), k + c + 1 = last - first + 1 → c < fuel →
      EmitContour_loop_binary32 xs ys flags first last dx dy first fuel
          (first + (k + 1) % (last - first + 1))
          (contour_point_binary32 xs ys dx dy first k).1
          (contour_point_binary32 xs ys dx dy first k).2 true o =
        .ok ⟨o.segments ++ (List.range' k (c + 1)).map (fun k =>
            line_segment_binary32 (contour_point_binary32 xs ys dx dy first k)
              (contour_point_binary32 xs ys dx dy first ((k + 1) % (last - first + 1)))),
          o.contours, o.advance_width⟩ := by
  intro c
  induction c with
  | zero =>
    intro fuel k o hk hf
    obtain ⟨f1, rfl⟩ : ∃ f1, fuel = f1 + 1 := ⟨fuel - 1, by omega⟩
    have hm : (k + 1) % (last - first + 1) = 0 := by
      rw [show k + 1 = last - first + 1 by omega, Nat.mod_self]
    unfold EmitContour_loop_binary32
    rw [hm, Pt_binary32_contour_point xs ys dx dy first 0 (by omega) (by omega),
      hon (first + 0) (by omega) (by omega)]
    simp only [Outcome.ok_bind, Outcome.pure_eq, and_self, if_true, Nat.add_zero]
    show _ = Outcome.ok ⟨o.segments ++
      [line_segment_binary32 (contour_point_binary32 xs ys dx dy first k)
        (contour_point_binary32 xs ys dx dy first ((k + 1) % (last - first + 1)))], _, _⟩
    rw [hm]
    rfl
  | succ c ih =>
    intro fuel k o hk hf
    obtain ⟨f1, rfl⟩ : ∃ f1, fuel = f1 + 1 := ⟨fuel - 1, by omega⟩
    have hm : (k + 1) % (last - first + 1) = k + 1 := Nat.mod_eq_of_lt (by omega)
    unfold EmitContour_loop_binary32
    rw [hm, Pt_binary32_contour_point xs ys dx dy first (k + 1) (by omega) (by omega),
      hon (first + (k + 1)) (by omega) (by omega)]
    simp only [Outcome.ok_bind, Outcome.pure_eq, and_self, if_true]
    rw [if_neg (by omega)]
    have hnext : Next first last (first + (k + 1)) =
        first + (k + 1 + 1) % (last - first + 1) := by
      unfold Next
      by_cases hlast : first + (k + 1) = last
      · rw [if_pos hlast, show k + 1 + 1 = last - first + 1 by omega, Nat.mod_self]
        rfl
      · rw [if_neg hlast, Nat.mod_eq_of_lt (show first + (k + 1) + 1 < 2 ^ 16 by omega),
          Nat.mod_eq_of_lt (show k + 1 + 1 < last - first + 1 by omega)]
        omega
    rw [hnext, ih f1 (k + 1) _ (by omega) (by omega)]
    simp only [AddLine_binary32, List.append_assoc, List.singleton_append]
    rw [List.range'_succ k (c + 1), List.map_cons, hm]
    rfl

/-- For 16-bit coordinates under a translation of magnitude at most
`2^21 + 2^15` the points and the lines of a contour are computed without
rounding. -/
theorem polygon_segments_binary32_eq (xs ys : List Int) (dx dy : Int) (first n : Nat)
    (hx : ∀ v ∈ xs, -2 ^ 15 ≤ v ∧ v < 2 ^ 15) (hy : ∀ v ∈ ys, -2 ^ 15 ≤ v ∧ v < 2 ^ 15)
    (hdx : |dx| ≤ 2 ^ 21 + 2 ^ 15) (hdy : |dy| ≤ 2 ^ 21 + 2 ^ 15) :
    polygon_segments_binary32 xs ys dx dy first n = polygon_segments xs ys dx dy first n := by
  have hget : ∀ (l : List Int), (∀ v ∈ l, -2 ^ 15 ≤ v ∧ v < 2 ^ 15) → ∀ i,
      -2 ^ 15 ≤ l.getD i 0 ∧ l.getD i 0 < 2 ^ 15 := by
    intro l hl i
    by_cases hi : i < l.length
    · rw [List.getD_eq_getElem l 0 hi]
      exact hl _ (List.getElem_mem _)
    · rw [List.getD_eq_default l 0 (by omega)]
      decide
  have hpt : ∀ k, contour_point_binary32 xs ys dx dy first k = contour_point xs ys dx dy first k ∧
      coord_whole (contour_point xs ys dx dy first k).1 ∧
      coord_whole (contour_point xs ys dx dy first k).2 := by
    intro k
    have bx := binary32_point (xs.getD (first + k) 0) dx (hget xs hx _) hdx
    have by1 := binary32_point (ys.getD (first + k) 0) dy (hget ys hy _) hdy
    unfold contour_point_binary32 contour_point
    rw [bx.1, by1.1]
    exact ⟨rfl, bx.2, by1.2⟩
  unfold polygon_segments_binary32 polygon_segments
  apply List.map_congr_left
  intro k _
  rw [(hpt k).1, (hpt _).1]
  unfold line_segment_binary32 line_segment
  rw [binary32_mid _ _ (coord_whole_half _ (hpt k).2.1) (hpt _).2.1,
    binary32_mid _ _ (coord_whole_half _ (hpt k).2.2) (hpt _).2.2]

theorem compositeFont_bytes : ∀ b ∈ compositeFont.data, b < 256 := by decide!

theorem table_rows_length (row : Nat → List Nat) (w : Nat) (hw : ∀ k, (row k).length = w) :
    ∀ (n k : Nat), (table_rows row n k).length = w * n := by
  intro n
  induction n with
  | zero => intro k; rfl
  | succ n ih =>
    intro k
    rw [table_rows, List.length_append, hw, ih]
    ring

/-- The entry `j` of the row `i` of a table of rows of the length `w`. -/
theorem table_rows_getElem? (row : Nat → List Nat) (w : Nat) (hw : ∀ k, (row k).length = w) :
    ∀ (n k i j : Nat), i < n → j < w →
      (table_rows row n k)[w * i + j]? = (row (k + i))[j]? := by
  intro n
  induction n with
  | zero => intro k i j hi _; omega
  | succ n ih =>
    intro k i j hi hj
    rw [table_rows]
    cases i with
    | zero =>
      rw [Nat.mul_zero, Nat.zero_add]
      exact List.getElem?_append_left (by rw [hw]; exact hj)
    | succ i =>
      rw [List.getElem?_append_right (by rw [hw]; nlinarith), hw,
        show w * (i + 1) + j - w = w * i + j by rw [Nat.mul_succ]; omega,
        ih (k + 1) i j (by omega) hj]
      congr 2
      omega

theorem deepFont_data : deepFont.data = table_rows deep_loca_row 515 0 ++
    ([0, 1, 0, 0, 0, 0, 0, 0, 0, 0, 0, 2, 0, 0, 0x37, 0x37, 0x37, 0, 10, 0, 0, 0, 10, 0] ++
      table_rows deep_composite_row 513 0) := rfl

theorem deepFont_loca_byte (i j : Nat) (hi : i < 515) (hj : j < 2) :
    deepFont.data[2 * i + j]? = (deep_loca_row i)[j]? := by
  have hlen := table_rows_length deep_loca_row 2 (fun _ => rfl) 515 0
  rw [deepFont_data, List.getElem?_append_left (by rw [hlen]; omega),
    table_rows_getElem? deep_loca_row 2 (fun _ => rfl) 515 0 i j hi hj, Nat.zero_add]

theorem deepFont_composite_byte (k j : Nat) (hk : k < 513) (hj : j < 18) :
    deepFont.data[1054 + 18 * k + j]? = (deep_composite_row k)[j]? := by
  have hlen := table_rows_length deep_loca_row 2 (fun _ => rfl) 515 0
  have h24 : ([0, 1, 0, 0, 0, 0, 0, 0, 0, 0, 0, 2, 0, 0, 0x37, 0x37, 0x37, 0, 10, 0, 0, 0, 10,
      0] : List Nat).length = 24 := rfl
  rw [deepFont_data, List.getElem?_append_right (by rw [hlen]; omega), hlen,
    List.getElem?_append_right (by rw [h24]; omega), h24,
    show 1054 + 18 * k + j - 2 * 515 - 24 = 18 * k + j by omega,
    table_rows_getElem? deep_composite_row 18 (fun _ => rfl) 513 0 k j hk hj, Nat.zero_add]

theorem deepFont_ReadU16_loca (i : Nat) (hi : 0 < i) (hi1 : i < 515) :
    ReadU16 deepFont.data (0 + i * 2) = .ok (9 * i + 3) := by
  have h0 : deepFont.data[2 * i]? = some ((9 * i + 3) / 256) := by
    have h := deepFont_loca_byte i 0 hi1 (by omega)
    rw [Nat.add_zero] at h
    rw [h]
    unfold deep_loca_row
    rw [if_neg (by omega)]
    rfl
  have h1 : deepFont.data[2 * i + 1]? = some ((9 * i + 3) % 256) := by
    rw [deepFont_loca_byte i 1 hi1 (by omega)]
    unfold deep_loca_row
    rw [if_neg (by omega)]
    rfl
  have e : (9 * i + 3) / 256 * 256 + (9 * i + 3) % 256 = 9 * i + 3 := by omega
  rw [show 0 + i * 2 = 2 * i by omega,
    ReadU16_value deepFont.data (2 * i) _ _ h0 h1 (by omega) (by omega), e]

/-- The result of `GlyphOffset` for a glyph with a non-empty range in a short
`loca` table. -/
theorem GlyphOffset_short (f : FontLoader) (glyf loca gid a b : Nat)
    (hg : f.glyf = some glyf) (hl : f.loca = some loca) (hn : gid < f.num_glyphs)
    (hfmt : f.index_to_loc_format = 0)
    (ha : ReadU16 f.data (loca + gid * 2) = .ok a)
    (hb : ReadU16 f.data (loca + (gid + 1) * 2) = .ok b)
    (hne : (a * 2) % 2 ^ 32 ≠ (b * 2) % 2 ^ 32) :
    GlyphOffset f gid = .ok (some (glyf + (a * 2) % 2 ^ 32,
      ((b * 2) % 2 ^ 32 + 2 ^ 32 - (a * 2) % 2 ^ 32) % 2 ^ 32)) := by
  unfold GlyphOffset
  rw [hg, hl]
  simp only
  rw [if_neg (by omega), if_pos hfmt, ha, hb]
  simp only [Outcome.ok_bind, Outcome.pure_eq]
  rw [if_neg hne]

theorem deepFont_GlyphOffset (k : Nat) (hk : k < 513) :
    GlyphOffset deepFont (k + 1) = .ok (some (1054 + 18 * k, 18)) := by
  have h := GlyphOffset_short deepFont 1030 0 (k + 1) (9 * (k + 1) + 3) (9 * (k + 1 + 1) + 3)
    rfl rfl (show k + 1 < 514 by omega) rfl
    (deepFont_ReadU16_loca (k + 1) (by omega) (by omega))
    (deepFont_ReadU16_loca (k + 1 + 1) (by omega) (by omega)) (by omega)
  rw [h]
  have e1 : 1030 + (9 * (k + 1) + 3) * 2 % 2 ^ 32 = 1054 + 18 * k := by omega
  have e2 : ((9 * (k + 1 + 1) + 3) * 2 % 2 ^ 32 + 2 ^ 32 - (9 * (k + 1) + 3) * 2 % 2 ^ 32) %
      2 ^ 32 = 18 := by omega
  rw [e1, e2]

theorem deepFont_word (k j b0 b1 : Nat) (hk : k < 513) (hj : j + 1 < 18)
    (h0 : (deep_composite_row k)[j]? = some b0) (h1 : (deep_composite_row k)[j + 1]? = some b1)
    (hb0 : b0 < 256) (hb1 : b1 < 256) :
    ReadU16 deepFont.data (1054 + 18 * k + j) = .ok (b0 * 256 + b1) := by
  refine ReadU16_value deepFont.data _ b0 b1 ?_ ?_ hb0 hb1
  · rw [deepFont_composite_byte k j hk (by omega)]
    exact h0
  · rw [show 1054 + 18 * k + j + 1 = 1054 + 18 * k + (j + 1) by omega,
      deepFont_composite_byte k (j + 1) hk hj]
    exact h1

theorem deepFont_contour_count (k : Nat) (hk : k < 513) :
    ReadS16 deepFont.data (1054 + 18 * k) = .ok (-1) := by
  unfold ReadS16
  have h := deepFont_word k 0 0xFF 0xFF hk (by omega) rfl rfl (by omega) (by omega)
  rw [Nat.add_zero] at h
  rw [h]
  rfl

theorem deepFont_component (k : Nat) (hk : k < 513) :
    read_component deepFont.data (1054 + 18 * k + 10) =
      .ok (⟨3, k, 32767, 0⟩, 1054 + 18 * k + 18) := by
  have r0 : ReadU16 deepFont.data (1054 + 18 * k + 10) = .ok 3 :=
    deepFont_word k 10 0 3 hk (by omega) rfl rfl (by omega) (by omega)
  have r1 : ReadU16 deepFont.data (1054 + 18 * k + 10 + 2) = .ok k := by
    rw [show 1054 + 18 * k + 10 + 2 = 1054 + 18 * k + 12 by omega,
      deepFont_word k 12 (k / 256) (k % 256) hk (by omega) rfl rfl (by omega) (by omega),
      show k / 256 * 256 + k % 256 = k by omega]
  have r2 : ReadS16 deepFont.data (1054 + 18 * k + 10 + 4) = .ok 32767 := by
    unfold ReadS16
    rw [show 1054 + 18 * k + 10 + 4 = 1054 + 18 * k + 14 by omega,
      deepFont_word k 14 0x7F 0xFF hk (by omega) rfl rfl (by omega) (by omega)]
    rfl
  have r3 : ReadS16 deepFont.data (1054 + 18 * k + 10 + 4 + 2) = .ok 0 := by
    unfold ReadS16
    rw [show 1054 + 18 * k + 10 + 4 + 2 = 1054 + 18 * k + 16 by omega,
      deepFont_word k 16 0 0 hk (by omega) rfl rfl (by omega) (by omega)]
    rfl
  unfold read_component
  rw [r0, r1]
  simp only [Outcome.ok_bind]
  rw [if_pos (by decide), r2, r3]
  rfl

/-- The visit of a glyph of the chain is the visit of the glyph below it under
the translation increased by the offset `(32767, 0)`. -/
theorem deepFont_step (k : Nat) (hk : k < 513) (fuel : Nat) (dx dy : Int)
    (out : GlyphContour) :
    Visit_binary32 deepFont (fuel + 2) (k + 1) dx dy out =
      Visit_binary32 deepFont (fuel + 1) k (dx + 32767) dy out := by
  rw [Visit_binary32, deepFont_GlyphOffset k hk]
  simp only [Outcome.ok_bind, deepFont_contour_count k hk]
  rw [if_neg (by omega), ParseComposite_loop_step, deepFont_component k hk]
  simp only [Outcome.ok_bind]
  have h1 : child_dx ⟨3, k, 32767, 0⟩ dx = dx + 32767 := by
    unfold child_dx
    rw [if_pos (show (3 : Nat) &&& 2 ≠ 0 by decide)]
  have h2 : child_dy ⟨3, k, 32767, 0⟩ dy = dy := by
    unfold child_dy
    rw [if_pos (show (3 : Nat) &&& 2 ≠ 0 by decide)]
    exact add_zero dy
  rw [h1, h2]
  cases Visit_binary32 deepFont (fuel + 1) k (dx + 32767) dy out with
  | bounds => rfl
  | fuel => rfl
  | ok o1 => rfl

theorem deepFont_chain : ∀ (k : Nat), k ≤ 513 →
    ∀ (fuel : Nat) (dx dy : Int) (out : GlyphContour),
      Visit_binary32 deepFont (fuel + 1 + k) k dx dy out =
        Visit_binary32 deepFont (fuel + 1) 0 (dx + 32767 * (k : Int)) dy out := by
  intro k
  induction k with
  | zero =>
    intro _ fuel dx dy out
    simp
  | succ k ih =>
    intro hk fuel dx dy out
    rw [show fuel + 1 + (k + 1) = (fuel + k) + 2 by omega, deepFont_step k (by omega),
      show fuel + k + 1 = fuel + 1 + k by omega, ih (by omega)]
    congr 1
    push_cast
    ring

set_option maxRecDepth 100000 in
theorem deepFont_triangle :
    Visit_binary32 deepFont 7 0 16809471 0 ⟨[], [], 0⟩ =
      .ok ⟨[⟨16809472, 0, 16809476, 0, 16809482, 0⟩, ⟨16809482, 0, 16809482, 5, 16809482, 10⟩,
        ⟨16809482, 10, 16809476, 5, 16809472, 0⟩], [0], 0⟩ := by
  decide!

/-- The outline of the top glyph of the chain in `float` arithmetic. -/
theorem deepFont_Extract :
    Extract_binary32 deepFont 520 513 =
      .ok ⟨[⟨16809472, 0, 16809476, 0, 16809482, 0⟩, ⟨16809482, 0, 16809482, 5, 16809482, 10⟩,
        ⟨16809482, 10, 16809476, 5, 16809472, 0⟩], [0], 0⟩ := by
  unfold Extract_binary32
  have ha : toInt16 (AdvanceWidth deepFont 513) = 0 := rfl
  rw [ha, show (520 : Nat) = 6 + 1 + 513 by rfl, deepFont_chain 513 (le_refl _) 6 0 0]
  exact deepFont_triangle

/-- The own outlines of simple children in `float` arithmetic are their own
outlines in exact arithmetic. -/
theorem owns_binary32 (f : FontLoader) (hbytes : ∀ b ∈ f.data, b < 256) (fuel : Nat) :
    ∀ (comps : List Component) (owns : List GlyphContour),
      (∀ c ∈ comps, is_simple_glyph f c.cid = true) →
      List.Forall₂ (fun c own => Extract_binary32 f fuel c.cid = .ok own) comps owns →
      List.Forall₂ (fun c own => Extract f fuel c.cid = .ok own) comps owns := by
  intro comps owns hsimple hown
  induction hown with
  | nil => exact List.Forall₂.nil
  | cons h1 _ ih =>
    refine List.Forall₂.cons ?_ (ih (fun c hcm => hsimple c (List.mem_cons_of_mem _ hcm)))
    rw [← Extract_binary32_simple f hbytes fuel _ (hsimple _ (by simp))]
    exact h1

/-! ## Contours, composite glyphs and the rounding of `float` -/

/-- C34 (amended). Polygonal contour in `float` arithmetic: for a contour
`first .. last` of `n = last - first + 1` points (the count fits the
`uint16_t n` of the code), all of them present and on-curve, under any
translation, `EmitContour` returns after at most `n + 1` steps of each of its
two loops and appends exactly `n` segments to the outline; segment `k` is the
quadratic from point `k` to point `(k + 1) mod n`, the points as `Pt` computes
them, whose control point is the `float` value of `(p_k + p_{k+1}) * 0.5f`; the
end of each segment is the start of the next one cyclically, and the chain
starts and ends at point 0. For 16-bit coordinates and a translation of
magnitude at most `2^21` no `float` operation rounds: point `k` is
`(x_k + dx, y_k + dy)` and the control point is the midpoint of the two
points. -/
theorem C34_polygonal_contour (xs ys : List Int) (flags : List Nat) (first last : Nat)
    (dx dy : Int) (fuel : Nat) (out : GlyphContour)
    (hfl : first ≤ last) (hl : last < 2 ^ 16) (hn : last - first + 1 < 2 ^ 16)
    (hxs : last < xs.length) (hys : last < ys.length)
    (hon : ∀ i, first ≤ i → i ≤ last → IsOn flags i = .ok true)
    (hfuel : last - first + 2 ≤ fuel) :
    EmitContour_binary32 xs ys flags first last dx dy fuel out =
      .ok ⟨out.segments ++ polygon_segments_binary32 xs ys dx dy first (last - first + 1),
        out.contours, out.advance_width⟩ ∧
    (polygon_segments_binary32 xs ys dx dy first (last - first + 1)).length = last - first + 1 ∧
    (∀ k, k < last - first + 1 →
      (polygon_segments_binary32 xs ys dx dy first (last - first + 1))[k]? =
        some ⟨(contour_point_binary32 xs ys dx dy first k).1,
          (contour_point_binary32 xs ys dx dy first k).2,
          binary32 (binary32 ((contour_point_binary32 xs ys dx dy first k).1 +
            (contour_point_binary32 xs ys dx dy first ((k + 1) % (last - first + 1))).1) *
              (1 / 2)),
          binary32 (binary32 ((contour_point_binary32 xs ys dx dy first k).2 +
            (contour_point_binary32 xs ys dx dy first ((k + 1) % (last - first + 1))).2) *
              (1 / 2)),
          (contour_point_binary32 xs ys dx dy first ((k + 1) % (last - first + 1))).1,
          (contour_point_binary32 xs ys dx dy first ((k + 1) % (last - first + 1))).2⟩) ∧
    (∀ k, k < last - first + 1 → ∃ s t,
      (polygon_segments_binary32 xs ys dx dy first (last - first + 1))[k]? = some s ∧
      (polygon_segments_binary32 xs ys dx dy first (last - first + 1))[
        (k + 1) % (last - first + 1)]? = some t ∧
      (s.x1, s.y1) = (t.x0, t.y0)) ∧
    (∃ s t, (polygon_segments_binary32 xs ys dx dy first (last - first + 1)).head? = some s ∧
      (polygon_segments_binary32 xs ys dx dy first (last - first + 1)).getLast? = some t ∧
      (s.x0, s.y0) = contour_point_binary32 xs ys dx dy first 0 ∧
      (t.x1, t.y1) = contour_point_binary32 xs ys dx dy first 0) ∧
    ((∀ v ∈ xs, -2 ^ 15 ≤ v ∧ v < 2 ^ 15) → (∀ v ∈ ys, -2 ^ 15 ≤ v ∧ v < 2 ^ 15) →
      |dx| ≤ 2 ^ 21 → |dy| ≤ 2 ^ 21 →
      ∀ k, k < last - first + 1 →
        (polygon_segments_binary32 xs ys dx dy first (last - first + 1))[k]? =
          some ⟨(contour_point xs ys dx dy first k).1, (contour_point xs ys dx dy first k).2,
            ((contour_point xs ys dx dy first k).1 +
              (contour_point xs ys dx dy first ((k + 1) % (last - first + 1))).1) / 2,
            ((contour_point xs ys dx dy first k).2 +
              (contour_point xs ys dx dy first ((k + 1) % (last - first + 1))).2) / 2,
            (contour_point xs ys dx dy first ((k + 1) % (last - first + 1))).1,
            (contour_point xs ys dx dy first ((k + 1) % (last - first + 1))).2⟩) := by
  have hget : ∀ k, k < last - first + 1 →
      (polygon_segments_binary32 xs ys dx dy first (last - first + 1))[k]? =
        some (line_segment_binary32 (contour_point_binary32 xs ys dx dy first k)
          (contour_point_binary32 xs ys dx dy first ((k + 1) % (last - first + 1)))) := by
    intro k hk
    unfold polygon_segments_binary32
    rw [List.getElem?_map, List.getElem?_range hk]
    rfl
  have hlen : (polygon_segments_binary32 xs ys dx dy first (last - first + 1)).length =
      last - first + 1 := by
    unfold polygon_segments_binary32
    rw [List.length_map, List.length_range]
  refine ⟨?_, hlen, hget, ?_, ?_, ?_⟩
  · unfold EmitContour_binary32
    have hn0 : ¬ (last + 2 ^ 16 - first + 1) % 2 ^ 16 = 0 := by omega
    rw [if_neg hn0]
    obtain ⟨f1, rfl⟩ : ∃ f1, fuel = f1 + 1 := ⟨fuel - 1, by omega⟩
    have hstart : EmitContour_start flags first last (f1 + 1) first = .ok first := by
      unfold EmitContour_start
      rw [hon first (le_refl _) hfl]
      simp
    rw [hstart]
    simp only [Outcome.ok_bind]
    have hp := Pt_binary32_contour_point xs ys dx dy first 0 (by omega) (by omega)
    rw [Nat.add_zero] at hp
    rw [hp, hon first (le_refl _) hfl]
    simp only [Outcome.ok_bind]
    have hnext : Next first last first = first + (0 + 1) % (last - first + 1) := by
      unfold Next
      by_cases hlast : first = last
      · rw [if_pos hlast, hlast, Nat.sub_self]
        rfl
      · rw [if_neg hlast, Nat.mod_eq_of_lt (show first + 1 < 2 ^ 16 by omega),
          Nat.mod_eq_of_lt (show 0 + 1 < last - first + 1 by omega)]
    rw [hnext, EmitContour_loop_binary32_polygon xs ys flags first last dx dy hfl hl hxs hys hon
      (last - first) (f1 + 1) 0 out (by omega) (by omega)]
    unfold polygon_segments_binary32
    rw [List.range_eq_range']
  · intro k hk
    have hk1 : (k + 1) % (last - first + 1) < last - first + 1 := Nat.mod_lt _ (by omega)
    exact ⟨_, _, hget k hk, hget _ hk1, rfl⟩
  · refine ⟨line_segment_binary32 (contour_point_binary32 xs ys dx dy first 0)
        (contour_point_binary32 xs ys dx dy first ((0 + 1) % (last - first + 1))),
      line_segment_binary32 (contour_point_binary32 xs ys dx dy first (last - first))
        (contour_point_binary32 xs ys dx dy first ((last - first + 1) % (last - first + 1))),
      ?_, ?_, rfl, ?_⟩
    · rw [List.head?_eq_getElem?]
      exact hget 0 (by omega)
    · rw [List.getLast?_eq_getElem?, hlen]
      exact hget (last - first) (by omega)
    · rw [Nat.mod_self]
      rfl
  · intro hx16 hy16 hdx hdy k hk
    have hdx1 : |dx| ≤ 2 ^ 21 + 2 ^ 15 := by omega
    have hdy1 : |dy| ≤ 2 ^ 21 + 2 ^ 15 := by omega
    rw [polygon_segments_binary32_eq xs ys dx dy first _ hx16 hy16 hdx1 hdy1]
    unfold polygon_segments
    rw [List.getElem?_map, List.getElem?_range hk]
    rfl

/-- C34, witness: the triangle (0,0), (10,0), (10,10) under the translation
`(3, 4)`, inside the range without rounding. -/
theorem C34_polygonal_contour_witness :
    EmitContour_binary32 [0, 10, 10] [0, 0, 10] [0x37, 0x37, 0x37] 0 2 3 4 4 no_outline =
      .ok ⟨no_outline.segments ++
          polygon_segments_binary32 [0, 10, 10] [0, 0, 10] 3 4 0 (2 - 0 + 1),
        no_outline.contours, no_outline.advance_width⟩ ∧
    (polygon_segments_binary32 [0, 10, 10] [0, 0, 10] 3 4 0 (2 - 0 + 1)).length = 2 - 0 + 1 ∧
    (∀ k, k < 2 - 0 + 1 →
      (polygon_segments_binary32 [0, 10, 10] [0, 0, 10] 3 4 0 (2 - 0 + 1))[k]? =
        some ⟨(contour_point_binary32 [0, 10, 10] [0, 0, 10] 3 4 0 k).1,
          (contour_point_binary32 [0, 10, 10] [0, 0, 10] 3 4 0 k).2,
          binary32 (binary32 ((contour_point_binary32 [0, 10, 10] [0, 0, 10] 3 4 0 k).1 +
            (contour_point_binary32 [0, 10, 10] [0, 0, 10] 3 4 0 ((k + 1) % (2 - 0 + 1))).1) *
              (1 / 2)),
          binary32 (binary32 ((contour_point_binary32 [0, 10, 10] [0, 0, 10] 3 4 0 k).2 +
            (contour_point_binary32 [0, 10, 10] [0, 0, 10] 3 4 0 ((k + 1) % (2 - 0 + 1))).2) *
              (1 / 2)),
          (contour_point_binary32 [0, 10, 10] [0, 0, 10] 3 4 0 ((k + 1) % (2 - 0 + 1))).1,
          (contour_point_binary32 [0, 10, 10] [0, 0, 10] 3 4 0 ((k + 1) % (2 - 0 + 1))).2⟩) ∧
    (∀ k, k < 2 - 0 + 1 → ∃ s t,
      (polygon_segments_binary32 [0, 10, 10] [0, 0, 10] 3 4 0 (2 - 0 + 1))[k]? = some s ∧
      (polygon_segments_binary32 [0, 10, 10] [0, 0, 10] 3 4 0 (2 - 0 + 1))[
        (k + 1) % (2 - 0 + 1)]? = some t ∧
      (s.x1, s.y1) = (t.x0, t.y0)) ∧
    (∃ s t, (polygon_segments_binary32 [0, 10, 10] [0, 0, 10] 3 4 0 (2 - 0 + 1)).head? = some s ∧
      (polygon_segments_binary32 [0, 10, 10] [0, 0, 10] 3 4 0 (2 - 0 + 1)).getLast? = some t ∧
      (s.x0, s.y0) = contour_point_binary32 [0, 10, 10] [0, 0, 10] 3 4 0 0 ∧
      (t.x1, t.y1) = contour_point_binary32 [0, 10, 10] [0, 0, 10] 3 4 0 0) ∧
    ((∀ v ∈ ([0, 10, 10] : List Int), -2 ^ 15 ≤ v ∧ v < 2 ^ 15) ∧
      (∀ v ∈ ([0, 0, 10] : List Int), -2 ^ 15 ≤ v ∧ v < 2 ^ 15) ∧
      |(3 : Int)| ≤ 2 ^ 21 ∧ |(4 : Int)| ≤ 2 ^ 21 ∧
      ∀ k, k < 2 - 0 + 1 →
        (polygon_segments_binary32 [0, 10, 10] [0, 0, 10] 3 4 0 (2 - 0 + 1))[k]? =
          some ⟨(contour_point [0, 10, 10] [0, 0, 10] 3 4 0 k).1,
            (contour_point [0, 10, 10] [0, 0, 10] 3 4 0 k).2,
            ((contour_point [0, 10, 10] [0, 0, 10] 3 4 0 k).1 +
              (contour_point [0, 10, 10] [0, 0, 10] 3 4 0 ((k + 1) % (2 - 0 + 1))).1) / 2,
            ((contour_point [0, 10, 10] [0, 0, 10] 3 4 0 k).2 +
              (contour_point [0, 10, 10] [0, 0, 10] 3 4 0 ((k + 1) % (2 - 0 + 1))).2) / 2,
            (contour_point [0, 10, 10] [0, 0, 10] 3 4 0 ((k + 1) % (2 - 0 + 1))).1,
            (contour_point [0, 10, 10] [0, 0, 10] 3 4 0 ((k + 1) % (2 - 0 + 1))).2⟩) := by
  have h := C34_polygonal_contour [0, 10, 10] [0, 0, 10] [0x37, 0x37, 0x37] 0 2 3 4 4
    no_outline (by decide) (by decide) (by decide) (by decide) (by decide)
    (fun i _ h2 => by
      have h : i = 0 ∨ i = 1 ∨ i = 2 := by omega
      rcases h with h | h | h <;> subst h <;> rfl)
    (by decide)
  have hx : ∀ v ∈ ([0, 10, 10] : List Int), -2 ^ 15 ≤ v ∧ v < 2 ^ 15 := by decide
  have hy : ∀ v ∈ ([0, 0, 10] : List Int), -2 ^ 15 ≤ v ∧ v < 2 ^ 15 := by decide
  have hdx : |(3 : Int)| ≤ 2 ^ 21 := by decide
  have hdy : |(4 : Int)| ≤ 2 ^ 21 := by decide
  exact ⟨h.1, h.2.1, h.2.2.1, h.2.2.2.1, h.2.2.2.2.1, hx, hy, hdx, hdy,
    h.2.2.2.2.2 hx hy hdx hdy⟩

/-- C34 as stated fails: the contour of the triangle (0,0), (10,0), (10,10),
all points on-curve, under the translation `(16809471, 0)`, which the chain of
513 composite glyphs of `deepFont` accumulates (513 offsets `(32767, 0)`). `Pt`
gives the points `(16809472, 0)` and `(16809482, 0)`, the nearest `float`
values; their `float` sum is `33618952` for the exact `33618954`, so the
control point of the first segment is `16809476`, where the midpoint of its two
end points is `16809477`. -/
theorem C34_counterexample :
    IsOn [0x37, 0x37, 0x37] 0 = .ok true ∧ IsOn [0x37, 0x37, 0x37] 1 = .ok true ∧
    IsOn [0x37, 0x37, 0x37] 2 = .ok true ∧
    EmitContour_binary32 [0, 10, 10] [0, 0, 10] [0x37, 0x37, 0x37] 0 2 16809471 0 4
        ⟨[], [0], 0⟩ =
      .ok ⟨[⟨16809472, 0, 16809476, 0, 16809482, 0⟩, ⟨16809482, 0, 16809482, 5, 16809482, 10⟩,
        ⟨16809482, 10, 16809476, 5, 16809472, 0⟩], [0], 0⟩ ∧
    Extract_binary32 deepFont 520 513 =
      .ok ⟨[⟨16809472, 0, 16809476, 0, 16809482, 0⟩, ⟨16809482, 0, 16809482, 5, 16809482, 10⟩,
        ⟨16809482, 10, 16809476, 5, 16809472, 0⟩], [0], 0⟩ ∧
    ((16809472 : ℚ) + 16809482) / 2 = 16809477 ∧ (16809476 : ℚ) ≠ 16809477 := by
  refine ⟨by decide, by decide, by decide, by decide!, deepFont_Extract, by norm_num,
    by norm_num⟩

/-- C11 (amended). Composite merge in `float` arithmetic, for a font blob of
bytes: for a composite glyph (a non-empty loca range whose contour count is
negative) whose component records `comps` can be read, all have `ARGS_ARE_XY`
set and refer to simple glyphs with the outlines `owns`, `Extract` returns the
concatenation, in component order, of each child's own segments translated by
its arguments `(arg1, arg2)` (all six coordinates of every segment are
shifted), each child's contour starts shifted by the number of segments
appended before it, and a contour count equal to the sum of the children's
contour counts. For nested composites the translations add as long as the
accumulated translation is at most `2^21` in magnitude: visited under such a
translation `(dx, dy)` on an outline `o`, the glyph appends each child's
segments translated by `(dx + arg1, dy + arg2)`. -/
theorem C11_composite_merge (f : FontLoader) (g gptr glen fuel : Nat) (n : Int)
    (comps : List Component) (owns : List GlyphContour)
    (hbytes : ∀ b ∈ f.data, b < 256)
    (hoff : GlyphOffset f g = .ok (some (gptr, glen)))
    (hn : ReadS16 f.data gptr = .ok n) (hneg : n < 0)
    (hc : read_components f.data fuel (gptr + 10) = .ok comps)
    (hxy : ∀ c ∈ comps, c.flags &&& 2 ≠ 0)
    (hsimple : ∀ c ∈ comps, is_simple_glyph f c.cid = true)
    (hown : List.Forall₂ (fun c own => Extract_binary32 f fuel c.cid = .ok own) comps owns) :
    (∃ out, Extract_binary32 f (fuel + 1) g = .ok out ∧
      out.segments = ((comps.zip owns).map (fun q =>
          q.2.segments.map (Segment.translate q.1.arg1 q.1.arg2))).flatten ∧
      out.contours = shifted_contours 0 owns ∧
      out.contours.length = (owns.map (fun own => own.contours.length)).sum) ∧
    ∀ (dx dy : Int) (o : GlyphContour), |dx| ≤ 2 ^ 21 → |dy| ≤ 2 ^ 21 →
      ∃ out, Visit_binary32 f (fuel + 1) g dx dy o = .ok out ∧
        out.segments = o.segments ++ ((comps.zip owns).map (fun q =>
          q.2.segments.map (Segment.translate (dx + q.1.arg1) (dy + q.1.arg2)))).flatten ∧
        out.contours = o.contours ++ shifted_contours o.segments.length owns := by
  have hown1 : List.Forall₂ (fun c own => Extract f fuel c.cid = .ok own) comps owns := by
    have hmem : ∀ c own, c ∈ comps → Extract_binary32 f fuel c.cid = .ok own →
        Extract f fuel c.cid = .ok own := by
      intro c own hcm h
      rw [← Extract_binary32_simple f hbytes fuel c.cid (hsimple c hcm)]
      exact h
    clear hc hxy
    induction hown with
    | nil => exact List.Forall₂.nil
    | cons h1 _ ih =>
      refine List.Forall₂.cons (hmem _ _ (by simp) h1) (ih ?_ ?_)
      · exact fun c hcm => hsimple c (List.mem_cons_of_mem _ hcm)
      · exact fun c own hcm h => hmem c own (List.mem_cons_of_mem _ hcm) h
  have key : ∀ (dx dy : Int) (o : GlyphContour), |dx| ≤ 2 ^ 21 → |dy| ≤ 2 ^ 21 →
      ∃ out, Visit_binary32 f (fuel + 1) g dx dy o = .ok out ∧
        out.segments = o.segments ++ ((comps.zip owns).map (fun q =>
          q.2.segments.map (Segment.translate (dx + q.1.arg1) (dy + q.1.arg2)))).flatten ∧
        out.contours = o.contours ++ shifted_contours o.segments.length owns := by
    intro dx dy o hdx hdy
    rw [Visit_binary32_composite f hbytes g gptr glen fuel n comps hoff hn hneg hc hsimple
      dx dy hdx hdy o]
    refine ⟨_, Visit_composite f g gptr glen fuel n comps owns hoff hn hneg hc hown1 dx dy o,
      ?_, ?_⟩
    · rw [(merge_components_fields dx dy (comps.zip owns) o).1,
        translate_all_xy dx dy comps owns hxy]
    · rw [(merge_components_fields dx dy (comps.zip owns) o).2.1,
        zip_map_snd_of_forall₂ comps owns hown1]
  refine ⟨?_, key⟩
  obtain ⟨out, h1, h2, h3⟩ := key 0 0 ⟨[], [], toInt16 (AdvanceWidth f g)⟩ (by decide)
    (by decide)
  refine ⟨out, h1, ?_, ?_, ?_⟩
  · rw [h2]
    simp
  · rw [h3]
    simp
  · rw [h3]
    simp [shifted_contours_length]

/-- C11, witness: glyph 1 of `compositeFont`, two components with the word
offsets `(10, -5)` and `(0, 0)`, both of the triangle glyph 0. -/
theorem C11_composite_merge_witness :
    (∀ b ∈ compositeFont.data, b < 256) ∧
    (∀ c ∈ [(⟨0x23, 0, 10, -5⟩ : Component), ⟨3, 0, 0, 0⟩],
      is_simple_glyph compositeFont c.cid = true) ∧
    (∃ out, Extract_binary32 compositeFont 5 1 = .ok out ∧
      out.segments = (([(⟨0x23, 0, 10, -5⟩ : Component), ⟨3, 0, 0, 0⟩].zip
          [triangle, triangle]).map (fun q =>
          q.2.segments.map (Segment.translate q.1.arg1 q.1.arg2))).flatten ∧
      out.contours = shifted_contours 0 [triangle, triangle] ∧
      out.contours.length = ([triangle, triangle].map (fun own => own.contours.length)).sum) ∧
    ∀ (dx dy : Int) (o : GlyphContour), |dx| ≤ 2 ^ 21 → |dy| ≤ 2 ^ 21 →
      ∃ out, Visit_binary32 compositeFont 5 1 dx dy o = .ok out ∧
        out.segments = o.segments ++ (([(⟨0x23, 0, 10, -5⟩ : Component), ⟨3, 0, 0, 0⟩].zip
          [triangle, triangle]).map (fun q =>
          q.2.segments.map (Segment.translate (dx + q.1.arg1) (dy + q.1.arg2)))).flatten ∧
        out.contours = o.contours ++ shifted_contours o.segments.length [triangle, triangle] :=
  ⟨compositeFont_bytes, by decide!,
    C11_composite_merge compositeFont 1 36 26 4 (-1) [⟨0x23, 0, 10, -5⟩, ⟨3, 0, 0, 0⟩]
      [triangle, triangle] compositeFont_bytes (by decide!) (by decide!) (by decide) (by decide!)
      (by decide) (by decide!)
      (List.Forall₂.cons (by decide!) (List.Forall₂.cons (by decide!) List.Forall₂.nil))⟩

/-- C11 as stated fails on nested composites: in `deepFont` every glyph `k + 1`
is a composite glyph with the one component `k` under the offset `(32767, 0)`,
`ARGS_ARE_XY` set, and glyph 0 is the triangle. The outline of glyph 1 is the
triangle translated by `(32767, 0)`. Through the 513 levels of glyph 513 the
translations add up to `(16809471, 0)`, but the outline of glyph 513 is not the
triangle translated by that: the point `(0, 0)` lands at `16809472` and the
point `(10, 0)` at `16809482`, as `16809471` and `16809481` are no `float`
values. -/
theorem C11_counterexample :
    (∀ k, k < 513 → GlyphOffset deepFont (k + 1) = .ok (some (1054 + 18 * k, 18)) ∧
      ReadS16 deepFont.data (1054 + 18 * k) = .ok (-1) ∧
      read_components deepFont.data 1 (1054 + 18 * k + 10) = .ok [⟨3, k, 32767, 0⟩]) ∧
    Extract_binary32 deepFont 7 0 = .ok triangle ∧
    Extract_binary32 deepFont 7 1 =
      .ok ⟨triangle.segments.map (Segment.translate 32767 0), [0], 0⟩ ∧
    Extract_binary32 deepFont 520 513 =
      .ok ⟨[⟨16809472, 0, 16809476, 0, 16809482, 0⟩, ⟨16809482, 0, 16809482, 5, 16809482, 10⟩,
        ⟨16809482, 10, 16809476, 5, 16809472, 0⟩], [0], 0⟩ ∧
    triangle.segments.map (Segment.translate (513 * 32767) (513 * 0)) =
      [⟨16809471, 0, 16809476, 0, 16809481, 0⟩, ⟨16809481, 0, 16809481, 5, 16809481, 10⟩,
        ⟨16809481, 10, 16809476, 5, 16809471, 0⟩] := by
  refine ⟨?_, by decide!, by decide!, deepFont_Extract, by decide!⟩
  intro k hk
  refine ⟨deepFont_GlyphOffset k hk, deepFont_contour_count k hk, ?_⟩
  unfold read_components
  rw [deepFont_component k hk]
  simp only [Outcome.ok_bind]
  rw [if_neg (show ¬ ((3 : Nat) &&& 0x20 ≠ 0) by decide)]
  rfl

/-- C12 (amended). Composite arguments in `float` arithmetic, for a font blob
of bytes: for every component record of a composite glyph whose records can be
read and whose children are simple glyphs, under an accumulated translation
`(dx, dy)` of magnitude at most `2^21`, the child's segments are translated by
`(dx, dy)`, to which `(arg1, arg2)` is added when the record has `ARGS_ARE_XY`
set; when the flag is clear the arguments are read and not used, the child is
translated by `(dx, dy)` alone. Point matching is not interpreted. -/
theorem C12_component_offset (f : FontLoader) (g gptr glen fuel : Nat) (n : Int)
    (comps : List Component) (owns : List GlyphContour)
    (hbytes : ∀ b ∈ f.data, b < 256)
    (hoff : GlyphOffset f g = .ok (some (gptr, glen)))
    (hn : ReadS16 f.data gptr = .ok n) (hneg : n < 0)
    (hc : read_components f.data fuel (gptr + 10) = .ok comps)
    (hsimple : ∀ c ∈ comps, is_simple_glyph f c.cid = true)
    (hown : List.Forall₂ (fun c own => Extract_binary32 f fuel c.cid = .ok own) comps owns)
    (dx dy : Int) (hdx : |dx| ≤ 2 ^ 21) (hdy : |dy| ≤ 2 ^ 21) (o : GlyphContour) :
    ∃ out, Visit_binary32 f (fuel + 1) g dx dy o = .ok out ∧
      out.segments = o.segments ++ ((comps.zip owns).map (fun q =>
          q.2.segments.map (Segment.translate
            (if q.1.flags &&& 2 ≠ 0 then dx + q.1.arg1 else dx)
            (if q.1.flags &&& 2 ≠ 0 then dy + q.1.arg2 else dy)))).flatten := by
  rw [Visit_binary32_composite f hbytes g gptr glen fuel n comps hoff hn hneg hc hsimple
    dx dy hdx hdy o]
  refine ⟨_, Visit_composite f g gptr glen fuel n comps owns hoff hn hneg hc
    (owns_binary32 f hbytes fuel comps owns hsimple hown) dx dy o, ?_⟩
  rw [(merge_components_fields dx dy (comps.zip owns) o).1]
  rfl

/-- C12, witness: glyph 2 of `compositeFont`, whose component has the arguments
`(10, 5)` and no `ARGS_ARE_XY`, visited under the translation `(3, 4)`. -/
theorem C12_component_offset_witness :
    (∀ b ∈ compositeFont.data, b < 256) ∧
    (∀ c ∈ [(⟨1, 0, 10, 5⟩ : Component)], is_simple_glyph compositeFont c.cid = true) ∧
    |(3 : Int)| ≤ 2 ^ 21 ∧ |(4 : Int)| ≤ 2 ^ 21 ∧
    ∃ out, Visit_binary32 compositeFont 5 2 3 4 no_outline = .ok out ∧
      out.segments = no_outline.segments ++ (([(⟨1, 0, 10, 5⟩ : Component)].zip [triangle]).map
        (fun q => q.2.segments.map (Segment.translate
            (if q.1.flags &&& 2 ≠ 0 then 3 + q.1.arg1 else 3)
            (if q.1.flags &&& 2 ≠ 0 then 4 + q.1.arg2 else 4)))).flatten :=
  ⟨compositeFont_bytes, by decide!, by decide, by decide,
    C12_component_offset compositeFont 2 62 18 4 (-1) [⟨1, 0, 10, 5⟩] [triangle] compositeFont_bytes
      (by decide!) (by decide!) (by decide) (by decide!) (by decide!)
      (List.Forall₂.cons (by decide!) List.Forall₂.nil) 3 4 (by decide) (by decide) no_outline⟩

end ttf

namespace FontSDF

/-! ## Atlas packing -/

/-- One round of the packing loop, in closed form. -/
theorem pack_step_after (k cp : Nat) :
    pack_step (pack_state_after k) cp = (pack_state_after (k + 1), meta_at k cp) := by
  by_cases hk : k = 0
  · subst hk
    simp [pack_step, pack_state_after, meta_at, pack_init, kBorderPX, kGlyphPX, kAtlasW]
  · have hk1 : k + 1 ≠ 0 := by omega
    simp only [pack_step, pack_state_after, meta_at, kBorderPX, kGlyphPX, kAtlasW, hk, hk1,
      if_false, Nat.add_sub_cancel]
    split_ifs with hc
    · have h1 : k % 42 = 0 := by omega
      have h2 : k / 42 = (k - 1) / 42 + 1 := by omega
      simp only [Prod.mk.injEq, PackState.mk.injEq, GlyphMeta.mk.injEq, true_and, h1, h2,
        Nat.cast_add, Nat.cast_one, Nat.cast_zero]
      refine ⟨⟨?_, ?_, ?_⟩, ?_, ?_⟩ <;> omega
    · have h1 : k % 42 = (k - 1) % 42 + 1 := by omega
      have h2 : k / 42 = (k - 1) / 42 := by omega
      simp only [Prod.mk.injEq, PackState.mk.injEq, GlyphMeta.mk.injEq, true_and, h1, h2,
        Nat.cast_add, Nat.cast_one]
      refine ⟨⟨?_, ?_, ?_⟩, ?_, ?_⟩ <;> omega

/-- The packing loop started after `k` rounds, in closed form. -/
theorem pack_loop_after (cps : List Nat) :
    ∀ k : Nat, (pack_loop (pack_state_after k) cps).2 = pack_state_after (k + cps.length) ∧
      ∀ i : Nat, (pack_loop (pack_state_after k) cps).1[i]? = (cps[i]?).map (meta_at (k + i)) := by
  induction cps with
  | nil => intro k; simp [pack_loop]
  | cons cp rest ih =>
    intro k
    have h := ih (k + 1)
    simp only [pack_loop, pack_step_after]
    refine ⟨?_, ?_⟩
    · rw [h.1]; congr 1; simp only [List.length_cons]; omega
    · intro i
      cases i with
      | zero => simp
      | succ i =>
        simp only [List.getElem?_cons_succ]
        rw [h.2 i]
        have e : k + 1 + i = k + (i + 1) := by omega
        rw [e]

/-- The record of glyph number `i`, in closed form. -/
theorem metas_getElem? (cps : List Nat) (i : Nat) :
    (metas cps)[i]? = (cps[i]?).map (meta_at i) := by
  have h := (pack_loop_after cps 0).2 i
  simpa [metas, pack_state_after] using h

/-- The canvas height, in closed form. -/
theorem atlas_h_closed (cps : List Nat) :
    atlas_h cps = (pack_state_after cps.length).atlas_h := by
  have h := (pack_loop_after cps 0).1
  simp only [pack_state_after, if_true, Nat.zero_add] at h
  simp only [atlas_h, h, pack_state_after]

/-- The top of the row of glyph number `i`, in closed form. -/
theorem row_top_closed (cps : List Nat) (i : Nat) (hi : i < cps.length) :
    row_top cps i = 4 + 28 * ((i / 42 : Nat) : Int) := by
  have h := (pack_loop_after (cps.take (i + 1)) 0).1
  simp only [pack_state_after, if_true, Nat.zero_add] at h
  have hl : (cps.take (i + 1)).length = i + 1 := by
    rw [List.length_take]; omega
  simp only [row_top, h, hl, pack_state_after]
  simp

/-- A stored record is the closed form of its index. -/
theorem metas_eq_meta_at (cps : List Nat) (i : Nat) (m : GlyphMeta)
    (h : (metas cps)[i]? = some m) : i < cps.length ∧ ∃ cp, m = meta_at i cp := by
  rw [metas_getElem?] at h
  cases hc : cps[i]? with
  | none => rw [hc] at h; simp at h
  | some cp =>
    rw [hc] at h
    have hlt : i < cps.length := by
      by_contra hge
      rw [List.getElem?_eq_none (by omega)] at hc
      exact absurd hc (by simp)
    refine ⟨hlt, cp, ?_⟩
    simpa using h.symm

/-- The stored `u` is never truncated. -/
theorem meta_at_u (k cp : Nat) : (meta_at k cp).u = 8 + 24 * (k % 42) := by
  simp only [meta_at]
  omega

/-- The stored `v`, as a natural number. -/
theorem meta_at_v (k cp : Nat) : (meta_at k cp).v = (8 + 28 * (k / 42)) % 65536 := by
  simp only [meta_at]
  omega

/-- The stored `v` is not truncated in the first 2341 rows. -/
theorem meta_at_v_small (k cp : Nat) (h : k < 98322) :
    (meta_at k cp).v = 8 + 28 * (k / 42) := by
  rw [meta_at_v]
  omega

/-- The stored `v` is at least 4 in the first 9362 rows, and never more than the
value before truncation. -/
theorem meta_at_v_ge (k cp : Nat) (h : k < 393204) :
    4 ≤ (meta_at k cp).v ∧ (meta_at k cp).v ≤ 8 + 28 * (k / 42) := by
  rw [meta_at_v]
  have hq : (8 + 28 * (k / 42)) / 65536 < 4 := by omega
  have hd := Nat.div_add_mod (8 + 28 * (k / 42)) 65536
  have hm := Nat.mod_lt (8 + 28 * (k / 42)) (show 0 < 65536 by decide)
  generalize (8 + 28 * (k / 42)) / 65536 = q at hq hd
  generalize (8 + 28 * (k / 42)) % 65536 = r at hd hm ⊢
  interval_cases q <;> omega

/-- C7 (amended). Atlas packing disjointness: for at most 98322 requested code
points (2341 rows of 42 tiles, so that every `v` fits its `uint16_t`) and every
pair of distinct indices, the 24x24 tile regions `[u-4, u+20) x [v-4, v+20)`
written for the two stored records have no pixel in common, and neither have
the 16x16 glyph rectangles `{u, v, 16, 16}`. -/
theorem C7_tiles_disjoint (cps : List Nat) (hn : cps.length ≤ 98322) (i j : Nat)
    (mi mj : GlyphMeta) (hi : (metas cps)[i]? = some mi) (hj : (metas cps)[j]? = some mj)
    (hij : i ≠ j) (px py : Int) :
    ¬ (in_tile mi px py ∧ in_tile mj px py) ∧ ¬ (in_rect mi px py ∧ in_rect mj px py) := by
  obtain ⟨hil, ci, rfl⟩ := metas_eq_meta_at cps i mi hi
  obtain ⟨hjl, cj, rfl⟩ := metas_eq_meta_at cps j mj hj
  simp only [in_tile, in_rect, kBorderPX, kGlyphPX, lo_side, meta_at_u,
    meta_at_v_small i ci (by omega), meta_at_v_small j cj (by omega)]
  constructor <;> omega

/-- Witness of C7: the two tiles of the request `"AB"` at the pixel `(30, 10)`. -/
theorem C7_tiles_disjoint_witness :
    ¬ (in_tile ⟨65, 8, 8⟩ 30 10 ∧ in_tile ⟨66, 32, 8⟩ 30 10) ∧
    ¬ (in_rect ⟨65, 8, 8⟩ 30 10 ∧ in_rect ⟨66, 32, 8⟩ 30 10) :=
  C7_tiles_disjoint [65, 66] (by decide) 0 1 ⟨65, 8, 8⟩ ⟨66, 32, 8⟩
    (by decide) (by decide) (by decide) 30 10

/-- C7 as stated fails: with 98323 code points the row of glyph 98322 has
`v = 65556`, which is stored as 20, so its tile covers the pixel `(8, 20)` of
the tile of glyph 0. -/
theorem C7_counterexample :
    (metas (List.replicate 98323 65))[0]? = some ⟨65, 8, 8⟩ ∧
    (metas (List.replicate 98323 65))[98322]? = some ⟨65, 8, 20⟩ ∧
    (in_tile ⟨65, 8, 8⟩ 8 20 ∧ in_tile ⟨65, 8, 20⟩ 8 20) ∧
    (in_rect ⟨65, 8, 8⟩ 8 20 ∧ in_rect ⟨65, 8, 20⟩ 8 20) := by
  refine ⟨?_, ?_, ?_, ?_⟩
  · rw [metas_getElem?, List.getElem?_replicate]; decide
  · rw [metas_getElem?, List.getElem?_replicate]; decide
  · simp only [in_tile, kBorderPX, kGlyphPX, lo_side]; decide
  · simp only [in_rect, kGlyphPX]; decide

/-- C8 (amended). Atlas packing bounds: for at most 393204 requested code points
every tile region written for a stored record lies inside
`[0, 1024) x [0, atlas_h)`, and every blit index is a valid index of the atlas
buffer of `1024 * atlas_h` bytes. For every number of code points for which
`atlas_h` fits an `int`, `atlas_h` is `kBorderPX` when there is none, and
otherwise the maximum over the glyphs of row top + tile height + border, where
the stored `v` is row top + border reduced modulo 65536. -/
theorem C8_tiles_in_bounds (cps : List Nat) (hint : atlas_h cps < 2 ^ 31) :
    (cps.length ≤ 393204 → ∀ (i : Nat) (m : GlyphMeta), (metas cps)[i]? = some m →
      (0 ≤ (m.u : Int) - kBorderPX ∧ (m.u : Int) - kBorderPX + lo_side ≤ kAtlasW ∧
       0 ≤ (m.v : Int) - kBorderPX ∧ (m.v : Int) - kBorderPX + lo_side ≤ atlas_h cps) ∧
      ∀ x y : Int, 0 ≤ x → x < lo_side → 0 ≤ y → y < lo_side →
        0 ≤ blit_index m x y ∧ blit_index m x y < kAtlasW * atlas_h cps) ∧
    (cps = [] → atlas_h cps = kBorderPX) ∧
    (∀ (i : Nat) (m : GlyphMeta), (metas cps)[i]? = some m →
      row_top cps i + lo_side + kBorderPX ≤ atlas_h cps ∧
      (m.v : Int) = (row_top cps i + kBorderPX) % 2 ^ 16) ∧
    (cps ≠ [] → ∃ i, i < cps.length ∧ row_top cps i + lo_side + kBorderPX = atlas_h cps) := by
  have hah := atlas_h_closed cps
  refine ⟨?_, ?_, ?_, ?_⟩
  · intro hn i m hm
    obtain ⟨hil, ci, rfl⟩ := metas_eq_meta_at cps i m hm
    have hne : cps.length ≠ 0 := by omega
    simp only [pack_state_after, hne, if_false] at hah
    have hu := meta_at_u i ci
    have hv := meta_at_v_ge i ci (by omega)
    simp only [blit_index, kBorderPX, kGlyphPX, kAtlasW, lo_side, hah, hu]
    generalize (meta_at i ci).v = v at hv ⊢
    refine ⟨⟨?_, ?_, ?_, ?_⟩, ?_⟩
    · omega
    · omega
    · omega
    · omega
    · intro x y hx0 hx1 hy0 hy1
      constructor <;> omega
  · intro h
    subst h
    simp [hah, pack_state_after, pack_init]
  · intro i m hm
    obtain ⟨hil, ci, rfl⟩ := metas_eq_meta_at cps i m hm
    have hne : cps.length ≠ 0 := by omega
    simp only [pack_state_after, hne, if_false] at hah
    rw [row_top_closed cps i hil, hah, meta_at_v]
    simp only [kBorderPX, kGlyphPX, lo_side]
    constructor <;> omega
  · intro h
    have hpos : 0 < cps.length := List.length_pos.mpr h
    have hne : cps.length ≠ 0 := by omega
    simp only [pack_state_after, hne, if_false] at hah
    refine ⟨cps.length - 1, by omega, ?_⟩
    rw [row_top_closed cps _ (by omega), hah]
    simp only [kBorderPX, kGlyphPX, lo_side]
    omega

/-- Witness of C8: the request `"AB"`; the last byte of the second tile. -/
theorem C8_tiles_in_bounds_witness :
    (0 ≤ blit_index ⟨66, 32, 8⟩ 23 23 ∧
      blit_index ⟨66, 32, 8⟩ 23 23 < kAtlasW * atlas_h [65, 66]) ∧
    atlas_h [] = kBorderPX ∧
    (∃ i, i < [65, 66].length ∧ row_top [65, 66] i + lo_side + kBorderPX = atlas_h [65, 66]) := by
  have h := C8_tiles_in_bounds [65, 66] (by decide)
  have h0 := C8_tiles_in_bounds [] (by decide)
  exact ⟨(h.1 (by decide) 1 ⟨66, 32, 8⟩ (by decide)).2 23 23 (by decide) (by decide)
      (by decide) (by decide),
    h0.2.1 rfl, h.2.2.2 (by decide)⟩

/-- C8 as stated fails: with 393205 code points the row of glyph 393204 has
`v = 262144 = 4 * 65536`, which is stored as 0, so `dst_y = -4` and the first
blit index is negative. -/
theorem C8_counterexample :
    (metas (List.replicate 393205 65))[393204]? = some ⟨65, 8, 0⟩ ∧
    blit_index ⟨65, 8, 0⟩ 0 0 = -4092 ∧ (-4092 : Int) < 0 := by
  refine ⟨?_, ?_, by decide⟩
  · rw [metas_getElem?, List.getElem?_replicate]; decide
  · simp only [blit_index, kBorderPX, kAtlasW]; decide

/-! ## The distance search of `Worker` -/

/-- The search radius is 320 supersampled units. -/
theorem R_eq : R = 320 := by decide

/-- One row of the pruned search: the result does not exceed the running
minimum, it is a lower bound for every differing sample of the row, and it is
the running minimum or the squared distance of a differing sample of the row. -/
theorem search_row_spec (hi : BitPlane) (inside : Bool) (cx yy dyy : Int) :
    ∀ (n : Nat) (dx0 best0 : Int),
      search_row hi inside cx yy dyy n dx0 best0 ≤ best0 ∧
      (∀ dx, dx0 ≤ dx → dx < dx0 + n → hi.Get (cx + dx) yy ≠ inside →
        search_row hi inside cx yy dyy n dx0 best0 ≤ dx * dx + dyy) ∧
      (search_row hi inside cx yy dyy n dx0 best0 = best0 ∨
        ∃ dx, dx0 ≤ dx ∧ dx < dx0 + n ∧ hi.Get (cx + dx) yy ≠ inside ∧
          search_row hi inside cx yy dyy n dx0 best0 = dx * dx + dyy) := by
  intro n
  induction n with
  | zero =>
    intro dx0 best0
    refine ⟨le_refl _, ?_, Or.inl rfl⟩
    intro dx h1 h2 _
    simp only [Nat.cast_zero, add_zero] at h2
    omega
  | succ n ih =>
    intro dx0 best0
    have hcast : ((n + 1 : Nat) : Int) = (n : Int) + 1 := by push_cast; rfl
    rw [hcast]
    unfold search_row
    simp only
    by_cases h1 : dx0 * dx0 + dyy ≥ best0
    · rw [if_pos h1]
      obtain ⟨a, b, c⟩ := ih (dx0 + 1) best0
      refine ⟨a, ?_, ?_⟩
      · intro dx hd1 hd2 hg
        by_cases he : dx = dx0
        · subst he
          exact le_trans a h1
        · exact b dx (by omega) (by omega) hg
      · rcases c with c | ⟨dx, c1, c2, c3, c4⟩
        · exact Or.inl c
        · exact Or.inr ⟨dx, by omega, by omega, c3, c4⟩
    · rw [if_neg h1]
      by_cases h2 : hi.Get (cx + dx0) yy ≠ inside
      · rw [if_pos h2]
        obtain ⟨a, b, c⟩ := ih (dx0 + 1) (dx0 * dx0 + dyy)
        refine ⟨by omega, ?_, ?_⟩
        · intro dx hd1 hd2 hg
          by_cases he : dx = dx0
          · subst he
            exact a
          · exact b dx (by omega) (by omega) hg
        · rcases c with c | ⟨dx, c1, c2, c3, c4⟩
          · exact Or.inr ⟨dx0, le_refl _, by omega, h2, c⟩
          · exact Or.inr ⟨dx, by omega, by omega, c3, c4⟩
      · rw [if_neg h2]
        obtain ⟨a, b, c⟩ := ih (dx0 + 1) best0
        refine ⟨a, ?_, ?_⟩
        · intro dx hd1 hd2 hg
          by_cases he : dx = dx0
          · subst he
            exact absurd hg h2
          · exact b dx (by omega) (by omega) hg
        · rcases c with c | ⟨dx, c1, c2, c3, c4⟩
          · exact Or.inl c
          · exact Or.inr ⟨dx, by omega, by omega, c3, c4⟩

/-- The rows of the pruned search: the result does not exceed the running
minimum, it is a lower bound for every differing sample of the rows, and it is
the running minimum or the squared distance of a differing sample. -/
theorem search_rows_spec (hi : BitPlane) (inside : Bool) (cx cy : Int) :
    ∀ (n : Nat) (dy0 best0 : Int),
      search_rows hi inside cx cy n dy0 best0 ≤ best0 ∧
      (∀ dx dy, dy0 ≤ dy → dy < dy0 + n → -R ≤ dx → dx ≤ R →
        hi.Get (cx + dx) (cy + dy) ≠ inside →
        search_rows hi inside cx cy n dy0 best0 ≤ dx * dx + dy * dy) ∧
      (search_rows hi inside cx cy n dy0 best0 = best0 ∨
        ∃ dx dy, dy0 ≤ dy ∧ dy < dy0 + n ∧ -R ≤ dx ∧ dx ≤ R ∧
          hi.Get (cx + dx) (cy + dy) ≠ inside ∧
          search_rows hi inside cx cy n dy0 best0 = dx * dx + dy * dy) := by
  intro n
  induction n with
  | zero =>
    intro dy0 best0
    refine ⟨le_refl _, ?_, Or.inl rfl⟩
    intro dx dy h1 h2
    simp only [Nat.cast_zero, add_zero] at h2
    omega
  | succ n ih =>
    intro dy0 best0
    have hcast : ((n + 1 : Nat) : Int) = (n : Int) + 1 := by push_cast; rfl
    have hwin : (((2 * R + 1).toNat : Nat) : Int) = 2 * R + 1 := by decide
    rw [hcast]
    unfold search_rows
    simp only
    by_cases h1 : dy0 * dy0 ≥ best0
    · rw [if_pos h1]
      obtain ⟨a, b, c⟩ := ih (dy0 + 1) best0
      refine ⟨a, ?_, ?_⟩
      · intro dx dy hd1 hd2 hx1 hx2 hg
        by_cases he : dy = dy0
        · subst he
          have := mul_self_nonneg dx
          linarith
        · exact b dx dy (by omega) (by omega) hx1 hx2 hg
      · rcases c with c | ⟨dx, dy, c1, c2, c3, c4, c5, c6⟩
        · exact Or.inl c
        · exact Or.inr ⟨dx, dy, by omega, by omega, c3, c4, c5, c6⟩
    · rw [if_neg h1]
      obtain ⟨ra, rb, rc⟩ := search_row_spec hi inside cx (cy + dy0) (dy0 * dy0)
        (2 * R + 1).toNat (-R) best0
      obtain ⟨a, b, c⟩ := ih (dy0 + 1)
        (search_row hi inside cx (cy + dy0) (dy0 * dy0) (2 * R + 1).toNat (-R) best0)
      refine ⟨le_trans a ra, ?_, ?_⟩
      · intro dx dy hd1 hd2 hx1 hx2 hg
        by_cases he : dy = dy0
        · subst he
          exact le_trans a (rb dx hx1 (by rw [hwin]; omega) hg)
        · exact b dx dy (by omega) (by omega) hx1 hx2 hg
      · rcases c with c | ⟨dx, dy, c1, c2, c3, c4, c5, c6⟩
        · rcases rc with rc | ⟨dx, r1, r2, r3, r4⟩
          · exact Or.inl (c.trans rc)
          · exact Or.inr ⟨dx, dy0, le_refl _, by omega, r1, by rw [hwin] at r2; omega, r3,
              c.trans r4⟩
        · exact Or.inr ⟨dx, dy, by omega, by omega, c3, c4, c5, c6⟩

/-- The pruned search, characterised: `best` is at most `R * R`, a lower bound
for the squared distance of every differing sample of the window, and either
`R * R` or the squared distance of a differing sample of the window. -/
theorem search_best_spec (hi : BitPlane) (inside : Bool) (cx cy : Int) :
    search_best hi inside cx cy ≤ R * R ∧
    (∀ dx dy, -R ≤ dx → dx ≤ R → -R ≤ dy → dy ≤ R →
      hi.Get (cx + dx) (cy + dy) ≠ inside →
      search_best hi inside cx cy ≤ dx * dx + dy * dy) ∧
    (search_best hi inside cx cy = R * R ∨
      ∃ dx dy, -R ≤ dx ∧ dx ≤ R ∧ -R ≤ dy ∧ dy ≤ R ∧
        hi.Get (cx + dx) (cy + dy) ≠ inside ∧
        search_best hi inside cx cy = dx * dx + dy * dy) := by
  have hwin : (((2 * R + 1).toNat : Nat) : Int) = 2 * R + 1 := by decide
  obtain ⟨a, b, c⟩ := search_rows_spec hi inside cx cy (2 * R + 1).toNat (-R) (R * R)
  unfold search_best
  refine ⟨a, ?_, ?_⟩
  · intro dx dy h1 h2 h3 h4 hg
    exact b dx dy h3 (by rw [hwin]; omega) h1 h2 hg
  · rcases c with c | ⟨dx, dy, c1, c2, c3, c4, c5, c6⟩
    · exact Or.inl c
    · exact Or.inr ⟨dx, dy, c3, c4, c1, by rw [hwin] at c2; omega, c5, c6⟩

/-- The minimum of a list and a start value, as a fold. -/
theorem foldl_min_spec : ∀ (l : List Int) (a : Int),
    l.foldl min a ≤ a ∧ (∀ x ∈ l, l.foldl min a ≤ x) ∧ (l.foldl min a = a ∨ l.foldl min a ∈ l) := by
  intro l
  induction l with
  | nil => intro a; simp
  | cons y rest ih =>
    intro a
    obtain ⟨h1, h2, h3⟩ := ih (min a y)
    simp only [List.foldl_cons, List.mem_cons]
    refine ⟨le_trans h1 (min_le_left a y), ?_, ?_⟩
    · intro x hx
      rcases hx with hx | hx
      · rw [hx]
        exact le_trans h1 (min_le_right a y)
      · exact h2 x hx
    · rcases h3 with h3 | h3
      · rw [h3]
        rcases min_choice a y with hm | hm
        · exact Or.inl hm
        · exact Or.inr (Or.inl hm)
      · exact Or.inr (Or.inr h3)

/-- The window holds the offsets from `-R` to `R`. -/
theorem mem_window (dx : Int) : dx ∈ window ↔ -R ≤ dx ∧ dx ≤ R := by
  have hwin : (((2 * R + 1).toNat : Nat) : Int) = 2 * R + 1 := by decide
  unfold window
  generalize (2 * R + 1).toNat = n at hwin ⊢
  constructor
  · intro h
    obtain ⟨k, hk, hkd⟩ := List.mem_map.mp h
    have hk1 : k < n := List.mem_range.mp hk
    have hk2 : (k : Int) < (n : Int) := by exact_mod_cast hk1
    omega
  · rintro ⟨h1, h2⟩
    refine List.mem_map.mpr ⟨(dx + R).toNat, List.mem_range.mpr ?_, ?_⟩
    · have : ((dx + R).toNat : Int) < (n : Int) := by
        rw [hwin, Int.toNat_of_nonneg (by omega)]
        omega
      exact_mod_cast this
    · rw [Int.toNat_of_nonneg (by omega)]
      omega

/-- The exhaustive search, characterised in the same way as the pruned one. -/
theorem exhaustive_best_spec (hi : BitPlane) (inside : Bool) (cx cy : Int) :
    exhaustive_best hi inside cx cy ≤ R * R ∧
    (∀ dx dy, -R ≤ dx → dx ≤ R → -R ≤ dy → dy ≤ R →
      hi.Get (cx + dx) (cy + dy) ≠ inside →
      exhaustive_best hi inside cx cy ≤ dx * dx + dy * dy) ∧
    (exhaustive_best hi inside cx cy = R * R ∨
      ∃ dx dy, -R ≤ dx ∧ dx ≤ R ∧ -R ≤ dy ∧ dy ≤ R ∧
        hi.Get (cx + dx) (cy + dy) ≠ inside ∧
        exhaustive_best hi inside cx cy = dx * dx + dy * dy) := by
  unfold exhaustive_best
  obtain ⟨h1, h2, h3⟩ := foldl_min_spec (window.map (fun dy => (window.map (fun dx =>
    if hi.Get (cx + dx) (cy + dy) ≠ inside then dx * dx + dy * dy else R * R)).foldl min
      (R * R))) (R * R)
  refine ⟨h1, ?_, ?_⟩
  · intro dx dy hx1 hx2 hy1 hy2 hg
    have hrow := h2 _ (List.mem_map.mpr ⟨dy, (mem_window dy).mpr ⟨hy1, hy2⟩, rfl⟩)
    obtain ⟨_, g2, _⟩ := foldl_min_spec (window.map (fun dx =>
      if hi.Get (cx + dx) (cy + dy) ≠ inside then dx * dx + dy * dy else R * R)) (R * R)
    have hcell := g2 _ (List.mem_map.mpr ⟨dx, (mem_window dx).mpr ⟨hx1, hx2⟩, rfl⟩)
    rw [if_pos hg] at hcell
    exact le_trans hrow hcell
  · rcases h3 with h3 | h3
    · exact Or.inl h3
    · obtain ⟨dy, hdy, hrow⟩ := List.mem_map.mp h3
      obtain ⟨_, _, g3⟩ := foldl_min_spec (window.map (fun dx =>
        if hi.Get (cx + dx) (cy + dy) ≠ inside then dx * dx + dy * dy else R * R)) (R * R)
      rcases g3 with g3 | g3
      · left
        rw [← hrow, g3]
      · obtain ⟨dx, hdx, hcell⟩ := List.mem_map.mp g3
        by_cases hg : hi.Get (cx + dx) (cy + dy) ≠ inside
        · rw [if_pos hg] at hcell
          right
          exact ⟨dx, dy, ((mem_window dx).mp hdx).1, ((mem_window dx).mp hdx).2,
            ((mem_window dy).mp hdy).1, ((mem_window dy).mp hdy).2, hg, by rw [← hrow, ← hcell]⟩
        · rw [if_neg hg] at hcell
          left
          rw [← hrow, ← hcell]

/-- Two values with the characterisation of the minimum are equal. -/
theorem best_unique (hi : BitPlane) (inside : Bool) (cx cy a b : Int)
    (ha1 : a ≤ R * R)
    (ha2 : ∀ dx dy, -R ≤ dx → dx ≤ R → -R ≤ dy → dy ≤ R →
      hi.Get (cx + dx) (cy + dy) ≠ inside → a ≤ dx * dx + dy * dy)
    (hb3 : b = R * R ∨ ∃ dx dy, -R ≤ dx ∧ dx ≤ R ∧ -R ≤ dy ∧ dy ≤ R ∧
      hi.Get (cx + dx) (cy + dy) ≠ inside ∧ b = dx * dx + dy * dy) : a ≤ b := by
  rcases hb3 with h | ⟨dx, dy, h1, h2, h3, h4, h5, h6⟩
  · rw [h]
    exact ha1
  · rw [h6]
    exact ha2 dx dy h1 h2 h3 h4 h5

/-- The pruned search equals the exhaustive search. -/
theorem search_best_eq_exhaustive (hi : BitPlane) (inside : Bool) (cx cy : Int) :
    search_best hi inside cx cy = exhaustive_best hi inside cx cy := by
  obtain ⟨a1, a2, a3⟩ := search_best_spec hi inside cx cy
  obtain ⟨b1, b2, b3⟩ := exhaustive_best_spec hi inside cx cy
  exact le_antisymm (best_unique hi inside cx cy _ _ a1 a2 b3)
    (best_unique hi inside cx cy _ _ b1 b2 a3)

/-- The function `Get` reads a sample outside the bitplane as not covered. -/
theorem Get_outside (hi : BitPlane) (px py : Int)
    (h : px < 0 ∨ py < 0 ∨ px ≥ hi.w ∨ py ≥ hi.h) : hi.Get px py = false := by
  unfold BitPlane.Get
  rw [if_pos h]

/-- C19. Pruned distance search equals exhaustive search: for every coverage
bitplane `hi` and every output pixel `(x, y)`, with `R = 320`, the centre
`(cx, cy) = (64 x + 32, 64 y + 32)` and `inside` the classification of the
pixel, the value `best` that the pruned double loop of `Worker` computes is the
value of the exhaustive search, the minimum of `R * R` and of
`dx * dx + dy * dy` over the offsets `-R ≤ dx, dy ≤ R` whose sample
`hi.Get(cx + dx, cy + dy)` differs from `inside`: it is at most `R * R`, a lower
bound for every such squared distance, and `R * R` or one of them. Samples
outside the bitplane read as not covered. -/
theorem C19_pruned_search_is_exhaustive (hi : BitPlane) (x y : Int) :
    R = 320 ∧
    pixel_best hi x y = search_best hi (pixel_inside hi x y) (64 * x + 32) (64 * y + 32) ∧
    pixel_best hi x y = exhaustive_best hi (pixel_inside hi x y) (64 * x + 32) (64 * y + 32) ∧
    pixel_best hi x y ≤ R * R ∧
    (∀ dx dy, -R ≤ dx → dx ≤ R → -R ≤ dy → dy ≤ R →
      hi.Get (64 * x + 32 + dx) (64 * y + 32 + dy) ≠ pixel_inside hi x y →
      pixel_best hi x y ≤ dx * dx + dy * dy) ∧
    (pixel_best hi x y = R * R ∨
      ∃ dx dy, -R ≤ dx ∧ dx ≤ R ∧ -R ≤ dy ∧ dy ≤ R ∧
        hi.Get (64 * x + 32 + dx) (64 * y + 32 + dy) ≠ pixel_inside hi x y ∧
        pixel_best hi x y = dx * dx + dy * dy) ∧
    (∀ px py, px < 0 ∨ py < 0 ∨ px ≥ hi.w ∨ py ≥ hi.h → hi.Get px py = false) := by
  have hc : pixel_best hi x y =
      search_best hi (pixel_inside hi x y) (64 * x + 32) (64 * y + 32) := by
    unfold pixel_best
    have h1 : x * kSupersample + kSupersample / 2 = 64 * x + 32 := by
      simp only [kSupersample]
      omega
    have h2 : y * kSupersample + kSupersample / 2 = 64 * y + 32 := by
      simp only [kSupersample]
      omega
    rw [h1, h2]
  obtain ⟨a1, a2, a3⟩ := search_best_spec hi (pixel_inside hi x y) (64 * x + 32) (64 * y + 32)
  refine ⟨R_eq, hc, ?_, ?_, ?_, ?_, Get_outside hi⟩
  · rw [hc]
    exact search_best_eq_exhaustive hi _ _ _
  · rw [hc]
    exact a1
  · rw [hc]
    exact a2
  · rw [hc]
    exact a3

/-! ## Saturation of the distance and the stored byte -/

/-- A new bitplane has no bit set. -/
theorem BitPlane_new_Get (width height x y : Int) :
    (BitPlane.new width height).Get x y = false := by
  unfold BitPlane.Get BitPlane.new
  split_ifs with h
  · rfl
  · have h0 : ∀ (n i : Nat), (List.replicate n 0).getD i 0 = 0 := by
      intro n i
      rw [List.getD_eq_getElem?_getD, List.getElem?_replicate]
      split_ifs <;> rfl
    simp only [h0, Nat.zero_and, ne_eq, not_true_eq_false, decide_False]

/-- A pixel of a bitplane without a set bit is classified outside. -/
theorem pixel_inside_of_clear (hi : BitPlane) (hclear : ∀ px py, hi.Get px py = false)
    (x y : Int) : pixel_inside hi x y = false := by
  unfold pixel_inside in_cnt
  simp [hclear]

/-- Without a sample of opposite coverage in the window, `best` is `R * R`. -/
theorem pixel_best_saturated (hi : BitPlane) (x y : Int)
    (hsame : ∀ dx dy, -R ≤ dx → dx ≤ R → -R ≤ dy → dy ≤ R →
      hi.Get (x * kSupersample + kSupersample / 2 + dx)
        (y * kSupersample + kSupersample / 2 + dy) = pixel_inside hi x y) :
    pixel_best hi x y = R * R := by
  unfold pixel_best
  obtain ⟨_, _, h3⟩ := search_best_spec hi (pixel_inside hi x y)
    (x * kSupersample + kSupersample / 2) (y * kSupersample + kSupersample / 2)
  rcases h3 with h3 | ⟨dx, dy, h1, h2, h4, h5, h6, _⟩
  · exact h3
  · exact absurd (hsame dx dy h1 h2 h4 h5) h6

/-- The stored byte of a saturated distance: 255 inside and 1 outside. -/
theorem encode_saturated (sqrtf : ℚ → ℚ) (hsqrt : sqrtf 102400 = 320) (inside : Bool) :
    encode sqrtf (R * R) inside = if inside then 255 else 1 := by
  have hR : ((R * R : Int) : ℚ) = 102400 := by
    rw [R_eq]
    norm_num
  have hR1 : (R : ℚ) = 320 := by
    rw [R_eq]
    norm_num
  unfold encode
  simp only [hR, hsqrt, hR1]
  cases inside with
  | true =>
    have h1 : clamp (128 + (if true = true then (320 : ℚ) / 320 else -((320 : ℚ) / 320)) * 127)
        0 255 = ((255 : Int) : ℚ) := by
      unfold clamp
      norm_num
    rw [h1]
    rfl
  | false =>
    have h1 : clamp (128 + (if false = true then (320 : ℚ) / 320 else -((320 : ℚ) / 320)) * 127)
        0 255 = ((1 : Int) : ℚ) := by
      unfold clamp
      norm_num
    rw [h1]
    rfl

/-- The vector `sdf` of a bitplane without a set bit: all bytes are 1. -/
theorem sdf_tile_of_clear (sqrtf : ℚ → ℚ) (hsqrt : sqrtf 102400 = 320) (hi : BitPlane)
    (hclear : ∀ px py, hi.Get px py = false) :
    sdf_tile sqrtf hi = List.replicate (24 * 24) 1 := by
  have hn : (lo_side * lo_side).toNat = 24 * 24 := by decide
  unfold sdf_tile
  rw [hn]
  apply List.eq_replicate_iff.mpr
  refine ⟨by simp, ?_⟩
  intro b hb
  obtain ⟨k, _, hk⟩ := List.mem_map.mp hb
  rw [← hk]
  unfold sdf_pixel
  have hin := pixel_inside_of_clear hi hclear ((k : Int) % lo_side) ((k : Int) / lo_side)
  have hbest := pixel_best_saturated hi ((k : Int) % lo_side) ((k : Int) / lo_side)
    (fun dx dy _ _ _ _ => by rw [hclear, hin])
  rw [hbest, hin, encode_saturated sqrtf hsqrt]
  rfl

/-- C20. Distance saturation, with `std::sqrt` exact on `R * R`
(`sqrtf 102400 = 320`): the squared distance `best` of a pixel never exceeds
`R * R = 320 * 320`; when no sample of opposite coverage lies within the search
window it equals `R * R` exactly, and the stored byte is 255 for an inside
pixel and 1 for an outside pixel; in particular an outline without segments,
which `RasterOutline` leaves as the new bitplane, yields the 24 x 24 bytes of
`sdf`, the tile of the glyph, all equal to 1. -/
theorem C20_distance_saturation (sqrtf : ℚ → ℚ) (hsqrt : sqrtf 102400 = 320) (hi : BitPlane)
    (x y : Int) :
    R * R = 320 * 320 ∧
    pixel_best hi x y ≤ R * R ∧
    ((∀ dx dy, -R ≤ dx → dx ≤ R → -R ≤ dy → dy ≤ R →
        hi.Get (64 * x + 32 + dx) (64 * y + 32 + dy) = pixel_inside hi x y) →
      pixel_best hi x y = R * R ∧
      sdf_pixel sqrtf hi x y = if pixel_inside hi x y then 255 else 1) ∧
    (∀ (fill : ttf.GlyphContour → BitPlane → BitPlane) (outline : ttf.GlyphContour),
      outline.segments = [] →
      RasterOutline fill outline (BitPlane.new hi_side hi_side) = BitPlane.new hi_side hi_side ∧
      Worker_sdf fill sqrtf outline = List.replicate (24 * 24) 1) := by
  have h1 : x * kSupersample + kSupersample / 2 = 64 * x + 32 := by
    simp only [kSupersample]
    omega
  have h2 : y * kSupersample + kSupersample / 2 = 64 * y + 32 := by
    simp only [kSupersample]
    omega
  refine ⟨by decide, ?_, ?_, ?_⟩
  · unfold pixel_best
    exact (search_best_spec hi _ _ _).1
  · intro hsame
    have hb : pixel_best hi x y = R * R :=
      pixel_best_saturated hi x y (fun dx dy a b c e => by
        rw [h1, h2]
        exact hsame dx dy a b c e)
    refine ⟨hb, ?_⟩
    unfold sdf_pixel
    rw [hb, encode_saturated sqrtf hsqrt]
  · intro fill outline hempty
    have hr : RasterOutline fill outline (BitPlane.new hi_side hi_side) =
        BitPlane.new hi_side hi_side := by
      unfold RasterOutline
      rw [hempty]
      rfl
    refine ⟨hr, ?_⟩
    unfold Worker_sdf
    rw [hr]
    exact sdf_tile_of_clear sqrtf hsqrt _ (BitPlane_new_Get hi_side hi_side)

/-- C20, witness: the new bitplane of `Worker`, the pixel `(0, 0)`, and the
integer square root as `sqrtf`. -/
theorem C20_distance_saturation_witness :
    R * R = 320 * 320 ∧
    pixel_best (BitPlane.new hi_side hi_side) 0 0 ≤ R * R ∧
    ((∀ dx dy, -R ≤ dx → dx ≤ R → -R ≤ dy → dy ≤ R →
        (BitPlane.new hi_side hi_side).Get (64 * 0 + 32 + dx) (64 * 0 + 32 + dy) =
          pixel_inside (BitPlane.new hi_side hi_side) 0 0) →
      pixel_best (BitPlane.new hi_side hi_side) 0 0 = R * R ∧
      sdf_pixel sqrt_floor (BitPlane.new hi_side hi_side) 0 0 =
        if pixel_inside (BitPlane.new hi_side hi_side) 0 0 then 255 else 1) ∧
    (∀ (fill : ttf.GlyphContour → BitPlane → BitPlane) (outline : ttf.GlyphContour),
      outline.segments = [] →
      RasterOutline fill outline (BitPlane.new hi_side hi_side) = BitPlane.new hi_side hi_side ∧
      Worker_sdf fill sqrt_floor outline = List.replicate (24 * 24) 1) :=
  C20_distance_saturation sqrt_floor
    (by
      have h : (Rat.floor (102400 : ℚ)).toNat = 320 * 320 := by rfl
      show ((Nat.sqrt (Rat.floor (102400 : ℚ)).toNat : Nat) : ℚ) = 320
      rw [h, Nat.sqrt_eq]
      norm_num)
    (BitPlane.new hi_side hi_side) 0 0

/-! ## The classification of a pixel -/

/-- The count `in_cnt` is the number of set bits among the 16 samples of the
pixel. -/
theorem in_cnt_eq_card (hi : BitPlane) (x y : Int) :
    in_cnt hi x y =
      (Finset.univ.filter (fun p : Fin 4 × Fin 4 =>
        hi.Get (64 * x + 16 * ((p.1 : Nat) : Int) + 8) (64 * y + 16 * ((p.2 : Nat) : Int) + 8) = true)).card := by
  have h : ∀ (i j : Int), hi.Get (x * kSupersample + i * (kSupersample / 4) + kSupersample / 4 / 2)
      (y * kSupersample + j * (kSupersample / 4) + kSupersample / 4 / 2) =
      hi.Get (64 * x + 16 * i + 8) (64 * y + 16 * j + 8) := by
    intro i j
    have e1 : x * kSupersample + i * (kSupersample / 4) + kSupersample / 4 / 2 = 64 * x + 16 * i + 8 := by
      simp only [kSupersample]
      omega
    have e2 : y * kSupersample + j * (kSupersample / 4) + kSupersample / 4 / 2 = 64 * y + 16 * j + 8 := by
      simp only [kSupersample]
      omega
    rw [e1, e2]
  have h3 : ((3 : Fin 4) : ℕ) = 3 := rfl
  unfold in_cnt
  simp only [h]
  rw [Finset.card_filter, Fintype.sum_prod_type_right]
  simp only [Fin.sum_univ_four, Fin.val_zero, Fin.val_one, Fin.val_two, h3]
  simp only [List.range_succ, List.range_zero, List.nil_append, List.cons_append, List.map_cons,
    List.map_nil, List.sum_cons, List.sum_nil]
  omega

/-- C22. Majority vote: the output pixel `(x, y)` is classified inside if and
only if at least 8 of the 16 coverage bits at the supersampled positions
`(64 x + 16 i + 8, 64 y + 16 j + 8)`, `0 ≤ i, j < 4`, are set; a position
outside the bitplane counts as unset, `Get` returns `false` there. -/
theorem C22_majority_vote (hi : BitPlane) (x y : Int) :
    (pixel_inside hi x y = true ↔
      8 ≤ (Finset.univ.filter (fun p : Fin 4 × Fin 4 =>
        hi.Get (64 * x + 16 * ((p.1 : Nat) : Int) + 8)
          (64 * y + 16 * ((p.2 : Nat) : Int) + 8) = true)).card) ∧
    (∀ px py, px < 0 ∨ py < 0 ∨ px ≥ hi.w ∨ py ≥ hi.h → hi.Get px py = false) := by
  refine ⟨?_, Get_outside hi⟩
  unfold pixel_inside
  rw [in_cnt_eq_card, decide_eq_true_iff]

/-! ## The stored byte -/

/-- The value `best` of a pixel is not negative. -/
theorem pixel_best_nonneg (hi : BitPlane) (x y : Int) : 0 ≤ pixel_best hi x y := by
  unfold pixel_best
  obtain ⟨_, _, h3⟩ := search_best_spec hi (pixel_inside hi x y)
    (x * kSupersample + kSupersample / 2) (y * kSupersample + kSupersample / 2)
  rcases h3 with h3 | ⟨dx, dy, _, _, _, _, _, h6⟩
  · rw [h3, R_eq]
    decide
  · rw [h6]
    have h1 := mul_self_nonneg dx
    have h2 := mul_self_nonneg dy
    linarith

/-- The value `norm` of a squared distance between 0 and `R * R` lies between
0 and 1. -/
theorem norm_range (sqrtf : ℚ → ℚ) (h0 : ∀ q, 0 ≤ q → 0 ≤ sqrtf q)
    (hmono : ∀ a b, 0 ≤ a → a ≤ b → sqrtf a ≤ sqrtf b) (hR : sqrtf 102400 = 320)
    (best : Int) (hb0 : 0 ≤ best) (hb1 : best ≤ R * R) :
    0 ≤ sqrtf (best : ℚ) / (R : ℚ) ∧ sqrtf (best : ℚ) / (R : ℚ) ≤ 1 := by
  have hR1 : (R : ℚ) = 320 := by
    rw [R_eq]
    norm_num
  have hq0 : (0 : ℚ) ≤ (best : ℚ) := by exact_mod_cast hb0
  have hq1 : (best : ℚ) ≤ 102400 := by
    have : best ≤ 102400 := by
      rw [R_eq] at hb1
      omega
    exact_mod_cast this
  have h1 := h0 _ hq0
  have h2 := hmono _ _ hq0 hq1
  rw [hR] at h2
  rw [hR1]
  constructor
  · positivity
  · rw [div_le_one (by norm_num)]
    exact h2

/-- The stored byte of an inside pixel, for a value `norm` between 0 and 1. -/
theorem encode_inside (sqrtf : ℚ → ℚ) (best : Int)
    (hn0 : 0 ≤ sqrtf (best : ℚ) / (R : ℚ)) (hn1 : sqrtf (best : ℚ) / (R : ℚ) ≤ 1) :
    (encode sqrtf best true : Int) = ⌊128 + sqrtf (best : ℚ) / (R : ℚ) * 127⌋ ∧
    128 ≤ encode sqrtf best true ∧ encode sqrtf best true ≤ 255 := by
  have hc : clamp (128 + sqrtf (best : ℚ) / (R : ℚ) * 127) 0 255 =
      128 + sqrtf (best : ℚ) / (R : ℚ) * 127 := by
    unfold clamp
    rw [if_neg (by linarith), if_neg (by linarith)]
  have hfl : Rat.floor (128 + sqrtf (best : ℚ) / (R : ℚ) * 127) =
      ⌊128 + sqrtf (best : ℚ) / (R : ℚ) * 127⌋ := rfl
  have hlo : (128 : Int) ≤ ⌊128 + sqrtf (best : ℚ) / (R : ℚ) * 127⌋ := by
    apply Int.le_floor.mpr
    push_cast
    linarith
  have hhi : ⌊128 + sqrtf (best : ℚ) / (R : ℚ) * 127⌋ ≤ (255 : Int) := by
    have : ⌊128 + sqrtf (best : ℚ) / (R : ℚ) * 127⌋ ≤ ⌊(255 : ℚ)⌋ :=
      Int.floor_mono (by linarith)
    simpa using this
  have he : (encode sqrtf best true : Int) = ⌊128 + sqrtf (best : ℚ) / (R : ℚ) * 127⌋ := by
    unfold encode
    simp only [if_true]
    rw [hc, hfl]
    omega
  refine ⟨he, ?_, ?_⟩ <;> omega

/-- The stored byte of an outside pixel, for a value `norm` between 0 and 1. -/
theorem encode_outside (sqrtf : ℚ → ℚ) (best : Int)
    (hn0 : 0 ≤ sqrtf (best : ℚ) / (R : ℚ)) (hn1 : sqrtf (best : ℚ) / (R : ℚ) ≤ 1) :
    (encode sqrtf best false : Int) = ⌊128 + -(sqrtf (best : ℚ) / (R : ℚ)) * 127⌋ ∧
    1 ≤ encode sqrtf best false ∧ encode sqrtf best false ≤ 128 := by
  have hc : clamp (128 + -(sqrtf (best : ℚ) / (R : ℚ)) * 127) 0 255 =
      128 + -(sqrtf (best : ℚ) / (R : ℚ)) * 127 := by
    unfold clamp
    rw [if_neg (by linarith), if_neg (by linarith)]
  have hfl : Rat.floor (128 + -(sqrtf (best : ℚ) / (R : ℚ)) * 127) =
      ⌊128 + -(sqrtf (best : ℚ) / (R : ℚ)) * 127⌋ := rfl
  have hlo : (1 : Int) ≤ ⌊128 + -(sqrtf (best : ℚ) / (R : ℚ)) * 127⌋ := by
    apply Int.le_floor.mpr
    push_cast
    linarith
  have hhi : ⌊128 + -(sqrtf (best : ℚ) / (R : ℚ)) * 127⌋ ≤ (128 : Int) := by
    have : ⌊128 + -(sqrtf (best : ℚ) / (R : ℚ)) * 127⌋ ≤ ⌊(128 : ℚ)⌋ :=
      Int.floor_mono (by linarith)
    simpa using this
  have he : (encode sqrtf best false : Int) =
      ⌊128 + -(sqrtf (best : ℚ) / (R : ℚ)) * 127⌋ := by
    unfold encode
    simp only [Bool.false_eq_true, if_false]
    rw [hc, hfl]
    omega
  refine ⟨he, ?_, ?_⟩ <;> omega

/-- The integer square root is not negative. -/
theorem sqrt_floor_nonneg (q : ℚ) : 0 ≤ sqrt_floor q := by
  unfold sqrt_floor
  positivity

/-- The integer square root is monotone. -/
theorem sqrt_floor_mono (a b : ℚ) (h : a ≤ b) : sqrt_floor a ≤ sqrt_floor b := by
  unfold sqrt_floor
  have h1 : Rat.floor a ≤ Rat.floor b := Int.floor_mono h
  have h2 : (Rat.floor a).toNat ≤ (Rat.floor b).toNat := Int.toNat_le_toNat h1
  exact_mod_cast Nat.sqrt_le_sqrt h2

/-- The integer square root of `320 * 320`. -/
theorem sqrt_floor_R2 : sqrt_floor 102400 = 320 := by
  have h : (Rat.floor (102400 : ℚ)).toNat = 320 * 320 := by rfl
  show ((Nat.sqrt (Rat.floor (102400 : ℚ)).toNat : Nat) : ℚ) = 320
  rw [h, Nat.sqrt_eq]
  norm_num

/-- C21. SDF byte encoding, with the `float` operations taken exact and a
square root `sqrtf` that is not negative, monotone and exact on `R * R`: for
every output pixel the stored byte is the truncation of
`clamp(128 + s * 127 * sqrt(best) / R, 0, 255)` with `s = +1` if the pixel is
classified inside and `-1` otherwise; every inside pixel has a byte in
`[128, 255]`, every outside pixel a byte in `[1, 128]`, no stored byte is 0,
and for a fixed classification the byte is monotone in `best` (non-decreasing
inside, non-increasing outside). -/
theorem C21_byte_encoding (sqrtf : ℚ → ℚ) (h0 : ∀ q, 0 ≤ q → 0 ≤ sqrtf q)
    (hmono : ∀ a b, 0 ≤ a → a ≤ b → sqrtf a ≤ sqrtf b) (hR : sqrtf 102400 = 320)
    (hi : BitPlane) (x y : Int) :
    ((sdf_pixel sqrtf hi x y : Int) =
      ⌊clamp (128 + (if pixel_inside hi x y then 1 else -1) * 127 *
        sqrtf ((pixel_best hi x y : Int) : ℚ) / (R : ℚ)) 0 255⌋) ∧
    (pixel_inside hi x y = true →
      128 ≤ sdf_pixel sqrtf hi x y ∧ sdf_pixel sqrtf hi x y ≤ 255) ∧
    (pixel_inside hi x y = false →
      1 ≤ sdf_pixel sqrtf hi x y ∧ sdf_pixel sqrtf hi x y ≤ 128) ∧
    sdf_pixel sqrtf hi x y ≠ 0 ∧
    (∀ b1 b2 : Int, 0 ≤ b1 → b1 ≤ b2 → b2 ≤ R * R →
      encode sqrtf b1 true ≤ encode sqrtf b2 true ∧
      encode sqrtf b2 false ≤ encode sqrtf b1 false) := by
  have hb0 := pixel_best_nonneg hi x y
  have hb1 : pixel_best hi x y ≤ R * R := by
    unfold pixel_best
    exact (search_best_spec hi _ _ _).1
  obtain ⟨hn0, hn1⟩ := norm_range sqrtf h0 hmono hR (pixel_best hi x y) hb0 hb1
  obtain ⟨i1, i2, i3⟩ := encode_inside sqrtf (pixel_best hi x y) hn0 hn1
  obtain ⟨o1, o2, o3⟩ := encode_outside sqrtf (pixel_best hi x y) hn0 hn1
  have hclamp : ∀ v : ℚ, 0 ≤ v → v ≤ 255 → clamp v 0 255 = v := by
    intro v h1 h2
    unfold clamp
    rw [if_neg (by linarith), if_neg (by linarith)]
  refine ⟨?_, ?_, ?_, ?_, ?_⟩
  · unfold sdf_pixel
    cases hin : pixel_inside hi x y with
    | true =>
      rw [i1]
      simp only [if_true]
      have e : (128 : ℚ) + 1 * 127 * sqrtf ((pixel_best hi x y : Int) : ℚ) / (R : ℚ) =
          128 + sqrtf ((pixel_best hi x y : Int) : ℚ) / (R : ℚ) * 127 := by ring
      rw [e, hclamp _ (by linarith) (by linarith)]
    | false =>
      rw [o1]
      simp only [Bool.false_eq_true, if_false]
      have e : (128 : ℚ) + -1 * 127 * sqrtf ((pixel_best hi x y : Int) : ℚ) / (R : ℚ) =
          128 + -(sqrtf ((pixel_best hi x y : Int) : ℚ) / (R : ℚ)) * 127 := by ring
      rw [e, hclamp _ (by linarith) (by linarith)]
  · intro hin
    unfold sdf_pixel
    rw [hin]
    exact ⟨i2, i3⟩
  · intro hin
    unfold sdf_pixel
    rw [hin]
    exact ⟨o2, o3⟩
  · unfold sdf_pixel
    cases pixel_inside hi x y with
    | true => omega
    | false => omega
  · intro b1 b2 hb10 hb12 hb2R
    obtain ⟨p0, p1⟩ := norm_range sqrtf h0 hmono hR b1 hb10 (le_trans hb12 hb2R)
    obtain ⟨q0, q1⟩ := norm_range sqrtf h0 hmono hR b2 (le_trans hb10 hb12) hb2R
    obtain ⟨a1, _, _⟩ := encode_inside sqrtf b1 p0 p1
    obtain ⟨a2, _, _⟩ := encode_inside sqrtf b2 q0 q1
    obtain ⟨c1, _, _⟩ := encode_outside sqrtf b1 p0 p1
    obtain ⟨c2, _, _⟩ := encode_outside sqrtf b2 q0 q1
    have hR1 : (0 : ℚ) < (R : ℚ) := by
      rw [R_eq]
      norm_num
    have hs : sqrtf (b1 : ℚ) ≤ sqrtf (b2 : ℚ) :=
      hmono _ _ (by exact_mod_cast hb10) (by exact_mod_cast hb12)
    have hd : sqrtf (b1 : ℚ) / (R : ℚ) ≤ sqrtf (b2 : ℚ) / (R : ℚ) :=
      div_le_div_of_nonneg_right hs (le_of_lt hR1)
    have m1 : ⌊128 + sqrtf (b1 : ℚ) / (R : ℚ) * 127⌋ ≤ ⌊128 + sqrtf (b2 : ℚ) / (R : ℚ) * 127⌋ :=
      Int.floor_mono (by linarith)
    have m2 : ⌊128 + -(sqrtf (b2 : ℚ) / (R : ℚ)) * 127⌋ ≤
        ⌊128 + -(sqrtf (b1 : ℚ) / (R : ℚ)) * 127⌋ :=
      Int.floor_mono (by linarith)
    constructor <;> omega

/-- C21, witness: the integer square root as `sqrtf`, the new bitplane of
`Worker` and the pixel `(0, 0)`. -/
theorem C21_byte_encoding_witness :
    ((sdf_pixel sqrt_floor (BitPlane.new hi_side hi_side) 0 0 : Int) =
      ⌊clamp (128 + (if pixel_inside (BitPlane.new hi_side hi_side) 0 0 then 1 else -1) * 127 *
        sqrt_floor ((pixel_best (BitPlane.new hi_side hi_side) 0 0 : Int) : ℚ) / (R : ℚ))
        0 255⌋) ∧
    (pixel_inside (BitPlane.new hi_side hi_side) 0 0 = true →
      128 ≤ sdf_pixel sqrt_floor (BitPlane.new hi_side hi_side) 0 0 ∧
      sdf_pixel sqrt_floor (BitPlane.new hi_side hi_side) 0 0 ≤ 255) ∧
    (pixel_inside (BitPlane.new hi_side hi_side) 0 0 = false →
      1 ≤ sdf_pixel sqrt_floor (BitPlane.new hi_side hi_side) 0 0 ∧
      sdf_pixel sqrt_floor (BitPlane.new hi_side hi_side) 0 0 ≤ 128) ∧
    sdf_pixel sqrt_floor (BitPlane.new hi_side hi_side) 0 0 ≠ 0 ∧
    (∀ b1 b2 : Int, 0 ≤ b1 → b1 ≤ b2 → b2 ≤ R * R →
      encode sqrt_floor b1 true ≤ encode sqrt_floor b2 true ∧
      encode sqrt_floor b2 false ≤ encode sqrt_floor b1 false) :=
  C21_byte_encoding sqrt_floor (fun q _ => sqrt_floor_nonneg q)
    (fun a b _ h => sqrt_floor_mono a b h) sqrt_floor_R2 (BitPlane.new hi_side hi_side) 0 0

/-! ## The UTF-8 round trip -/

/-- A value below `2 ^ i` fills the low bits of a shifted value. -/
theorem shiftLeft_or_low (i b a : Nat) (h : b < 2 ^ i) : (a <<< i) ||| b = a * 2 ^ i + b := by
  rw [Nat.shiftLeft_eq, Nat.mul_comm a, Nat.mul_add_lt_is_or h]

/-- The low six bits. -/
theorem and_3F (c : Nat) : c &&& 0x3F = c % 64 := by
  have := Nat.and_pow_two_sub_one_eq_mod c 6
  simpa using this

/-- The read of a byte of the second part of a string. -/
theorem str_at_append (pre l : List Nat) (k : Nat) (h : k < l.length) :
    str_at (pre ++ l) (pre.length + k) = .ok l[k] := by
  unfold str_at
  rw [List.getElem?_append_right (by omega)]
  simp only [Nat.add_sub_cancel_left, List.getElem?_eq_getElem h]

/-- The bytes of a code point of two bytes, and what `decode` makes of them. -/
theorem utf8_two (c : Nat) (h1 : 0x7F < c) (h2 : c ≤ 0x7FF) :
    ¬ (0xC0 ||| (c >>> 6)) % 2 ^ 8 < 0x80 ∧
    (0xC0 ||| (c >>> 6)) % 2 ^ 8 &&& 0xE0 = 0xC0 ∧
    ((((0xC0 ||| (c >>> 6)) % 2 ^ 8) &&& 0x1F) <<< 6) |||
      (((0x80 ||| (c &&& 0x3F)) % 2 ^ 8) &&& 0x3F) = c := by
  have f1 : ∀ a, a < 32 → (0xC0 ||| a) % 2 ^ 8 = 192 + a ∧ (192 + a) &&& 0xE0 = 0xC0 ∧
      (192 + a) &&& 0x1F = a := by decide
  have f2 : ∀ r, r < 64 → (0x80 ||| r) % 2 ^ 8 = 128 + r ∧ (128 + r) &&& 0x3F = r := by decide
  have ha : c / 64 < 32 := by omega
  have hr : c % 64 < 64 := by omega
  obtain ⟨a1, a2, a3⟩ := f1 (c / 64) ha
  obtain ⟨r1, r2⟩ := f2 (c % 64) hr
  have hs : c >>> 6 = c / 64 := by
    rw [Nat.shiftRight_eq_div_pow]
  have e0 : c &&& 0x3F = c % 64 := and_3F c
  rw [hs, e0, a1, r1, a2, a3, r2]
  refine ⟨by omega, rfl, ?_⟩
  rw [shiftLeft_or_low 6 _ _ (by omega)]
  omega

/-- The bytes of a code point of three bytes, and what `decode` makes of them. -/
theorem utf8_three (c : Nat) (h1 : 0x7FF < c) (h2 : c ≤ 0xFFFF) :
    ¬ (0xE0 ||| (c >>> 12)) % 2 ^ 8 < 0x80 ∧
    ¬ (0xE0 ||| (c >>> 12)) % 2 ^ 8 &&& 0xE0 = 0xC0 ∧
    (0xE0 ||| (c >>> 12)) % 2 ^ 8 &&& 0xF0 = 0xE0 ∧
    ((((0xE0 ||| (c >>> 12)) % 2 ^ 8) &&& 0x0F) <<< 12) |||
      ((((0x80 ||| ((c >>> 6) &&& 0x3F)) % 2 ^ 8) &&& 0x3F) <<< 6) |||
      (((0x80 ||| (c &&& 0x3F)) % 2 ^ 8) &&& 0x3F) = c := by
  have f1 : ∀ a, a < 16 → (0xE0 ||| a) % 2 ^ 8 = 224 + a ∧ (224 + a) &&& 0xE0 = 0xE0 ∧
      (224 + a) &&& 0xF0 = 0xE0 ∧ (224 + a) &&& 0x0F = a := by decide
  have f2 : ∀ r, r < 64 → (0x80 ||| r) % 2 ^ 8 = 128 + r ∧ (128 + r) &&& 0x3F = r := by decide
  have ha : c / 4096 < 16 := by omega
  obtain ⟨a1, a2, a3, a4⟩ := f1 (c / 4096) ha
  obtain ⟨m1, m2⟩ := f2 (c / 64 % 64) (by omega)
  obtain ⟨r1, r2⟩ := f2 (c % 64) (by omega)
  have hs12 : c >>> 12 = c / 4096 := by
    rw [Nat.shiftRight_eq_div_pow]
  have hs6 : c >>> 6 = c / 64 := by
    rw [Nat.shiftRight_eq_div_pow]
  have e0 : c &&& 0x3F = c % 64 := and_3F c
  have e6 : (c / 64) &&& 0x3F = c / 64 % 64 := and_3F _
  rw [hs12, hs6, e6, e0, a1, m1, r1, a2, a3, a4, m2, r2]
  refine ⟨by omega, by decide, rfl, ?_⟩
  rw [shiftLeft_or_low 12 ((c / 64 % 64) <<< 6) _ (by
    rw [Nat.shiftLeft_eq]
    omega)]
  rw [Nat.shiftLeft_eq]
  have e : c / 4096 * 2 ^ 12 + c / 64 % 64 * 2 ^ 6 = (c / 4096 * 64 + c / 64 % 64) <<< 6 := by
    rw [Nat.shiftLeft_eq]
    omega
  rw [e, shiftLeft_or_low 6 _ _ (by omega)]
  omega

/-- The bytes of a code point of four bytes, and what `decode` makes of them. -/
theorem utf8_four (c : Nat) (h1 : 0xFFFF < c) (h2 : c ≤ 0x10FFFF) :
    ¬ (0xF0 ||| (c >>> 18)) % 2 ^ 8 < 0x80 ∧
    ¬ (0xF0 ||| (c >>> 18)) % 2 ^ 8 &&& 0xE0 = 0xC0 ∧
    ¬ (0xF0 ||| (c >>> 18)) % 2 ^ 8 &&& 0xF0 = 0xE0 ∧
    ((((0xF0 ||| (c >>> 18)) % 2 ^ 8) &&& 0x07) <<< 18) |||
      ((((0x80 ||| ((c >>> 12) &&& 0x3F)) % 2 ^ 8) &&& 0x3F) <<< 12) |||
      ((((0x80 ||| ((c >>> 6) &&& 0x3F)) % 2 ^ 8) &&& 0x3F) <<< 6) |||
      (((0x80 ||| (c &&& 0x3F)) % 2 ^ 8) &&& 0x3F) = c := by
  have f1 : ∀ a, a < 8 → (0xF0 ||| a) % 2 ^ 8 = 240 + a ∧ (240 + a) &&& 0xE0 = 0xE0 ∧
      (240 + a) &&& 0xF0 = 0xF0 ∧ (240 + a) &&& 0x07 = a := by decide
  have f2 : ∀ r, r < 64 → (0x80 ||| r) % 2 ^ 8 = 128 + r ∧ (128 + r) &&& 0x3F = r := by decide
  have ha : c / 262144 < 8 := by omega
  obtain ⟨a1, a2, a3, a4⟩ := f1 (c / 262144) ha
  obtain ⟨n1, n2⟩ := f2 (c / 4096 % 64) (by omega)
  obtain ⟨m1, m2⟩ := f2 (c / 64 % 64) (by omega)
  obtain ⟨r1, r2⟩ := f2 (c % 64) (by omega)
  have hs18 : c >>> 18 = c / 262144 := by
    rw [Nat.shiftRight_eq_div_pow]
  have hs12 : c >>> 12 = c / 4096 := by
    rw [Nat.shiftRight_eq_div_pow]
  have hs6 : c >>> 6 = c / 64 := by
    rw [Nat.shiftRight_eq_div_pow]
  have e0 : c &&& 0x3F = c % 64 := and_3F c
  have e6 : (c / 64) &&& 0x3F = c / 64 % 64 := and_3F _
  have e12 : (c / 4096) &&& 0x3F = c / 4096 % 64 := and_3F _
  rw [hs18, hs12, hs6, e12, e6, e0, a1, n1, m1, r1, a2, a3, a4, n2, m2, r2]
  refine ⟨by omega, by decide, by decide, ?_⟩
  rw [shiftLeft_or_low 18 ((c / 4096 % 64) <<< 12) _ (by
    rw [Nat.shiftLeft_eq]
    omega)]
  rw [Nat.shiftLeft_eq (c / 4096 % 64)]
  have e1 : c / 262144 * 2 ^ 18 + c / 4096 % 64 * 2 ^ 12 =
      (c / 262144 * 64 + c / 4096 % 64) <<< 12 := by
    rw [Nat.shiftLeft_eq]
    omega
  rw [e1, shiftLeft_or_low 12 ((c / 64 % 64) <<< 6) _ (by
    rw [Nat.shiftLeft_eq]
    omega)]
  rw [Nat.shiftLeft_eq (c / 64 % 64)]
  have e2 : (c / 262144 * 64 + c / 4096 % 64) * 2 ^ 12 + c / 64 % 64 * 2 ^ 6 =
      ((c / 262144 * 64 + c / 4096 % 64) * 64 + c / 64 % 64) <<< 6 := by
    rw [Nat.shiftLeft_eq]
    omega
  rw [e2, shiftLeft_or_low 6 _ _ (by omega)]
  omega

/-- The loop of `decode` on a string that continues with the bytes of a list of
code points returns these code points, one for every round. -/
theorem decode_loop_utf8 :
    ∀ (cps : List Nat), (∀ c ∈ cps, c ≤ 0x10FFFF) →
      ∀ (pre out : List Nat) (fuel : Nat), cps.length ≤ fuel →
        decode_loop (pre ++ mj.utf8 cps) fuel pre.length out = .ok (out ++ cps) := by
  intro cps
  induction cps with
  | nil =>
    intro _ pre out fuel _
    have hs : pre ++ mj.utf8 [] = pre := by simp [mj.utf8]
    rw [hs]
    cases fuel with
    | zero => simp [decode_loop]
    | succ n => simp [decode_loop]
  | cons c rest ih =>
    intro hc pre out fuel hfuel
    obtain ⟨n, rfl⟩ : ∃ n, fuel = n + 1 := ⟨fuel - 1, by simp at hfuel; omega⟩
    have hcr : ∀ c1 ∈ rest, c1 ≤ 0x10FFFF := fun c1 h => hc c1 (List.mem_cons_of_mem _ h)
    have hc0 : c ≤ 0x10FFFF := hc c (List.mem_cons_self _ _)
    have hn : rest.length ≤ n := by simpa using hfuel
    have hs : pre ++ mj.utf8 (c :: rest) = pre ++ (mj.append_utf8 c ++ mj.utf8 rest) := by
      simp [mj.utf8]
    have hnext : ∀ (o : List Nat),
        decode_loop (pre ++ (mj.append_utf8 c ++ mj.utf8 rest)) n
          (pre.length + (mj.append_utf8 c).length) o = .ok (o ++ rest) := by
      intro o
      have := ih hcr (pre ++ mj.append_utf8 c) o n hn
      rw [List.append_assoc, List.length_append] at this
      exact this
    have hat : ∀ k (hk : k < (mj.append_utf8 c).length),
        str_at (pre ++ (mj.append_utf8 c ++ mj.utf8 rest)) (pre.length + k) =
          .ok ((mj.append_utf8 c)[k]) := by
      intro k hk
      rw [str_at_append pre _ k (by rw [List.length_append]; omega)]
      rw [List.getElem_append_left hk]
    rw [hs]
    unfold decode_loop
    by_cases h1 : c ≤ 0x7F
    · have ha : mj.append_utf8 c = [c] := by
        unfold mj.append_utf8
        rw [if_pos h1, Nat.mod_eq_of_lt (by omega)]
      rw [ha] at hnext hat ⊢
      have h0 := hat 0 (by simp)
      simp only [Nat.add_zero, List.getElem_cons_zero] at h0
      rw [if_pos (by simp), h0]
      simp only [Outcome.ok_bind]
      rw [if_pos (by omega)]
      have := hnext (out ++ [c])
      simp only [List.length_singleton] at this
      rw [this]
      simp
    · by_cases h2 : c ≤ 0x7FF
      · obtain ⟨u1, u2, u3⟩ := utf8_two c (by omega) h2
        have ha : mj.append_utf8 c =
            [(0xC0 ||| (c >>> 6)) % 2 ^ 8, (0x80 ||| (c &&& 0x3F)) % 2 ^ 8] := by
          unfold mj.append_utf8
          rw [if_neg h1, if_pos h2]
        rw [ha] at hnext hat ⊢
        have h0 := hat 0 (by simp)
        have h1' := hat 1 (by simp)
        simp only [Nat.add_zero, List.getElem_cons_zero, List.getElem_cons_succ] at h0 h1'
        rw [if_pos (by simp), h0]
        simp only [Outcome.ok_bind]
        rw [if_neg u1, if_pos u2, h1']
        simp only [Outcome.ok_bind]
        rw [u3]
        have := hnext (out ++ [c])
        simp only [List.length_cons, List.length_nil] at this
        rw [this]
        simp
      · by_cases h3 : c ≤ 0xFFFF
        · obtain ⟨u1, u2, u3, u4⟩ := utf8_three c (by omega) h3
          have ha : mj.append_utf8 c =
              [(0xE0 ||| (c >>> 12)) % 2 ^ 8, (0x80 ||| ((c >>> 6) &&& 0x3F)) % 2 ^ 8,
               (0x80 ||| (c &&& 0x3F)) % 2 ^ 8] := by
            unfold mj.append_utf8
            rw [if_neg h1, if_neg h2, if_pos h3]
          rw [ha] at hnext hat ⊢
          have h0 := hat 0 (by simp)
          have h1' := hat 1 (by simp)
          have h2' := hat 2 (by simp)
          simp only [Nat.add_zero, List.getElem_cons_zero, List.getElem_cons_succ] at h0 h1' h2'
          rw [if_pos (by simp), h0]
          simp only [Outcome.ok_bind]
          rw [if_neg u1, if_neg u2, if_pos u3, h1']
          simp only [Outcome.ok_bind]
          rw [h2']
          simp only [Outcome.ok_bind]
          rw [u4]
          have := hnext (out ++ [c])
          simp only [List.length_cons, List.length_nil] at this
          rw [this]
          simp
        · obtain ⟨u1, u2, u3, u4⟩ := utf8_four c (by omega) hc0
          have ha : mj.append_utf8 c =
              [(0xF0 ||| (c >>> 18)) % 2 ^ 8, (0x80 ||| ((c >>> 12) &&& 0x3F)) % 2 ^ 8,
               (0x80 ||| ((c >>> 6) &&& 0x3F)) % 2 ^ 8, (0x80 ||| (c &&& 0x3F)) % 2 ^ 8] := by
            unfold mj.append_utf8
            rw [if_neg h1, if_neg h2, if_neg h3]
          rw [ha] at hnext hat ⊢
          have h0 := hat 0 (by simp)
          have h1' := hat 1 (by simp)
          have h2' := hat 2 (by simp)
          have h3' := hat 3 (by simp)
          simp only [Nat.add_zero, List.getElem_cons_zero, List.getElem_cons_succ]
            at h0 h1' h2' h3'
          rw [if_pos (by simp), h0]
          simp only [Outcome.ok_bind]
          rw [if_neg u1, if_neg u2, if_neg u3, h1']
          simp only [Outcome.ok_bind]
          rw [h2']
          simp only [Outcome.ok_bind]
          rw [h3']
          simp only [Outcome.ok_bind]
          rw [u4]
          have := hnext (out ++ [c])
          simp only [List.length_cons, List.length_nil] at this
          rw [this]
          simp

/-- The body of the loop of `decode`. -/
theorem decode_loop_succ (s : List Nat) (fuel i : Nat) (out : List Nat) :
    decode_loop s (fuel + 1) i out =
      if i < s.length then
        str_at s i >>= fun c =>
          if c < 0x80 then decode_loop s fuel (i + 1) (out ++ [c])
          else if c &&& 0xE0 = 0xC0 then
            str_at s (i + 1) >>= fun b1 =>
              decode_loop s fuel (i + 2) (out ++ [((c &&& 0x1F) <<< 6) ||| (b1 &&& 0x3F)])
          else if c &&& 0xF0 = 0xE0 then
            str_at s (i + 1) >>= fun b1 => str_at s (i + 2) >>= fun b2 =>
              decode_loop s fuel (i + 3)
                (out ++ [((c &&& 0x0F) <<< 12) ||| ((b1 &&& 0x3F) <<< 6) ||| (b2 &&& 0x3F)])
          else
            str_at s (i + 1) >>= fun b1 => str_at s (i + 2) >>= fun b2 =>
              str_at s (i + 3) >>= fun b3 =>
                decode_loop s fuel (i + 4)
                  (out ++ [((c &&& 0x07) <<< 18) ||| ((b1 &&& 0x3F) <<< 12) |||
                    ((b2 &&& 0x3F) <<< 6) ||| (b3 &&& 0x3F)])
      else .ok out := by
  rw [decode_loop]

/-- One round of the loop of `decode` consumes 1, 2, 3 or 4 bytes according to
the leading byte, unless it reads outside the string. -/
theorem decode_loop_round (s : List Nat) (fuel i : Nat) (out : List Nat) (c : Nat)
    (hc : s[i]? = some c) :
    decode_loop s (fuel + 1) i out = .bounds ∨
    ∃ v, decode_loop s (fuel + 1) i out =
      decode_loop s fuel
        (i + (if c < 0x80 then 1 else if c &&& 0xE0 = 0xC0 then 2
              else if c &&& 0xF0 = 0xE0 then 3 else 4)) (out ++ [v]) := by
  have hi : i < s.length := by
    rcases Nat.lt_or_ge i s.length with h | h
    · exact h
    · rw [List.getElem?_eq_none h] at hc
      exact absurd hc (by simp)
  have hat : str_at s i = .ok c := by
    unfold str_at
    rw [hc]
  have hany : ∀ j, (∃ b, str_at s j = .ok b) ∨ str_at s j = .bounds := by
    intro j
    unfold str_at
    cases s[j]? with
    | some b => exact Or.inl ⟨b, rfl⟩
    | none =>
      by_cases hj : j = s.length
      · rw [if_pos hj]
        exact Or.inl ⟨0, rfl⟩
      · rw [if_neg hj]
        exact Or.inr rfl
  rw [decode_loop_succ, if_pos hi, hat]
  simp only [Outcome.ok_bind]
  by_cases h1 : c < 0x80
  · rw [if_pos h1, if_pos h1]
    exact Or.inr ⟨c, rfl⟩
  · rw [if_neg h1, if_neg h1]
    by_cases h2 : c &&& 0xE0 = 0xC0
    · rw [if_pos h2, if_pos h2]
      rcases hany (i + 1) with ⟨b1, e1⟩ | e1
      · rw [e1]
        exact Or.inr ⟨_, rfl⟩
      · rw [e1]
        exact Or.inl rfl
    · rw [if_neg h2, if_neg h2]
      by_cases h3 : c &&& 0xF0 = 0xE0
      · rw [if_pos h3, if_pos h3]
        rcases hany (i + 1) with ⟨b1, e1⟩ | e1
        · rw [e1]
          rcases hany (i + 2) with ⟨b2, e2⟩ | e2
          · rw [e2]
            exact Or.inr ⟨_, rfl⟩
          · rw [e2]
            exact Or.inl rfl
        · rw [e1]
          exact Or.inl rfl
      · rw [if_neg h3, if_neg h3]
        rcases hany (i + 1) with ⟨b1, e1⟩ | e1
        · rw [e1]
          rcases hany (i + 2) with ⟨b2, e2⟩ | e2
          · rw [e2]
            rcases hany (i + 3) with ⟨b3, e3⟩ | e3
            · rw [e3]
              exact Or.inr ⟨_, rfl⟩
            · rw [e3]
              exact Or.inl rfl
          · rw [e2]
            exact Or.inl rfl
        · rw [e1]
          exact Or.inl rfl

/-- C27. UTF-8 decoding round trip: for every list of code points, each at most
`0x10FFFF`, the lambda `decode` of `wmain`, run on the concatenation of the
encodings that `mj::Parser::append_utf8` produces, returns exactly that list
(one round of its loop for every code point is enough). The encoding has 1 byte
below `0x80`, 2 bytes below `0x800`, 3 bytes below `0x10000` and 4 bytes
otherwise, and a round of the loop consumes 1, 2, 3 or 4 bytes according to the
leading byte. -/
theorem C27_utf8_round_trip (cps : List Nat) (h : ∀ c ∈ cps, c ≤ 0x10FFFF) (fuel : Nat)
    (hfuel : cps.length ≤ fuel) :
    decode (mj.utf8 cps) fuel = .ok cps ∧
    (∀ c ∈ cps, (mj.append_utf8 c).length =
      if c < 0x80 then 1 else if c < 0x800 then 2 else if c < 0x10000 then 3 else 4) ∧
    (∀ (s : List Nat) (n i : Nat) (out : List Nat) (c : Nat), s[i]? = some c →
      decode_loop s (n + 1) i out = .bounds ∨
      ∃ v, decode_loop s (n + 1) i out =
        decode_loop s n
          (i + (if c < 0x80 then 1 else if c &&& 0xE0 = 0xC0 then 2
                else if c &&& 0xF0 = 0xE0 then 3 else 4)) (out ++ [v])) := by
  refine ⟨?_, ?_, decode_loop_round⟩
  · have := decode_loop_utf8 cps h [] [] fuel hfuel
    simpa [decode] using this
  · intro c _
    unfold mj.append_utf8
    split_ifs <;> first | rfl | (exfalso; omega)

/-- C27, witness: the code points of `A`, `é`, the euro sign and an emoji. -/
theorem C27_utf8_round_trip_witness :
    decode (mj.utf8 [0x41, 0xE9, 0x20AC, 0x1F600]) 4 = .ok [0x41, 0xE9, 0x20AC, 0x1F600] ∧
    (∀ c ∈ [0x41, 0xE9, 0x20AC, 0x1F600], (mj.append_utf8 c).length =
      if c < 0x80 then 1 else if c < 0x800 then 2 else if c < 0x10000 then 3 else 4) ∧
    (∀ (s : List Nat) (n i : Nat) (out : List Nat) (c : Nat), s[i]? = some c →
      decode_loop s (n + 1) i out = .bounds ∨
      ∃ v, decode_loop s (n + 1) i out =
        decode_loop s n
          (i + (if c < 0x80 then 1 else if c &&& 0xE0 = 0xC0 then 2
                else if c &&& 0xF0 = 0xE0 then 3 else 4)) (out ++ [v])) :=
  C27_utf8_round_trip [0x41, 0xE9, 0x20AC, 0x1F600] (by decide) 4 (by decide)

/-! ## The scale of `RasterOutline` -/

/-- The mask `0x80 >> (x & 7)` is the power of two of the bit `7 - (x & 7)`. -/
theorem mask_eq (x : Int) :
    (x % 8).toNat < 8 ∧ 0x80 >>> (x % 8).toNat = 2 ^ (7 - (x % 8).toNat) := by
  have h : ∀ i, i < 8 → 0x80 >>> i = 2 ^ (7 - i) := by decide
  have hi : (x % 8).toNat < 8 := by omega
  exact ⟨hi, h _ hi⟩

/-- The test of `Get` reads the bit `7 - (x & 7)` of the byte. -/
theorem get_bit (v : Nat) (x : Int) :
    decide (v &&& (0x80 >>> (x % 8).toNat) ≠ 0) = v.testBit (7 - (x % 8).toNat) := by
  rw [(mask_eq x).2, Nat.and_two_pow]
  cases h : v.testBit (7 - (x % 8).toNat) <;> simp

/-- The byte that `Set` stores has the bits of the old byte and the bit of `x`. -/
theorem set_bit (old : Nat) (x x1 : Int) :
    ((old ||| (0x80 >>> (x % 8).toNat)) % 2 ^ 8).testBit (7 - (x1 % 8).toNat) =
      (old.testBit (7 - (x1 % 8).toNat) || decide (x % 8 = x1 % 8)) := by
  rw [(mask_eq x).2, Nat.testBit_mod_two_pow, Nat.testBit_or, Nat.testBit_two_pow]
  have h1 : 7 - (x1 % 8).toNat < 8 := by omega
  have h2 : decide (7 - (x % 8).toNat = 7 - (x1 % 8).toNat) = decide (x % 8 = x1 % 8) := by
    apply decide_eq_decide.mpr
    constructor <;> intro h <;> omega
  rw [h2]
  simp [h1]

/-- A byte index determines the row and the byte of the row. -/
theorem index_inj (p a a1 y y1 : Int) (ha : 0 ≤ a) (ha1 : 0 ≤ a1) (hap : a < p) (ha1p : a1 < p)
    (h : y * p + a = y1 * p + a1) : y = y1 ∧ a = a1 := by
  have hy : y = y1 := by
    rcases lt_trichotomy y y1 with hlt | heq | hgt
    · exfalso
      have h1 : (y + 1) * p ≤ y1 * p := mul_le_mul_of_nonneg_right (by omega) (by omega)
      have h2 : (y + 1) * p = y * p + p := by ring
      omega
    · exact heq
    · exfalso
      have h1 : (y1 + 1) * p ≤ y * p := mul_le_mul_of_nonneg_right (by omega) (by omega)
      have h2 : (y1 + 1) * p = y1 * p + p := by ring
      omega
  subst hy
  exact ⟨rfl, by omega⟩

/-- The byte index of a position inside a bitplane lies inside its vector. -/
theorem index_in_range (b : BitPlane) (hwf : b.wf) (x y : Int) (hx0 : 0 ≤ x) (hx : x < b.w)
    (hy0 : 0 ≤ y) (hy : y < b.h) :
    0 ≤ x / 8 ∧ x / 8 < b.pitch ∧ 0 ≤ y * b.pitch + x / 8 ∧
      y * b.pitch + x / 8 < (b.data.length : Int) := by
  obtain ⟨hw, hh, hp, hlen⟩ := hwf
  have h1 : 0 ≤ x / 8 := by omega
  have h2 : x / 8 < b.pitch := by omega
  have h3 : 0 ≤ y * b.pitch := mul_nonneg hy0 (by omega)
  have h4 : (y + 1) * b.pitch ≤ b.h * b.pitch := mul_le_mul_of_nonneg_right (by omega) (by omega)
  have h5 : (y + 1) * b.pitch = y * b.pitch + b.pitch := by ring
  have h6 : b.pitch * b.h = b.h * b.pitch := by ring
  refine ⟨h1, h2, by omega, by omega⟩

/-- The function `Set` at a position inside the bitplane returns and sets that
bit and no other. -/
theorem Set_Get (b : BitPlane) (hwf : b.wf) (x y : Int) (hx0 : 0 ≤ x) (hx : x < b.w)
    (hy0 : 0 ≤ y) (hy : y < b.h) :
    ∃ b1, b.Set x y = .ok b1 ∧ b1.wf ∧ b1.w = b.w ∧ b1.h = b.h ∧
      ∀ x1 y1, b1.Get x1 y1 = (b.Get x1 y1 || decide (x1 = x ∧ y1 = y)) := by
  obtain ⟨i1, i2, i3, i4⟩ := index_in_range b hwf x y hx0 hx hy0 hy
  unfold BitPlane.Set
  simp only
  rw [if_pos ⟨i3, i4⟩]
  refine ⟨_, rfl, ?_, rfl, rfl, ?_⟩
  · obtain ⟨hw, hh, hp, hlen⟩ := hwf
    exact ⟨hw, hh, hp, by simpa using hlen⟩
  · intro x1 y1
    unfold BitPlane.Get
    simp only
    by_cases hout : x1 < 0 ∨ y1 < 0 ∨ x1 ≥ b.w ∨ y1 ≥ b.h
    · rw [if_pos hout, if_pos hout]
      have : ¬ (x1 = x ∧ y1 = y) := by
        rintro ⟨rfl, rfl⟩
        omega
      simp [this]
    · rw [if_neg hout, if_neg hout]
      have hin : 0 ≤ x1 ∧ 0 ≤ y1 ∧ x1 < b.w ∧ y1 < b.h := by omega
      obtain ⟨j1, j2, j3, j4⟩ := index_in_range b hwf x1 y1 hin.1 hin.2.2.1 hin.2.1 hin.2.2.2
      rw [get_bit, get_bit, List.getD_eq_getElem?_getD, List.getD_eq_getElem?_getD,
        List.getElem?_set]
      by_cases hidx : (y * b.pitch + x / 8).toNat = (y1 * b.pitch + x1 / 8).toNat
      · have hidx1 : y * b.pitch + x / 8 = y1 * b.pitch + x1 / 8 := by omega
        obtain ⟨e1, e2⟩ := index_inj b.pitch (x / 8) (x1 / 8) y y1 i1 j1 i2 j2 hidx1
        rw [if_pos hidx, if_pos (by omega)]
        simp only [Option.getD_some]
        rw [set_bit, List.getD_eq_getElem?_getD, hidx]
        congr 1
        apply decide_eq_decide.mpr
        constructor
        · intro h
          exact ⟨by omega, e1.symm⟩
        · rintro ⟨rfl, _⟩
          rfl
      · rw [if_neg hidx]
        have : ¬ (x1 = x ∧ y1 = y) := by
          rintro ⟨rfl, rfl⟩
          exact hidx rfl
        simp [this]

/-! ## The spans of a scanline -/

/-- The loop of `Set` calls over the columns `sx .. sx + n - 1` of the row `sy`
returns and sets exactly these bits. -/
theorem set_run_spec (sy : Int) :
    ∀ (n : Nat) (sx : Int) (b : BitPlane), b.wf → 0 ≤ sy → sy < b.h → 0 ≤ sx → sx + n ≤ b.w →
      ∃ b1, set_run sy n sx b = .ok b1 ∧ b1.wf ∧ b1.w = b.w ∧ b1.h = b.h ∧
        ∀ x1 y1, b1.Get x1 y1 =
          (b.Get x1 y1 || decide (y1 = sy ∧ sx ≤ x1 ∧ x1 < sx + n)) := by
  intro n
  induction n with
  | zero =>
    intro sx b hwf _ _ _ _
    refine ⟨b, rfl, hwf, rfl, rfl, ?_⟩
    intro x1 y1
    have : ¬ (y1 = sy ∧ sx ≤ x1 ∧ x1 < sx + ((0 : Nat) : Int)) := by
      rintro ⟨_, h1, h2⟩
      simp only [Nat.cast_zero, add_zero] at h2
      omega
    simp [this]
  | succ n ih =>
    intro sx b hwf hy0 hy hx0 hxn
    have hcast : ((n + 1 : Nat) : Int) = (n : Int) + 1 := by push_cast; rfl
    rw [hcast] at hxn
    obtain ⟨b1, hs, hwf1, hw1, hh1, hg1⟩ := Set_Get b hwf sx sy hx0 (by omega) hy0 hy
    obtain ⟨b2, hr, hwf2, hw2, hh2, hg2⟩ := ih (sx + 1) b1 hwf1 hy0 (by rw [hh1]; exact hy)
      (by omega) (by rw [hw1]; omega)
    unfold set_run
    rw [hs]
    simp only [Outcome.ok_bind]
    refine ⟨b2, hr, hwf2, by rw [hw2, hw1], by rw [hh2, hh1], ?_⟩
    intro x1 y1
    rw [hg2, hg1, hcast, Bool.or_assoc]
    congr 1
    rw [← Bool.decide_or]
    apply decide_eq_decide.mpr
    constructor
    · rintro (⟨rfl, rfl⟩ | ⟨h1, h2, h3⟩)
      · exact ⟨rfl, le_refl _, by omega⟩
      · exact ⟨h1, by omega, by omega⟩
    · rintro ⟨h1, h2, h3⟩
      by_cases he : x1 = sx
      · exact Or.inl ⟨he, h1⟩
      · exact Or.inr ⟨h1, by omega, by omega⟩

/-- The columns of a span lie inside the bitplane. -/
theorem span_cols_range (w : Int) (hw : 0 < w) (scale off_x : ℚ) (p : ℚ × ℚ) :
    0 ≤ (span_cols w scale off_x p).1 ∧ (span_cols w scale off_x p).1 ≤ w - 1 ∧
    0 ≤ (span_cols w scale off_x p).2 ∧ (span_cols w scale off_x p).2 ≤ w - 1 := by
  unfold span_cols clampInt
  simp only
  refine ⟨?_, ?_, ?_, ?_⟩ <;> split_ifs <;> omega

/-- The loop over the spans of a scanline returns and sets exactly the bits of
the spans, in the row of the scanline. -/
theorem fill_spans_spec (sy : Int) (scale off_x : ℚ) :
    ∀ (ps : List (ℚ × ℚ)) (b : BitPlane), b.wf → 0 ≤ sy → sy < b.h →
      ∃ b1, fill_spans sy scale off_x ps b = .ok b1 ∧ b1.wf ∧ b1.w = b.w ∧ b1.h = b.h ∧
        ∀ x1 y1, b1.Get x1 y1 = true ↔
          (b.Get x1 y1 = true ∨ (y1 = sy ∧ in_spans (ps.map (span_cols b.w scale off_x)) x1)) := by
  intro ps
  induction ps with
  | nil =>
    intro b hwf _ _
    refine ⟨b, rfl, hwf, rfl, rfl, ?_⟩
    intro x1 y1
    simp [in_spans]
  | cons p rest ih =>
    intro b hwf hy0 hy
    obtain ⟨c1, c2, c3, c4⟩ := span_cols_range b.w hwf.1 scale off_x p
    obtain ⟨b1, hr, hwf1, hw1, hh1, hg1⟩ := set_run_spec sy
      ((span_cols b.w scale off_x p).2 - (span_cols b.w scale off_x p).1 + 1).toNat
      (span_cols b.w scale off_x p).1 b hwf hy0 hy c1 (by omega)
    obtain ⟨b2, hf, hwf2, hw2, hh2, hg2⟩ := ih b1 hwf1 hy0 (by rw [hh1]; exact hy)
    unfold fill_spans
    rw [hr]
    simp only [Outcome.ok_bind]
    refine ⟨b2, hf, hwf2, by rw [hw2, hw1], by rw [hh2, hh1], ?_⟩
    intro x1 y1
    rw [hg2, hg1, hw1]
    simp only [Bool.or_eq_true, decide_eq_true_eq, in_spans, List.map_cons, List.mem_cons,
      exists_eq_or_imp]
    constructor
    · rintro ((h | ⟨h1, h2, h3⟩) | ⟨h1, h2⟩)
      · exact Or.inl h
      · exact Or.inr ⟨h1, Or.inl ⟨h2, by omega⟩⟩
      · exact Or.inr ⟨h1, Or.inr h2⟩
    · rintro (h | ⟨h1, (⟨h2, h3⟩ | h2)⟩)
      · exact Or.inl (Or.inl h)
      · exact Or.inl (Or.inr ⟨h1, h2, by omega⟩)
      · exact Or.inr ⟨h1, h2⟩

/-- The pairs of the span loop are the entries `2 k` and `2 k + 1` of the
vector; a last entry without a partner belongs to no pair. -/
theorem span_pairs_mem : ∀ (t : List ℚ) (p : ℚ × ℚ),
    p ∈ span_pairs t ↔ ∃ k, 2 * k + 1 < t.length ∧ t[2 * k]? = some p.1 ∧
      t[2 * k + 1]? = some p.2 := by
  intro t
  induction t using span_pairs.induct with
  | case1 a b rest ih =>
    intro p
    simp only [span_pairs, List.mem_cons, List.length_cons]
    constructor
    · rintro (rfl | h)
      · exact ⟨0, by omega, by simp, by simp⟩
      · obtain ⟨k, h1, h2, h3⟩ := (ih p).mp h
        refine ⟨k + 1, by omega, ?_, ?_⟩
        · rw [show 2 * (k + 1) = 2 * k + 1 + 1 by ring]
          simpa using h2
        · rw [show 2 * (k + 1) + 1 = 2 * k + 1 + 1 + 1 by ring]
          simpa using h3
    · rintro ⟨k, h1, h2, h3⟩
      cases k with
      | zero =>
        left
        simp only [Nat.mul_zero, List.getElem?_cons_zero, Option.some.injEq, Nat.zero_add,
          List.getElem?_cons_succ] at h2 h3
        exact Prod.ext h2.symm h3.symm
      | succ k =>
        right
        refine (ih p).mpr ⟨k, by omega, ?_, ?_⟩
        · rw [show 2 * (k + 1) = 2 * k + 1 + 1 by ring] at h2
          simpa using h2
        · rw [show 2 * (k + 1) + 1 = 2 * k + 1 + 1 + 1 by ring] at h3
          simpa using h3
  | case2 t hne =>
    intro p
    have hlen : t.length < 2 := by
      match t, hne with
      | [], _ => simp
      | [_], _ => simp
      | a :: b :: rest, hne => exact absurd rfl (hne a b rest)
    have hsp : span_pairs t = [] := by
      match t, hne with
      | [], _ => rfl
      | [_], _ => rfl
      | a :: b :: rest, hne => exact absurd rfl (hne a b rest)
    rw [hsp]
    constructor
    · intro h
      exact absurd h (by simp)
    · rintro ⟨k, h1, _⟩
      omega

/-- The removal of near duplicates keeps a sorted vector sorted. -/
theorem dedup_loop_sorted : ∀ (input kept : List ℚ),
    (kept ++ input).Pairwise (fun a b => a ≤ b) →
      (dedup_loop input kept).Pairwise (fun a b => a ≤ b) := by
  intro input
  induction input with
  | nil =>
    intro kept h
    simpa [dedup_loop] using h
  | cons x rest ih =>
    intro kept h
    have hkeep : (kept ++ [x] ++ rest).Pairwise (fun a b => a ≤ b) := by
      simpa using h
    have hdrop : (kept ++ rest).Pairwise (fun a b => a ≤ b) := by
      apply List.Pairwise.sublist _ h
      exact List.Sublist.append (List.Sublist.refl _) (List.sublist_cons_self _ _)
    unfold dedup_loop
    cases kept.getLast? with
    | none => exact ih _ hkeep
    | some l =>
      simp only
      split_ifs
      · exact ih _ hkeep
      · exact ih _ hdrop

/-- The vector of a scanline after the sort and the removal of near duplicates
is sorted. -/
theorem sorted_dedup_sorted (x_int : List ℚ) :
    (sorted_dedup x_int).Pairwise (fun a b => a ≤ b) := by
  unfold sorted_dedup
  apply dedup_loop_sorted
  simpa using List.sorted_insertionSort (fun (a b : ℚ) => a ≤ b) x_int

/-- One scanline: with the intersections `x_int` of the row, the round returns,
and it sets exactly the bits of the spans of the row when there are at least
two intersections, none otherwise. -/
theorem raster_row_spec (fuel : Nat) (g : ttf.GlyphContour) (sy : Int) (b : BitPlane)
    (hwf : b.wf) (hy0 : 0 ≤ sy) (hy : sy < b.h) (x_int : List ℚ)
    (hx : row_crossings fuel g (py_unit g b.h sy) g.contours.length 0 [] = .ok x_int) :
    ∃ b1, raster_row fuel g sy b = .ok b1 ∧ b1.wf ∧ b1.w = b.w ∧ b1.h = b.h ∧
      ∀ x1 y1, b1.Get x1 y1 = true ↔
        (b.Get x1 y1 = true ∨ (y1 = sy ∧ 2 ≤ x_int.length ∧
          in_spans ((span_pairs (sorted_dedup x_int)).map
            (span_cols b.w (raster_scale g) (raster_off_x g))) x1)) := by
  unfold raster_row
  rw [hx]
  simp only [Outcome.ok_bind]
  by_cases hlen : x_int.length < 2
  · rw [if_pos hlen]
    refine ⟨b, rfl, hwf, rfl, rfl, ?_⟩
    intro x1 y1
    constructor
    · exact fun h => Or.inl h
    · rintro (h | ⟨_, h2, _⟩)
      · exact h
      · omega
  · rw [if_neg hlen]
    obtain ⟨b1, hf, hwf1, hw1, hh1, hg1⟩ := fill_spans_spec sy (raster_scale g) (raster_off_x g)
      (span_pairs (sorted_dedup x_int)) b hwf hy0 hy
    refine ⟨b1, hf, hwf1, hw1, hh1, ?_⟩
    intro x1 y1
    rw [hg1]
    constructor
    · rintro (h | ⟨h1, h2⟩)
      · exact Or.inl h
      · exact Or.inr ⟨h1, by omega, h2⟩
    · rintro (h | ⟨h1, _, h2⟩)
      · exact Or.inl h
      · exact Or.inr ⟨h1, h2⟩

/-- The removal of near duplicates does not lengthen the vector. -/
theorem dedup_loop_length : ∀ (input kept : List ℚ),
    (dedup_loop input kept).length ≤ kept.length + input.length := by
  intro input
  induction input with
  | nil =>
    intro kept
    simp [dedup_loop]
  | cons x rest ih =>
    intro kept
    have h1 := ih (kept ++ [x])
    have h2 := ih kept
    simp only [List.length_append, List.length_singleton, List.length_cons,
      List.length_nil] at h1 ⊢
    unfold dedup_loop
    cases kept.getLast? with
    | none =>
      simp only
      omega
    | some l =>
      simp only
      split_ifs <;> omega

theorem sorted_dedup_length (x_int : List ℚ) : (sorted_dedup x_int).length ≤ x_int.length := by
  unfold sorted_dedup
  have := dedup_loop_length (x_int.insertionSort (fun a b => a ≤ b)) []
  simpa using this

/-- The loop over the scanlines `sy0 .. sy0 + n - 1`: when the intersections of
every row can be computed it returns, and it sets exactly the bits of the spans
of these rows. -/
theorem raster_rows_spec (fuel : Nat) (g : ttf.GlyphContour) :
    ∀ (n : Nat) (sy0 : Int) (b : BitPlane), b.wf → 0 ≤ sy0 → sy0 + n ≤ b.h →
      (∀ sy, sy0 ≤ sy → sy < sy0 + n →
        ∃ x_int, row_crossings fuel g (py_unit g b.h sy) g.contours.length 0 [] = .ok x_int) →
      ∃ b1, raster_rows fuel g n sy0 b = .ok b1 ∧ b1.wf ∧ b1.w = b.w ∧ b1.h = b.h ∧
        ∀ x1 y1, b1.Get x1 y1 = true ↔
          (b.Get x1 y1 = true ∨ (sy0 ≤ y1 ∧ y1 < sy0 + n ∧ ∃ x_int,
            row_crossings fuel g (py_unit g b.h y1) g.contours.length 0 [] = .ok x_int ∧
            2 ≤ x_int.length ∧
            in_spans ((span_pairs (sorted_dedup x_int)).map
              (span_cols b.w (raster_scale g) (raster_off_x g))) x1)) := by
  intro n
  induction n with
  | zero =>
    intro sy0 b hwf _ _ _
    refine ⟨b, rfl, hwf, rfl, rfl, ?_⟩
    intro x1 y1
    constructor
    · exact fun h => Or.inl h
    · rintro (h | ⟨h1, h2, _⟩)
      · exact h
      · simp only [Nat.cast_zero, add_zero] at h2
        omega
  | succ n ih =>
    intro sy0 b hwf hy0 hn hcross
    have hcast : ((n + 1 : Nat) : Int) = (n : Int) + 1 := by push_cast; rfl
    rw [hcast] at hn hcross ⊢
    obtain ⟨x0, hx0⟩ := hcross sy0 (le_refl _) (by omega)
    obtain ⟨b1, hr, hwf1, hw1, hh1, hg1⟩ := raster_row_spec fuel g sy0 b hwf hy0 (by omega) x0 hx0
    obtain ⟨b2, hrs, hwf2, hw2, hh2, hg2⟩ := ih (sy0 + 1) b1 hwf1 (by omega)
      (by rw [hh1]; omega)
      (fun sy h1 h2 => by
        rw [hh1]
        exact hcross sy (by omega) (by omega))
    unfold raster_rows
    rw [hr]
    simp only [Outcome.ok_bind]
    refine ⟨b2, hrs, hwf2, by rw [hw2, hw1], by rw [hh2, hh1], ?_⟩
    intro x1 y1
    rw [hg2, hg1, hw1, hh1]
    constructor
    · rintro ((h | ⟨h1, h2, h3⟩) | ⟨h1, h2, h3⟩)
      · exact Or.inl h
      · exact Or.inr ⟨by omega, by omega, x0, by rw [h1]; exact hx0, h2, h3⟩
      · exact Or.inr ⟨by omega, by omega, h3⟩
    · rintro (h | ⟨h1, h2, xi, h3, h4, h5⟩)
      · exact Or.inl (Or.inl h)
      · by_cases he : y1 = sy0
        · subst he
          rw [hx0] at h3
          have hxi : x0 = xi := by
            injection h3
          subst hxi
          exact Or.inl (Or.inr ⟨rfl, h4, h5⟩)
        · exact Or.inr ⟨by omega, by omega, xi, h3, h4, h5⟩

theorem span_cols_of_range (w : Int) (hw : 0 < w) (conv : ℚ → Int) (p : ℚ × ℚ) :
    0 ≤ (span_cols_of w conv p).1 ∧ (span_cols_of w conv p).1 ≤ w - 1 ∧
    0 ≤ (span_cols_of w conv p).2 ∧ (span_cols_of w conv p).2 ≤ w - 1 := by
  unfold span_cols_of clampInt
  simp only
  refine ⟨?_, ?_, ?_, ?_⟩ <;> split_ifs <;> omega

/-- With the exact product and sum for the conversion, the span loop is the one
of the embedding of `RasterOutline`. -/
theorem fill_spans_eq_fill_loop (sy : Int) (scale off_x : ℚ) :
    ∀ (ts : List ℚ) (b : BitPlane),
      fill_spans sy scale off_x (span_pairs ts) b =
        fill_loop sy (fun t => trunc (t * scale + off_x)) ts b := by
  intro ts
  induction ts using span_pairs.induct with
  | case1 a c rest ih =>
    intro b
    simp only [span_pairs, fill_spans, fill_loop]
    have hc : span_cols b.w scale off_x (a, c) =
        span_cols_of b.w (fun t => trunc (t * scale + off_x)) (a, c) := rfl
    rw [hc]
    cases set_run sy _ _ b with
    | ok b1 => simp only [Outcome.ok_bind]; exact ih b1
    | bounds => rfl
    | fuel => rfl
  | case2 t hne =>
    intro b
    match t, hne with
    | [], _ => rfl
    | [_], _ => rfl
    | a :: c :: rest, hne => exact absurd rfl (hne a c rest)

/-- One round of the loop over the scanlines in the embedding of `RasterOutline`
is the span loop on the vector of the scanline, with the exact product and sum
for the conversion. -/
theorem raster_row_eq_fill_loop (fuel : Nat) (g : ttf.GlyphContour) (sy : Int) (b : BitPlane)
    (x_int : List ℚ)
    (hx : row_crossings fuel g (py_unit g b.h sy) g.contours.length 0 [] = .ok x_int) :
    raster_row fuel g sy b =
      fill_loop sy (fun t => trunc (t * raster_scale g + raster_off_x g))
        (if x_int.length < 2 then x_int else sorted_dedup x_int) b := by
  unfold raster_row
  rw [hx]
  simp only [Outcome.ok_bind]
  by_cases hlen : x_int.length < 2
  · rw [if_pos hlen, if_pos hlen]
    match x_int, hlen with
    | [], _ => rfl
    | [_], _ => rfl
  · rw [if_neg hlen, if_neg hlen]
    exact fill_spans_eq_fill_loop sy _ _ _ b

/-- The span loop returns and sets exactly the bits of the spans, in the row of
the scanline. -/
theorem fill_loop_spec (sy : Int) (conv : ℚ → Int) :
    ∀ (ts : List ℚ) (b : BitPlane), b.wf → 0 ≤ sy → sy < b.h →
      ∃ b1, fill_loop sy conv ts b = .ok b1 ∧ b1.wf ∧ b1.w = b.w ∧ b1.h = b.h ∧
        ∀ x1 y1, b1.Get x1 y1 = true ↔
          (b.Get x1 y1 = true ∨
            (y1 = sy ∧ in_spans ((span_pairs ts).map (span_cols_of b.w conv)) x1)) := by
  intro ts
  induction ts using span_pairs.induct with
  | case1 a c rest ih =>
    intro b hwf hy0 hy
    obtain ⟨c1, c2, c3, c4⟩ := span_cols_of_range b.w hwf.1 conv (a, c)
    obtain ⟨b1, hr, hwf1, hw1, hh1, hg1⟩ := set_run_spec sy
      ((span_cols_of b.w conv (a, c)).2 - (span_cols_of b.w conv (a, c)).1 + 1).toNat
      (span_cols_of b.w conv (a, c)).1 b hwf hy0 hy c1 (by omega)
    obtain ⟨b2, hf, hwf2, hw2, hh2, hg2⟩ := ih b1 hwf1 hy0 (by rw [hh1]; exact hy)
    unfold fill_loop
    rw [hr]
    simp only [Outcome.ok_bind]
    refine ⟨b2, hf, hwf2, by rw [hw2, hw1], by rw [hh2, hh1], ?_⟩
    intro x1 y1
    rw [hg2, hg1, hw1]
    simp only [Bool.or_eq_true, decide_eq_true_eq, in_spans, span_pairs, List.map_cons,
      List.mem_cons, exists_eq_or_imp]
    constructor
    · rintro ((h | ⟨h1, h2, h3⟩) | ⟨h1, h2⟩)
      · exact Or.inl h
      · exact Or.inr ⟨h1, Or.inl ⟨h2, by omega⟩⟩
      · exact Or.inr ⟨h1, Or.inr h2⟩
    · rintro (h | ⟨h1, (⟨h2, h3⟩ | h2)⟩)
      · exact Or.inl (Or.inl h)
      · exact Or.inl (Or.inr ⟨h1, h2, by omega⟩)
      · exact Or.inr ⟨h1, h2⟩
  | case2 t hne =>
    intro b hwf _ _
    have hsp : span_pairs t = [] := by
      match t, hne with
      | [], _ => rfl
      | [_], _ => rfl
      | a :: c :: rest, hne => exact absurd rfl (hne a c rest)
    have hfl : fill_loop sy conv t b = .ok b := by
      match t, hne with
      | [], _ => rfl
      | [_], _ => rfl
      | a :: c :: rest, hne => exact absurd rfl (hne a c rest)
    refine ⟨b, hfl, hwf, rfl, rfl, ?_⟩
    intro x1 y1
    rw [hsp]
    simp [in_spans]

/-- The loop over the scanlines `sy0 .. sy0 + n - 1` returns and sets exactly
the bits of the spans of these rows. -/
theorem fill_rows_spec (conv : ℚ → Int) (rows : Int → List ℚ) :
    ∀ (n : Nat) (sy0 : Int) (b : BitPlane), b.wf → 0 ≤ sy0 → sy0 + n ≤ b.h →
      ∃ b1, fill_rows conv rows n sy0 b = .ok b1 ∧ b1.wf ∧ b1.w = b.w ∧ b1.h = b.h ∧
        ∀ x1 y1, b1.Get x1 y1 = true ↔
          (b.Get x1 y1 = true ∨ (sy0 ≤ y1 ∧ y1 < sy0 + n ∧
            in_spans ((span_pairs (rows y1)).map (span_cols_of b.w conv)) x1)) := by
  intro n
  induction n with
  | zero =>
    intro sy0 b hwf _ _
    refine ⟨b, rfl, hwf, rfl, rfl, ?_⟩
    intro x1 y1
    constructor
    · exact fun h => Or.inl h
    · rintro (h | ⟨h1, h2, _⟩)
      · exact h
      · simp only [Nat.cast_zero, add_zero] at h2
        omega
  | succ n ih =>
    intro sy0 b hwf hy0 hn
    have hcast : ((n + 1 : Nat) : Int) = (n : Int) + 1 := by push_cast; rfl
    rw [hcast] at hn ⊢
    obtain ⟨b1, hr, hwf1, hw1, hh1, hg1⟩ := fill_loop_spec sy0 conv (rows sy0) b hwf hy0
      (by omega)
    obtain ⟨b2, hrs, hwf2, hw2, hh2, hg2⟩ := ih (sy0 + 1) b1 hwf1 (by omega)
      (by rw [hh1]; omega)
    unfold fill_rows
    rw [hr]
    simp only [Outcome.ok_bind]
    refine ⟨b2, hrs, hwf2, by rw [hw2, hw1], by rw [hh2, hh1], ?_⟩
    intro x1 y1
    rw [hg2, hg1, hw1]
    constructor
    · rintro ((h | ⟨h1, h2⟩) | ⟨h1, h2, h3⟩)
      · exact Or.inl h
      · exact Or.inr ⟨by omega, by omega, by rw [h1]; exact h2⟩
      · exact Or.inr ⟨by omega, by omega, h3⟩
    · rintro (h | ⟨h1, h2, h3⟩)
      · exact Or.inl (Or.inl h)
      · by_cases he : y1 = sy0
        · subst he
          exact Or.inl (Or.inr ⟨rfl, h3⟩)
        · exact Or.inr ⟨by omega, by omega, h3⟩

/-- The new bitplane of `Worker` is as its constructor builds it. -/
theorem BitPlane_new_wf : (BitPlane.new hi_side hi_side).wf := by
  refine ⟨by decide, by decide, rfl, ?_⟩
  simp only [BitPlane.new, List.length_replicate]
  decide

/-- The polygon of the triangle. -/
theorem contour_poly_triangle (fuel : Nat) :
    contour_poly fuel ttf.triangle 0 =
      .ok [(0, 0), (10, 0), (10, 0), (10, 10), (10, 10), (0, 0)] := by
  have h : ∀ (fuel : Nat), poly_loop fuel ttf.triangle.segments 3 0 [] =
      .ok [(0, 0), (10, 0), (10, 0), (10, 10), (10, 10), (0, 0)] := by
    intro fuel
    simp [poly_loop, ttf.triangle, ttf.vecAt]
    norm_num
  unfold contour_poly
  have h1 : ttf.vecAt ttf.triangle.contours 0 = .ok 0 := rfl
  have h2 : ttf.triangle.contours.length = 1 := rfl
  have h3 : ttf.triangle.segments.length = 3 := rfl
  rw [h1, h2]
  simp only [Outcome.ok_bind, Nat.zero_add, if_true, h3]
  exact h fuel

/-- The intersections of the triangle with any scanline can be computed. -/
theorem row_crossings_triangle (fuel : Nat) (py : Option ℚ) :
    ∃ x_int, row_crossings fuel ttf.triangle py ttf.triangle.contours.length 0 [] = .ok x_int := by
  have h2 : ttf.triangle.contours.length = 1 := rfl
  rw [h2]
  unfold row_crossings
  rw [contour_poly_triangle]
  simp only [Outcome.ok_bind]
  rw [if_neg (by simp)]
  unfold row_crossings
  exact ⟨_, rfl⟩

/-- C30. Even-odd span fill, for a bitplane `bmp` as its constructor builds it.
Let `rows sy` be the sorted and deduplicated vector `t_0, t_1, ...` of
intersection abscissae that the program has for the scanline `sy` in front of
the span loop, and `conv t` the value of `int(t * scale + off_x)` as the program
computes it (`float` product, `float` sum, truncation): whatever these values
are, the loop over the scanlines returns, and for each scanline `sy` the bits
set in that row are exactly the bits that were set before and the union over
the even `2 k` with `2 k + 1 < m` of the columns from
`clamp(conv t_{2k}, 0, w - 1)` to `clamp(conv t_{2k+1}, 0, w - 1)` inclusive; a
last intersection without a partner sets nothing, a vector of fewer than 2
entries sets nothing; no bit outside the rows `0 ≤ sy < h` changes; and every
column handed to `Set` lies in `0 .. w - 1`, in a row `0 ≤ sy < h`. -/
theorem C30_even_odd_span_fill (conv : ℚ → Int) (rows : Int → List ℚ) (bmp : BitPlane)
    (hwf : bmp.wf) :
    ∃ b1, fill_rows conv rows bmp.h.toNat 0 bmp = .ok b1 ∧ b1.w = bmp.w ∧ b1.h = bmp.h ∧
      (∀ x y, (y < 0 ∨ bmp.h ≤ y) → b1.Get x y = bmp.Get x y) ∧
      (∀ sy, 0 ≤ sy → sy < bmp.h →
        (∀ x, b1.Get x sy = true ↔
          (bmp.Get x sy = true ∨ ∃ k a c, 2 * k + 1 < (rows sy).length ∧
            (rows sy)[2 * k]? = some a ∧ (rows sy)[2 * k + 1]? = some c ∧
            clampInt (conv a) 0 (bmp.w - 1) ≤ x ∧ x ≤ clampInt (conv c) 0 (bmp.w - 1))) ∧
        ((rows sy).length < 2 → ∀ x, b1.Get x sy = bmp.Get x sy)) ∧
      (∀ a, 0 ≤ clampInt (conv a) 0 (bmp.w - 1) ∧ clampInt (conv a) 0 (bmp.w - 1) < bmp.w) := by
  have hh : ((bmp.h.toNat : Nat) : Int) = bmp.h := Int.toNat_of_nonneg hwf.2.1
  obtain ⟨b1, hr, hwf1, hw1, hh1, hg1⟩ := fill_rows_spec conv rows bmp.h.toNat 0 bmp hwf
    (le_refl _) (by omega)
  have hiff : ∀ sy, 0 ≤ sy → sy < bmp.h → ∀ x, b1.Get x sy = true ↔
      (bmp.Get x sy = true ∨ ∃ k a c, 2 * k + 1 < (rows sy).length ∧
        (rows sy)[2 * k]? = some a ∧ (rows sy)[2 * k + 1]? = some c ∧
        clampInt (conv a) 0 (bmp.w - 1) ≤ x ∧ x ≤ clampInt (conv c) 0 (bmp.w - 1)) := by
    intro sy hy0 hy x
    rw [hg1]
    constructor
    · rintro (h | ⟨_, _, c, hc, h5⟩)
      · exact Or.inl h
      · obtain ⟨p, hp, rfl⟩ := List.mem_map.mp hc
        obtain ⟨k, k1, k2, k3⟩ := (span_pairs_mem _ p).mp hp
        exact Or.inr ⟨k, p.1, p.2, k1, k2, k3, h5.1, h5.2⟩
    · rintro (h | ⟨k, a, c, k1, k2, k3, k4, k5⟩)
      · exact Or.inl h
      · refine Or.inr ⟨hy0, by omega, ?_⟩
        exact ⟨span_cols_of bmp.w conv (a, c),
          List.mem_map.mpr ⟨(a, c), (span_pairs_mem _ (a, c)).mpr ⟨k, k1, k2, k3⟩, rfl⟩, k4, k5⟩
  have hbool : ∀ (p q : Bool), (p = true ↔ q = true) → p = q := by
    intro p q h
    cases p <;> cases q <;> simp_all
  refine ⟨b1, hr, hw1, hh1, ?_, ?_, ?_⟩
  · intro x y hy
    apply hbool
    rw [hg1]
    constructor
    · rintro (h | ⟨h2, h3, _⟩)
      · exact h
      · omega
    · exact fun h => Or.inl h
  · intro sy hy0 hy
    refine ⟨hiff sy hy0 hy, ?_⟩
    intro hlen x
    apply hbool
    rw [hiff sy hy0 hy x]
    constructor
    · rintro (h | ⟨k, _, _, k1, _⟩)
      · exact h
      · omega
    · exact fun h => Or.inl h
  · intro a
    obtain ⟨c1, c2, _, _⟩ := span_cols_of_range bmp.w hwf.1 conv (a, a)
    exact ⟨c1, by
      have : (span_cols_of bmp.w conv (a, a)).1 = clampInt (conv a) 0 (bmp.w - 1) := rfl
      omega⟩

/-- C30, witness: the new bitplane of `Worker`, the vector `1, 5, 9` for the
scanline 3 and the empty vector for the others, the conversion with the scale 2
and the offset 16. -/
theorem C30_even_odd_span_fill_witness :
    (BitPlane.new hi_side hi_side).wf ∧
    ∃ b1, fill_rows (fun t => trunc (t * 2 + 16)) (fun sy => if sy = 3 then [1, 5, 9] else [])
        (BitPlane.new hi_side hi_side).h.toNat 0 (BitPlane.new hi_side hi_side) = .ok b1 ∧
      b1.w = (BitPlane.new hi_side hi_side).w ∧ b1.h = (BitPlane.new hi_side hi_side).h ∧
      (∀ x y, (y < 0 ∨ (BitPlane.new hi_side hi_side).h ≤ y) →
        b1.Get x y = (BitPlane.new hi_side hi_side).Get x y) ∧
      (∀ sy, 0 ≤ sy → sy < (BitPlane.new hi_side hi_side).h →
        (∀ x, b1.Get x sy = true ↔
          ((BitPlane.new hi_side hi_side).Get x sy = true ∨
            ∃ k a c, 2 * k + 1 < ((fun sy => if sy = 3 then [1, 5, 9] else []) sy : List ℚ).length ∧
            ((fun sy => if sy = 3 then [1, 5, 9] else []) sy : List ℚ)[2 * k]? = some a ∧
            ((fun sy => if sy = 3 then [1, 5, 9] else []) sy : List ℚ)[2 * k + 1]? = some c ∧
            clampInt ((fun t => trunc (t * 2 + 16)) a) 0
              ((BitPlane.new hi_side hi_side).w - 1) ≤ x ∧
            x ≤ clampInt ((fun t => trunc (t * 2 + 16)) c) 0
              ((BitPlane.new hi_side hi_side).w - 1))) ∧
        (((fun sy => if sy = 3 then [1, 5, 9] else []) sy : List ℚ).length < 2 →
          ∀ x, b1.Get x sy = (BitPlane.new hi_side hi_side).Get x sy)) ∧
      (∀ a, 0 ≤ clampInt ((fun t => trunc (t * 2 + 16)) a) 0
          ((BitPlane.new hi_side hi_side).w - 1) ∧
        clampInt ((fun t => trunc (t * 2 + 16)) a) 0 ((BitPlane.new hi_side hi_side).w - 1) <
          (BitPlane.new hi_side hi_side).w) :=
  ⟨BitPlane_new_wf, C30_even_odd_span_fill (fun t => trunc (t * 2 + 16))
    (fun sy => if sy = 3 then [1, 5, 9] else []) (BitPlane.new hi_side hi_side) BitPlane_new_wf⟩

/-! ## The copy of a tile into the atlas -/

/-- The call of `memcpy` on a range inside the vector returns; it replaces the
bytes of the range and leaves the others. -/
theorem memcpy_spec (dst : List Nat) (pos : Int) (src : List Nat) (h0 : 0 ≤ pos)
    (h1 : pos + src.length ≤ dst.length) :
    ∃ r, memcpy dst pos src = .ok r ∧ r.length = dst.length ∧
      ∀ p : Nat, r[p]? =
        if pos ≤ p ∧ (p : Int) < pos + src.length then src[p - pos.toNat]? else dst[p]? := by
  unfold memcpy
  rw [if_pos ⟨h0, h1⟩]
  obtain ⟨s, rfl⟩ : ∃ s : Nat, pos = (s : Int) := ⟨pos.toNat, (Int.toNat_of_nonneg h0).symm⟩
  have h1n : s + src.length ≤ dst.length := by omega
  simp only [Int.toNat_ofNat]
  refine ⟨_, rfl, ?_, ?_⟩
  · simp only [List.length_append, List.length_take, List.length_drop]
    omega
  · intro p
    by_cases hp1 : p < s
    · rw [if_neg (by omega), List.append_assoc,
        List.getElem?_append_left (by rw [List.length_take]; omega), List.getElem?_take_of_lt hp1]
    · by_cases hp2 : p < s + src.length
      · rw [if_pos ⟨by omega, by omega⟩, List.append_assoc,
          List.getElem?_append_right (by rw [List.length_take]; omega), List.length_take,
          Nat.min_eq_left (by omega), List.getElem?_append_left (by omega)]
      · rw [if_neg (by omega), List.getElem?_append_right (by
            rw [List.length_append, List.length_take]
            omega)]
        rw [List.length_append, List.length_take, Nat.min_eq_left (by omega), List.getElem?_drop]
        congr 1
        omega

/-- A row of the vector `sdf`. -/
theorem sdf_row (sdf : List Nat) (y : Nat) (hlen : y * 24 + 24 ≤ sdf.length) :
    ((sdf.drop (y * 24)).take 24).length = 24 ∧
    ∀ x, x < 24 → ((sdf.drop (y * 24)).take 24)[x]? = some (sdf.getD (y * 24 + x) 0) := by
  refine ⟨?_, ?_⟩
  · rw [List.length_take, List.length_drop]
    omega
  · intro x hx
    rw [List.getElem?_take_of_lt hx, List.getElem?_drop, List.getD_eq_getElem?_getD,
      List.getElem?_eq_getElem (by omega)]
    rfl

/-- The loop that copies the rows `y0 .. y0 + n - 1` of a tile that lies inside
the atlas returns; it replaces the bytes of these rows of the tile and leaves
the others. -/
theorem blit_loop_spec (m : GlyphMeta) (sdf : List Nat) (hsdf : sdf.length = 576) :
    ∀ (n : Nat) (y0 : Nat) (atlas : List Nat), y0 + n ≤ 24 →
      0 ≤ blit_index m 0 0 → blit_index m 0 0 + 23 * 1024 + 24 ≤ atlas.length →
      ∃ r, blit_loop m sdf n y0 atlas = .ok r ∧ r.length = atlas.length ∧
        ∀ p : Nat, r[p]? =
          if 0 ≤ (p : Int) - blit_index m 0 0 ∧ (y0 : Int) ≤ ((p : Int) - blit_index m 0 0) / 1024 ∧
              ((p : Int) - blit_index m 0 0) / 1024 < y0 + n ∧
              ((p : Int) - blit_index m 0 0) % 1024 < 24 then
            some (sdf.getD (((p : Int) - blit_index m 0 0) / 1024 * 24 +
              ((p : Int) - blit_index m 0 0) % 1024).toNat 0)
          else atlas[p]? := by
  intro n
  induction n with
  | zero =>
    intro y0 atlas _ _ _
    refine ⟨atlas, rfl, rfl, ?_⟩
    intro p
    rw [if_neg]
    rintro ⟨_, h2, h3, _⟩
    simp only [Nat.cast_zero, add_zero] at h3
    omega
  | succ n ih =>
    intro y0 atlas hy hb0 hb1
    have hrow : blit_index m 0 (y0 : Int) = blit_index m 0 0 + (y0 : Int) * 1024 := by
      simp only [blit_index, kBorderPX, kAtlasW]
      ring
    have hlo : (((y0 : Int) * lo_side).toNat) = y0 * 24 := by
      simp only [lo_side, kGlyphPX, kBorderPX]
      omega
    have hlo2 : lo_side.toNat = 24 := by decide
    obtain ⟨r1, r2⟩ := sdf_row sdf y0 (by omega)
    obtain ⟨a1, hm1, hl1, hg1⟩ := memcpy_spec atlas (blit_index m 0 (y0 : Int))
      ((sdf.drop (y0 * 24)).take 24) (by rw [hrow]; positivity)
      (by rw [hrow, r1]; push_cast; omega)
    obtain ⟨r, hr, hl, hg⟩ := ih (y0 + 1) a1 (by omega) hb0 (by rw [hl1]; exact hb1)
    unfold blit_loop
    rw [hlo, hlo2, hm1]
    simp only [Outcome.ok_bind]
    have hcast : ((y0 + 1 : Nat) : Int) = (y0 : Int) + 1 := by push_cast; rfl
    rw [hcast] at hr
    refine ⟨r, hr, by rw [hl, hl1], ?_⟩
    intro p
    rw [hg p, hg1 p, hrow, r1]
    have hcast2 : ((n + 1 : Nat) : Int) = (n : Int) + 1 := by push_cast; rfl
    rw [hcast, hcast2]
    generalize blit_index m 0 0 = base at hb0 hb1 ⊢
    by_cases hlater : 0 ≤ (p : Int) - base ∧ (y0 : Int) + 1 ≤ ((p : Int) - base) / 1024 ∧
        ((p : Int) - base) / 1024 < (y0 : Int) + 1 + n ∧ ((p : Int) - base) % 1024 < 24
    · rw [if_pos hlater, if_pos ⟨hlater.1, by omega, by omega, hlater.2.2.2⟩]
    · rw [if_neg hlater]
      by_cases hthis : base + (y0 : Int) * 1024 ≤ p ∧
          (p : Int) < base + (y0 : Int) * 1024 + ((24 : Nat) : Int)
      · rw [if_pos hthis]
        have hq : ((p : Int) - base) / 1024 = y0 ∧ ((p : Int) - base) % 1024 < 24 ∧
            0 ≤ ((p : Int) - base) % 1024 := by
          push_cast at hthis
          omega
        rw [if_pos ⟨by omega, by omega, by omega, hq.2.1⟩]
        have hx : p - (base + (y0 : Int) * 1024).toNat < 24 := by
          push_cast at hthis
          omega
        rw [r2 _ hx]
        congr 2
        push_cast at hthis
        omega
      · rw [if_neg hthis, if_neg]
        rintro ⟨h1, h2, h3, h4⟩
        apply hthis
        push_cast
        by_cases hy0 : ((p : Int) - base) / 1024 = y0
        · omega
        · exfalso
          apply hlater
          exact ⟨h1, by omega, by omega, h4⟩

/-- The loop that copies a tile which lies inside the atlas returns; it replaces
the bytes of the tile and leaves the others. -/
theorem blit_spec (m : GlyphMeta) (sdf : List Nat) (atlas : List Nat) (hsdf : sdf.length = 576)
    (hb0 : 0 ≤ blit_index m 0 0) (hb1 : blit_index m 0 0 + 23 * 1024 + 24 ≤ atlas.length) :
    ∃ r, blit m sdf atlas = .ok r ∧ r.length = atlas.length ∧
      ∀ p : Nat, r[p]? = match tile_byte m sdf p with
        | some v => some v
        | none => atlas[p]? := by
  obtain ⟨r, hr, hl, hg⟩ := blit_loop_spec m sdf hsdf 24 0 atlas (by omega) hb0 hb1
  refine ⟨r, hr, hl, ?_⟩
  intro p
  rw [hg p]
  unfold tile_byte
  simp only [kAtlasW, lo_side, kGlyphPX, kBorderPX]
  generalize blit_index m 0 0 = base
  by_cases h : 0 ≤ (p : Int) - base ∧ ((p : Int) - base) / 1024 < 24 ∧
      ((p : Int) - base) % 1024 < 24
  · rw [if_pos ⟨h.1, by omega, by omega, h.2.2⟩, if_pos (by simpa using h)]
    rfl
  · rw [if_neg (fun h1 => h ⟨h1.1, by omega, h1.2.2.2⟩), if_neg (by simpa using h)]

/-- The tile of glyph number `k` lies inside the atlas, for at most 393204
requested code points. -/
theorem tile_in_atlas (cps : List Nat) (k c : Nat) (hk : k < cps.length)
    (hn : cps.length ≤ 393204) :
    0 ≤ blit_index (meta_at k c) 0 0 ∧
    blit_index (meta_at k c) 0 0 + 23 * 1024 + 24 ≤ ((atlas_init cps).length : Int) := by
  have hv := meta_at_v_ge k c (by omega)
  have hu := meta_at_u k c
  have hlen : ((atlas_init cps).length : Int) = 1024 * (32 + 28 * (((cps.length - 1) / 42 : Nat) : Int)) := by
    unfold atlas_init
    rw [List.length_replicate, atlas_h_closed]
    simp only [pack_state_after, kAtlasW]
    rw [if_neg (by omega)]
    dsimp only
    omega
  rw [hlen]
  simp only [blit_index, kBorderPX, kAtlasW]
  omega

/-- The atlas index `p` lies in the tile of `m`, whatever the vector `sdf`. -/
theorem tile_byte_isSome (m : GlyphMeta) (sdf sdf1 : List Nat) (p : Nat) :
    tile_byte m sdf p = none ↔ tile_byte m sdf1 p = none := by
  unfold tile_byte
  dsimp only
  split_ifs <;> simp

/-- The tiles of two glyphs do not share an atlas index, for at most 98322
requested code points. -/
theorem tile_byte_disjoint (k1 k2 c1 c2 : Nat) (sdf1 sdf2 : List Nat) (p v : Nat)
    (h1 : k1 < 98322) (h2 : k2 < 98322) (hne : k1 ≠ k2)
    (hp : tile_byte (meta_at k1 c1) sdf1 p = some v) :
    tile_byte (meta_at k2 c2) sdf2 p = none := by
  unfold tile_byte at hp ⊢
  simp only [blit_index, kAtlasW, lo_side, kGlyphPX, kBorderPX, meta_at_u,
    meta_at_v_small k1 c1 h1, meta_at_v_small k2 c2 h2] at hp ⊢
  split_ifs at hp with hc
  rw [if_neg]
  push_cast at hc ⊢
  rintro ⟨g1, g2, g3⟩
  obtain ⟨c1, c2, c3⟩ := hc
  have hrow : k1 / 42 = k2 / 42 := by omega
  have hfd : ((p : Int) - ((8 + 28 * ((k1 : Int) / 42) - 4 + 0) * 1024 +
        (8 + 24 * ((k1 : Int) % 42) - 4) + 0)) / 1024 =
      ((p : Int) - ((8 + 28 * ((k2 : Int) / 42) - 4 + 0) * 1024 +
        (8 + 24 * ((k2 : Int) % 42) - 4) + 0)) / 1024 := by omega
  have hcol : k1 % 42 = k2 % 42 := by omega
  omega

/-- The atlas index of the pixel `(px, py)` lies in the tile of `m` exactly when
the pixel lies in the tile region. -/
theorem tile_byte_in_tile (m : GlyphMeta) (sdf : List Nat) (px py : Int) (hx0 : 0 ≤ px)
    (hx1 : px < 1024) (hy0 : 0 ≤ py) (hu : (m.u : Int) - 4 + 24 ≤ 1024) (hu0 : 4 ≤ m.u) :
    tile_byte m sdf (py * 1024 + px).toNat ≠ none ↔ in_tile m px py := by
  unfold tile_byte in_tile
  simp only [blit_index, kAtlasW, lo_side, kGlyphPX, kBorderPX]
  have e : (((py * 1024 + px).toNat : Nat) : Int) = py * 1024 + px := Int.toNat_of_nonneg (by omega)
  rw [e]
  by_cases hc : 0 ≤ py * 1024 + px - (((m.v : Int) - 4 + 0) * 1024 + ((m.u : Int) - 4) + 0) ∧
      (py * 1024 + px - (((m.v : Int) - 4 + 0) * 1024 + ((m.u : Int) - 4) + 0)) / 1024 < 16 + 2 * 4 ∧
      (py * 1024 + px - (((m.v : Int) - 4 + 0) * 1024 + ((m.u : Int) - 4) + 0)) % 1024 < 16 + 2 * 4
  · rw [if_pos hc]
    refine ⟨fun _ => by omega, fun _ => by simp⟩
  · rw [if_neg hc]
    refine ⟨fun h => absurd rfl h, fun h => ?_⟩
    exfalso
    apply hc
    omega

/-- The vector `sdf` of `Worker` has 576 entries. -/
theorem glyph_sdf_length (f : ttf.FontLoader) (fill : ttf.GlyphContour → BitPlane → BitPlane)
    (sqrtf : ℚ → ℚ) (fuel cp : Nat) (sdf : List Nat)
    (h : glyph_sdf f fill sqrtf fuel cp = .ok (some sdf)) : sdf.length = 576 := by
  unfold glyph_sdf at h
  cases hg : ttf.GlyphId f fuel cp with
  | bounds => rw [hg] at h; exact absurd h (by simp [bind])
  | fuel => rw [hg] at h; exact absurd h (by simp [bind])
  | ok gid =>
    rw [hg] at h
    simp only [Outcome.ok_bind] at h
    split_ifs at h with h0
    · exact absurd h (by simp [pure])
    · cases he : ttf.Extract f fuel gid with
      | bounds => rw [he] at h; exact absurd h (by simp [bind])
      | fuel => rw [he] at h; exact absurd h (by simp [bind])
      | ok outline =>
        rw [he] at h
        simp only [Outcome.ok_bind, pure, Outcome.ok.injEq, Option.some.injEq] at h
        rw [← h]
        simp [Worker_sdf, sdf_tile, lo_side, kGlyphPX, kBorderPX]

/-- A round of `Worker` for a code point whose glyph id is 0 leaves the atlas
as it is. -/
theorem Worker_step_gid0 (f : ttf.FontLoader) (fill : ttf.GlyphContour → BitPlane → BitPlane)
    (sqrtf : ℚ → ℚ) (fuel : Nat) (cps : List Nat) (ms : List GlyphMeta) (idx cp : Nat)
    (atlas : List Nat) (hcp : cps[idx]? = some cp) (hgid : ttf.GlyphId f fuel cp = .ok 0) :
    Worker_step f fill sqrtf fuel cps ms idx atlas = .ok atlas := by
  unfold Worker_step glyph_sdf ttf.vecAt
  rw [hcp]
  simp only [Outcome.ok_bind]
  rw [hgid]
  rfl

/-- A round of `Worker` for an index of the request returns when the glyph
computation does, for at most 393204 requested code points; every byte of the
atlas is the byte that the round writes there, or else the byte from before. -/
theorem Worker_step_spec (f : ttf.FontLoader) (fill : ttf.GlyphContour → BitPlane → BitPlane)
    (sqrtf : ℚ → ℚ) (fuel : Nat) (cps : List Nat) (hn : cps.length ≤ 393204)
    (hret : ∀ c ∈ cps, ∃ t, glyph_sdf f fill sqrtf fuel c = .ok t)
    (k : Nat) (hk : k < cps.length) (atlas : List Nat)
    (hlen : atlas.length = (atlas_init cps).length) :
    ∃ r, Worker_step f fill sqrtf fuel cps (metas cps) k atlas = .ok r ∧
      r.length = atlas.length ∧
      ∀ p : Nat, r[p]? = match tile_of f fill sqrtf fuel cps k p with
        | some v => some v
        | none => atlas[p]? := by
  have hc : cps[k]? = some cps[k] := List.getElem?_eq_getElem hk
  have hm : (metas cps)[k]? = some (meta_at k cps[k]) := by rw [metas_getElem?, hc]; rfl
  obtain ⟨t, ht⟩ := hret cps[k] (List.getElem_mem hk)
  unfold Worker_step tile_of ttf.vecAt
  rw [hc, hm]
  simp only [Outcome.ok_bind]
  rw [ht]
  simp only [Outcome.ok_bind]
  cases t with
  | none => exact ⟨atlas, rfl, rfl, fun _ => rfl⟩
  | some sdf =>
    obtain ⟨h0, h1⟩ := tile_in_atlas cps k cps[k] hk hn
    exact blit_spec (meta_at k cps[k]) sdf atlas (glyph_sdf_length f fill sqrtf fuel _ sdf ht) h0
      (by rw [hlen]; exact h1)

/-- The run over the indices of `order` is the run over all but the last of
them, and then the round for the last. -/
theorem run_order_append (f : ttf.FontLoader) (fill : ttf.GlyphContour → BitPlane → BitPlane)
    (sqrtf : ℚ → ℚ) (fuel : Nat) (cps : List Nat) (ms : List GlyphMeta) (order : List Nat)
    (k : Nat) (atlas : List Nat) :
    run_order f fill sqrtf fuel cps ms (order ++ [k]) atlas =
      run_order f fill sqrtf fuel cps ms order atlas >>= Worker_step f fill sqrtf fuel cps ms k := by
  unfold run_order
  rw [List.foldl_append]
  rfl

/-- A run over indices of the request returns when the glyph computations do,
for at most 393204 requested code points; every byte of the atlas is the byte
of the last round that wrote there, or else the byte from before. -/
theorem run_order_spec (f : ttf.FontLoader) (fill : ttf.GlyphContour → BitPlane → BitPlane)
    (sqrtf : ℚ → ℚ) (fuel : Nat) (cps : List Nat) (hn : cps.length ≤ 393204)
    (hret : ∀ c ∈ cps, ∃ t, glyph_sdf f fill sqrtf fuel c = .ok t) (atlas : List Nat)
    (hlen : atlas.length = (atlas_init cps).length) (order : List Nat) :
    (∀ k ∈ order, k < cps.length) →
    ∃ final, run_order f fill sqrtf fuel cps (metas cps) order atlas = .ok final ∧
      final.length = atlas.length ∧
      ∀ p : Nat, final[p]? = match last_write f fill sqrtf fuel cps order p with
        | some v => some v
        | none => atlas[p]? := by
  induction order using List.reverseRecOn with
  | nil =>
    intro _
    exact ⟨atlas, rfl, rfl, fun _ => rfl⟩
  | append_singleton order k ih =>
    intro hall
    obtain ⟨a1, h1, hl1, hg1⟩ := ih (fun j hj => hall j (List.mem_append_left _ hj))
    obtain ⟨r, hr, hl, hg⟩ := Worker_step_spec f fill sqrtf fuel cps hn hret k
      (hall k (by simp)) a1 (by rw [hl1, hlen])
    refine ⟨r, ?_, by rw [hl, hl1], ?_⟩
    · rw [run_order_append, h1]
      exact hr
    · intro p
      rw [hg p, hg1 p]
      unfold last_write
      rw [List.reverse_append, List.reverse_singleton, List.singleton_append,
        List.findSome?_cons]
      cases tile_of f fill sqrtf fuel cps k p <;> rfl

/-- The round for a code point whose glyph id is 0 writes nowhere. -/
theorem tile_of_gid0 (f : ttf.FontLoader) (fill : ttf.GlyphContour → BitPlane → BitPlane)
    (sqrtf : ℚ → ℚ) (fuel : Nat) (cps : List Nat) (i cp p : Nat)
    (hcp : cps[i]? = some cp) (hgid : ttf.GlyphId f fuel cp = .ok 0) :
    tile_of f fill sqrtf fuel cps i p = none := by
  have hg : glyph_sdf f fill sqrtf fuel cp = .ok none := by
    unfold glyph_sdf
    rw [hgid]
    rfl
  unfold tile_of
  rw [hcp, metas_getElem?, hcp]
  simp only [Option.map_some']
  rw [hg]

/-- A round writes only inside the tile of its own record. -/
theorem tile_of_some (f : ttf.FontLoader) (fill : ttf.GlyphContour → BitPlane → BitPlane)
    (sqrtf : ℚ → ℚ) (fuel : Nat) (cps : List Nat) (k p v : Nat)
    (h : tile_of f fill sqrtf fuel cps k p = some v) :
    ∃ c sdf, cps[k]? = some c ∧ glyph_sdf f fill sqrtf fuel c = .ok (some sdf) ∧
      tile_byte (meta_at k c) sdf p = some v := by
  unfold tile_of at h
  rw [metas_getElem?] at h
  cases hc : cps[k]? with
  | none => rw [hc] at h; exact absurd h (by simp)
  | some c =>
    rw [hc] at h
    simp only [Option.map_some'] at h
    cases hg : glyph_sdf f fill sqrtf fuel c with
    | bounds => rw [hg] at h; exact absurd h (by simp)
    | fuel => rw [hg] at h; exact absurd h (by simp)
    | ok t =>
      rw [hg] at h
      cases t with
      | none => exact absurd h (by simp)
      | some sdf => exact ⟨c, sdf, rfl, hg, h⟩

/-- At most one index writes at an atlas index, for at most 98322 requested
code points. -/
theorem tile_of_disjoint (f : ttf.FontLoader) (fill : ttf.GlyphContour → BitPlane → BitPlane)
    (sqrtf : ℚ → ℚ) (fuel : Nat) (cps : List Nat) (hn : cps.length ≤ 98322) (k1 k2 p v1 v2 : Nat)
    (h1 : tile_of f fill sqrtf fuel cps k1 p = some v1)
    (h2 : tile_of f fill sqrtf fuel cps k2 p = some v2) : k1 = k2 := by
  obtain ⟨c1, s1, hc1, _, ht1⟩ := tile_of_some f fill sqrtf fuel cps k1 p v1 h1
  obtain ⟨c2, s2, hc2, _, ht2⟩ := tile_of_some f fill sqrtf fuel cps k2 p v2 h2
  have hk1 : k1 < cps.length := by
    by_contra hge
    rw [List.getElem?_eq_none (by omega)] at hc1
    exact absurd hc1 (by simp)
  have hk2 : k2 < cps.length := by
    by_contra hge
    rw [List.getElem?_eq_none (by omega)] at hc2
    exact absurd hc2 (by simp)
  by_contra hne
  have := tile_byte_disjoint k1 k2 c1 c2 s1 s2 p v1 (by omega) (by omega) hne ht1
  rw [this] at ht2
  exact absurd ht2 (by simp)

/-- With at most one writer per atlas index, the last write of a run is the
write of any of its rounds. -/
theorem last_write_eq_some (f : ttf.FontLoader) (fill : ttf.GlyphContour → BitPlane → BitPlane)
    (sqrtf : ℚ → ℚ) (fuel : Nat) (cps : List Nat) (hn : cps.length ≤ 98322) (order : List Nat)
    (p v : Nat) :
    last_write f fill sqrtf fuel cps order p = some v ↔
      ∃ k ∈ order, tile_of f fill sqrtf fuel cps k p = some v := by
  unfold last_write
  constructor
  · intro h
    obtain ⟨k, hk, hv⟩ := List.exists_of_findSome?_eq_some h
    exact ⟨k, List.mem_reverse.mp hk, hv⟩
  · rintro ⟨k, hk, hv⟩
    cases hf : order.reverse.findSome? (fun k => tile_of f fill sqrtf fuel cps k p) with
    | none =>
      have := List.findSome?_eq_none_iff.mp hf k (List.mem_reverse.mpr hk)
      rw [hv] at this
      exact absurd this (by simp)
    | some w =>
      obtain ⟨j, _, hj⟩ := List.exists_of_findSome?_eq_some hf
      have hjk := tile_of_disjoint f fill sqrtf fuel cps hn j k p w v hj hv
      rw [hjk, hv] at hj
      exact hj.symm

/-- The last write of a run depends only on the set of its indices, for at most
98322 requested code points. -/
theorem last_write_perm (f : ttf.FontLoader) (fill : ttf.GlyphContour → BitPlane → BitPlane)
    (sqrtf : ℚ → ℚ) (fuel : Nat) (cps : List Nat) (hn : cps.length ≤ 98322)
    (order1 order2 : List Nat) (hmem : ∀ k, k ∈ order1 ↔ k ∈ order2) (p : Nat) :
    last_write f fill sqrtf fuel cps order1 p = last_write f fill sqrtf fuel cps order2 p := by
  apply Option.ext
  intro v
  simp only [Option.mem_def]
  rw [last_write_eq_some f fill sqrtf fuel cps hn, last_write_eq_some f fill sqrtf fuel cps hn]
  constructor
  · rintro ⟨k, hk, hv⟩
    exact ⟨k, (hmem k).mp hk, hv⟩
  · rintro ⟨k, hk, hv⟩
    exact ⟨k, (hmem k).mpr hk, hv⟩

/-- Two runs over the same set of indices of the request return the same atlas,
for at most 98322 requested code points whose glyph computations return. -/
theorem run_order_perm (f : ttf.FontLoader) (fill : ttf.GlyphContour → BitPlane → BitPlane)
    (sqrtf : ℚ → ℚ) (fuel : Nat) (cps : List Nat) (hn : cps.length ≤ 98322)
    (hret : ∀ c ∈ cps, ∃ t, glyph_sdf f fill sqrtf fuel c = .ok t) (atlas : List Nat)
    (hlen : atlas.length = (atlas_init cps).length) (order1 order2 : List Nat)
    (h1 : ∀ k ∈ order1, k < cps.length) (hmem : ∀ k, k ∈ order1 ↔ k ∈ order2) :
    ∃ final, run_order f fill sqrtf fuel cps (metas cps) order1 atlas = .ok final ∧
      run_order f fill sqrtf fuel cps (metas cps) order2 atlas = .ok final ∧
      final.length = atlas.length := by
  obtain ⟨a1, r1, l1, g1⟩ := run_order_spec f fill sqrtf fuel cps (by omega) hret atlas hlen
    order1 h1
  obtain ⟨a2, r2, l2, g2⟩ := run_order_spec f fill sqrtf fuel cps (by omega) hret atlas hlen
    order2 (fun k hk => h1 k ((hmem k).mpr hk))
  have e : a2 = a1 := by
    apply List.ext_getElem?
    intro p
    rw [g1 p, g2 p, last_write_perm f fill sqrtf fuel cps hn order1 order2 hmem p]
  rw [e] at r2
  exact ⟨a1, r1, r2, l1⟩

/-- The vector `sdf` of an outline without segments holds the byte 1 in all its
576 entries. -/
theorem Worker_sdf_empty (fill : ttf.GlyphContour → BitPlane → BitPlane) (sqrtf : ℚ → ℚ)
    (hsqrt : sqrtf 102400 = 320) (outline : ttf.GlyphContour) (hempty : outline.segments = []) :
    Worker_sdf fill sqrtf outline = List.replicate (24 * 24) 1 := by
  have hr : RasterOutline fill outline (BitPlane.new hi_side hi_side) =
      BitPlane.new hi_side hi_side := by
    unfold RasterOutline
    rw [hempty]
    rfl
  unfold Worker_sdf
  rw [hr]
  exact sdf_tile_of_clear sqrtf hsqrt _ (BitPlane_new_Get hi_side hi_side)

/-- C24 (amended). Unresolvable code point: for a requested code point at index
`i` whose glyph id is 0, the round of `Worker` for `i` returns the atlas
unchanged; `metas` holds the record of the packing for it; `WriteFontAsset`
writes one record per requested code point, in request order, with the code
point (as `uint32_t`), its `(u, v)`, `w = h = 16`, and below `2^32` requested
code points `glyphCount` is their number. For at most 98322 requested code
points the tile of `i` is shared with no other index, and when the glyph
computations of the request return, every run over indices of the request
returns with all bytes of the tile of `i` zero. -/
theorem C24_unresolved_code_point (f : ttf.FontLoader)
    (fill : ttf.GlyphContour → BitPlane → BitPlane) (sqrtf : ℚ → ℚ) (fuel : Nat)
    (cps : List Nat) (i cp : Nat) (hcp : cps[i]? = some cp)
    (hgid : ttf.GlyphId f fuel cp = .ok 0) :
    (∀ atlas, Worker_step f fill sqrtf fuel cps (metas cps) i atlas = .ok atlas) ∧
    (metas cps)[i]? = some (meta_at i cp) ∧
    (meta_at i cp).cp = cp ∧ (meta_at i cp).u = 8 + 24 * (i % 42) ∧
    (meta_at i cp).v = (8 + 28 * (i / 42)) % 65536 ∧
    (glyph_records (metas cps)).length = cps.length ∧
    (∀ k c : Nat, cps[k]? = some c → ∃ m : GlyphMeta, (metas cps)[k]? = some m ∧
      (glyph_records (metas cps))[k]? =
        some (GlyphRecord.mk (c % 2 ^ 32) m.u m.v 16 16 0 0 16 0 0)) ∧
    (cps.length < 2 ^ 32 → header_glyphCount (metas cps) = cps.length) ∧
    (cps.length ≤ 98322 →
      (∀ j mj, j ≠ i → (metas cps)[j]? = some mj →
        ∀ px py, ¬ (in_tile (meta_at i cp) px py ∧ in_tile mj px py)) ∧
      ((∀ c ∈ cps, ∃ t, glyph_sdf f fill sqrtf fuel c = .ok t) →
        ∀ order : List Nat, (∀ k ∈ order, k < cps.length) →
          ∃ final, run_order f fill sqrtf fuel cps (metas cps) order (atlas_init cps) = .ok final ∧
            final.length = (atlas_init cps).length ∧
            ∀ px py, in_tile (meta_at i cp) px py →
              final[(py * 1024 + px).toNat]? = some 0)) := by
  have hi : i < cps.length := by
    by_contra hge
    rw [List.getElem?_eq_none (by omega)] at hcp
    exact absurd hcp (by simp)
  have hlen : (metas cps).length = cps.length := by
    apply Nat.le_antisymm
    · by_contra hlt
      have h1 := metas_getElem? cps cps.length
      rw [List.getElem?_eq_none (le_refl _), List.getElem?_eq_getElem (by omega)] at h1
      exact absurd h1 (by simp)
    · by_contra hlt
      have h1 := metas_getElem? cps (metas cps).length
      rw [List.getElem?_eq_none (le_refl _), List.getElem?_eq_getElem (by omega)] at h1
      exact absurd h1 (by simp)
  refine ⟨?_, ?_, rfl, meta_at_u i cp, meta_at_v i cp, ?_, ?_, ?_, ?_⟩
  · intro atlas
    exact Worker_step_gid0 f fill sqrtf fuel cps (metas cps) i cp atlas hcp hgid
  · rw [metas_getElem?, hcp]
    rfl
  · unfold glyph_records
    rw [List.length_map, hlen]
  · intro k c hk
    refine ⟨meta_at k c, by rw [metas_getElem?, hk]; rfl, ?_⟩
    unfold glyph_records
    rw [List.getElem?_map, metas_getElem?, hk]
    rfl
  · intro hlt
    unfold header_glyphCount
    rw [hlen]
    exact Nat.mod_eq_of_lt hlt
  · intro hn
    refine ⟨?_, ?_⟩
    · intro j mj hji hj px py
      obtain ⟨hjl, cj, rfl⟩ := metas_eq_meta_at cps j mj hj
      simp only [in_tile, kBorderPX, kGlyphPX, lo_side, meta_at_u,
        meta_at_v_small i cp (by omega), meta_at_v_small j cj (by omega)]
      omega
    · intro hret order hall
      obtain ⟨final, hr, hl, hg⟩ := run_order_spec f fill sqrtf fuel cps (by omega) hret
        (atlas_init cps) rfl order hall
      refine ⟨final, hr, hl, ?_⟩
      intro px py hin
      have hbox : 0 ≤ px ∧ px < 1024 ∧ 0 ≤ py := by
        simp only [in_tile, kBorderPX, kGlyphPX, lo_side, meta_at_u,
          meta_at_v_small i cp (by omega)] at hin
        omega
      have hu := meta_at_u i cp
      have hsome := (tile_byte_in_tile (meta_at i cp) [] px py hbox.1 hbox.2.1 hbox.2.2
        (by omega) (by omega)).mpr hin
      obtain ⟨v, hv⟩ := Option.ne_none_iff_exists'.mp hsome
      have hnone : last_write f fill sqrtf fuel cps order (py * 1024 + px).toNat = none := by
        unfold last_write
        rw [List.findSome?_eq_none_iff]
        intro k hk
        have hkl := hall k (List.mem_reverse.mp hk)
        by_cases hki : k = i
        · rw [hki]
          exact tile_of_gid0 f fill sqrtf fuel cps i cp _ hcp hgid
        · cases ht : tile_of f fill sqrtf fuel cps k (py * 1024 + px).toNat with
          | none => rfl
          | some w =>
            obtain ⟨c, sdf, _, _, htb⟩ := tile_of_some f fill sqrtf fuel cps k _ w ht
            have := tile_byte_disjoint i k cp c [] sdf _ v (by omega) (by omega)
              (fun e => hki e.symm) hv
            rw [this] at htb
            exact absurd htb (by simp)
      rw [hg, hnone]
      have hb := (tile_in_atlas cps i cp hi (by omega)).2
      have hp : (py * 1024 + px).toNat < (atlas_init cps).length := by
        unfold tile_byte at hv
        simp only [kAtlasW, lo_side, kGlyphPX, kBorderPX] at hv
        split_ifs at hv with hc
        omega
      show (atlas_init cps)[(py * 1024 + px).toNat]? = some 0
      unfold atlas_init at hp ⊢
      rw [List.length_replicate] at hp
      rw [List.getElem?_replicate, if_pos hp]

/-- C24, witness: the request `"AB"` on a font whose cmap knows only `B`. -/
theorem C24_unresolved_code_point_witness :
    [65, 66][0]? = some 65 ∧
    ttf.GlyphId (ttf.cmapOnly [] [] [⟨66, 66, 5⟩]) 10 65 = .ok 0 ∧
    (∀ atlas, Worker_step (ttf.cmapOnly [] [] [⟨66, 66, 5⟩]) (fill_total 0) sqrt_floor 10
      [65, 66] (metas [65, 66]) 0 atlas = .ok atlas) ∧
    (metas [65, 66])[0]? = some (meta_at 0 65) ∧
    (meta_at 0 65).cp = 65 ∧ (meta_at 0 65).u = 8 + 24 * (0 % 42) ∧
    (meta_at 0 65).v = (8 + 28 * (0 / 42)) % 65536 ∧
    (glyph_records (metas [65, 66])).length = [65, 66].length ∧
    (∀ k c : Nat, [65, 66][k]? = some c → ∃ m : GlyphMeta, (metas [65, 66])[k]? = some m ∧
      (glyph_records (metas [65, 66]))[k]? =
        some (GlyphRecord.mk (c % 2 ^ 32) m.u m.v 16 16 0 0 16 0 0)) ∧
    ([65, 66].length < 2 ^ 32 → header_glyphCount (metas [65, 66]) = [65, 66].length) ∧
    ([65, 66].length ≤ 98322 →
      (∀ j mj, j ≠ 0 → (metas [65, 66])[j]? = some mj →
        ∀ px py, ¬ (in_tile (meta_at 0 65) px py ∧ in_tile mj px py)) ∧
      ((∀ c ∈ [65, 66], ∃ t, glyph_sdf (ttf.cmapOnly [] [] [⟨66, 66, 5⟩]) (fill_total 0)
          sqrt_floor 10 c = .ok t) →
        ∀ order : List Nat, (∀ k ∈ order, k < [65, 66].length) →
          ∃ final, run_order (ttf.cmapOnly [] [] [⟨66, 66, 5⟩]) (fill_total 0) sqrt_floor 10
              [65, 66] (metas [65, 66]) order (atlas_init [65, 66]) = .ok final ∧
            final.length = (atlas_init [65, 66]).length ∧
            ∀ px py, in_tile (meta_at 0 65) px py →
              final[(py * 1024 + px).toNat]? = some 0)) :=
  ⟨rfl, by decide,
    C24_unresolved_code_point (ttf.cmapOnly [] [] [⟨66, 66, 5⟩]) (fill_total 0) sqrt_floor 10
      [65, 66] 0 65 rfl (by decide)⟩

/-- The glyph computation of the example font `cmapOnly [] [] [(66, 66, 5)]`:
`A` has the glyph id 0, `B` the glyph id 5, whose outline is empty. -/
theorem glyph_sdf_cmapOnly (fill : ttf.GlyphContour → BitPlane → BitPlane) :
    glyph_sdf (ttf.cmapOnly [] [] [⟨66, 66, 5⟩]) fill sqrt_floor 10 65 = .ok none ∧
    glyph_sdf (ttf.cmapOnly [] [] [⟨66, 66, 5⟩]) fill sqrt_floor 10 66 =
      .ok (some (List.replicate (24 * 24) 1)) := by
  have h65 : ttf.GlyphId (ttf.cmapOnly [] [] [⟨66, 66, 5⟩]) 10 65 = .ok 0 := by decide
  have h66 : ttf.GlyphId (ttf.cmapOnly [] [] [⟨66, 66, 5⟩]) 10 66 = .ok 5 := by decide
  have hoff : ttf.GlyphOffset (ttf.cmapOnly [] [] [⟨66, 66, 5⟩]) 5 = .ok none := by decide
  refine ⟨?_, ?_⟩
  · unfold glyph_sdf
    rw [h65]
    rfl
  · unfold glyph_sdf
    rw [h66]
    simp only [Outcome.ok_bind]
    rw [if_neg (by decide), ttf.Extract_of_no_offset _ 5 9 hoff]
    simp only [Outcome.ok_bind, pure]
    rw [Worker_sdf_empty fill sqrt_floor sqrt_floor_R2 _ rfl]

/-- A request of 98323 code points `A` or `B` whose last one is `B`, on the font
whose cmap knows only `B`: the run over the indices in their order returns, and
the atlas holds the byte 1 at the pixel `(8, 20)`, which the tile of index 98322
covers. -/
theorem run_wrapped_tile (cps : List Nat) (hl : cps.length = 98323)
    (hall : ∀ c ∈ cps, c = 65 ∨ c = 66) (hlast : cps[98322]? = some 66) :
    ∃ final, run_order (ttf.cmapOnly [] [] [⟨66, 66, 5⟩]) (fill_total 0) sqrt_floor 10
        cps (metas cps) (List.range 98323) (atlas_init cps) = .ok final ∧
      final[20 * 1024 + 8]? = some 1 := by
  have hm : (metas cps)[98322]? = some ⟨66, 8, 20⟩ := by
    rw [metas_getElem?, hlast]
    decide
  obtain ⟨g65, g66⟩ := glyph_sdf_cmapOnly (fill_total 0)
  obtain ⟨final, hr, _, hg⟩ := run_order_spec (ttf.cmapOnly [] [] [⟨66, 66, 5⟩])
    (fill_total 0) sqrt_floor 10 cps (by rw [hl]; decide)
    (by
      intro c hc
      rcases hall c hc with h | h
      · rw [h]
        exact ⟨_, g65⟩
      · rw [h]
        exact ⟨_, g66⟩)
    (atlas_init cps) rfl (List.range 98323)
    (by
      intro k hk
      rw [hl]
      exact List.mem_range.mp hk)
  refine ⟨final, hr, ?_⟩
  have ht : tile_of (ttf.cmapOnly [] [] [⟨66, 66, 5⟩]) (fill_total 0) sqrt_floor 10
      cps 98322 (20 * 1024 + 8) = some 1 := by
    unfold tile_of
    rw [hlast, hm]
    simp only []
    rw [g66]
    decide
  have hw : last_write (ttf.cmapOnly [] [] [⟨66, 66, 5⟩]) (fill_total 0) sqrt_floor 10
      cps (List.range 98323) (20 * 1024 + 8) = some 1 := by
    unfold last_write
    rw [show (98323 : Nat) = 98322 + 1 from rfl, List.range_succ, List.reverse_append,
      List.reverse_singleton, List.singleton_append, List.findSome?_cons, ht]
  rw [hg, hw]

/-- C24, counterexample: the request of 98322 times `A` and then `B` on a font
whose cmap knows only `B`. The glyph id of `A` is 0 and the tile of index 0
covers the pixel `(8, 20)`, but after the run over the indices in their order
the atlas holds the byte 1 there: the record of index 98322 has `v = 20`. -/
theorem C24_counterexample :
    (List.replicate 98322 65 ++ [66])[0]? = some 65 ∧
    ttf.GlyphId (ttf.cmapOnly [] [] [⟨66, 66, 5⟩]) 10 65 = .ok 0 ∧
    (metas (List.replicate 98322 65 ++ [66]))[0]? = some ⟨65, 8, 8⟩ ∧
    (metas (List.replicate 98322 65 ++ [66]))[98322]? = some ⟨66, 8, 20⟩ ∧
    in_tile ⟨65, 8, 8⟩ 8 20 ∧
    ∃ final, run_order (ttf.cmapOnly [] [] [⟨66, 66, 5⟩]) (fill_total 0) sqrt_floor 10
        (List.replicate 98322 65 ++ [66]) (metas (List.replicate 98322 65 ++ [66]))
        (List.range 98323) (atlas_init (List.replicate 98322 65 ++ [66])) = .ok final ∧
      final[20 * 1024 + 8]? = some 1 := by
  have hl : (List.replicate 98322 65 ++ [66]).length = 98323 := by
    rw [List.length_append, List.length_replicate]
    rfl
  have h0 : (List.replicate 98322 65 ++ [66])[0]? = some 65 := by
    rw [List.getElem?_append_left (by rw [List.length_replicate]; decide),
      List.getElem?_replicate]
    rfl
  have hlast : (List.replicate 98322 65 ++ [66])[98322]? = some 66 := by
    rw [List.getElem?_append_right (by rw [List.length_replicate]), List.length_replicate]
    rfl
  refine ⟨h0, by decide, ?_, ?_, ?_, ?_⟩
  · rw [metas_getElem?, h0]
    decide
  · rw [metas_getElem?, hlast]
    decide
  · simp only [in_tile, kBorderPX, kGlyphPX, lo_side]
    decide
  · exact run_wrapped_tile _ hl
      (by
        intro c hc
        rcases List.mem_append.mp hc with h | h
        · exact Or.inl (List.mem_replicate.mp h).2
        · exact Or.inr (List.mem_singleton.mp h))
      hlast

/-! ## The tile of the triangle -/

/-- The intersections of the triangle with a scanline. -/
theorem row_crossings_triangle_eq (fuel : Nat) (py : Option ℚ) :
    row_crossings fuel ttf.triangle py 1 0 [] =
      .ok (crossings [(0, 0), (10, 0), (10, 0), (10, 10), (10, 10), (0, 0)] py) := by
  unfold row_crossings
  rw [contour_poly_triangle]
  simp only [Outcome.ok_bind]
  rw [if_neg (by simp)]
  unfold row_crossings
  rfl

/-- The 16 samples of the pixel `(15, 12)` lie in the spans of their scanlines
of the triangle. -/
theorem triangle_samples : ∀ i ∈ List.range 4, ∀ j ∈ List.range 4,
    2 ≤ (crossings [(0, 0), (10, 0), (10, 0), (10, 10), (10, 10), (0, 0)]
      (py_unit ttf.triangle 1536 (64 * 12 + 16 * (j : Int) + 8))).length ∧
    ∃ c ∈ ((span_pairs (sorted_dedup (crossings
        [(0, 0), (10, 0), (10, 0), (10, 10), (10, 10), (0, 0)]
        (py_unit ttf.triangle 1536 (64 * 12 + 16 * (j : Int) + 8))))).map
          (span_cols 1536 (raster_scale ttf.triangle) (raster_off_x ttf.triangle))),
      c.1 ≤ (64 * 15 + 16 * (i : Int) + 8) ∧ (64 * 15 + 16 * (i : Int) + 8) ≤ c.2 := by
  decide!

/-- The bitplane of the triangle: `RasterOutline` returns, and the 16 samples of
the pixel `(15, 12)` are set. -/
theorem triangle_plane :
    ∃ b1, RasterOutline_fill 0 ttf.triangle (BitPlane.new hi_side hi_side) = .ok b1 ∧
      ∀ i j : Nat, i < 4 → j < 4 →
        b1.Get (64 * 15 + 16 * (i : Int) + 8) (64 * 12 + 16 * (j : Int) + 8) = true := by
  have hh : (BitPlane.new hi_side hi_side).h = 1536 := rfl
  have hw : (BitPlane.new hi_side hi_side).w = 1536 := rfl
  obtain ⟨b1, hr, _, _, _, hg⟩ := raster_rows_spec 0 ttf.triangle 1536 0
    (BitPlane.new hi_side hi_side) BitPlane_new_wf (le_refl _) (by rw [hh]; decide)
    (fun _ _ _ => row_crossings_triangle 0 _)
  refine ⟨b1, hr, ?_⟩
  intro i j hi hj
  obtain ⟨h1, h2⟩ := triangle_samples i (List.mem_range.mpr hi) j (List.mem_range.mpr hj)
  rw [hg]
  refine Or.inr ⟨by omega, by push_cast; omega, _, ?_, h1, ?_⟩
  · rw [hh]
    exact row_crossings_triangle_eq 0 _
  · rw [hw]
    exact h2

/-- A pixel whose 16 samples are set is classified inside. -/
theorem pixel_inside_of_set (hi : BitPlane) (x y : Int)
    (h : ∀ i j : Nat, i < 4 → j < 4 →
      hi.Get (64 * x + 16 * (i : Int) + 8) (64 * y + 16 * (j : Int) + 8) = true) :
    pixel_inside hi x y = true := by
  unfold pixel_inside
  rw [in_cnt_eq_card]
  have hall : (Finset.univ.filter (fun p : Fin 4 × Fin 4 =>
      hi.Get (64 * x + 16 * ((p.1 : Nat) : Int) + 8) (64 * y + 16 * ((p.2 : Nat) : Int) + 8)
        = true)) = Finset.univ := by
    apply Finset.filter_true_of_mem
    intro p _
    exact h p.1 p.2 p.1.isLt p.2.isLt
  rw [hall]
  decide

/-- The byte of an inside pixel is at least 128, for the integer square root. -/
theorem sdf_pixel_inside (hi : BitPlane) (x y : Int) (h : pixel_inside hi x y = true) :
    128 ≤ sdf_pixel sqrt_floor hi x y := by
  unfold sdf_pixel
  rw [h]
  have hb1 : pixel_best hi x y ≤ R * R := by
    unfold pixel_best
    exact (search_best_spec hi _ _ _).1
  obtain ⟨h0, h1⟩ := norm_range sqrt_floor (fun q _ => sqrt_floor_nonneg q)
    (fun a b _ hab => sqrt_floor_mono a b hab) sqrt_floor_R2 (pixel_best hi x y)
    (pixel_best_nonneg hi x y) hb1
  exact (encode_inside sqrt_floor _ h0 h1).2.1

/-- The function `RasterOutline` on an outline with segments is its second
part, when that part returns. -/
theorem RasterOutline_fill_total (fuel : Nat) (g : ttf.GlyphContour) (bmp b1 : BitPlane)
    (hne : g.segments.isEmpty = false) (hr : RasterOutline_fill fuel g bmp = .ok b1) :
    RasterOutline (fill_total fuel) g bmp = b1 := by
  unfold RasterOutline
  rw [hne]
  unfold fill_total
  rw [hr]
  rfl

/-- The entry `sdf[y * lo_side + x]` is the byte of the pixel `(x, y)`. -/
theorem sdf_tile_getElem (sqrtf : ℚ → ℚ) (hi : BitPlane) (x y : Nat) (hx : x < 24)
    (hy : y < 24) : (sdf_tile sqrtf hi)[y * 24 + x]? = some (sdf_pixel sqrtf hi x y) := by
  unfold sdf_tile
  have hlen : (lo_side * lo_side).toNat = 576 := by decide
  rw [List.getElem?_map, hlen, List.getElem?_range (by omega)]
  have e1 : (((y * 24 + x : Nat) : Int)) % lo_side = x := by
    simp only [lo_side, kGlyphPX, kBorderPX]
    omega
  have e2 : (((y * 24 + x : Nat) : Int)) / lo_side = y := by
    simp only [lo_side, kGlyphPX, kBorderPX]
    omega
  show some (sdf_pixel sqrtf hi (((y * 24 + x : Nat) : Int) % lo_side)
    (((y * 24 + x : Nat) : Int) / lo_side)) = _
  rw [e1, e2]

/-- The entry of the vector `sdf` of the triangle for the pixel `(15, 12)` is at
least 128. -/
theorem triangle_sdf :
    ∃ v, (Worker_sdf (fill_total 0) sqrt_floor ttf.triangle)[12 * 24 + 15]? = some v ∧
      128 ≤ v := by
  obtain ⟨b1, hr, hg⟩ := triangle_plane
  have hplane := RasterOutline_fill_total 0 ttf.triangle _ b1 rfl hr
  unfold Worker_sdf
  rw [hplane]
  exact ⟨_, sdf_tile_getElem sqrt_floor b1 15 12 (by decide) (by decide),
    sdf_pixel_inside b1 15 12 (pixel_inside_of_set b1 15 12 hg)⟩

/-- The glyph computation of `mappedFont`: `A` has the glyph id 0, `B` is the
triangle, and the outline of `C` is empty. -/
theorem glyph_sdf_mappedFont :
    glyph_sdf ttf.mappedFont (fill_total 0) sqrt_floor 10 65 = .ok none ∧
    glyph_sdf ttf.mappedFont (fill_total 0) sqrt_floor 10 66 =
      .ok (some (Worker_sdf (fill_total 0) sqrt_floor ttf.triangle)) ∧
    glyph_sdf ttf.mappedFont (fill_total 0) sqrt_floor 10 67 =
      .ok (some (List.replicate (24 * 24) 1)) := by
  have h65 : ttf.GlyphId ttf.mappedFont 10 65 = .ok 0 := by decide
  have h66 : ttf.GlyphId ttf.mappedFont 10 66 = .ok 1 := by decide
  have h67 : ttf.GlyphId ttf.mappedFont 10 67 = .ok 7 := by decide
  have hoff : ttf.GlyphOffset ttf.mappedFont 7 = .ok none := by decide
  have hex : ttf.Extract ttf.mappedFont 10 1 = .ok ttf.triangle := by decide!
  refine ⟨?_, ?_, ?_⟩
  · unfold glyph_sdf
    rw [h65]
    rfl
  · unfold glyph_sdf
    rw [h66]
    simp only [Outcome.ok_bind]
    rw [if_neg (by decide), hex]
    rfl
  · unfold glyph_sdf
    rw [h67]
    simp only [Outcome.ok_bind]
    rw [if_neg (by decide), ttf.Extract_of_no_offset _ 7 9 hoff]
    simp only [Outcome.ok_bind, pure]
    rw [Worker_sdf_empty (fill_total 0) sqrt_floor sqrt_floor_R2 _ rfl]

/-- A request of 98323 code points `A`, `B` or `C` that begins with `B` and ends
with `C`, on `mappedFont`: the run over the indices in their order and the run
that takes index 0 last both return, and at the pixel `(19, 16)`, which the
tiles of the indices 0 and 98322 cover, the first leaves the byte 1 and the
second a byte of at least 128. -/
theorem run_two_orders (cps : List Nat) (hl : cps.length = 98323)
    (hall : ∀ c ∈ cps, c = 65 ∨ c = 66 ∨ c = 67) (hfirst : cps[0]? = some 66)
    (hlast : cps[98322]? = some 67) :
    ∃ a1 a2 v, run_order ttf.mappedFont (fill_total 0) sqrt_floor 10 cps (metas cps)
        (List.range 98323) (atlas_init cps) = .ok a1 ∧
      run_order ttf.mappedFont (fill_total 0) sqrt_floor 10 cps (metas cps)
        (List.range' 1 98322 ++ [0]) (atlas_init cps) = .ok a2 ∧
      a1[16 * 1024 + 19]? = some 1 ∧ a2[16 * 1024 + 19]? = some v ∧ 128 ≤ v := by
  have hm0 : (metas cps)[0]? = some ⟨66, 8, 8⟩ := by
    rw [metas_getElem?, hfirst]
    decide
  have hm : (metas cps)[98322]? = some ⟨67, 8, 20⟩ := by
    rw [metas_getElem?, hlast]
    decide
  obtain ⟨g65, g66, g67⟩ := glyph_sdf_mappedFont
  have hret : ∀ c ∈ cps, ∃ t, glyph_sdf ttf.mappedFont (fill_total 0) sqrt_floor 10 c = .ok t := by
    intro c hc
    rcases hall c hc with h | h | h
    · rw [h]
      exact ⟨_, g65⟩
    · rw [h]
      exact ⟨_, g66⟩
    · rw [h]
      exact ⟨_, g67⟩
  obtain ⟨a1, hr1, _, hg1⟩ := run_order_spec ttf.mappedFont (fill_total 0) sqrt_floor 10 cps
    (by rw [hl]; decide) hret (atlas_init cps) rfl (List.range 98323)
    (by
      intro k hk
      rw [hl]
      exact List.mem_range.mp hk)
  obtain ⟨a2, hr2, _, hg2⟩ := run_order_spec ttf.mappedFont (fill_total 0) sqrt_floor 10 cps
    (by rw [hl]; decide) hret (atlas_init cps) rfl (List.range' 1 98322 ++ [0])
    (by
      intro k hk
      rw [hl]
      rcases List.mem_append.mp hk with h | h
      · have := (List.mem_range'_1.mp h).2
        omega
      · rw [List.mem_singleton.mp h]
        decide)
  obtain ⟨v, hv, hv128⟩ := triangle_sdf
  have ht1 : tile_of ttf.mappedFont (fill_total 0) sqrt_floor 10 cps 98322 (16 * 1024 + 19) =
      some 1 := by
    unfold tile_of
    rw [hlast, hm]
    simp only []
    rw [g67]
    decide
  have ht2 : tile_of ttf.mappedFont (fill_total 0) sqrt_floor 10 cps 0 (16 * 1024 + 19) =
      some v := by
    unfold tile_of
    rw [hfirst, hm0]
    simp only []
    rw [g66]
    simp only []
    have hq : tile_byte ⟨66, 8, 8⟩ (Worker_sdf (fill_total 0) sqrt_floor ttf.triangle)
        (16 * 1024 + 19) =
        some ((Worker_sdf (fill_total 0) sqrt_floor ttf.triangle).getD (12 * 24 + 15) 0) := by
      generalize Worker_sdf (fill_total 0) sqrt_floor ttf.triangle = sdf
      rfl
    rw [hq, List.getD_eq_getElem?_getD, hv]
    rfl
  have hw1 : last_write ttf.mappedFont (fill_total 0) sqrt_floor 10 cps (List.range 98323)
      (16 * 1024 + 19) = some 1 := by
    unfold last_write
    rw [show (98323 : Nat) = 98322 + 1 from rfl, List.range_succ, List.reverse_append,
      List.reverse_singleton, List.singleton_append, List.findSome?_cons, ht1]
  have hw2 : last_write ttf.mappedFont (fill_total 0) sqrt_floor 10 cps
      (List.range' 1 98322 ++ [0]) (16 * 1024 + 19) = some v := by
    unfold last_write
    rw [List.reverse_append, List.reverse_singleton, List.singleton_append,
      List.findSome?_cons, ht2]
  refine ⟨a1, a2, v, hr1, hr2, ?_, ?_, hv128⟩
  · rw [hg1, hw1]
  · rw [hg2, hw2]

/-- C25 (amended). Determinism, for at most 98322 requested code points whose
glyph computations return: the rounds of `Worker` for two indices of the
request commute on every atlas of the size that `wmain` allocates, and the runs
over any two orders of the indices `0 .. n - 1` return the same atlas bytes.
The vector `metas` is computed before the workers start and is an argument of
the run. -/
theorem C25_order_independence (f : ttf.FontLoader)
    (fill : ttf.GlyphContour → BitPlane → BitPlane) (sqrtf : ℚ → ℚ) (fuel : Nat)
    (cps : List Nat) (hn : cps.length ≤ 98322)
    (hret : ∀ c ∈ cps, ∃ t, glyph_sdf f fill sqrtf fuel c = .ok t) :
    (∀ atlas : List Nat, atlas.length = (atlas_init cps).length →
      ∀ i j : Nat, i < cps.length → j < cps.length →
        ∃ r, (Worker_step f fill sqrtf fuel cps (metas cps) i atlas >>=
              Worker_step f fill sqrtf fuel cps (metas cps) j) = .ok r ∧
          (Worker_step f fill sqrtf fuel cps (metas cps) j atlas >>=
              Worker_step f fill sqrtf fuel cps (metas cps) i) = .ok r) ∧
    (∀ order1 order2 : List Nat, order1.Perm (List.range cps.length) →
      order2.Perm (List.range cps.length) →
        ∃ final, run_order f fill sqrtf fuel cps (metas cps) order1 (atlas_init cps) = .ok final ∧
          run_order f fill sqrtf fuel cps (metas cps) order2 (atlas_init cps) = .ok final ∧
          final.length = (atlas_init cps).length) := by
  refine ⟨?_, ?_⟩
  · intro atlas hlen i j hi hj
    obtain ⟨r, h1, h2, _⟩ := run_order_perm f fill sqrtf fuel cps hn hret atlas hlen [i, j] [j, i]
      (by
        intro k hk
        rcases List.mem_pair.mp hk with h | h
        · rw [h]; exact hi
        · rw [h]; exact hj)
      (by
        intro k
        rw [List.mem_pair, List.mem_pair]
        exact or_comm)
    exact ⟨r, h1, h2⟩
  · intro order1 order2 h1 h2
    exact run_order_perm f fill sqrtf fuel cps hn hret (atlas_init cps) rfl order1 order2
      (fun k hk => List.mem_range.mp (h1.mem_iff.mp hk))
      (fun k => by rw [h1.mem_iff, h2.mem_iff])

/-- C25, witness: the request `"AB"` on a font whose cmap knows only `B`. -/
theorem C25_order_independence_witness :
    [65, 66].length ≤ 98322 ∧
    (∀ c ∈ [65, 66], ∃ t, glyph_sdf (ttf.cmapOnly [] [] [⟨66, 66, 5⟩]) (fill_total 0)
      sqrt_floor 10 c = .ok t) ∧
    (∀ atlas : List Nat, atlas.length = (atlas_init [65, 66]).length →
      ∀ i j : Nat, i < [65, 66].length → j < [65, 66].length →
        ∃ r, (Worker_step (ttf.cmapOnly [] [] [⟨66, 66, 5⟩]) (fill_total 0) sqrt_floor 10
                [65, 66] (metas [65, 66]) i atlas >>=
              Worker_step (ttf.cmapOnly [] [] [⟨66, 66, 5⟩]) (fill_total 0) sqrt_floor 10
                [65, 66] (metas [65, 66]) j) = .ok r ∧
          (Worker_step (ttf.cmapOnly [] [] [⟨66, 66, 5⟩]) (fill_total 0) sqrt_floor 10
                [65, 66] (metas [65, 66]) j atlas >>=
              Worker_step (ttf.cmapOnly [] [] [⟨66, 66, 5⟩]) (fill_total 0) sqrt_floor 10
                [65, 66] (metas [65, 66]) i) = .ok r) ∧
    (∀ order1 order2 : List Nat, order1.Perm (List.range [65, 66].length) →
      order2.Perm (List.range [65, 66].length) →
        ∃ final, run_order (ttf.cmapOnly [] [] [⟨66, 66, 5⟩]) (fill_total 0) sqrt_floor 10
              [65, 66] (metas [65, 66]) order1 (atlas_init [65, 66]) = .ok final ∧
          run_order (ttf.cmapOnly [] [] [⟨66, 66, 5⟩]) (fill_total 0) sqrt_floor 10
              [65, 66] (metas [65, 66]) order2 (atlas_init [65, 66]) = .ok final ∧
          final.length = (atlas_init [65, 66]).length) :=
  have hret : ∀ c ∈ [65, 66], ∃ t, glyph_sdf (ttf.cmapOnly [] [] [⟨66, 66, 5⟩]) (fill_total 0)
      sqrt_floor 10 c = .ok t := by
    intro c hc
    rcases List.mem_pair.mp hc with h | h
    · rw [h]
      exact ⟨_, (glyph_sdf_cmapOnly (fill_total 0)).1⟩
    · rw [h]
      exact ⟨_, (glyph_sdf_cmapOnly (fill_total 0)).2⟩
  ⟨by decide, hret,
    C25_order_independence (ttf.cmapOnly [] [] [⟨66, 66, 5⟩]) (fill_total 0) sqrt_floor 10
      [65, 66] (by decide) hret⟩

/-- C25, counterexample: the request of `B`, 98321 times `A`, and `C` on
`mappedFont` (`B` is the triangle, `C` an empty outline with a glyph id other
than 0, the glyph id of `A` is 0). The record of index 98322 has `v = 20`, so
its tile overlaps the tile of index 0. Two orders of the indices
`0 .. 98322` leave different bytes at the pixel `(19, 16)` of the atlas: the
order `0, 1, ..., 98322` the byte 1, the order `1, ..., 98322, 0` a byte of at
least 128. -/
theorem C25_counterexample :
    (List.range' 1 98322 ++ [0]).Perm (List.range 98323) ∧
    (66 :: (List.replicate 98321 65 ++ [67])).length = 98323 ∧
    ∃ a1 a2 v, run_order ttf.mappedFont (fill_total 0) sqrt_floor 10
        (66 :: (List.replicate 98321 65 ++ [67]))
        (metas (66 :: (List.replicate 98321 65 ++ [67])))
        (List.range 98323) (atlas_init (66 :: (List.replicate 98321 65 ++ [67]))) = .ok a1 ∧
      run_order ttf.mappedFont (fill_total 0) sqrt_floor 10
        (66 :: (List.replicate 98321 65 ++ [67]))
        (metas (66 :: (List.replicate 98321 65 ++ [67])))
        (List.range' 1 98322 ++ [0]) (atlas_init (66 :: (List.replicate 98321 65 ++ [67]))) =
          .ok a2 ∧
      a1[16 * 1024 + 19]? = some 1 ∧ a2[16 * 1024 + 19]? = some v ∧ 128 ≤ v := by
  have hl : (66 :: (List.replicate 98321 65 ++ [67])).length = 98323 := by
    rw [List.length_cons, List.length_append, List.length_replicate]
    rfl
  have hlast : (66 :: (List.replicate 98321 65 ++ [67]))[98322]? = some 67 := by
    rw [show (98322 : Nat) = 98321 + 1 from rfl, List.getElem?_cons_succ,
      List.getElem?_append_right (by rw [List.length_replicate]), List.length_replicate]
    rfl
  refine ⟨?_, hl, ?_⟩
  · have hrange : List.range 98323 = 0 :: List.range' 1 98322 := by
      rw [List.range_eq_range', show (98323 : Nat) = 98322 + 1 from rfl, List.range'_succ]
    rw [hrange]
    exact List.perm_append_singleton 0 _
  · exact run_two_orders _ hl
      (by
        intro c hc
        rcases List.mem_cons.mp hc with h | h
        · exact Or.inr (Or.inl h)
        · rcases List.mem_append.mp h with h1 | h1
          · exact Or.inl (List.mem_replicate.mp h1).2
          · exact Or.inr (Or.inr (List.mem_singleton.mp h1)))
      (List.getElem?_cons_zero) hlast

/-! ## The thread pool and the shared counter -/

/-- A list with one entry replaced, up to the order of the entries. -/
theorem set_perm {α : Type} (l : List α) (t : Nat) (old x : α) (h : l[t]? = some old) :
    ∃ rest, l.Perm (old :: rest) ∧ (l.set t x).Perm (x :: rest) ∧ rest.length + 1 = l.length := by
  induction l generalizing t with
  | nil => exact absurd h (by simp)
  | cons a l ih =>
    cases t with
    | zero =>
      simp only [List.getElem?_cons_zero, Option.some.injEq] at h
      rw [h]
      exact ⟨l, List.Perm.refl _, List.Perm.refl _, rfl⟩
    | succ t =>
      rw [List.getElem?_cons_succ] at h
      obtain ⟨rest, h1, h2, h3⟩ := ih t h
      refine ⟨a :: rest, ?_, ?_, by simp [h3]⟩
      · exact (List.Perm.cons a h1).trans (List.Perm.swap old a rest)
      · rw [List.set_cons_succ]
        exact (List.Perm.cons a h2).trans (List.Perm.swap x a rest)

/-- A thread in front of `fetch_add` holds no index. -/
theorem claimed_of_cons_idle (rest : List WorkerState) :
    claimed_of (WorkerState.idle :: rest) = claimed_of rest := rfl

/-- A thread that has returned holds no index. -/
theorem claimed_of_cons_exited (rest : List WorkerState) :
    claimed_of (WorkerState.exited :: rest) = claimed_of rest := rfl

/-- A thread behind `fetch_add` holds its index. -/
theorem claimed_of_cons_claimed (i : Nat) (rest : List WorkerState) :
    claimed_of (WorkerState.claimed i :: rest) = i :: claimed_of rest := rfl

/-- The indices held do not depend on the order of the threads. -/
theorem claimed_of_perm (a b : List WorkerState) (h : a.Perm b) :
    (claimed_of a).Perm (claimed_of b) := h.filterMap _

/-- A step of a thread keeps the invariant, when the counter cannot wrap, and
raises the sum of the counter and the number of completed rounds by one. -/
theorem step_inv (n T : Nat) (hn : n + T < 2 ^ 32) (s s1 : PoolState) (t : Nat)
    (hinv : PoolInv n T s) (hstep : PoolState.step n s t = some s1) :
    PoolInv n T s1 ∧ s1.next + s1.log.length = s.next + s.log.length + 1 := by
  obtain ⟨i1, i2, i3, i4⟩ := hinv
  unfold PoolState.step at hstep
  cases hw : s.pool[t]? with
  | none => rw [hw] at hstep; exact absurd hstep (by simp)
  | some w =>
    rw [hw] at hstep
    have ht : t < T := by
      rw [← i1]
      by_contra hge
      rw [List.getElem?_eq_none (by omega)] at hw
      exact absurd hw (by simp)
    have hlen3 := i3.length_eq
    rw [List.length_append, List.length_map, List.length_range] at hlen3
    cases w with
    | exited => exact absurd hstep (by simp)
    | idle =>
      simp only [Option.some.injEq] at hstep
      obtain ⟨rest, p1, p2, p3⟩ := set_perm s.pool t WorkerState.idle
        (if s.next ≥ n then WorkerState.exited else WorkerState.claimed s.next) hw
      have hlen := (claimed_of_perm _ _ p1).length_eq
      have hcnt := p1.count_eq WorkerState.exited
      have hcr : rest.count WorkerState.exited ≤ rest.length := List.count_le_length _ _
      rw [claimed_of_cons_idle] at hlen
      rw [List.count_cons_of_ne (by decide)] at hcnt
      have hnext : s.next + 1 < 2 ^ 32 := by omega
      by_cases hge : s.next ≥ n
      · rw [if_pos hge] at p2 hstep
        have hlen2 := (claimed_of_perm _ _ p2).length_eq
        have hcnt2 := p2.count_eq WorkerState.exited
        rw [claimed_of_cons_exited] at hlen2
        rw [List.count_cons_self] at hcnt2
        rw [← hstep]
        refine ⟨⟨?_, ?_, ?_, i4⟩, ?_⟩
        · show (s.pool.set t WorkerState.exited).length = T
          rw [List.length_set, i1]
        · show (s.next + 1) % 2 ^ 32 = s.log.length + (claimed_of (s.pool.set t WorkerState.exited)).length + (s.pool.set t WorkerState.exited).count WorkerState.exited
          rw [Nat.mod_eq_of_lt hnext]
          omega
        · show (s.log.map Prod.snd ++ claimed_of (s.pool.set t WorkerState.exited)).Perm
            (List.range (min ((s.next + 1) % 2 ^ 32) n))
          rw [Nat.mod_eq_of_lt hnext, Nat.min_eq_right (by omega)]
          rw [Nat.min_eq_right hge] at i3
          refine List.Perm.trans ?_ i3
          apply List.Perm.append_left
          exact ((claimed_of_perm _ _ p2).trans (claimed_of_perm _ _ p1).symm)
        · show (s.next + 1) % 2 ^ 32 + s.log.length = s.next + s.log.length + 1
          rw [Nat.mod_eq_of_lt hnext]
          omega
      · rw [if_neg hge] at p2 hstep
        have hlen2 := (claimed_of_perm _ _ p2).length_eq
        have hcnt2 := p2.count_eq WorkerState.exited
        rw [claimed_of_cons_claimed] at hlen2
        rw [List.count_cons_of_ne (by simp)] at hcnt2
        rw [← hstep]
        refine ⟨⟨?_, ?_, ?_, i4⟩, ?_⟩
        · show (s.pool.set t (WorkerState.claimed s.next)).length = T
          rw [List.length_set, i1]
        · show (s.next + 1) % 2 ^ 32 = s.log.length + (claimed_of (s.pool.set t (WorkerState.claimed s.next))).length + (s.pool.set t (WorkerState.claimed s.next)).count WorkerState.exited
          rw [Nat.mod_eq_of_lt hnext]
          simp only [List.length_cons] at hlen2
          omega
        · show (s.log.map Prod.snd ++ claimed_of (s.pool.set t (WorkerState.claimed s.next))).Perm
            (List.range (min ((s.next + 1) % 2 ^ 32) n))
          rw [Nat.mod_eq_of_lt hnext, Nat.min_eq_left (by omega), List.range_succ]
          rw [Nat.min_eq_left (by omega)] at i3
          have q1 : (claimed_of (s.pool.set t (WorkerState.claimed s.next))).Perm
              (s.next :: claimed_of s.pool) :=
            (claimed_of_perm _ _ p2).trans
              (List.Perm.cons _ (claimed_of_perm _ _ p1).symm)
          refine (List.Perm.append_left _ q1).trans ?_
          refine List.perm_middle.trans ?_
          exact (List.perm_append_singleton _ _).symm.trans (List.Perm.append_right _ i3)
        · show (s.next + 1) % 2 ^ 32 + s.log.length = s.next + s.log.length + 1
          rw [Nat.mod_eq_of_lt hnext]
          omega
    | claimed idx =>
      simp only [Option.some.injEq] at hstep
      obtain ⟨rest, p1, p2, p3⟩ := set_perm s.pool t (WorkerState.claimed idx)
        WorkerState.idle hw
      have hlen := (claimed_of_perm _ _ p1).length_eq
      have hcnt := p1.count_eq WorkerState.exited
      have hlen2 := (claimed_of_perm _ _ p2).length_eq
      have hcnt2 := p2.count_eq WorkerState.exited
      rw [claimed_of_cons_idle] at hlen2
      rw [claimed_of_cons_claimed] at hlen
      rw [List.count_cons_of_ne (by decide)] at hcnt2
      rw [List.count_cons_of_ne (by simp)] at hcnt
      rw [← hstep]
      refine ⟨⟨?_, ?_, ?_, ?_⟩, ?_⟩
      · show (s.pool.set t WorkerState.idle).length = T
        rw [List.length_set, i1]
      · show s.next = (s.log ++ [(t, idx)]).length + (claimed_of (s.pool.set t WorkerState.idle)).length + (s.pool.set t WorkerState.idle).count WorkerState.exited
        rw [List.length_append, List.length_singleton]
        simp only [List.length_cons] at hlen
        omega
      · show ((s.log ++ [(t, idx)]).map Prod.snd ++ claimed_of (s.pool.set t WorkerState.idle)).Perm
            (List.range (min s.next n))
        refine List.Perm.trans ?_ i3
        rw [List.map_append, List.map_singleton, List.append_assoc, List.singleton_append]
        apply List.Perm.append_left
        exact (List.Perm.cons _ (claimed_of_perm _ _ p2)).trans (claimed_of_perm _ _ p1).symm
      · intro e he
        rcases List.mem_append.mp he with h | h
        · exact i4 e h
        · rw [List.mem_singleton.mp h]
          exact ht
      · show s.next + (s.log ++ [(t, idx)]).length = s.next + s.log.length + 1
        rw [List.length_append, List.length_singleton]
        omega

/-- The invariant holds when the threads have been created. -/
theorem start_inv (n T : Nat) : PoolInv n T (PoolState.start T) := by
  have hc : ∀ k : Nat, claimed_of (List.replicate k WorkerState.idle) = [] := by
    intro k
    induction k with
    | zero => rfl
    | succ k ih => rw [List.replicate_succ, claimed_of_cons_idle, ih]
  have he : ∀ k : Nat, (List.replicate k WorkerState.idle).count WorkerState.exited = 0 := by
    intro k
    apply List.count_eq_zero_of_not_mem
    intro h
    exact absurd (List.mem_replicate.mp h).2 (by decide)
  refine ⟨?_, ?_, ?_, ?_⟩
  · show (List.replicate T WorkerState.idle).length = T
    rw [List.length_replicate]
  · show 0 = ([] : List (Nat × Nat)).length +
      (claimed_of (List.replicate T WorkerState.idle)).length +
      (List.replicate T WorkerState.idle).count WorkerState.exited
    rw [hc, he]
    rfl
  · show ((([] : List (Nat × Nat)).map Prod.snd) ++
      claimed_of (List.replicate T WorkerState.idle)).Perm (List.range (min 0 n))
    rw [hc, Nat.zero_min]
    exact List.Perm.refl _
  · intro e he
    exact absurd he (List.not_mem_nil e)

/-- A run is the first step, when it can be made, and then the rest. -/
theorem run_cons (n : Nat) (s : PoolState) (t : Nat) (sched : List Nat) :
    PoolState.run n s (t :: sched) = PoolState.run n ((PoolState.step n s t).getD s) sched := rfl

/-- A run over two schedules, one after the other. -/
theorem run_append (n : Nat) (s : PoolState) (a b : List Nat) :
    PoolState.run n s (a ++ b) = PoolState.run n (PoolState.run n s a) b := by
  unfold PoolState.run
  rw [List.foldl_append]

/-- Every run keeps the invariant, when the counter cannot wrap. -/
theorem run_inv (n T : Nat) (hn : n + T < 2 ^ 32) (sched : List Nat) :
    ∀ s, PoolInv n T s → PoolInv n T (PoolState.run n s sched) := by
  induction sched with
  | nil => exact fun s h => h
  | cons t sched ih =>
    intro s h
    rw [run_cons]
    cases hs : PoolState.step n s t with
    | none => exact ih s h
    | some s1 => exact ih s1 (step_inv n T hn s s1 t h hs).1

/-- Under the invariant the sum of the counter and the number of completed
rounds is at most `2 n + T`. -/
theorem inv_bound (n T : Nat) (s : PoolState) (h : PoolInv n T s) :
    s.next + s.log.length ≤ 2 * n + T ∧ s.log.length ≤ n := by
  obtain ⟨i1, i2, i3, _⟩ := h
  have hlen3 := i3.length_eq
  rw [List.length_append, List.length_map, List.length_range] at hlen3
  have hc : s.pool.count WorkerState.exited ≤ s.pool.length := List.count_le_length _ _
  omega

/-- Under the invariant, when every thread has returned, the completed rounds
are the rounds for the indices below `n`, each once. -/
theorem inv_joined (n T : Nat) (hT : 1 ≤ T) (s : PoolState) (h : PoolInv n T s)
    (hj : s.joined) : (s.log.map Prod.snd).Perm (List.range n) := by
  obtain ⟨i1, i2, i3, _⟩ := h
  have hc : claimed_of s.pool = [] := by
    unfold claimed_of
    rw [List.filterMap_eq_nil_iff]
    intro w hw
    rw [hj w hw]
  have he : s.pool.count WorkerState.exited = s.pool.length := by
    rw [List.count_eq_length]
    intro w hw
    exact (hj w hw).symm
  rw [hc, List.append_nil] at i3
  rw [hc] at i2
  have hlen3 := i3.length_eq
  rw [List.length_map, List.length_range] at hlen3
  have hmin : min s.next n = n := by
    simp only [List.length_nil] at i2
    omega
  rw [hmin] at i3
  exact i3

/-- Under the invariant the threads that have not returned can be run until
all of them have. -/
theorem inv_complete (n T : Nat) (hn : n + T < 2 ^ 32) :
    ∀ (k : Nat) (s : PoolState), PoolInv n T s → 2 * n + T ≤ s.next + s.log.length + k →
      ∃ ext, (PoolState.run n s ext).joined := by
  intro k
  induction k with
  | zero =>
    intro s h hk
    refine ⟨[], ?_⟩
    show s.joined
    obtain ⟨i1, i2, i3, _⟩ := h
    have hlen3 := i3.length_eq
    rw [List.length_append, List.length_map, List.length_range] at hlen3
    have hc : s.pool.count WorkerState.exited ≤ s.pool.length := List.count_le_length _ _
    have he : s.pool.count WorkerState.exited = s.pool.length := by omega
    intro w hw
    exact ((List.count_eq_length.mp he) w hw).symm
  | succ k ih =>
    intro s h hk
    by_cases hj : s.joined
    · exact ⟨[], hj⟩
    · unfold PoolState.joined at hj
      push_neg at hj
      obtain ⟨w, hw, hne⟩ := hj
      obtain ⟨t, ht⟩ := List.getElem?_of_mem hw
      have hstep : ∃ s1, PoolState.step n s t = some s1 := by
        unfold PoolState.step
        rw [ht]
        cases w with
        | idle => exact ⟨_, rfl⟩
        | claimed idx => exact ⟨_, rfl⟩
        | exited => exact absurd rfl hne
      obtain ⟨s1, hs1⟩ := hstep
      obtain ⟨hinv1, hmu⟩ := step_inv n T hn s s1 t h hs1
      obtain ⟨ext, hext⟩ := ih s1 hinv1 (by omega)
      refine ⟨t :: ext, ?_⟩
      rw [run_cons, hs1]
      exact hext

/-- C26 (amended). Work distribution, for `T ≥ 1` threads and `n` code points
with `n + T < 2^32` (the counter is an `atomic_uint`, and every thread reads it
once more than it completes rounds): after the threads have made steps in any
order, no index has been processed twice, every completed round is the round
of a thread of the pool for an index below `n`; when all threads have returned
(only then the loop of `join` calls is left) the processed indices are exactly
`0 .. n - 1`, each once; every thread that has not returned can make a step,
every step raises the sum of the counter and the number of completed rounds by
one, that sum never exceeds `2 n + T`, and the run can be continued until all
threads have returned. -/
theorem C26_work_distribution (n T : Nat) (hT : 1 ≤ T) (hn : n + T < 2 ^ 32)
    (sched : List Nat) :
    ((PoolState.run n (PoolState.start T) sched).log.map Prod.snd).Nodup ∧
    (∀ e ∈ (PoolState.run n (PoolState.start T) sched).log, e.1 < T ∧ e.2 < n) ∧
    ((PoolState.run n (PoolState.start T) sched).joined →
      ((PoolState.run n (PoolState.start T) sched).log.map Prod.snd).Perm (List.range n)) ∧
    (∀ t w, (PoolState.run n (PoolState.start T) sched).pool[t]? = some w →
      w ≠ WorkerState.exited →
      ∃ s1, PoolState.step n (PoolState.run n (PoolState.start T) sched) t = some s1) ∧
    (∀ t s1, PoolState.step n (PoolState.run n (PoolState.start T) sched) t = some s1 →
      s1.next + s1.log.length =
        (PoolState.run n (PoolState.start T) sched).next +
          (PoolState.run n (PoolState.start T) sched).log.length + 1) ∧
    (PoolState.run n (PoolState.start T) sched).next +
      (PoolState.run n (PoolState.start T) sched).log.length ≤ 2 * n + T ∧
    ∃ ext, (PoolState.run n (PoolState.start T) (sched ++ ext)).joined := by
  have hinv := run_inv n T hn sched _ (start_inv n T)
  generalize hs : PoolState.run n (PoolState.start T) sched = s at hinv ⊢
  have hperm := hinv.2.2.1
  have hnodup : (s.log.map Prod.snd ++ claimed_of s.pool).Nodup :=
    hperm.nodup_iff.mpr (List.nodup_range _)
  refine ⟨hnodup.of_append_left, ?_, inv_joined n T hT s hinv, ?_, ?_, (inv_bound n T s hinv).1, ?_⟩
  · intro e he
    refine ⟨hinv.2.2.2 e he, ?_⟩
    have hmem : e.2 ∈ s.log.map Prod.snd ++ claimed_of s.pool :=
      List.mem_append_left _ (List.mem_map_of_mem Prod.snd he)
    have := List.mem_range.mp (hperm.mem_iff.mp hmem)
    omega
  · intro t w ht hne
    unfold PoolState.step
    rw [ht]
    cases w with
    | idle => exact ⟨_, rfl⟩
    | claimed idx => exact ⟨_, rfl⟩
    | exited => exact absurd rfl hne
  · intro t s1 hs1
    exact (step_inv n T hn s s1 t hinv hs1).2
  · obtain ⟨ext, hext⟩ := inv_complete n T hn (2 * n + T) s hinv (by omega)
    exact ⟨ext, by rw [run_append, hs]; exact hext⟩

/-- C26, witness: two threads and two code points; thread 0 gets index 0,
thread 1 gets index 1 and completes its round first, then both read the
counter once more and return. -/
theorem C26_work_distribution_witness :
    1 ≤ 2 ∧ 2 + 2 < 2 ^ 32 ∧
    (PoolState.run 2 (PoolState.start 2) [0, 1, 1, 0, 0, 1]).log = [(1, 1), (0, 0)] ∧
    ((PoolState.run 2 (PoolState.start 2) [0, 1, 1, 0, 0, 1]).log.map Prod.snd).Nodup ∧
    (∀ e ∈ (PoolState.run 2 (PoolState.start 2) [0, 1, 1, 0, 0, 1]).log, e.1 < 2 ∧ e.2 < 2) ∧
    ((PoolState.run 2 (PoolState.start 2) [0, 1, 1, 0, 0, 1]).joined →
      ((PoolState.run 2 (PoolState.start 2) [0, 1, 1, 0, 0, 1]).log.map Prod.snd).Perm
        (List.range 2)) ∧
    (∀ t w, (PoolState.run 2 (PoolState.start 2) [0, 1, 1, 0, 0, 1]).pool[t]? = some w →
      w ≠ WorkerState.exited →
      ∃ s1, PoolState.step 2 (PoolState.run 2 (PoolState.start 2) [0, 1, 1, 0, 0, 1]) t =
        some s1) ∧
    (∀ t s1, PoolState.step 2 (PoolState.run 2 (PoolState.start 2) [0, 1, 1, 0, 0, 1]) t =
        some s1 →
      s1.next + s1.log.length =
        (PoolState.run 2 (PoolState.start 2) [0, 1, 1, 0, 0, 1]).next +
          (PoolState.run 2 (PoolState.start 2) [0, 1, 1, 0, 0, 1]).log.length + 1) ∧
    (PoolState.run 2 (PoolState.start 2) [0, 1, 1, 0, 0, 1]).next +
      (PoolState.run 2 (PoolState.start 2) [0, 1, 1, 0, 0, 1]).log.length ≤ 2 * 2 + 2 ∧
    ∃ ext, (PoolState.run 2 (PoolState.start 2) ([0, 1, 1, 0, 0, 1] ++ ext)).joined :=
  ⟨by decide, by decide, by decide,
    C26_work_distribution 2 2 (by decide) (by decide) [0, 1, 1, 0, 0, 1]⟩

/-- C26, counterexample: no thread (`std::thread::hardware_concurrency()` may
return 0) and one code point. In every order of steps the state stays as it
was at the start; no thread is left to wait for, so the loop of `join` calls is
left, and the index 0 has not been processed. -/
theorem C26_counterexample :
    (PoolState.start 0).pool = [] ∧
    (∀ sched, PoolState.run 1 (PoolState.start 0) sched = PoolState.start 0) ∧
    (PoolState.start 0).joined ∧
    (PoolState.start 0).log = [] ∧
    ¬ ((PoolState.start 0).log.map Prod.snd).Perm (List.range 1) := by
  refine ⟨rfl, ?_, ?_, rfl, ?_⟩
  · intro sched
    induction sched with
    | nil => rfl
    | cons t sched ih =>
      rw [run_cons]
      exact ih
  · intro w hw
    exact absurd hw (List.not_mem_nil w)
  · intro h
    have := h.length_eq
    exact absurd this (by decide)

/-! ## The bitplane of a disk -/

/-- The bit `7 - i` of the byte of eight positions is the value at `i`. -/
theorem pack_bits_testBit (g : Nat → Bool) (i : Nat) (hi : i < 8) :
    (pack_bits g).testBit (7 - i) = g i := by
  have h : ∀ (b0 b1 b2 b3 b4 b5 b6 b7 : Bool),
      (((if b0 then 128 else 0) + (if b1 then 64 else 0) + (if b2 then 32 else 0) +
        (if b3 then 16 else 0) + (if b4 then 8 else 0) + (if b5 then 4 else 0) +
        (if b6 then 2 else 0) + (if b7 then 1 else 0) : Nat).testBit 7 = b0) ∧
      (((if b0 then 128 else 0) + (if b1 then 64 else 0) + (if b2 then 32 else 0) +
        (if b3 then 16 else 0) + (if b4 then 8 else 0) + (if b5 then 4 else 0) +
        (if b6 then 2 else 0) + (if b7 then 1 else 0) : Nat).testBit 6 = b1) ∧
      (((if b0 then 128 else 0) + (if b1 then 64 else 0) + (if b2 then 32 else 0) +
        (if b3 then 16 else 0) + (if b4 then 8 else 0) + (if b5 then 4 else 0) +
        (if b6 then 2 else 0) + (if b7 then 1 else 0) : Nat).testBit 5 = b2) ∧
      (((if b0 then 128 else 0) + (if b1 then 64 else 0) + (if b2 then 32 else 0) +
        (if b3 then 16 else 0) + (if b4 then 8 else 0) + (if b5 then 4 else 0) +
        (if b6 then 2 else 0) + (if b7 then 1 else 0) : Nat).testBit 4 = b3) ∧
      (((if b0 then 128 else 0) + (if b1 then 64 else 0) + (if b2 then 32 else 0) +
        (if b3 then 16 else 0) + (if b4 then 8 else 0) + (if b5 then 4 else 0) +
        (if b6 then 2 else 0) + (if b7 then 1 else 0) : Nat).testBit 3 = b4) ∧
      (((if b0 then 128 else 0) + (if b1 then 64 else 0) + (if b2 then 32 else 0) +
        (if b3 then 16 else 0) + (if b4 then 8 else 0) + (if b5 then 4 else 0) +
        (if b6 then 2 else 0) + (if b7 then 1 else 0) : Nat).testBit 2 = b5) ∧
      (((if b0 then 128 else 0) + (if b1 then 64 else 0) + (if b2 then 32 else 0) +
        (if b3 then 16 else 0) + (if b4 then 8 else 0) + (if b5 then 4 else 0) +
        (if b6 then 2 else 0) + (if b7 then 1 else 0) : Nat).testBit 1 = b6) ∧
      (((if b0 then 128 else 0) + (if b1 then 64 else 0) + (if b2 then 32 else 0) +
        (if b3 then 16 else 0) + (if b4 then 8 else 0) + (if b5 then 4 else 0) +
        (if b6 then 2 else 0) + (if b7 then 1 else 0) : Nat).testBit 0 = b7) := by
    decide
  obtain ⟨h0, h1, h2, h3, h4, h5, h6, h7⟩ := h (g 0) (g 1) (g 2) (g 3) (g 4) (g 5) (g 6) (g 7)
  unfold pack_bits
  interval_cases i
  · exact h0
  · exact h1
  · exact h2
  · exact h3
  · exact h4
  · exact h5
  · exact h6
  · exact h7

/-- The bit of a bitplane of width and height 1536 whose bytes hold a
predicate. -/
theorem plane_Get (data : List Nat) (p : Int → Int → Bool)
    (hd : ∀ k : Nat, k < 192 * 1536 → data.getD k 0 =
      pack_bits (fun i => p (8 * ((k : Int) % 192) + (i : Int)) ((k : Int) / 192)))
    (x y : Int) :
    (BitPlane.mk 1536 1536 192 data).Get x y =
      (decide (0 ≤ x ∧ x < 1536 ∧ 0 ≤ y ∧ y < 1536) && p x y) := by
  unfold BitPlane.Get
  dsimp only
  by_cases hout : x < 0 ∨ y < 0 ∨ x ≥ 1536 ∨ y ≥ 1536
  · rw [if_pos hout]
    have : ¬ (0 ≤ x ∧ x < 1536 ∧ 0 ≤ y ∧ y < 1536) := by omega
    simp [this]
  · rw [if_neg hout]
    have hin : 0 ≤ x ∧ x < 1536 ∧ 0 ≤ y ∧ y < 1536 := by omega
    obtain ⟨k, hk⟩ : ∃ k : Nat, (k : Int) = y * 192 + x / 8 := ⟨(y * 192 + x / 8).toNat, by omega⟩
    have hk1 : (y * 192 + x / 8).toNat = k := by omega
    have hklt : k < 192 * 1536 := by omega
    rw [hk1, get_bit, hd k hklt, pack_bits_testBit _ _ (by omega)]
    have e1 : 8 * ((k : Int) % 192) + (((x % 8).toNat : Nat) : Int) = x := by omega
    have e2 : (k : Int) / 192 = y := by omega
    rw [e1, e2]
    simp [hin]

/-- The bytes of the bitplane of a predicate. -/
theorem of_pred_data_getD (p : Int → Int → Bool) (k : Nat) (hk : k < 192 * 1536) :
    (of_pred_data p).getD k 0 =
      pack_bits (fun i => p (8 * ((k : Int) % 192) + (i : Int)) ((k : Int) / 192)) := by
  unfold of_pred_data
  rw [List.getD_eq_getElem?_getD, List.getElem?_map, List.getElem?_range hk]
  rfl

/-- The bit of the bitplane of a predicate. -/
theorem of_pred_Get (p : Int → Int → Bool) (x y : Int) :
    (BitPlane.of_pred p).Get x y =
      (decide (0 ≤ x ∧ x < 1536 ∧ 0 ≤ y ∧ y < 1536) && p x y) := by
  unfold BitPlane.of_pred
  exact plane_Get (of_pred_data p) p (of_pred_data_getD p) x y

/-- The bits of the bitplane of the disk of radius 512. -/
theorem disk_plane_Get (px py : Int) :
    disk_plane.Get px py =
      decide ((px - 768) * (px - 768) + (py - 768) * (py - 768) ≤ 512 * 512) := by
  unfold disk_plane
  rw [of_pred_Get]
  unfold disk
  by_cases hin : 0 ≤ px ∧ px < 1536 ∧ 0 ≤ py ∧ py < 1536
  · simp [hin]
  · have hout : ¬ ((px - 768) * (px - 768) + (py - 768) * (py - 768) ≤ 512 * 512) := by
      intro h
      apply hin
      have h1 := mul_self_nonneg (px - 768)
      have h2 := mul_self_nonneg (py - 768)
      refine ⟨?_, ?_, ?_, ?_⟩ <;> nlinarith
    rw [decide_eq_false hout, decide_eq_false hin]
    rfl

/-! ## The bytes along a ray from the centre of a disk -/

/-- A point `q` farther out than `p` on the same ray from the origin is farther
from the origin after the same shift `e`, when the shifted `p` lies on the side
of `p`. -/
theorem ray_closer (k m p1 p2 q1 q2 e1 e2 : Int) (hk : 1 ≤ k) (hkm : k ≤ m)
    (hx : k * q1 = m * p1) (hy : k * q2 = m * p2)
    (h : 0 ≤ p1 * (p1 + e1) + p2 * (p2 + e2)) :
    (p1 + e1) * (p1 + e1) + (p2 + e2) * (p2 + e2) ≤
      (q1 + e1) * (q1 + e1) + (q2 + e2) * (q2 + e2) := by
  have e : k * k * ((q1 + e1) * (q1 + e1) + (q2 + e2) * (q2 + e2)) =
      k * k * ((p1 + e1) * (p1 + e1) + (p2 + e2) * (p2 + e2)) +
      ((m - k) * (m - k) * (p1 * p1 + p2 * p2) +
        2 * k * (m - k) * (p1 * (p1 + e1) + p2 * (p2 + e2))) := by
    have h1 : k * k * ((q1 + e1) * (q1 + e1) + (q2 + e2) * (q2 + e2)) =
        (k * q1 + k * e1) * (k * q1 + k * e1) + (k * q2 + k * e2) * (k * q2 + k * e2) := by ring
    rw [h1, hx, hy]
    ring
  have n1 : 0 ≤ (m - k) * (m - k) * (p1 * p1 + p2 * p2) :=
    mul_nonneg (mul_self_nonneg _) (add_nonneg (mul_self_nonneg _) (mul_self_nonneg _))
  have n2 : 0 ≤ 2 * k * (m - k) * (p1 * (p1 + e1) + p2 * (p2 + e2)) :=
    mul_nonneg (mul_nonneg (by omega) (by omega)) h
  have hkk : 0 < k * k := by positivity
  exact le_of_mul_le_mul_left (by rw [e]; linarith) hkk

/-- The centre of a pixel is at least 32 units from the centre of the bitplane
in both coordinates, so a sample of the pixel lies on the same side. -/
theorem sample_side (x : Int) (d : Int) (hd0 : -24 ≤ d) (hd1 : d ≤ 24) :
    0 ≤ (64 * x + 32 - 768) * (64 * x + 32 - 768 + d) := by
  by_cases h : 12 ≤ x
  · exact mul_nonneg (by omega) (by omega)
  · exact mul_nonneg_of_nonpos_of_nonpos (by omega) (by omega)

/-- The count `in_cnt` does not grow along a ray from the centre of a disk. -/
theorem in_cnt_ray (hi : BitPlane) (r2 : Int)
    (hdisk : ∀ px py, hi.Get px py = disk r2 px py)
    (x1 y1 x2 y2 k m : Int) (hk : 1 ≤ k) (hkm : k ≤ m)
    (hx : k * (64 * x2 + 32 - 768) = m * (64 * x1 + 32 - 768))
    (hy : k * (64 * y2 + 32 - 768) = m * (64 * y1 + 32 - 768)) :
    in_cnt hi x2 y2 ≤ in_cnt hi x1 y1 := by
  rw [in_cnt_eq_card, in_cnt_eq_card]
  apply Finset.card_le_card
  apply Finset.monotone_filter_right
  intro p hp
  rw [hdisk] at hp ⊢
  unfold disk at hp ⊢
  rw [decide_eq_true_iff] at hp ⊢
  have hi1 : ((p.1 : Nat) : Int) < 4 := by exact_mod_cast p.1.isLt
  have hi2 : ((p.2 : Nat) : Int) < 4 := by exact_mod_cast p.2.isLt
  have hc := ray_closer k m (64 * x1 + 32 - 768) (64 * y1 + 32 - 768) (64 * x2 + 32 - 768)
    (64 * y2 + 32 - 768) (16 * ((p.1 : Nat) : Int) - 24) (16 * ((p.2 : Nat) : Int) - 24)
    hk hkm hx hy
    (add_nonneg (sample_side x1 _ (by omega) (by omega)) (sample_side y1 _ (by omega) (by omega)))
  have a1 : 64 * x1 + 16 * ((p.1 : Nat) : Int) + 8 - 768 =
      64 * x1 + 32 - 768 + (16 * ((p.1 : Nat) : Int) - 24) := by ring
  have a2 : 64 * y1 + 16 * ((p.2 : Nat) : Int) + 8 - 768 =
      64 * y1 + 32 - 768 + (16 * ((p.2 : Nat) : Int) - 24) := by ring
  have a3 : 64 * x2 + 16 * ((p.1 : Nat) : Int) + 8 - 768 =
      64 * x2 + 32 - 768 + (16 * ((p.1 : Nat) : Int) - 24) := by ring
  have a4 : 64 * y2 + 16 * ((p.2 : Nat) : Int) + 8 - 768 =
      64 * y2 + 32 - 768 + (16 * ((p.2 : Nat) : Int) - 24) := by ring
  rw [a1, a2]
  rw [a3, a4] at hp
  linarith

/-- The centre of the pixel `(x, y)` in the bitplane. -/
theorem pixel_centre (x : Int) : x * kSupersample + kSupersample / 2 = 64 * x + 32 := by
  simp only [kSupersample]
  omega

/-- Along a ray from the centre of a disk the value `best` of the pixels
classified inside does not grow. -/
theorem best_ray_inside (hi : BitPlane) (r2 : Int)
    (hdisk : ∀ px py, hi.Get px py = disk r2 px py)
    (x1 y1 x2 y2 k m : Int) (hk : 1 ≤ k) (hkm : k ≤ m)
    (hx : k * (64 * x2 + 32 - 768) = m * (64 * x1 + 32 - 768))
    (hy : k * (64 * y2 + 32 - 768) = m * (64 * y1 + 32 - 768))
    (h1 : pixel_inside hi x1 y1 = true) (h2 : pixel_inside hi x2 y2 = true) :
    pixel_best hi x2 y2 ≤ pixel_best hi x1 y1 := by
  unfold pixel_best
  rw [h1, h2, pixel_centre, pixel_centre, pixel_centre, pixel_centre]
  obtain ⟨_, _, a3⟩ := search_best_spec hi true (64 * x1 + 32) (64 * y1 + 32)
  obtain ⟨b1, b2, _⟩ := search_best_spec hi true (64 * x2 + 32) (64 * y2 + 32)
  rcases a3 with a3 | ⟨dx, dy, w1, w2, w3, w4, hg, hb⟩
  · rw [a3]
    exact b1
  · rw [hb]
    rw [hdisk] at hg
    unfold disk at hg
    have hout : r2 < (64 * x1 + 32 - 768 + dx) * (64 * x1 + 32 - 768 + dx) +
        (64 * y1 + 32 - 768 + dy) * (64 * y1 + 32 - 768 + dy) := by
      by_contra hle
      apply hg
      rw [decide_eq_true_iff]
      have e1 : 64 * x1 + 32 + dx - 768 = 64 * x1 + 32 - 768 + dx := by ring
      have e2 : 64 * y1 + 32 + dy - 768 = 64 * y1 + 32 - 768 + dy := by ring
      rw [e1, e2]
      linarith
    by_cases hs : 0 ≤ (64 * x1 + 32 - 768) * (64 * x1 + 32 - 768 + dx) +
        (64 * y1 + 32 - 768) * (64 * y1 + 32 - 768 + dy)
    · have hc := ray_closer k m _ _ _ _ dx dy hk hkm hx hy hs
      apply b2 dx dy w1 w2 w3 w4
      rw [hdisk]
      unfold disk
      have e1 : 64 * x2 + 32 + dx - 768 = 64 * x2 + 32 - 768 + dx := by ring
      have e2 : 64 * y2 + 32 + dy - 768 = 64 * y2 + 32 - 768 + dy := by ring
      rw [e1, e2]
      simp only [ne_eq, decide_eq_true_eq, not_le]
      linarith
    · have n1 := mul_self_nonneg (64 * x1 + 32 - 768)
      have n2 := mul_self_nonneg (64 * y1 + 32 - 768)
      have hs2 : 0 ≤ (64 * x1 + 32 - 768) * (64 * x1 + 32 - 768 + -dx) +
          (64 * y1 + 32 - 768) * (64 * y1 + 32 - 768 + -dy) := by
        have e : (64 * x1 + 32 - 768) * (64 * x1 + 32 - 768 + -dx) +
            (64 * y1 + 32 - 768) * (64 * y1 + 32 - 768 + -dy) =
            2 * ((64 * x1 + 32 - 768) * (64 * x1 + 32 - 768) +
              (64 * y1 + 32 - 768) * (64 * y1 + 32 - 768)) -
            ((64 * x1 + 32 - 768) * (64 * x1 + 32 - 768 + dx) +
              (64 * y1 + 32 - 768) * (64 * y1 + 32 - 768 + dy)) := by ring
        rw [e]
        linarith
      have hc := ray_closer k m _ _ _ _ (-dx) (-dy) hk hkm hx hy hs2
      have hflip : (64 * x1 + 32 - 768 + dx) * (64 * x1 + 32 - 768 + dx) +
          (64 * y1 + 32 - 768 + dy) * (64 * y1 + 32 - 768 + dy) ≤
          (64 * x1 + 32 - 768 + -dx) * (64 * x1 + 32 - 768 + -dx) +
          (64 * y1 + 32 - 768 + -dy) * (64 * y1 + 32 - 768 + -dy) := by
        have e : (64 * x1 + 32 - 768 + -dx) * (64 * x1 + 32 - 768 + -dx) +
            (64 * y1 + 32 - 768 + -dy) * (64 * y1 + 32 - 768 + -dy) =
            (64 * x1 + 32 - 768 + dx) * (64 * x1 + 32 - 768 + dx) +
            (64 * y1 + 32 - 768 + dy) * (64 * y1 + 32 - 768 + dy) +
            4 * (((64 * x1 + 32 - 768) * (64 * x1 + 32 - 768) +
              (64 * y1 + 32 - 768) * (64 * y1 + 32 - 768)) -
            ((64 * x1 + 32 - 768) * (64 * x1 + 32 - 768 + dx) +
              (64 * y1 + 32 - 768) * (64 * y1 + 32 - 768 + dy))) := by ring
        rw [e]
        linarith
      have hsq : dx * dx + dy * dy = -dx * -dx + -dy * -dy := by ring
      rw [hsq]
      apply b2 (-dx) (-dy) (by omega) (by omega) (by omega) (by omega)
      rw [hdisk]
      unfold disk
      have e1 : 64 * x2 + 32 + -dx - 768 = 64 * x2 + 32 - 768 + -dx := by ring
      have e2 : 64 * y2 + 32 + -dy - 768 = 64 * y2 + 32 - 768 + -dy := by ring
      rw [e1, e2]
      simp only [ne_eq, decide_eq_true_eq, not_le]
      linarith

/-- Along a ray from the centre of a disk the value `best` of the pixels
classified outside does not fall. -/
theorem best_ray_outside (hi : BitPlane) (r2 : Int)
    (hdisk : ∀ px py, hi.Get px py = disk r2 px py)
    (x1 y1 x2 y2 k m : Int) (hk : 1 ≤ k) (hkm : k ≤ m)
    (hx : k * (64 * x2 + 32 - 768) = m * (64 * x1 + 32 - 768))
    (hy : k * (64 * y2 + 32 - 768) = m * (64 * y1 + 32 - 768))
    (h1 : pixel_inside hi x1 y1 = false) (h2 : pixel_inside hi x2 y2 = false) :
    pixel_best hi x1 y1 ≤ pixel_best hi x2 y2 := by
  unfold pixel_best
  rw [h1, h2, pixel_centre, pixel_centre, pixel_centre, pixel_centre]
  obtain ⟨a1, _, a3⟩ := search_best_spec hi false (64 * x2 + 32) (64 * y2 + 32)
  obtain ⟨b1, b2, _⟩ := search_best_spec hi false (64 * x1 + 32) (64 * y1 + 32)
  rcases a3 with a3 | ⟨dx, dy, w1, w2, w3, w4, hg, hb⟩
  · rw [a3]
    exact b1
  · rw [hb] at a1 ⊢
    rw [hdisk] at hg
    unfold disk at hg
    have hin : (64 * x2 + 32 - 768 + dx) * (64 * x2 + 32 - 768 + dx) +
        (64 * y2 + 32 - 768 + dy) * (64 * y2 + 32 - 768 + dy) ≤ r2 := by
      have e1 : 64 * x2 + 32 + dx - 768 = 64 * x2 + 32 - 768 + dx := by ring
      have e2 : 64 * y2 + 32 + dy - 768 = 64 * y2 + 32 - 768 + dy := by ring
      rw [e1, e2] at hg
      simpa using hg
    by_cases hs : 0 ≤ (64 * x1 + 32 - 768) * (64 * x1 + 32 - 768 + dx) +
        (64 * y1 + 32 - 768) * (64 * y1 + 32 - 768 + dy)
    · have hc := ray_closer k m _ _ _ _ dx dy hk hkm hx hy hs
      apply b2 dx dy w1 w2 w3 w4
      rw [hdisk]
      unfold disk
      have e1 : 64 * x1 + 32 + dx - 768 = 64 * x1 + 32 - 768 + dx := by ring
      have e2 : 64 * y1 + 32 + dy - 768 = 64 * y1 + 32 - 768 + dy := by ring
      rw [e1, e2]
      simp only [ne_eq, decide_eq_false_iff_not, not_not]
      linarith
    · generalize hp1 : 64 * x1 + 32 - 768 = p1 at hs
      generalize hp2 : 64 * y1 + 32 - 768 = p2 at hs
      have hr2 : 0 ≤ r2 := by
        have n1 := mul_self_nonneg (64 * x2 + 32 - 768 + dx)
        have n2 := mul_self_nonneg (64 * y2 + 32 - 768 + dy)
        linarith
      have hP0 : 0 ≤ p1 * p1 + p2 * p2 := add_nonneg (mul_self_nonneg _) (mul_self_nonneg _)
      have hD : p1 * p1 + p2 * p2 < -(p1 * dx + p2 * dy) := by
        have e : p1 * (p1 + dx) + p2 * (p2 + dy) = p1 * p1 + p2 * p2 + (p1 * dx + p2 * dy) := by
          ring
        rw [e] at hs
        linarith
      have cs : (p1 * dx + p2 * dy) * (p1 * dx + p2 * dy) ≤
          (p1 * p1 + p2 * p2) * (dx * dx + dy * dy) := by
        have hn := mul_self_nonneg (p1 * dy - p2 * dx)
        have e : (p1 * p1 + p2 * p2) * (dx * dx + dy * dy) =
            (p1 * dx + p2 * dy) * (p1 * dx + p2 * dy) +
              (p1 * dy - p2 * dx) * (p1 * dy - p2 * dx) := by ring
        rw [e]
        linarith
      have hsq : (p1 * p1 + p2 * p2) * (p1 * p1 + p2 * p2) <
          (p1 * dx + p2 * dy) * (p1 * dx + p2 * dy) := by
        have hpos := mul_pos (show 0 < -(p1 * dx + p2 * dy) - (p1 * p1 + p2 * p2) by linarith)
          (show 0 < -(p1 * dx + p2 * dy) + (p1 * p1 + p2 * p2) by linarith)
        have e : (-(p1 * dx + p2 * dy) - (p1 * p1 + p2 * p2)) *
            (-(p1 * dx + p2 * dy) + (p1 * p1 + p2 * p2)) =
            (p1 * dx + p2 * dy) * (p1 * dx + p2 * dy) -
              (p1 * p1 + p2 * p2) * (p1 * p1 + p2 * p2) := by ring
        rw [e] at hpos
        linarith
      have hPE : p1 * p1 + p2 * p2 ≤ dx * dx + dy * dy := by
        by_contra hlt
        push_neg at hlt
        have := mul_le_mul_of_nonneg_left (le_of_lt hlt) hP0
        linarith
      have hR : R = 320 := R_eq
      rw [hR] at a1 w1 w2 w3 w4
      have hq1 : p1 * p1 ≤ 320 * 320 := by
        have := mul_self_nonneg p2
        linarith
      have hq2 : p2 * p2 ≤ 320 * 320 := by
        have := mul_self_nonneg p1
        linarith
      have ha1 := abs_le_of_sq_le_sq' (show p1 ^ 2 ≤ (320 : Int) ^ 2 by
        rw [sq, sq]; exact hq1) (by norm_num)
      have ha2 := abs_le_of_sq_le_sq' (show p2 ^ 2 ≤ (320 : Int) ^ 2 by
        rw [sq, sq]; exact hq2) (by norm_num)
      have hw1 : -320 ≤ -p1 ∧ -p1 ≤ 320 := ⟨by linarith [ha1.2], by linarith [ha1.1]⟩
      have hw2 : -320 ≤ -p2 ∧ -p2 ≤ 320 := ⟨by linarith [ha2.2], by linarith [ha2.1]⟩
      refine le_trans ?_ hPE
      have hsq2 : p1 * p1 + p2 * p2 = -p1 * -p1 + -p2 * -p2 := by ring
      rw [hsq2]
      have hR2 : (320 : Int) = R := R_eq.symm
      apply b2 (-p1) (-p2) (by rw [← hR2]; exact hw1.1) (by rw [← hR2]; exact hw1.2)
        (by rw [← hR2]; exact hw2.1) (by rw [← hR2]; exact hw2.2)
      rw [hdisk]
      unfold disk
      have e1 : 64 * x1 + 32 + -p1 - 768 = 0 := by rw [← hp1]; ring
      have e2 : 64 * y1 + 32 + -p2 - 768 = 0 := by rw [← hp2]; ring
      rw [e1, e2]
      simp only [ne_eq, decide_eq_false_iff_not, not_not]
      simpa using hr2

/-- The byte of an inside pixel does not fall when `best` grows, and the byte
of an outside pixel does not grow. -/
theorem encode_mono (sqrtf : ℚ → ℚ) (h0 : ∀ q, 0 ≤ q → 0 ≤ sqrtf q)
    (hmono : ∀ a b, 0 ≤ a → a ≤ b → sqrtf a ≤ sqrtf b) (hR : sqrtf 102400 = 320)
    (b1 b2 : Int) (hb0 : 0 ≤ b2) (hb : b2 ≤ b1) (hb1 : b1 ≤ R * R) :
    encode sqrtf b2 true ≤ encode sqrtf b1 true ∧
    encode sqrtf b1 false ≤ encode sqrtf b2 false := by
  obtain ⟨n10, n11⟩ := norm_range sqrtf h0 hmono hR b1 (by omega) hb1
  obtain ⟨n20, n21⟩ := norm_range sqrtf h0 hmono hR b2 hb0 (by omega)
  have hR1 : (0 : ℚ) < (R : ℚ) := by
    rw [R_eq]
    norm_num
  have hs : sqrtf (b2 : ℚ) ≤ sqrtf (b1 : ℚ) :=
    hmono _ _ (by exact_mod_cast hb0) (by exact_mod_cast hb)
  have hn : sqrtf (b2 : ℚ) / (R : ℚ) ≤ sqrtf (b1 : ℚ) / (R : ℚ) :=
    div_le_div_of_nonneg_right hs (le_of_lt hR1)
  obtain ⟨e1, _, _⟩ := encode_inside sqrtf b1 n10 n11
  obtain ⟨e2, _, _⟩ := encode_inside sqrtf b2 n20 n21
  obtain ⟨f1, _, _⟩ := encode_outside sqrtf b1 n10 n11
  obtain ⟨f2, _, _⟩ := encode_outside sqrtf b2 n20 n21
  constructor
  · have : (encode sqrtf b2 true : Int) ≤ (encode sqrtf b1 true : Int) := by
      rw [e1, e2]
      apply Int.floor_mono
      linarith
    exact_mod_cast this
  · have : (encode sqrtf b1 false : Int) ≤ (encode sqrtf b2 false : Int) := by
      rw [f1, f2]
      apply Int.floor_mono
      linarith
    exact_mod_cast this

/-- C23 (amended). SDF monotonicity, with the `float` operations taken exact
and a square root `sqrtf` that is not negative, monotone and exact on `R * R`:
for a coverage bitplane that holds a filled disk around the centre
`(768, 768)` of the bitplane, and two output pixels whose centres lie on one
ray from that centre, `(x2, y2)` not nearer than `(x1, y1)`, the byte of the
outer pixel is not greater than the byte of the inner pixel, and an outer
pixel classified inside has an inner pixel classified inside. -/
theorem C23_sdf_monotone (sqrtf : ℚ → ℚ) (h0 : ∀ q, 0 ≤ q → 0 ≤ sqrtf q)
    (hmono : ∀ a b, 0 ≤ a → a ≤ b → sqrtf a ≤ sqrtf b) (hR : sqrtf 102400 = 320)
    (hi : BitPlane) (r2 : Int) (hdisk : ∀ px py, hi.Get px py = disk r2 px py)
    (x1 y1 x2 y2 k m : Int) (hk : 1 ≤ k) (hkm : k ≤ m)
    (hx : k * (64 * x2 + 32 - 768) = m * (64 * x1 + 32 - 768))
    (hy : k * (64 * y2 + 32 - 768) = m * (64 * y1 + 32 - 768)) :
    sdf_pixel sqrtf hi x2 y2 ≤ sdf_pixel sqrtf hi x1 y1 ∧
    (pixel_inside hi x2 y2 = true → pixel_inside hi x1 y1 = true) := by
  have hcnt := in_cnt_ray hi r2 hdisk x1 y1 x2 y2 k m hk hkm hx hy
  have hcls : pixel_inside hi x2 y2 = true → pixel_inside hi x1 y1 = true := by
    unfold pixel_inside
    intro h
    rw [decide_eq_true_iff] at h ⊢
    omega
  refine ⟨?_, hcls⟩
  have hu1 : pixel_best hi x1 y1 ≤ R * R := by
    unfold pixel_best
    exact (search_best_spec hi _ _ _).1
  have hu2 : pixel_best hi x2 y2 ≤ R * R := by
    unfold pixel_best
    exact (search_best_spec hi _ _ _).1
  have hl1 := pixel_best_nonneg hi x1 y1
  have hl2 := pixel_best_nonneg hi x2 y2
  obtain ⟨n10, n11⟩ := norm_range sqrtf h0 hmono hR _ hl1 hu1
  obtain ⟨n20, n21⟩ := norm_range sqrtf h0 hmono hR _ hl2 hu2
  unfold sdf_pixel
  cases h1 : pixel_inside hi x1 y1 with
  | true =>
    cases h2 : pixel_inside hi x2 y2 with
    | true =>
      exact (encode_mono sqrtf h0 hmono hR _ _ hl2
        (best_ray_inside hi r2 hdisk x1 y1 x2 y2 k m hk hkm hx hy h1 h2) hu1).1
    | false =>
      have a := (encode_inside sqrtf _ n10 n11).2.1
      have b := (encode_outside sqrtf _ n20 n21).2.2
      omega
  | false =>
    cases h2 : pixel_inside hi x2 y2 with
    | true =>
      rw [hcls h2] at h1
      exact absurd h1 (by simp)
    | false =>
      exact (encode_mono sqrtf h0 hmono hR _ _ hl1
        (best_ray_outside hi r2 hdisk x1 y1 x2 y2 k m hk hkm hx hy h1 h2) hu2).2

/-- C23, witness: the bitplane of the disk of radius 512, the integer square
root, and the pixels `(12, 12)` and `(22, 22)` on the diagonal ray. -/
theorem C23_sdf_monotone_witness :
    sdf_pixel sqrt_floor disk_plane 22 22 ≤ sdf_pixel sqrt_floor disk_plane 12 12 ∧
    (pixel_inside disk_plane 22 22 = true → pixel_inside disk_plane 12 12 = true) :=
  C23_sdf_monotone sqrt_floor (fun q _ => sqrt_floor_nonneg q)
    (fun a b _ h => sqrt_floor_mono a b h) sqrt_floor_R2 disk_plane (512 * 512)
    (fun px py => by rw [disk_plane_Get]; rfl) 12 12 22 22 1 21 (by decide) (by decide)
    (by decide) (by decide)

/-- A pixel none of whose 16 samples is set is classified outside. -/
theorem pixel_inside_of_unset (hi : BitPlane) (x y : Int)
    (h : ∀ i j : Nat, i < 4 → j < 4 →
      hi.Get (64 * x + 16 * (i : Int) + 8) (64 * y + 16 * (j : Int) + 8) = false) :
    pixel_inside hi x y = false := by
  unfold pixel_inside
  rw [in_cnt_eq_card]
  have hall : (Finset.univ.filter (fun p : Fin 4 × Fin 4 =>
      hi.Get (64 * x + 16 * ((p.1 : Nat) : Int) + 8) (64 * y + 16 * ((p.2 : Nat) : Int) + 8)
        = true)) = ∅ := by
    apply Finset.filter_false_of_mem
    intro p _
    rw [h p.1 p.2 p.1.isLt p.2.isLt]
    simp
  rw [hall]
  decide

/-- The pixels `(12, 12)` and `(13, 13)` of the bitplane of the disk of radius
512 are classified inside and their value `best` is `R * R`. -/
theorem disk_plane_inner (x : Int) (hx : x = 12 ∨ x = 13) :
    pixel_inside disk_plane x x = true ∧ pixel_best disk_plane x x = R * R := by
  have hin : pixel_inside disk_plane x x = true := by
    apply pixel_inside_of_set
    intro i j hi hj
    rw [disk_plane_Get, decide_eq_true_iff]
    rcases hx with h | h <;> rw [h] <;> interval_cases i <;> interval_cases j <;> decide
  refine ⟨hin, ?_⟩
  unfold pixel_best
  rw [hin, pixel_centre]
  obtain ⟨a1, _, a3⟩ := search_best_spec disk_plane true (64 * x + 32) (64 * x + 32)
  rcases a3 with a3 | ⟨dx, dy, w1, w2, w3, w4, hg, hb⟩
  · exact a3
  · exfalso
    rw [hb] at a1
    rw [R_eq] at a1 w1 w2 w3 w4
    apply hg
    rw [disk_plane_Get, decide_eq_true_iff]
    rcases hx with h | h
    · rw [h]
      have e : (64 * 12 + 32 + dx - 768) * (64 * 12 + 32 + dx - 768) +
          (64 * 12 + 32 + dy - 768) * (64 * 12 + 32 + dy - 768) =
          dx * dx + dy * dy + 64 * dx + 64 * dy + 2048 := by ring
      rw [e]
      linarith
    · rw [h]
      have e : (64 * 13 + 32 + dx - 768) * (64 * 13 + 32 + dx - 768) +
          (64 * 13 + 32 + dy - 768) * (64 * 13 + 32 + dy - 768) =
          dx * dx + dy * dy + 192 * dx + 192 * dy + 18432 := by ring
      rw [e]
      linarith

/-- The pixels `(22, 22)` and `(23, 23)` of the bitplane of the disk of radius
512 are classified outside and their value `best` is `R * R`. -/
theorem disk_plane_outer (x : Int) (hx : x = 22 ∨ x = 23) :
    pixel_inside disk_plane x x = false ∧ pixel_best disk_plane x x = R * R := by
  have hin : pixel_inside disk_plane x x = false := by
    apply pixel_inside_of_unset
    intro i j hi hj
    rw [disk_plane_Get, decide_eq_false_iff_not]
    rcases hx with h | h <;> rw [h] <;> interval_cases i <;> interval_cases j <;> decide
  refine ⟨hin, ?_⟩
  unfold pixel_best
  rw [hin, pixel_centre]
  obtain ⟨a1, _, a3⟩ := search_best_spec disk_plane false (64 * x + 32) (64 * x + 32)
  rcases a3 with a3 | ⟨dx, dy, w1, w2, w3, w4, hg, hb⟩
  · exact a3
  · exfalso
    rw [hb] at a1
    rw [R_eq] at a1 w1 w2 w3 w4
    apply hg
    rw [disk_plane_Get, decide_eq_false_iff_not]
    have hsum : -453 < dx + dy := by
      by_contra hle
      push_neg at hle
      have h1 : 0 ≤ (-453 - (dx + dy)) * (-453 - (dx + dy)) := mul_self_nonneg _
      have h2 : 0 ≤ (-453 - (dx + dy)) * 906 := mul_nonneg (by linarith) (by norm_num)
      have h3 := mul_self_nonneg (dx - dy)
      have e : (dx + dy) * (dx + dy) = 2 * (dx * dx + dy * dy) - (dx - dy) * (dx - dy) := by ring
      have e2 : (-453 - (dx + dy)) * (-453 - (dx + dy)) =
          (dx + dy) * (dx + dy) - 205209 - (-453 - (dx + dy)) * 906 := by ring
      rw [e2, e] at h1
      linarith
    rcases hx with h | h
    · rw [h]
      have e : (64 * 22 + 32 + dx - 768) * (64 * 22 + 32 + dx - 768) +
          (64 * 22 + 32 + dy - 768) * (64 * 22 + 32 + dy - 768) =
          dx * dx + dy * dy + 1344 * (dx + dy) + 903168 := by ring
      rw [e]
      have := add_nonneg (mul_self_nonneg dx) (mul_self_nonneg dy)
      linarith
    · rw [h]
      have e : (64 * 23 + 32 + dx - 768) * (64 * 23 + 32 + dx - 768) +
          (64 * 23 + 32 + dy - 768) * (64 * 23 + 32 + dy - 768) =
          dx * dx + dy * dy + 1472 * (dx + dy) + 1083392 := by ring
      rw [e]
      have := add_nonneg (mul_self_nonneg dx) (mul_self_nonneg dy)
      linarith

/-- C23, counterexample: the bitplane of the disk of radius 512 around the
centre of the bitplane, and the pixels `(12, 12)`, `(13, 13)`, `(22, 22)` and
`(23, 23)`, whose centres lie in this order on the diagonal ray from the centre
of the disk. The first two are inside and both have the byte 255, the last two
are outside and both have the byte 1: the bytes do not fall from `(12, 12)` to
`(13, 13)` nor from `(22, 22)` to `(23, 23)`. -/
theorem C23_counterexample :
    (∀ px py, disk_plane.Get px py =
      decide ((px - 768) * (px - 768) + (py - 768) * (py - 768) ≤ 512 * 512)) ∧
    1 * (64 * 13 + 32 - 768) = 3 * (64 * 12 + 32 - 768 : Int) ∧
    1 * (64 * 22 + 32 - 768) = 21 * (64 * 12 + 32 - 768 : Int) ∧
    1 * (64 * 23 + 32 - 768) = 23 * (64 * 12 + 32 - 768 : Int) ∧
    sdf_pixel sqrt_floor disk_plane 12 12 = 255 ∧
    sdf_pixel sqrt_floor disk_plane 13 13 = 255 ∧
    sdf_pixel sqrt_floor disk_plane 22 22 = 1 ∧
    sdf_pixel sqrt_floor disk_plane 23 23 = 1 ∧
    ¬ (sdf_pixel sqrt_floor disk_plane 13 13 < sdf_pixel sqrt_floor disk_plane 12 12) ∧
    ¬ (sdf_pixel sqrt_floor disk_plane 23 23 < sdf_pixel sqrt_floor disk_plane 22 22) := by
  have h12 : sdf_pixel sqrt_floor disk_plane 12 12 = 255 := by
    unfold sdf_pixel
    rw [(disk_plane_inner 12 (Or.inl rfl)).1, (disk_plane_inner 12 (Or.inl rfl)).2,
      encode_saturated sqrt_floor sqrt_floor_R2]
    rfl
  have h13 : sdf_pixel sqrt_floor disk_plane 13 13 = 255 := by
    unfold sdf_pixel
    rw [(disk_plane_inner 13 (Or.inr rfl)).1, (disk_plane_inner 13 (Or.inr rfl)).2,
      encode_saturated sqrt_floor sqrt_floor_R2]
    rfl
  have h22 : sdf_pixel sqrt_floor disk_plane 22 22 = 1 := by
    unfold sdf_pixel
    rw [(disk_plane_outer 22 (Or.inl rfl)).1, (disk_plane_outer 22 (Or.inl rfl)).2,
      encode_saturated sqrt_floor sqrt_floor_R2]
    rfl
  have h23 : sdf_pixel sqrt_floor disk_plane 23 23 = 1 := by
    unfold sdf_pixel
    rw [(disk_plane_outer 23 (Or.inr rfl)).1, (disk_plane_outer 23 (Or.inr rfl)).2,
      encode_saturated sqrt_floor sqrt_floor_R2]
    rfl
  refine ⟨disk_plane_Get, by decide, by decide, by decide, h12, h13, h22, h23, ?_, ?_⟩
  · rw [h12, h13]
    decide
  · rw [h22, h23]
    decide

/-! ## The packing in closed form -/

/-- The record that a round of the packing loop stores holds the values of the
round, cast to `uint16_t`. -/
theorem pack_step_meta (st : PackState) (cp : Nat) :
    (pack_step st cp).2 = ⟨cp, (((wrap_row st).cur_x + kBorderPX) % 2 ^ 16).toNat,
      (((wrap_row st).cur_y + kBorderPX) % 2 ^ 16).toNat⟩ := rfl

/-- The values of the round for glyph number `i`, in closed form. -/
theorem placed_closed (cps : List Nat) (i : Nat) (hi : i < cps.length) :
    placed cps i = (8 + 24 * ((i % 42 : Nat) : Int), 8 + 28 * ((i / 42 : Nat) : Int)) := by
  have h := (pack_loop_after (cps.take i) 0).1
  have hl : (cps.take i).length = i := by
    rw [List.length_take]
    omega
  have h0 : pack_state_after 0 = pack_init := rfl
  rw [hl, h0, Nat.zero_add] at h
  unfold placed
  rw [h]
  by_cases hz : i = 0
  · subst hz
    rfl
  · simp only [pack_state_after, hz, if_false, wrap_row, kGlyphPX, kBorderPX, kAtlasW]
    split_ifs with hc
    · have h1 : i % 42 = 0 := by omega
      have h2 : i / 42 = (i - 1) / 42 + 1 := by omega
      simp only [h1, h2, Prod.mk.injEq]
      constructor <;> push_cast <;> omega
    · have h1 : i % 42 = (i - 1) % 42 + 1 := by omega
      have h2 : i / 42 = (i - 1) / 42 := by omega
      simp only [h1, h2, Prod.mk.injEq]
      constructor <;> push_cast <;> omega

/-- C35. Shelf packing in closed form, for a request whose canvas height fits
the `int` variables of the loop (`atlas_h < 2^31`, so that no `int` of the
loop overflows): for every index `i < n` the round of the packing loop has
`u = 8 + 24 * (i mod 42)` and `v = 8 + 28 * (i div 42)` in front of the cast to
`uint16_t`, these values lie in the range of `int`, inside the row and inside
the canvas height, and the stored record holds them reduced modulo `2^16`; the
canvas height is 4 for `n = 0` and `32 + 28 * ((n - 1) div 42)` otherwise; and a
second request of the same length has the same values, the same height and the
same stored coordinates. -/
theorem C35_shelf_packing_closed_form (cps : List Nat) (hint : atlas_h cps < 2 ^ 31) :
    (∀ i, i < cps.length →
      placed cps i = (8 + 24 * ((i % 42 : Nat) : Int), 8 + 28 * ((i / 42 : Nat) : Int)) ∧
      (0 ≤ (placed cps i).1 ∧ (placed cps i).1 + 24 + 4 ≤ 1024) ∧
      (0 ≤ (placed cps i).2 ∧ (placed cps i).2 + 24 ≤ atlas_h cps ∧
        (placed cps i).2 + 24 < 2 ^ 31) ∧
      ∃ cp, cps[i]? = some cp ∧
        (metas cps)[i]? = some ⟨cp, ((placed cps i).1 % 2 ^ 16).toNat,
          ((placed cps i).2 % 2 ^ 16).toNat⟩) ∧
    atlas_h cps = (if cps.length = 0 then 4
      else 32 + 28 * (((cps.length - 1) / 42 : Nat) : Int)) ∧
    (∀ other : List Nat, other.length = cps.length →
      (∀ i, i < cps.length → placed other i = placed cps i) ∧
      atlas_h other = atlas_h cps ∧
      (metas other).map (fun m => (m.u, m.v)) = (metas cps).map (fun m => (m.u, m.v))) := by
  have hah : ∀ l : List Nat, atlas_h l = (if l.length = 0 then 4
      else 32 + 28 * (((l.length - 1) / 42 : Nat) : Int)) := by
    intro l
    rw [atlas_h_closed]
    unfold pack_state_after
    split_ifs
    · rfl
    · rfl
  refine ⟨?_, hah cps, ?_⟩
  · intro i hi
    have hd : i / 42 ≤ (cps.length - 1) / 42 := Nat.div_le_div_right (by omega)
    have hm : i % 42 < 42 := Nat.mod_lt i (by decide)
    have hne : ¬ cps.length = 0 := by omega
    refine ⟨placed_closed cps i hi, ?_, ?_, cps[i], List.getElem?_eq_getElem hi, ?_⟩
    · rw [placed_closed cps i hi]
      constructor <;> dsimp only <;> omega
    · have hint1 := hint
      rw [hah cps, if_neg hne] at hint1
      rw [placed_closed cps i hi, hah cps, if_neg hne]
      refine ⟨?_, ?_, ?_⟩ <;> dsimp only <;> omega
    · rw [metas_getElem?, List.getElem?_eq_getElem hi, placed_closed cps i hi]
      rfl
  · intro other hlen
    refine ⟨?_, ?_, ?_⟩
    · intro i hi
      rw [placed_closed cps i hi, placed_closed other i (by omega)]
    · rw [hah, hah, hlen]
    · apply List.ext_getElem?
      intro i
      rw [List.getElem?_map, List.getElem?_map, metas_getElem?, metas_getElem?]
      by_cases hi : i < cps.length
      · rw [List.getElem?_eq_getElem hi, List.getElem?_eq_getElem (show i < other.length by omega)]
        rfl
      · rw [List.getElem?_eq_none (by omega), List.getElem?_eq_none (by omega)]

/-- The statement of C35 for 44 requests of the code point 65: glyph 43 is the
second of the second row, the canvas height is 60, and the 44 code points
`0 .. 43` get the same height. -/
theorem C35_shelf_packing_closed_form_witness :
    atlas_h (List.replicate 44 65) < 2 ^ 31 ∧
    placed (List.replicate 44 65) 43 = (32, 36) ∧
    (metas (List.replicate 44 65))[43]? = some ⟨65, 32, 36⟩ ∧
    atlas_h (List.replicate 44 65) = 60 ∧
    atlas_h (List.range 44) = atlas_h (List.replicate 44 65) := by
  have hb : atlas_h (List.replicate 44 65) < 2 ^ 31 := by
    rw [atlas_h_closed]
    decide
  have h := C35_shelf_packing_closed_form (List.replicate 44 65) hb
  have h43 := h.1 43 (by decide)
  obtain ⟨cp, hcp, hm⟩ := h43.2.2.2
  have hcp1 : cp = 65 := by
    have : (List.replicate 44 65)[43]? = some 65 := by decide
    rw [this] at hcp
    exact (Option.some.inj hcp).symm
  subst hcp1
  have hp : placed (List.replicate 44 65) 43 = (32, 36) := by
    rw [h43.1]
    decide
  refine ⟨hb, hp, ?_, ?_, (h.2.2 (List.range 44) (by decide)).2.1⟩
  · rw [hm, hp]
    rfl
  · rw [h.2.1]
    decide

/-! ## The bits of a bitplane, set and read -/

/-- The constructor builds a bitplane with `pitch = (w + 7) >> 3` and
`pitch * h` bytes. -/
theorem new_wf (w h : Int) (hw : 0 < w) (hh : 0 ≤ h) : (BitPlane.new w h).wf := by
  refine ⟨hw, hh, rfl, ?_⟩
  simp only [BitPlane.new, List.length_replicate]
  have : 0 ≤ (w + 7) / 8 * h := mul_nonneg (by omega) hh
  omega

/-- C38. BitPlane set and get, for a bitplane of width `w` and height `h` as its
constructor builds it and `Set` keeps it (`pitch = (w + 7) >> 3`, the least
number of bytes for `w` bits; bit `0x80 >> (x & 7)` of a byte, the most
significant bit first) and a position `(x, y)` inside it: `Set(x, y)` returns,
after it `Get(x, y)` is true and `Get` is unchanged at every other position;
`Get` is false at every position with `x < 0`, `y < 0`, `x >= w` or `y >= h`;
and a bitplane from the constructor has every bit clear. -/
theorem C38_bitplane_set_get (b : BitPlane) (hwf : b.wf) (x y : Int) (hx0 : 0 ≤ x)
    (hx : x < b.w) (hy0 : 0 ≤ y) (hy : y < b.h) :
    (∃ b1, b.Set x y = .ok b1 ∧ b1.wf ∧ b1.w = b.w ∧ b1.h = b.h ∧
      b1.Get x y = true ∧
      ∀ x1 y1, ¬ (x1 = x ∧ y1 = y) → b1.Get x1 y1 = b.Get x1 y1) ∧
    (∀ px py, px < 0 ∨ py < 0 ∨ px ≥ b.w ∨ py ≥ b.h → b.Get px py = false) ∧
    (8 * (b.pitch - 1) < b.w ∧ b.w ≤ 8 * b.pitch) ∧
    (∀ (w h px py : Int), (BitPlane.new w h).Get px py = false) ∧
    (∀ (w h : Int), 0 < w → 0 ≤ h → (BitPlane.new w h).wf) := by
  obtain ⟨b1, hs, hwf1, hw1, hh1, hg⟩ := Set_Get b hwf x y hx0 hx hy0 hy
  refine ⟨⟨b1, hs, hwf1, hw1, hh1, ?_, ?_⟩, ?_, ?_, BitPlane_new_Get, new_wf⟩
  · rw [hg]
    simp
  · intro x1 y1 hne
    rw [hg]
    simp [hne]
  · intro px py hout
    exact Get_outside b px py hout
  · have hp := hwf.2.2.1
    omega

/-- C38, witness: a bitplane of 16 by 2 bits and the position `(9, 1)`. -/
theorem C38_bitplane_set_get_witness :
    (∃ b1, (BitPlane.new 16 2).Set 9 1 = .ok b1 ∧ b1.wf ∧ b1.w = (BitPlane.new 16 2).w ∧
      b1.h = (BitPlane.new 16 2).h ∧ b1.Get 9 1 = true ∧
      ∀ x1 y1, ¬ (x1 = 9 ∧ y1 = 1) → b1.Get x1 y1 = (BitPlane.new 16 2).Get x1 y1) ∧
    (∀ px py, px < 0 ∨ py < 0 ∨ px ≥ (BitPlane.new 16 2).w ∨ py ≥ (BitPlane.new 16 2).h →
      (BitPlane.new 16 2).Get px py = false) ∧
    (8 * ((BitPlane.new 16 2).pitch - 1) < (BitPlane.new 16 2).w ∧
      (BitPlane.new 16 2).w ≤ 8 * (BitPlane.new 16 2).pitch) ∧
    (∀ (w h px py : Int), (BitPlane.new w h).Get px py = false) ∧
    (∀ (w h : Int), 0 < w → 0 ≤ h → (BitPlane.new w h).wf) :=
  C38_bitplane_set_get (BitPlane.new 16 2) (new_wf 16 2 (by decide) (by decide)) 9 1
    (by decide) (by decide) (by decide) (by decide)

/-! ## The flattening of a quadratic ends -/

/-- One call of `FlattenQuadR`, in terms of the deviation. -/
theorem FlattenQuadR_succ (fuel : Nat) (x0 y0 cx cy x1 y1 tol : ℚ) (out : List (ℚ × ℚ)) :
    FlattenQuadR (fuel + 1) x0 y0 cx cy x1 y1 tol out =
      if deviation x0 y0 cx cy x1 y1 ≤ tol then .ok (out ++ [(x1, y1)])
      else
        match FlattenQuadR fuel x0 y0 ((x0 + cx) * (1 / 2)) ((y0 + cy) * (1 / 2))
            (((x0 + cx) * (1 / 2) + (cx + x1) * (1 / 2)) * (1 / 2))
            (((y0 + cy) * (1 / 2) + (cy + y1) * (1 / 2)) * (1 / 2)) tol out with
        | .ok out1 =>
          FlattenQuadR fuel (((x0 + cx) * (1 / 2) + (cx + x1) * (1 / 2)) * (1 / 2))
            (((y0 + cy) * (1 / 2) + (cy + y1) * (1 / 2)) * (1 / 2))
            ((cx + x1) * (1 / 2)) ((cy + y1) * (1 / 2)) x1 y1 tol out1
        | .bounds => .bounds
        | .fuel => .fuel := rfl

/-- The deviation of the first half of a bisected quadratic. -/
theorem deviation_left (x0 y0 cx cy x1 y1 : ℚ) :
    deviation x0 y0 ((x0 + cx) * (1 / 2)) ((y0 + cy) * (1 / 2))
        (((x0 + cx) * (1 / 2) + (cx + x1) * (1 / 2)) * (1 / 2))
        (((y0 + cy) * (1 / 2) + (cy + y1) * (1 / 2)) * (1 / 2)) =
      deviation x0 y0 cx cy x1 y1 / 16 := by
  unfold deviation
  ring

/-- The deviation of the second half of a bisected quadratic. -/
theorem deviation_right (x0 y0 cx cy x1 y1 : ℚ) :
    deviation (((x0 + cx) * (1 / 2) + (cx + x1) * (1 / 2)) * (1 / 2))
        (((y0 + cy) * (1 / 2) + (cy + y1) * (1 / 2)) * (1 / 2))
        ((cx + x1) * (1 / 2)) ((cy + y1) * (1 / 2)) x1 y1 =
      deviation x0 y0 cx cy x1 y1 / 16 := by
  unfold deviation
  ring

/-- A quadratic whose deviation is at most `tol * 16 ^ n` is flattened with a
recursion of depth at most `n + 1`; the points appended are not empty and end
with the end point. -/
theorem FlattenQuadR_depth (tol : ℚ) :
    ∀ (n : Nat) (x0 y0 cx cy x1 y1 : ℚ), deviation x0 y0 cx cy x1 y1 ≤ tol * 16 ^ n →
      ∀ (fuel : Nat), n < fuel → ∀ out : List (ℚ × ℚ),
        ∃ pts, FlattenQuadR fuel x0 y0 cx cy x1 y1 tol out = .ok (out ++ pts) ∧
          pts.getLast? = some (x1, y1) ∧
          (deviation x0 y0 cx cy x1 y1 ≤ tol → pts = [(x1, y1)]) := by
  intro n
  induction n with
  | zero =>
    intro x0 y0 cx cy x1 y1 hd fuel hf out
    obtain ⟨f1, rfl⟩ : ∃ f1, fuel = f1 + 1 := ⟨fuel - 1, by omega⟩
    rw [pow_zero, mul_one] at hd
    rw [FlattenQuadR_succ, if_pos hd]
    exact ⟨[(x1, y1)], rfl, rfl, fun _ => rfl⟩
  | succ n ih =>
    intro x0 y0 cx cy x1 y1 hd fuel hf out
    obtain ⟨f1, rfl⟩ : ∃ f1, fuel = f1 + 1 := ⟨fuel - 1, by omega⟩
    rw [FlattenQuadR_succ]
    by_cases hc : deviation x0 y0 cx cy x1 y1 ≤ tol
    · rw [if_pos hc]
      exact ⟨[(x1, y1)], rfl, rfl, fun _ => rfl⟩
    · rw [if_neg hc]
      have hhalf : deviation x0 y0 cx cy x1 y1 / 16 ≤ tol * 16 ^ n := by
        rw [pow_succ] at hd
        linarith
      obtain ⟨p1, h1, _, _⟩ := ih x0 y0 ((x0 + cx) * (1 / 2)) ((y0 + cy) * (1 / 2))
        (((x0 + cx) * (1 / 2) + (cx + x1) * (1 / 2)) * (1 / 2))
        (((y0 + cy) * (1 / 2) + (cy + y1) * (1 / 2)) * (1 / 2))
        (by rw [deviation_left]; exact hhalf) f1 (by omega) out
      obtain ⟨p2, h2, hl2, _⟩ := ih (((x0 + cx) * (1 / 2) + (cx + x1) * (1 / 2)) * (1 / 2))
        (((y0 + cy) * (1 / 2) + (cy + y1) * (1 / 2)) * (1 / 2))
        ((cx + x1) * (1 / 2)) ((cy + y1) * (1 / 2)) x1 y1
        (by rw [deviation_right]; exact hhalf) f1 (by omega) (out ++ p1)
      rw [h1]
      simp only
      rw [h2]
      refine ⟨p1 ++ p2, by rw [List.append_assoc], ?_, fun h => absurd h hc⟩
      have hne : p2 ≠ [] := by
        intro h
        rw [h] at hl2
        simp at hl2
      rw [List.getLast?_append_of_ne_nil p1 hne, hl2]

/-- For a positive tolerance every deviation is below `tol * 16 ^ n` for some
`n`. -/
theorem deviation_bound (tol d : ℚ) (htol : 0 < tol) : ∃ n : Nat, d ≤ tol * 16 ^ n := by
  obtain ⟨n, hn⟩ := pow_unbounded_of_one_lt (d / tol) (by norm_num : (1 : ℚ) < 16)
  refine ⟨n, ?_⟩
  have h := (div_lt_iff₀ htol).mp hn
  linarith

/-- C31. Adaptive flattening terminates, in exact arithmetic: for every
quadratic `(P0, C, P1)` and every tolerance `tol2 > 0` the value that
`FlattenQuadR` compares with `tol2` is `|P0 - 2C + P1|^2 / 16`, each of the two
halves of a bisection has one sixteenth of it, and there is a depth `n` such
that `FlattenQuadR` returns whenever more than `n` nested calls are allowed; it
then has appended at least one point to `out`, the last point appended is
`P1`, and when the deviation is within the tolerance the only point appended is
`P1`. -/
theorem C31_flattening_terminates (x0 y0 cx cy x1 y1 tol : ℚ) (htol : 0 < tol) :
    deviation x0 y0 cx cy x1 y1 =
      ((x0 - 2 * cx + x1) ^ 2 + (y0 - 2 * cy + y1) ^ 2) / 16 ∧
    deviation x0 y0 ((x0 + cx) * (1 / 2)) ((y0 + cy) * (1 / 2))
        (((x0 + cx) * (1 / 2) + (cx + x1) * (1 / 2)) * (1 / 2))
        (((y0 + cy) * (1 / 2) + (cy + y1) * (1 / 2)) * (1 / 2)) =
      deviation x0 y0 cx cy x1 y1 / 16 ∧
    deviation (((x0 + cx) * (1 / 2) + (cx + x1) * (1 / 2)) * (1 / 2))
        (((y0 + cy) * (1 / 2) + (cy + y1) * (1 / 2)) * (1 / 2))
        ((cx + x1) * (1 / 2)) ((cy + y1) * (1 / 2)) x1 y1 =
      deviation x0 y0 cx cy x1 y1 / 16 ∧
    ∃ n : Nat, deviation x0 y0 cx cy x1 y1 ≤ tol * 16 ^ n ∧
      ∀ fuel, n < fuel → ∀ out : List (ℚ × ℚ),
        ∃ pts, FlattenQuadR fuel x0 y0 cx cy x1 y1 tol out = .ok (out ++ pts) ∧
          1 ≤ pts.length ∧
          pts.getLast? = some (x1, y1) ∧
          (deviation x0 y0 cx cy x1 y1 ≤ tol → pts = [(x1, y1)]) := by
  refine ⟨?_, deviation_left x0 y0 cx cy x1 y1, deviation_right x0 y0 cx cy x1 y1, ?_⟩
  · unfold deviation
    ring
  · obtain ⟨n, hn⟩ := deviation_bound tol (deviation x0 y0 cx cy x1 y1) htol
    refine ⟨n, hn, ?_⟩
    intro fuel hf out
    obtain ⟨pts, h1, h2, h3⟩ := FlattenQuadR_depth tol n x0 y0 cx cy x1 y1 hn fuel hf out
    refine ⟨pts, h1, ?_, h2, h3⟩
    cases pts with
    | nil => simp at h2
    | cons a l => simp

/-- C31, witness: the quadratic (0,0), (1,1), (2,0) with the tolerance of
`RasterOutline`. -/
theorem C31_flattening_terminates_witness :
    deviation 0 0 1 1 2 0 = (((0 : ℚ) - 2 * 1 + 2) ^ 2 + ((0 : ℚ) - 2 * 1 + 0) ^ 2) / 16 ∧
    deviation 0 0 ((0 + 1) * (1 / 2)) ((0 + 1) * (1 / 2))
        (((0 + 1) * (1 / 2) + (1 + 2) * (1 / 2)) * (1 / 2))
        (((0 + 1) * (1 / 2) + (1 + 0) * (1 / 2)) * (1 / 2)) =
      deviation 0 0 1 1 2 0 / 16 ∧
    deviation (((0 + 1) * (1 / 2) + (1 + 2) * (1 / 2)) * (1 / 2))
        (((0 + 1) * (1 / 2) + (1 + 0) * (1 / 2)) * (1 / 2))
        ((1 + 2) * (1 / 2)) ((1 + 0) * (1 / 2)) 2 0 =
      deviation 0 0 1 1 2 0 / 16 ∧
    ∃ n : Nat, deviation 0 0 1 1 2 0 ≤ tol2 * 16 ^ n ∧
      ∀ fuel, n < fuel → ∀ out : List (ℚ × ℚ),
        ∃ pts, FlattenQuadR fuel 0 0 1 1 2 0 tol2 out = .ok (out ++ pts) ∧
          1 ≤ pts.length ∧
          pts.getLast? = some (2, 0) ∧
          (deviation 0 0 1 1 2 0 ≤ tol2 → pts = [(2, 0)]) :=
  C31_flattening_terminates 0 0 1 1 2 0 tol2 (by decide!)

/-! ## The parity of the intersections of a scanline -/

/-- The number of entries that a loop with a guarded `push_back` appends. -/
theorem filterMap_ite_length (P : Nat → Prop) [DecidablePred P] (g : Nat → ℚ) :
    ∀ l : List Nat, (l.filterMap (fun i => if P i then some (g i) else none)).length =
      l.countP (fun i => decide (P i)) := by
  intro l
  induction l with
  | nil => rfl
  | cons a l ih =>
    by_cases h : P a
    · rw [List.filterMap_cons_some (by rw [if_pos h]), List.countP_cons_of_pos _ _ (by simpa using h),
        List.length_cons, ih]
    · rw [List.filterMap_cons_none (by rw [if_neg h]), List.countP_cons_of_neg _ _ (by simpa using h),
        ih]

/-- Along a chain of values the number of changes is even exactly when the
first and the last value agree. -/
theorem chain_parity (c : Nat → Bool) :
    ∀ m, ((List.range m).countP (fun i => decide (c i ≠ c (i + 1)))) % 2 =
      if c 0 = c m then 0 else 1 := by
  intro m
  induction m with
  | zero => simp
  | succ m ih =>
    rw [List.range_succ, List.countP_append, Nat.add_mod, ih]
    cases h0 : c 0 <;> cases h1 : c m <;> cases h2 : c (m + 1) <;>
      simp [List.countP_cons, h1, h2]

/-- Round a cycle of values the number of changes is even. -/
theorem cyclic_parity (b : Nat → Bool) (n : Nat) :
    Even ((List.range n).countP (fun i => decide (b i ≠ b ((i + 1) % n)))) := by
  by_cases hn : n = 0
  · subst hn
    simp
  · have hcongr : (List.range n).countP (fun i => decide (b i ≠ b ((i + 1) % n))) =
        (List.range n).countP
          (fun i => decide ((fun j => b (j % n)) i ≠ (fun j => b (j % n)) (i + 1))) := by
      apply List.countP_congr
      intro i hi
      rw [List.mem_range] at hi
      simp only [Nat.mod_eq_of_lt hi]
    rw [hcongr, Nat.even_iff, chain_parity (fun j => b (j % n)) n]
    simp only [Nat.zero_mod, Nat.mod_self, if_true]

/-- The intersections of one closed polygon with a scanline are even in
number. -/
theorem crossings_even (poly : List (ℚ × ℚ)) (py : Option ℚ) :
    Even (crossings poly py).length := by
  cases py with
  | none => exact ⟨0, rfl⟩
  | some py =>
    unfold crossings
    simp only
    rw [filterMap_ite_length (fun i => decide ((poly.getD i (0, 0)).2 > py) ≠
        decide ((poly.getD ((i + 1) % poly.length) (0, 0)).2 > py))
      (fun i => (poly.getD i (0, 0)).1 + (py - (poly.getD i (0, 0)).2) /
        ((poly.getD ((i + 1) % poly.length) (0, 0)).2 - (poly.getD i (0, 0)).2) *
        ((poly.getD ((i + 1) % poly.length) (0, 0)).1 - (poly.getD i (0, 0)).1))]
    exact cyclic_parity (fun i => decide ((poly.getD i (0, 0)).2 > py)) poly.length

/-- The intersections collected over the contours stay even in number. -/
theorem row_crossings_even_of_ok (fuel : Nat) (g : ttf.GlyphContour) (py : Option ℚ) :
    ∀ (n c : Nat) (x0 x : List ℚ), row_crossings fuel g py n c x0 = .ok x →
      Even x0.length → Even x.length := by
  intro n
  induction n with
  | zero =>
    intro c x0 x h he
    unfold row_crossings at h
    injection h with h
    rw [← h]
    exact he
  | succ n ih =>
    intro c x0 x h he
    unfold row_crossings at h
    cases hp : contour_poly fuel g c with
    | bounds => rw [hp] at h; simp at h
    | fuel => rw [hp] at h; simp at h
    | ok poly =>
      rw [hp] at h
      simp only [Outcome.ok_bind] at h
      split_ifs at h
      · exact ih _ _ _ h he
      · refine ih _ _ _ h ?_
        rw [List.length_append]
        exact he.add (crossings_even poly py)

/-- With enough fuel every segment of a list is flattened. -/
theorem segments_depth (segs : List ttf.Segment) :
    ∃ N : Nat, ∀ s ∈ segs, ∀ fuel, N < fuel → ∀ out : List (ℚ × ℚ),
      ∃ out1, FlattenQuadR fuel s.x0 s.y0 s.cx s.cy s.x1 s.y1 tol2 out = .ok out1 := by
  induction segs with
  | nil => exact ⟨0, fun s hs => by simp at hs⟩
  | cons a l ih =>
    obtain ⟨N, hN⟩ := ih
    obtain ⟨n, hn⟩ := deviation_bound tol2 (deviation a.x0 a.y0 a.cx a.cy a.x1 a.y1) (by decide!)
    refine ⟨max N n, ?_⟩
    intro s hs fuel hf out
    rcases List.mem_cons.mp hs with h | h
    · subst h
      obtain ⟨pts, hp, _⟩ := FlattenQuadR_depth tol2 n s.x0 s.y0 s.cx s.cy s.x1 s.y1 hn fuel
        (lt_of_le_of_lt (le_max_right N n) hf) out
      exact ⟨_, hp⟩
    · exact hN s h fuel (lt_of_le_of_lt (le_max_left N n) hf) out

/-- The polygon of a run of segments is built when every segment is flattened. -/
theorem poly_loop_total (fuel : Nat) (segs : List ttf.Segment)
    (hflat : ∀ s ∈ segs, ∀ out : List (ℚ × ℚ),
      ∃ out1, FlattenQuadR fuel s.x0 s.y0 s.cx s.cy s.x1 s.y1 tol2 out = .ok out1) :
    ∀ (n i : Nat) (poly : List (ℚ × ℚ)), i + n ≤ segs.length →
      ∃ p, poly_loop fuel segs n i poly = .ok p := by
  intro n
  induction n with
  | zero => intro i poly _; exact ⟨poly, rfl⟩
  | succ n ih =>
    intro i poly h
    unfold poly_loop
    rw [ttf.vecAt_ok segs i (by omega)]
    simp only [Outcome.ok_bind]
    split_ifs
    · simp only [Outcome.ok_bind]
      exact ih _ _ (by omega)
    · obtain ⟨o1, h1⟩ := hflat segs[i] (List.getElem_mem _) (poly ++ [(segs[i].x0, segs[i].y0)])
      rw [h1]
      simp only [Outcome.ok_bind]
      exact ih _ _ (by omega)

/-- The polygon of a contour is built when the contour starts lie inside the
segment list and every segment is flattened. -/
theorem contour_poly_total (fuel : Nat) (g : ttf.GlyphContour)
    (hst : ∀ s ∈ g.contours, s ≤ g.segments.length)
    (hflat : ∀ s ∈ g.segments, ∀ out : List (ℚ × ℚ),
      ∃ out1, FlattenQuadR fuel s.x0 s.y0 s.cx s.cy s.x1 s.y1 tol2 out = .ok out1)
    (c : Nat) (hc : c < g.contours.length) :
    ∃ p, contour_poly fuel g c = .ok p := by
  unfold contour_poly
  rw [ttf.vecAt_ok g.contours c hc]
  simp only [Outcome.ok_bind]
  have hb := hst g.contours[c] (List.getElem_mem _)
  by_cases hlast : c + 1 = g.contours.length
  · rw [if_pos hlast]
    simp only [Outcome.ok_bind]
    exact poly_loop_total fuel g.segments hflat _ _ _ (by omega)
  · rw [if_neg hlast, ttf.vecAt_ok g.contours (c + 1) (by omega)]
    simp only [Outcome.ok_bind]
    have he := hst g.contours[c + 1] (List.getElem_mem _)
    exact poly_loop_total fuel g.segments hflat _ _ _ (by omega)

/-- The loop over the contours returns when every polygon is built. -/
theorem row_crossings_total (fuel : Nat) (g : ttf.GlyphContour) (py : Option ℚ)
    (hpoly : ∀ c, c < g.contours.length → ∃ p, contour_poly fuel g c = .ok p) :
    ∀ (n c : Nat) (x0 : List ℚ), c + n ≤ g.contours.length →
      ∃ x, row_crossings fuel g py n c x0 = .ok x := by
  intro n
  induction n with
  | zero => intro c x0 _; exact ⟨x0, rfl⟩
  | succ n ih =>
    intro c x0 h
    unfold row_crossings
    obtain ⟨p, hp⟩ := hpoly c (by omega)
    rw [hp]
    simp only [Outcome.ok_bind]
    split_ifs
    · exact ih _ _ (by omega)
    · exact ih _ _ (by omega)

/-- The intersections collected over given polygons stay even in number. -/
theorem collect_crossings_even (py : Option ℚ) :
    ∀ (polys : List (List (ℚ × ℚ))) (x0 : List ℚ), Even x0.length →
      Even (collect_crossings py polys x0).length := by
  intro polys
  induction polys with
  | nil => intro x0 he; exact he
  | cons poly rest ih =>
    intro x0 he
    unfold collect_crossings
    split_ifs
    · exact ih x0 he
    · refine ih _ ?_
      rw [List.length_append]
      exact he.add (crossings_even poly py)

/-- The loop over the contours returns what is collected over the polygons of
the contours, when these are built. -/
theorem row_crossings_eq_collect (fuel : Nat) (g : ttf.GlyphContour) (py : Option ℚ) :
    ∀ (polys : List (List (ℚ × ℚ))) (c : Nat) (x0 : List ℚ),
      (∀ i, i < polys.length → contour_poly fuel g (c + i) = .ok (polys.getD i [])) →
      row_crossings fuel g py polys.length c x0 = .ok (collect_crossings py polys x0) := by
  intro polys
  induction polys with
  | nil => intro c x0 _; rfl
  | cons poly rest ih =>
    intro c x0 h
    have h0 := h 0 (by simp)
    simp only [Nat.add_zero, List.getD_cons_zero] at h0
    have hrest : ∀ i, i < rest.length →
        contour_poly fuel g (c + 1 + i) = .ok (rest.getD i []) := by
      intro i hi
      have := h (i + 1) (by simpa using hi)
      simpa [Nat.add_assoc, Nat.add_comm 1 i] using this
    rw [List.length_cons]
    unfold row_crossings collect_crossings
    rw [h0]
    simp only [Outcome.ok_bind]
    split_ifs
    · exact ih _ _ hrest
    · exact ih _ _ hrest

/-- C37. Crossing parity. The count depends on comparisons alone, not on the
value of any `float` operation: for the polygons of the contours, whatever
points the program has built them of, and for every scanline height `py_unit`
(NaN included), the vector `x_int` that the loop of `RasterOutline` over the
contours collects has an even number of entries before the sort and the removal
of duplicates. The closed polygon of any list of points gives an even number of
intersections, an edge being counted exactly when `(y0 > py)` differs from
`(y1 > py)`; and whenever the loop over the contours of an outline returns, at
any recursion depth of the flattening, the number is even. -/
theorem C37_crossing_parity :
    (∀ (polys : List (List (ℚ × ℚ))) (py : Option ℚ),
      Even (collect_crossings py polys []).length) ∧
    (∀ (poly : List (ℚ × ℚ)) (py : Option ℚ), Even (crossings poly py).length) ∧
    (∀ (poly : List (ℚ × ℚ)) (py : ℚ), (crossings poly (some py)).length =
      (List.range poly.length).countP (fun i =>
        decide (decide ((poly.getD i (0, 0)).2 > py) ≠
          decide ((poly.getD ((i + 1) % poly.length) (0, 0)).2 > py)))) ∧
    (∀ (h : ttf.GlyphContour) (fuel : Nat) (py : Option ℚ) (x_int : List ℚ),
      row_crossings fuel h py h.contours.length 0 [] = .ok x_int → Even x_int.length) := by
  refine ⟨?_, crossings_even, ?_, ?_⟩
  · intro polys py
    exact collect_crossings_even py polys [] ⟨0, rfl⟩
  · intro poly py
    unfold crossings
    simp only
    exact filterMap_ite_length (fun i => decide ((poly.getD i (0, 0)).2 > py) ≠
        decide ((poly.getD ((i + 1) % poly.length) (0, 0)).2 > py))
      (fun i => (poly.getD i (0, 0)).1 + (py - (poly.getD i (0, 0)).2) /
        ((poly.getD ((i + 1) % poly.length) (0, 0)).2 - (poly.getD i (0, 0)).2) *
        ((poly.getD ((i + 1) % poly.length) (0, 0)).1 - (poly.getD i (0, 0)).1)) _
  · intro h fuel py x hx
    exact row_crossings_even_of_ok fuel h py _ _ _ _ hx ⟨0, rfl⟩

end FontSDF

namespace serializer

/-! ## The binary round trip -/

theorem bytes_u32_length (v : Nat) : (bytes_u32 v).length = 4 := rfl

theorem bytes_int_length (v : Int) : (bytes_int v).length = 4 := rfl

theorem u32_round (v : Nat) (h : v < 2 ^ 32) : u32_of_bytes (bytes_u32 v) = v := by
  simp only [u32_of_bytes, bytes_u32, List.getD_cons_zero, List.getD_cons_succ]
  norm_num at h
  omega

theorem int_round (v : Int) (h0 : -2 ^ 31 ≤ v) (h1 : v < 2 ^ 31) :
    int_of_bytes (bytes_int v) = v := by
  unfold int_of_bytes bytes_int
  have hm : (0 : Int) ≤ v % 2 ^ 32 := Int.emod_nonneg _ (by norm_num)
  have hlt : v % 2 ^ 32 < 2 ^ 32 := Int.emod_lt_of_pos _ (by norm_num)
  have hn : (v % 2 ^ 32).toNat < 2 ^ 32 := by
    have := Int.toNat_of_nonneg hm
    omega
  rw [u32_round _ hn]
  have hc := Int.toNat_of_nonneg hm
  norm_num at h0 h1 hm hlt hc ⊢
  split_ifs with hlt31
  · omega
  · omega

theorem bytes_ints_length (v : List Int) : (bytes_ints v).length = v.length * 4 := by
  induction v with
  | nil => rfl
  | cons a l ih =>
    simp only [bytes_ints, List.map_cons, List.flatten_cons, List.length_append,
      List.length_cons] at ih ⊢
    rw [ih, bytes_int_length]
    omega

theorem ints_round (v : List Int) (h : ∀ a ∈ v, -2 ^ 31 ≤ a ∧ a < 2 ^ 31) (tail : List Nat) :
    ints_of_bytes v.length (bytes_ints v ++ tail) = v := by
  induction v with
  | nil => rfl
  | cons a l ih =>
    have ha := h a (List.mem_cons_self a l)
    have e : bytes_ints (a :: l) ++ tail = bytes_int a ++ (bytes_ints l ++ tail) := by
      simp [bytes_ints]
    rw [e, List.length_cons, ints_of_bytes, List.take_left' (bytes_int_length a),
      List.drop_left' (bytes_int_length a), ih (fun b hb => h b (List.mem_cons_of_mem a hb)),
      int_round a ha.1 ha.2]

/-- What `memcpy(buffer + pos, data, size); pos += size` leaves. -/
theorem store_written (w : BinaryWriter) (data : List Nat)
    (h : w.pos + data.length ≤ w.buffer.length) :
    written w ⟨w.buffer.take w.pos ++ data ++ w.buffer.drop (w.pos + data.length),
      w.pos + data.length⟩ data := by
  refine ⟨rfl, ?_, ?_⟩
  · simp only [List.length_append, List.length_take, List.length_drop]
    omega
  · simp only
    apply List.take_left'
    simp only [List.length_append, List.length_take]
    omega

theorem written_trans (w w1 w2 : BinaryWriter) (a b : List Nat) (h1 : written w w1 a)
    (h2 : written w1 w2 b) : written w w2 (a ++ b) := by
  obtain ⟨p1, l1, t1⟩ := h1
  obtain ⟨p2, l2, t2⟩ := h2
  refine ⟨?_, by rw [l2, l1], ?_⟩
  · rw [p2, p1, List.length_append]
    omega
  · rw [t2, t1, List.append_assoc]

theorem write_bytes_spec (w : BinaryWriter) (data : List Nat)
    (h : w.pos + data.length ≤ w.buffer.length) :
    ∃ w1, w.write_bytes data = .ok w1 ∧ written w w1 data := by
  unfold BinaryWriter.write_bytes
  rw [if_pos h]
  exact ⟨_, rfl, store_written w data h⟩

theorem write_u32_spec (w : BinaryWriter) (v : Nat) (h : w.pos + 4 ≤ w.buffer.length) :
    ∃ w1, w.access_u32 v = .ok w1 ∧ written w w1 (bytes_u32 v) := by
  unfold BinaryWriter.access_u32
  rw [if_pos h]
  exact ⟨_, rfl, store_written w (bytes_u32 v) h⟩

theorem write_int_spec (w : BinaryWriter) (v : Int) (h : w.pos + 4 ≤ w.buffer.length) :
    ∃ w1, w.access_int v = .ok w1 ∧ written w w1 (bytes_int v) := by
  unfold BinaryWriter.access_int
  rw [if_pos h]
  exact ⟨_, rfl, store_written w (bytes_int v) h⟩

theorem enc_string_length (s : List Nat) : (enc_string s).length = 4 + s.length := by
  simp [enc_string, bytes_u32_length]

theorem serialize_string_spec (w : BinaryWriter) (s : List Nat) (hs : s.length < 2 ^ 32)
    (h : w.pos + (enc_string s).length ≤ w.buffer.length) :
    ∃ w1, serialize_string w s = .ok w1 ∧ written w w1 (enc_string s) := by
  rw [enc_string_length] at h
  unfold serialize_string
  dsimp only
  rw [Nat.mod_eq_of_lt hs, List.take_length]
  obtain ⟨w1, e1, h1⟩ := write_u32_spec w s.length (by omega)
  rw [e1]
  simp only [Outcome.ok_bind]
  obtain ⟨w2, e2, h2⟩ := write_bytes_spec w1 s (by rw [h1.1, h1.2.1, bytes_u32_length]; omega)
  exact ⟨w2, e2, written_trans w w1 w2 _ _ h1 h2⟩

theorem serialize_array_spec (w : BinaryWriter) (arr : List Int)
    (h : w.pos + (bytes_ints arr).length ≤ w.buffer.length) :
    ∃ w1, serialize_array w arr = .ok w1 ∧ written w w1 (bytes_ints arr) :=
  write_bytes_spec w _ h

theorem serialize_vector_int_spec (w : BinaryWriter) (v : List Int) (hv : v.length < 2 ^ 32)
    (h : w.pos + (enc_vector_int v).length ≤ w.buffer.length) :
    ∃ w1, serialize_vector_int w v = .ok w1 ∧ written w w1 (enc_vector_int v) := by
  unfold enc_vector_int at h ⊢
  rw [List.length_append, bytes_u32_length] at h
  unfold serialize_vector_int
  dsimp only
  rw [Nat.mod_eq_of_lt hv, List.take_length]
  obtain ⟨w1, e1, h1⟩ := write_u32_spec w v.length (by omega)
  rw [e1]
  simp only [Outcome.ok_bind]
  by_cases h0 : v.length > 0
  · rw [if_pos h0]
    obtain ⟨w2, e2, h2⟩ := write_bytes_spec w1 (bytes_ints v)
      (by rw [h1.1, h1.2.1, bytes_u32_length]; omega)
    exact ⟨w2, e2, written_trans w w1 w2 _ _ h1 h2⟩
  · rw [if_neg h0]
    have hnil : v = [] := List.length_eq_zero.mp (by omega)
    subst hnil
    exact ⟨w1, rfl, by simpa [bytes_ints] using h1⟩

theorem serialize_vector_loop_spec (vec : List (List Nat)) (hs : ∀ s ∈ vec, s.length < 2 ^ 32) :
    ∀ (n i : Nat) (w : BinaryWriter), i + n ≤ vec.length →
      w.pos + ((((vec.drop i).take n).map enc_string).flatten).length ≤ w.buffer.length →
      ∃ w1, serialize_vector_loop vec n i w = .ok w1 ∧
        written w w1 ((((vec.drop i).take n).map enc_string).flatten) := by
  intro n
  induction n with
  | zero =>
    intro i w _ _
    refine ⟨w, rfl, ?_⟩
    simp [written]
  | succ n ih =>
    intro i w hi h
    have hlt : i < vec.length := by omega
    have hd : (vec.drop i).take (n + 1) = vec[i] :: (vec.drop (i + 1)).take n := by
      rw [List.drop_eq_getElem_cons hlt, List.take_succ_cons]
    rw [hd] at h ⊢
    simp only [List.map_cons, List.flatten_cons, List.length_append] at h ⊢
    unfold serialize_vector_loop
    rw [List.getElem?_eq_getElem hlt]
    simp only
    obtain ⟨w1, e1, h1⟩ := serialize_string_spec w vec[i] (hs _ (List.getElem_mem _))
      (by omega)
    rw [e1]
    simp only [Outcome.ok_bind]
    obtain ⟨w2, e2, h2⟩ := ih (i + 1) w1 (by omega) (by rw [h1.1, h1.2.1]; omega)
    exact ⟨w2, e2, written_trans w w1 w2 _ _ h1 h2⟩

theorem serialize_vector_string_spec (w : BinaryWriter) (v : List (List Nat))
    (hv : v.length < 2 ^ 32) (hs : ∀ s ∈ v, s.length < 2 ^ 32)
    (h : w.pos + (enc_vector_string v).length ≤ w.buffer.length) :
    ∃ w1, serialize_vector_string w v = .ok w1 ∧ written w w1 (enc_vector_string v) := by
  unfold enc_vector_string at h ⊢
  rw [List.length_append, bytes_u32_length] at h
  unfold serialize_vector_string
  dsimp only
  rw [Nat.mod_eq_of_lt hv]
  obtain ⟨w1, e1, h1⟩ := write_u32_spec w v.length (by omega)
  rw [e1]
  simp only [Outcome.ok_bind]
  have hall : (v.drop 0).take v.length = v := by rw [List.drop_zero, List.take_length]
  obtain ⟨w2, e2, h2⟩ := serialize_vector_loop_spec v hs v.length 0 w1 (by omega)
    (by rw [hall, h1.1, h1.2.1, bytes_u32_length]; omega)
  rw [hall] at h2
  exact ⟨w2, e2, written_trans w w1 w2 _ _ h1 h2⟩

/-- The writer writes the encoding of the player. -/
theorem Serialize_writer_spec (w : BinaryWriter) (p : Player) (hsz : p.sized)
    (h : w.pos + (enc_player p).length ≤ w.buffer.length) :
    ∃ w1, Serialize_writer w p = .ok w1 ∧ written w w1 (enc_player p) := by
  obtain ⟨hn, hv, hvs, hs⟩ := hsz
  unfold enc_player at h ⊢
  simp only [List.length_append, bytes_int_length] at h
  unfold Serialize_writer
  obtain ⟨w1, e1, h1⟩ := write_int_spec w p.id (by omega)
  rw [e1]
  simp only [Outcome.ok_bind]
  obtain ⟨w2, e2, h2⟩ := serialize_string_spec w1 p.name hn
    (by rw [h1.1, h1.2.1, bytes_int_length]; omega)
  rw [e2]
  simp only [Outcome.ok_bind]
  have h12 := written_trans w w1 w2 _ _ h1 h2
  obtain ⟨w3, e3, h3⟩ := serialize_array_spec w2 p.arrays
    (by rw [h12.1, h12.2.1, List.length_append, bytes_int_length]; omega)
  rw [e3]
  simp only [Outcome.ok_bind]
  have h13 := written_trans w w2 w3 _ _ h12 h3
  obtain ⟨w4, e4, h4⟩ := serialize_vector_int_spec w3 p.vec_arrays hv
    (by rw [h13.1, h13.2.1]; simp only [List.length_append, bytes_int_length]; omega)
  rw [e4]
  simp only [Outcome.ok_bind]
  have h14 := written_trans w w3 w4 _ _ h13 h4
  obtain ⟨w5, e5, h5⟩ := serialize_vector_string_spec w4 p.vec_str_arrays hvs hs
    (by rw [h14.1, h14.2.1]; simp only [List.length_append, bytes_int_length]; omega)
  exact ⟨w5, e5, written_trans w w4 w5 _ _ h14 h5⟩

/-! ### The reader -/

/-- The bytes in front of the reader start with `data`. -/
theorem load_spec (buffer : List Nat) (pos : Nat) (data tail : List Nat)
    (hpos : pos ≤ buffer.length) (h : buffer.drop pos = data ++ tail) :
    pos + data.length ≤ buffer.length ∧ (buffer.drop pos).take data.length = data ∧
      buffer.drop (pos + data.length) = tail := by
  have hl := congrArg List.length h
  rw [List.length_drop, List.length_append] at hl
  refine ⟨by omega, ?_, ?_⟩
  · rw [h, List.take_left]
  · rw [← List.drop_drop, h, List.drop_left]

theorem read_bytes_spec (r : BinaryReader) (data tail : List Nat)
    (hpos : r.pos ≤ r.buffer.length) (h : r.buffer.drop r.pos = data ++ tail) :
    r.read_bytes data.length = .ok (data, ⟨r.buffer, r.pos + data.length⟩) ∧
      r.pos + data.length ≤ r.buffer.length ∧ r.buffer.drop (r.pos + data.length) = tail := by
  obtain ⟨h1, h2, h3⟩ := load_spec r.buffer r.pos data tail hpos h
  unfold BinaryReader.read_bytes
  rw [if_pos h1, h2]
  exact ⟨rfl, h1, h3⟩

theorem read_u32_spec (r : BinaryReader) (v : Nat) (hv : v < 2 ^ 32) (tail : List Nat)
    (hpos : r.pos ≤ r.buffer.length) (h : r.buffer.drop r.pos = bytes_u32 v ++ tail) :
    r.access_u32 = .ok (v, ⟨r.buffer, r.pos + 4⟩) ∧
      r.pos + 4 ≤ r.buffer.length ∧ r.buffer.drop (r.pos + 4) = tail := by
  obtain ⟨h1, h2, h3⟩ := load_spec r.buffer r.pos (bytes_u32 v) tail hpos h
  rw [bytes_u32_length] at h1 h2 h3
  unfold BinaryReader.access_u32
  rw [if_pos h1, h2, u32_round v hv]
  exact ⟨rfl, h1, h3⟩

theorem read_int_spec (r : BinaryReader) (v : Int) (h0 : -2 ^ 31 ≤ v) (h1 : v < 2 ^ 31)
    (tail : List Nat) (hpos : r.pos ≤ r.buffer.length)
    (h : r.buffer.drop r.pos = bytes_int v ++ tail) :
    r.access_int = .ok (v, ⟨r.buffer, r.pos + 4⟩) ∧
      r.pos + 4 ≤ r.buffer.length ∧ r.buffer.drop (r.pos + 4) = tail := by
  obtain ⟨g1, g2, g3⟩ := load_spec r.buffer r.pos (bytes_int v) tail hpos h
  rw [bytes_int_length] at g1 g2 g3
  unfold BinaryReader.access_int
  rw [if_pos g1, g2, int_round v h0 h1]
  exact ⟨rfl, g1, g3⟩

theorem deserialize_string_spec (r : BinaryReader) (s : List Nat) (hs : s.length < 2 ^ 32)
    (tail : List Nat) (hpos : r.pos ≤ r.buffer.length)
    (h : r.buffer.drop r.pos = enc_string s ++ tail) :
    deserialize_string r = .ok (s, ⟨r.buffer, r.pos + (enc_string s).length⟩) ∧
      r.pos + (enc_string s).length ≤ r.buffer.length ∧
      r.buffer.drop (r.pos + (enc_string s).length) = tail := by
  unfold enc_string at h
  rw [List.append_assoc] at h
  obtain ⟨e1, p1, d1⟩ := read_u32_spec r s.length hs (s ++ tail) hpos h
  obtain ⟨e2, p2, d2⟩ := read_bytes_spec ⟨r.buffer, r.pos + 4⟩ s tail p1 d1
  unfold deserialize_string
  rw [e1]
  simp only [Outcome.ok_bind]
  rw [e2, enc_string_length]
  simp only at p2 d2
  rw [show r.pos + (4 + s.length) = r.pos + 4 + s.length by omega]
  exact ⟨rfl, p2, d2⟩

theorem deserialize_array_spec (r : BinaryReader) (arr : List Int)
    (ha : ∀ a ∈ arr, -2 ^ 31 ≤ a ∧ a < 2 ^ 31) (tail : List Nat)
    (hpos : r.pos ≤ r.buffer.length) (h : r.buffer.drop r.pos = bytes_ints arr ++ tail) :
    deserialize_array arr.length r = .ok (arr, ⟨r.buffer, r.pos + (bytes_ints arr).length⟩) ∧
      r.pos + (bytes_ints arr).length ≤ r.buffer.length ∧
      r.buffer.drop (r.pos + (bytes_ints arr).length) = tail := by
  obtain ⟨e1, p1, d1⟩ := read_bytes_spec r (bytes_ints arr) tail hpos h
  unfold deserialize_array
  rw [← bytes_ints_length, e1]
  simp only [Outcome.ok_bind, Outcome.pure_eq]
  have := ints_round arr ha []
  rw [List.append_nil] at this
  rw [bytes_ints_length, this]
  rw [bytes_ints_length] at p1 d1
  exact ⟨rfl, p1, d1⟩

theorem deserialize_vector_int_spec (r : BinaryReader) (v : List Int) (hv : v.length < 2 ^ 32)
    (ha : ∀ a ∈ v, -2 ^ 31 ≤ a ∧ a < 2 ^ 31) (tail : List Nat)
    (hpos : r.pos ≤ r.buffer.length) (h : r.buffer.drop r.pos = enc_vector_int v ++ tail) :
    deserialize_vector_int r = .ok (v, ⟨r.buffer, r.pos + (enc_vector_int v).length⟩) ∧
      r.pos + (enc_vector_int v).length ≤ r.buffer.length ∧
      r.buffer.drop (r.pos + (enc_vector_int v).length) = tail := by
  unfold enc_vector_int at h ⊢
  rw [List.append_assoc] at h
  obtain ⟨e1, p1, d1⟩ := read_u32_spec r v.length hv (bytes_ints v ++ tail) hpos h
  unfold deserialize_vector_int
  rw [e1]
  simp only [Outcome.ok_bind, List.length_append, bytes_u32_length]
  by_cases h0 : v.length > 0
  · rw [if_pos h0]
    obtain ⟨e2, p2, d2⟩ := deserialize_array_spec ⟨r.buffer, r.pos + 4⟩ v ha tail p1 d1
    unfold deserialize_array at e2
    simp only at e2 p2 d2
    rw [e2, show r.pos + (4 + (bytes_ints v).length) = r.pos + 4 + (bytes_ints v).length by omega]
    exact ⟨rfl, p2, d2⟩
  · rw [if_neg h0]
    have hnil : v = [] := List.length_eq_zero.mp (by omega)
    subst hnil
    simp only [bytes_ints, List.map_nil, List.flatten_nil, List.length_nil, Nat.add_zero,
      List.nil_append] at d1 ⊢
    exact ⟨rfl, p1, d1⟩

theorem deserialize_vector_loop_spec :
    ∀ (l : List (List Nat)) (r : BinaryReader) (done : List (List Nat)) (tail : List Nat),
      (∀ s ∈ l, s.length < 2 ^ 32) → r.pos ≤ r.buffer.length →
      r.buffer.drop r.pos = (l.map enc_string).flatten ++ tail →
      deserialize_vector_loop l.length r done =
          .ok (done ++ l, ⟨r.buffer, r.pos + ((l.map enc_string).flatten).length⟩) ∧
        r.pos + ((l.map enc_string).flatten).length ≤ r.buffer.length ∧
        r.buffer.drop (r.pos + ((l.map enc_string).flatten).length) = tail := by
  intro l
  induction l with
  | nil =>
    intro r done tail _ hpos h
    simp only [List.map_nil, List.flatten_nil, List.nil_append, List.length_nil,
      Nat.add_zero, List.append_nil] at h ⊢
    exact ⟨rfl, hpos, h⟩
  | cons s l ih =>
    intro r done tail hs hpos h
    simp only [List.map_cons, List.flatten_cons, List.append_assoc, List.length_append,
      List.length_cons] at h ⊢
    obtain ⟨e1, p1, d1⟩ := deserialize_string_spec r s (hs s (List.mem_cons_self s l)) _ hpos h
    obtain ⟨e2, p2, d2⟩ := ih ⟨r.buffer, r.pos + (enc_string s).length⟩ (done ++ [s]) tail
      (fun t ht => hs t (List.mem_cons_of_mem s ht)) p1 d1
    unfold deserialize_vector_loop
    rw [e1]
    simp only [Outcome.ok_bind]
    rw [e2]
    simp only at p2 d2
    rw [List.append_assoc, List.singleton_append, ← Nat.add_assoc]
    exact ⟨rfl, p2, d2⟩

theorem deserialize_vector_string_spec (r : BinaryReader) (v : List (List Nat))
    (hv : v.length < 2 ^ 32) (hs : ∀ s ∈ v, s.length < 2 ^ 32) (tail : List Nat)
    (hpos : r.pos ≤ r.buffer.length) (h : r.buffer.drop r.pos = enc_vector_string v ++ tail) :
    deserialize_vector_string r =
        .ok (v, ⟨r.buffer, r.pos + (enc_vector_string v).length⟩) ∧
      r.pos + (enc_vector_string v).length ≤ r.buffer.length ∧
      r.buffer.drop (r.pos + (enc_vector_string v).length) = tail := by
  unfold enc_vector_string at h ⊢
  rw [List.append_assoc] at h
  obtain ⟨e1, p1, d1⟩ := read_u32_spec r v.length hv _ hpos h
  obtain ⟨e2, p2, d2⟩ := deserialize_vector_loop_spec v ⟨r.buffer, r.pos + 4⟩ [] tail hs p1 d1
  unfold deserialize_vector_string
  rw [e1]
  simp only [Outcome.ok_bind, List.length_append, bytes_u32_length]
  rw [e2]
  simp only at p2 d2
  rw [List.nil_append, ← Nat.add_assoc]
  exact ⟨rfl, p2, d2⟩

/-- The reader reads a player back from its encoding. -/
theorem Serialize_reader_spec (r : BinaryReader) (p : Player) (hty : p.typed) (hsz : p.sized)
    (tail : List Nat) (hpos : r.pos ≤ r.buffer.length)
    (h : r.buffer.drop r.pos = enc_player p ++ tail) :
    Serialize_reader r = .ok (p, ⟨r.buffer, r.pos + (enc_player p).length⟩) := by
  obtain ⟨hid, h5, harr, hvec⟩ := hty
  obtain ⟨hn, hv, hvs, hs⟩ := hsz
  unfold enc_player at h ⊢
  simp only [List.append_assoc] at h
  obtain ⟨e1, p1, d1⟩ := read_int_spec r p.id hid.1 hid.2 _ hpos h
  obtain ⟨e2, p2, d2⟩ := deserialize_string_spec ⟨r.buffer, r.pos + 4⟩ p.name hn _ p1 d1
  obtain ⟨e3, p3, d3⟩ := deserialize_array_spec
    ⟨r.buffer, r.pos + 4 + (enc_string p.name).length⟩ p.arrays harr _ p2 d2
  obtain ⟨e4, p4, d4⟩ := deserialize_vector_int_spec
    ⟨r.buffer, r.pos + 4 + (enc_string p.name).length + (bytes_ints p.arrays).length⟩
    p.vec_arrays hv hvec _ p3 d3
  obtain ⟨e5, p5, d5⟩ := deserialize_vector_string_spec
    ⟨r.buffer, r.pos + 4 + (enc_string p.name).length + (bytes_ints p.arrays).length +
      (enc_vector_int p.vec_arrays).length⟩ p.vec_str_arrays hvs hs _ p4 d4
  rw [h5] at e3
  unfold Serialize_reader
  rw [e1]
  simp only [Outcome.ok_bind]
  rw [e2]
  simp only [Outcome.ok_bind]
  rw [e3]
  simp only [Outcome.ok_bind]
  rw [e4]
  simp only [Outcome.ok_bind]
  rw [e5]
  simp only [Outcome.ok_bind, Outcome.pure_eq, List.length_append, bytes_int_length,
    Nat.add_assoc]

/-- A name of `2^32` characters is written like the empty name: its length is
cast to `uint32_t`. -/
theorem Serialize_writer_long_name (w : BinaryWriter) (p q : Player)
    (hn : p.name.length = 2 ^ 32)
    (hq : q = ⟨p.id, [], p.arrays, p.vec_arrays, p.vec_str_arrays⟩) :
    Serialize_writer w p = Serialize_writer w q := by
  subst hq
  have hs : ∀ w1 : BinaryWriter, serialize_string w1 p.name = serialize_string w1 [] := by
    intro w1
    unfold serialize_string
    dsimp only
    rw [hn, Nat.mod_self, List.take_zero]
    rfl
  unfold Serialize_writer
  simp only [hs]

theorem enc_player_length (p : Player) :
    (enc_player p).length = 4 + (4 + p.name.length) + (bytes_ints p.arrays).length +
      (enc_vector_int p.vec_arrays).length + (enc_vector_string p.vec_str_arrays).length := by
  simp only [enc_player, enc_string, List.length_append, bytes_int_length, bytes_u32_length]

/-- The round trip of a player whose sizes fit the 32-bit length. -/
theorem round_trip_spec (buffer : List Nat) (p : Player) (hty : p.typed)
    (hsz : p.sized) (hbuf : (enc_player p).length ≤ buffer.length) :
    ∃ w r, round_trip buffer p = .ok (w, p, r) ∧ r.pos = w.pos ∧
      w.pos = (enc_player p).length ∧ w.buffer.take w.pos = enc_player p ∧
      w.buffer.length = buffer.length ∧ r.buffer = w.buffer := by
  obtain ⟨w, ew, hpos, hlen, htake⟩ := Serialize_writer_spec ⟨buffer, 0⟩ p hsz
    (by rw [Nat.zero_add]; exact hbuf)
  simp only [Nat.zero_add, List.take_zero, List.nil_append] at hpos hlen htake
  have hdrop : (⟨w.buffer, 0⟩ : BinaryReader).buffer.drop (⟨w.buffer, 0⟩ : BinaryReader).pos =
      enc_player p ++ w.buffer.drop w.pos := by
    rw [← htake]
    simp only [List.drop_zero, List.take_append_drop]
  have er := Serialize_reader_spec ⟨w.buffer, 0⟩ p hty hsz (w.buffer.drop w.pos)
    (Nat.zero_le _) hdrop
  refine ⟨w, ⟨w.buffer, 0 + (enc_player p).length⟩, ?_, ?_, hpos, htake, hlen, rfl⟩
  · unfold round_trip
    rw [ew]
    simp only [Outcome.ok_bind]
    rw [er]
    rfl
  · simp only [Nat.zero_add, hpos]

/-- The round trip of a player with a name of `2^32` characters returns the
player without a name. -/
theorem round_trip_long_name (buffer : List Nat) (p q : Player)
    (hn : p.name.length = 2 ^ 32)
    (hq : q = ⟨p.id, [], p.arrays, p.vec_arrays, p.vec_str_arrays⟩) (hty : q.typed)
    (hsz : q.sized) (hbuf : (enc_player q).length ≤ buffer.length) :
    ∃ w r, round_trip buffer p = .ok (w, q, r) := by
  obtain ⟨w, r, h, _⟩ := round_trip_spec buffer q hty hsz hbuf
  refine ⟨w, r, ?_⟩
  unfold round_trip at h ⊢
  rw [Serialize_writer_long_name _ p q hn hq]
  exact h

/-- C39 (amended). Binary round trip: for every `Player` whose values fit their
types (`int` members in the range of `int`, five elements in `arrays`) and
whose string and vector sizes are below `2^32`, and every buffer that holds
the encoding, `Serialize` with a `BinaryWriter` at position 0 returns, and
`Serialize` with a `BinaryReader` on the written buffer returns a player equal
in every field, `id` included; the reader ends at the position of the writer,
which is the length of the encoding; the bytes written are the encoding, the
fields in the order `id`, `name`, `array`, `vec_array`, `vec_str_array`, every
string and vector as a 32-bit length followed by its elements. -/
theorem C39_binary_round_trip (buffer : List Nat) (p : Player) (hty : p.typed)
    (hsz : p.sized) (hbuf : (enc_player p).length ≤ buffer.length) :
    (∃ w r, round_trip buffer p = .ok (w, p, r) ∧ r.pos = w.pos ∧
      w.pos = (enc_player p).length ∧ w.buffer.take w.pos = enc_player p ∧
      w.buffer.length = buffer.length ∧ r.buffer = w.buffer) ∧
    enc_player p =
      bytes_int p.id ++ (bytes_u32 p.name.length ++ p.name) ++ (p.arrays.map bytes_int).flatten ++
        (bytes_u32 p.vec_arrays.length ++ (p.vec_arrays.map bytes_int).flatten) ++
        (bytes_u32 p.vec_str_arrays.length ++
          (p.vec_str_arrays.map (fun s => bytes_u32 s.length ++ s)).flatten) :=
  ⟨round_trip_spec buffer p hty hsz hbuf, rfl⟩

/-- C39, witness: the player and the buffer of 1024 bytes of `Hoge`. -/
theorem C39_binary_round_trip_witness :
    (∃ w r, round_trip (List.replicate 1024 0) demo_player = .ok (w, demo_player, r) ∧
      r.pos = w.pos ∧ w.pos = (enc_player demo_player).length ∧
      w.buffer.take w.pos = enc_player demo_player ∧
      w.buffer.length = (List.replicate 1024 0).length ∧ r.buffer = w.buffer) ∧
    enc_player demo_player =
      bytes_int demo_player.id ++ (bytes_u32 demo_player.name.length ++ demo_player.name) ++
        (demo_player.arrays.map bytes_int).flatten ++
        (bytes_u32 demo_player.vec_arrays.length ++
          (demo_player.vec_arrays.map bytes_int).flatten) ++
        (bytes_u32 demo_player.vec_str_arrays.length ++
          (demo_player.vec_str_arrays.map (fun s => bytes_u32 s.length ++ s)).flatten) :=
  C39_binary_round_trip (List.replicate 1024 0) demo_player
    (by simp [Player.typed, demo_player]) (by simp [Player.sized, demo_player])
    (by rw [List.length_replicate]; decide)

/-- C39 as stated fails. The player of `Hoge` with a name of `2^32` characters
fits its types, and a buffer of `2^33` bytes holds its encoding; the round trip
returns the player without a name, which is a different player. -/
theorem C39_counterexample :
    long_named_player.typed ∧
    (enc_player long_named_player).length ≤ (List.replicate (2 ^ 33) 0).length ∧
    (∃ w r, round_trip (List.replicate (2 ^ 33) 0) long_named_player =
      .ok (w, unnamed_player, r)) ∧
    unnamed_player ≠ long_named_player := by
  have hlen : long_named_player.name.length = 2 ^ 32 := List.length_replicate _ _
  refine ⟨⟨⟨by decide, by decide⟩, rfl, by decide, by decide⟩, ?_, ?_, ?_⟩
  · have h1 : (bytes_ints long_named_player.arrays).length = 20 := by decide
    have h2 : (enc_vector_int long_named_player.vec_arrays).length = 8 := by decide
    have h3 : (enc_vector_string long_named_player.vec_str_arrays).length = 20 := by decide
    rw [enc_player_length, hlen, h1, h2, h3, List.length_replicate]
    norm_num
  · refine round_trip_long_name _ long_named_player unnamed_player hlen rfl
      ⟨⟨by decide, by decide⟩, rfl, by decide, by decide⟩
      ⟨by decide, by decide, by decide, by decide⟩ ?_
    rw [List.length_replicate]
    have e : (enc_player unnamed_player).length = 56 := by decide
    rw [e]
    norm_num
  · intro h
    have h2 : unnamed_player.name.length = long_named_player.name.length := by rw [h]
    rw [hlen] at h2
    exact absurd h2 (by decide)

end serializer

namespace mj

/-! ## The parser on a text with more characters appended -/

theorem skip_ws_append (p t : List Nat) (h : skip_ws p ≠ []) :
    skip_ws (p ++ t) = skip_ws p ++ t := by
  induction p with
  | nil => exact absurd rfl h
  | cons c rest ih =>
    unfold skip_ws at h ⊢
    rw [List.cons_append]
    simp only
    split_ifs with hc
    · rw [if_pos hc] at h
      exact ih h
    · rfl

theorem skip_ws_all (p t : List Nat) (h : skip_ws p = []) :
    skip_ws (p ++ t) = skip_ws t := by
  induction p with
  | nil => rfl
  | cons c rest ih =>
    unfold skip_ws at h
    rw [List.cons_append]
    split_ifs at h with hc
    · conv_lhs => unfold skip_ws
      rw [if_pos hc]
      exact ih h

theorem skip_ws_stop (c : Nat) (t : List Nat) (h : ¬ is_ws c) : skip_ws (c :: t) = c :: t := by
  unfold skip_ws
  exact if_neg h

theorem parse_lit_loop_append (t : List Nat) :
    ∀ (lit q r : List Nat), parse_lit_loop lit q = some r →
      parse_lit_loop lit (q ++ t) = some (r ++ t) := by
  intro lit
  induction lit with
  | nil =>
    intro q r h
    unfold parse_lit_loop at h
    injection h with h
    subst h
    unfold parse_lit_loop
    rfl
  | cons l lit ih =>
    intro q r h
    cases q with
    | nil => simp [parse_lit_loop] at h
    | cons c q =>
      unfold parse_lit_loop at h
      rw [List.cons_append]
      unfold parse_lit_loop
      split_ifs at h with hc
      · rw [if_neg hc]
        exact ih q r h

theorem parse_lit_append (lit : List Nat) (v w : Value) (inp rest t : List Nat)
    (h : parse_lit lit v inp = .ok (w, rest)) :
    parse_lit lit v (inp ++ t) = .ok (w, rest ++ t) := by
  unfold parse_lit at h ⊢
  cases hl : parse_lit_loop lit inp with
  | none => rw [hl] at h; simp at h
  | some q =>
    rw [hl] at h
    simp only [Result.ok.injEq, Prod.mk.injEq] at h
    rw [parse_lit_loop_append t lit inp q hl, h.1, h.2]

theorem parse_string_scan_closed (t : List Nat) :
    ∀ (s plain view rest : List Nat), parse_string_scan s plain = .closed view rest →
      parse_string_scan (s ++ t) plain = .closed view (rest ++ t) := by
  intro s
  induction s with
  | nil => intro plain view rest h; simp [parse_string_scan] at h
  | cons c s ih =>
    intro plain view rest h
    unfold parse_string_scan at h
    rw [List.cons_append]
    unfold parse_string_scan
    split_ifs at h ⊢ with h1 h2
    · simp only [Scan.closed.injEq] at h
      rw [h.1, h.2]
    · exact ih _ _ _ h

theorem parse_string_scan_stopped (t : List Nat) :
    ∀ (s plain plain1 rest : List Nat) (c1 : Nat),
      parse_string_scan s plain = .stopped plain1 (c1 :: rest) →
      parse_string_scan (s ++ t) plain = .stopped plain1 (c1 :: rest ++ t) := by
  intro s
  induction s with
  | nil => intro plain plain1 rest c1 h; simp [parse_string_scan] at h
  | cons c s ih =>
    intro plain plain1 rest c1 h
    unfold parse_string_scan at h
    rw [List.cons_append]
    unfold parse_string_scan
    split_ifs at h ⊢ with h1 h2
    · simp only [Scan.stopped.injEq, List.cons.injEq] at h
      rw [h.1, h.2.1, h.2.2]
      rfl
    · exact ih _ _ _ _ h

theorem parse_string_u_append (t : List Nat) (p : List Nat) (cp : Nat) (p2 : List Nat)
    (h : parse_string_u p = .ok (cp, p2)) :
    parse_string_u (p ++ t) = .ok (cp, p2 ++ t) := by
  match p, h with
  | c0 :: c1 :: c2 :: c3 :: p1, h =>
    simp only [List.cons_append]
    unfold parse_string_u at h ⊢
    simp only at h ⊢
    cases hh : hex4 c0 c1 c2 c3 with
    | none => rw [hh] at h; simp at h
    | some v =>
      rw [hh] at h
      simp only at h ⊢
      by_cases hs : v ≥ 0xD800 ∧ v ≤ 0xDBFF
      · rw [if_pos hs] at h ⊢
        match p1, h with
        | b :: u :: g0 :: g1 :: g2 :: g3 :: q, h =>
          simp only [List.cons_append]
          simp only at h ⊢
          by_cases hb : b ≠ 92 ∨ u ≠ 117
          · rw [if_pos hb] at h
            simp at h
          · rw [if_neg hb] at h ⊢
            cases hg : hex4 g0 g1 g2 g3 with
            | none => rw [hg] at h; simp at h
            | some low =>
              rw [hg] at h
              simp only at h ⊢
              by_cases hl : low < 0xDC00 ∨ low > 0xDFFF
              · rw [if_pos hl] at h
                simp at h
              · rw [if_neg hl] at h ⊢
                simp only [Result.ok.injEq, Prod.mk.injEq] at h ⊢
                exact ⟨h.1, by rw [h.2]⟩
        | [], h => simp at h
        | [_], h => simp at h
        | [_, _], h => simp at h
        | [_, _, _], h => simp at h
        | [_, _, _, _], h => simp at h
        | [_, _, _, _, _], h => simp at h
      · rw [if_neg hs] at h ⊢
        by_cases hlo : v ≥ 0xDC00 ∧ v ≤ 0xDFFF
        · rw [if_pos hlo] at h
          simp at h
        · rw [if_neg hlo] at h ⊢
          simp only [Result.ok.injEq, Prod.mk.injEq] at h ⊢
          exact ⟨h.1, by rw [h.2]⟩
  | [], h => simp [parse_string_u] at h
  | [_], h => simp [parse_string_u] at h
  | [_, _], h => simp [parse_string_u] at h
  | [_, _, _], h => simp [parse_string_u] at h

theorem parse_string_escape_append (t : List Nat) (p bytes p1 : List Nat)
    (h : parse_string_escape p = .ok (bytes, p1)) :
    parse_string_escape (p ++ t) = .ok (bytes, p1 ++ t) := by
  cases p with
  | nil => unfold parse_string_escape at h; cases h
  | cons e q =>
    rw [List.cons_append]
    unfold parse_string_escape at h ⊢
    simp only at h ⊢
    by_cases h0 : e = 34
    · rw [if_pos h0] at h ⊢
      injection h with h
      injection h with ha hb
      rw [ha, hb]
    rw [if_neg h0] at h ⊢
    by_cases h1 : e = 92
    · rw [if_pos h1] at h ⊢
      injection h with h
      injection h with ha hb
      rw [ha, hb]
    rw [if_neg h1] at h ⊢
    by_cases h2 : e = 47
    · rw [if_pos h2] at h ⊢
      injection h with h
      injection h with ha hb
      rw [ha, hb]
    rw [if_neg h2] at h ⊢
    by_cases h3 : e = 98
    · rw [if_pos h3] at h ⊢
      injection h with h
      injection h with ha hb
      rw [ha, hb]
    rw [if_neg h3] at h ⊢
    by_cases h4 : e = 102
    · rw [if_pos h4] at h ⊢
      injection h with h
      injection h with ha hb
      rw [ha, hb]
    rw [if_neg h4] at h ⊢
    by_cases h5 : e = 110
    · rw [if_pos h5] at h ⊢
      injection h with h
      injection h with ha hb
      rw [ha, hb]
    rw [if_neg h5] at h ⊢
    by_cases h6 : e = 114
    · rw [if_pos h6] at h ⊢
      injection h with h
      injection h with ha hb
      rw [ha, hb]
    rw [if_neg h6] at h ⊢
    by_cases h7 : e = 116
    · rw [if_pos h7] at h ⊢
      injection h with h
      injection h with ha hb
      rw [ha, hb]
    rw [if_neg h7] at h ⊢
    by_cases hu : e = 117
    · rw [if_pos hu] at h ⊢
      cases hp : parse_string_u q with
      | ok r =>
        rw [hp] at h
        rw [parse_string_u_append t q r.1 r.2 hp]
        injection h with h
        injection h with ha hb
        simp only
        rw [ha, hb]
      | fail rem msg => rw [hp] at h; cases h
      | bounds => rw [hp] at h; cases h
      | fuel => rw [hp] at h; cases h
    · rw [if_neg hu] at h
      cases h

theorem parse_string_slow_append (t : List Nat) :
    ∀ (n : Nat) (p buf : List Nat) (s : Str) (rest : List Nat),
      parse_string_slow n p buf = .ok (s, rest) →
      parse_string_slow n (p ++ t) buf = .ok (s, rest ++ t) := by
  intro n
  induction n with
  | zero =>
    intro p buf s rest h
    cases p with
    | nil => unfold parse_string_slow at h; cases h
    | cons c q => unfold parse_string_slow at h; cases h
  | succ n ih =>
    intro p buf s rest h
    cases p with
    | nil => unfold parse_string_slow at h; cases h
    | cons c q =>
      rw [List.cons_append]
      unfold parse_string_slow at h ⊢
      by_cases h34 : c = 34
      · rw [if_pos h34] at h ⊢
        simp only [Result.ok.injEq, Prod.mk.injEq] at h ⊢
        exact ⟨h.1, by rw [h.2]⟩
      · rw [if_neg h34] at h ⊢
        by_cases h92 : c = 92
        · rw [if_pos h92] at h ⊢
          cases he : parse_string_escape q with
          | ok r =>
            rw [he] at h
            rw [parse_string_escape_append t q r.1 r.2 he]
            exact ih _ _ _ _ h
          | fail rem msg => rw [he] at h; cases h
          | bounds => rw [he] at h; cases h
          | fuel => rw [he] at h; cases h
        · rw [if_neg h92] at h ⊢
          split_ifs at h ⊢
          exact ih _ _ _ _ h

theorem parse_string_append (t : List Nat) (fuel : Nat) (inp : List Nat) (s : Str)
    (rest : List Nat) (h : parse_string fuel inp = .ok (s, rest)) :
    parse_string fuel (inp ++ t) = .ok (s, rest ++ t) := by
  cases inp with
  | nil => unfold parse_string at h; cases h
  | cons c q =>
    rw [List.cons_append]
    unfold parse_string at h ⊢
    simp only at h ⊢
    split_ifs at h ⊢ with hc
    cases hsc : parse_string_scan q [] with
    | closed view r =>
      rw [hsc] at h
      rw [parse_string_scan_closed t q [] view r hsc]
      simp only [Result.ok.injEq, Prod.mk.injEq] at h ⊢
      exact ⟨h.1, by rw [h.2]⟩
    | stopped plain r =>
      rw [hsc] at h
      cases r with
      | nil => simp at h
      | cons c1 r1 =>
        rw [parse_string_scan_stopped t q [] plain r1 c1 hsc]
        simp only at h ⊢
        exact parse_string_slow_append t fuel (c1 :: r1) plain s rest h

theorem no_continuation_cons (c : Nat) (t : List Nat) (h : no_continuation (c :: t)) :
    isdigit c = false ∧ c ≠ 46 ∧ c ≠ 101 ∧ c ≠ 69 := by
  have hc := h c rfl
  unfold continues_number at hc
  push_neg at hc
  exact ⟨by simpa using hc.1, hc.2.1, hc.2.2.1, hc.2.2.2⟩

theorem skip_digits_stop (t : List Nat) (h : no_continuation t) : skip_digits t = t := by
  cases t with
  | nil => rfl
  | cons c t =>
    unfold skip_digits
    rw [(no_continuation_cons c t h).1]
    rfl

theorem skip_digits_append (p t : List Nat) (h : skip_digits p ≠ [] ∨ no_continuation t) :
    skip_digits (p ++ t) = skip_digits p ++ t := by
  induction p with
  | nil =>
    rcases h with h | h
    · exact absurd rfl h
    · exact skip_digits_stop t h
  | cons c rest ih =>
    rw [List.cons_append]
    unfold skip_digits at h ⊢
    by_cases hc : isdigit c = true
    · simp only [if_pos hc] at h ⊢
      exact ih h
    · simp only [if_neg hc]
      rfl

theorem parse_number_int_append (p p1 t : List Nat) (h : parse_number_int p = .ok p1)
    (hc : p1 ≠ [] ∨ no_continuation t) :
    parse_number_int (p ++ t) = .ok (p1 ++ t) := by
  cases p with
  | nil => unfold parse_number_int at h; cases h
  | cons d q =>
    rw [List.cons_append]
    unfold parse_number_int at h ⊢
    simp only at h ⊢
    by_cases h0 : d = 48
    · rw [if_pos h0] at h ⊢
      injection h with h
      rw [h]
    · rw [if_neg h0] at h ⊢
      by_cases hd : isdigit d = false
      · rw [if_pos hd] at h
        cases h
      · rw [if_neg hd] at h ⊢
        injection h with h
        rw [← h] at hc ⊢
        rw [← List.cons_append, skip_digits_append (d :: q) t hc]

theorem parse_number_frac_append (p p2 t : List Nat) (f : Bool)
    (h : parse_number_frac p = .ok (f, p2)) (hc : p2 ≠ [] ∨ no_continuation t) :
    parse_number_frac (p ++ t) = .ok (f, p2 ++ t) := by
  cases p with
  | nil =>
    unfold parse_number_frac at h
    injection h with h
    injection h with hf hp
    subst hf hp
    rcases hc with hc | hc
    · exact absurd rfl hc
    · cases t with
      | nil => rfl
      | cons c t =>
        rw [List.nil_append]
        unfold parse_number_frac
        simp only
        rw [if_neg (no_continuation_cons c t hc).2.1]
  | cons c q =>
    rw [List.cons_append]
    unfold parse_number_frac at h ⊢
    simp only at h ⊢
    by_cases h46 : c = 46
    · rw [if_pos h46] at h ⊢
      cases q with
      | nil => cases h
      | cons d q1 =>
        rw [List.cons_append]
        simp only at h ⊢
        by_cases hd : isdigit d = false
        · rw [if_pos hd] at h
          cases h
        · rw [if_neg hd] at h ⊢
          injection h with h
          injection h with hf hp
          rw [← hp] at hc ⊢
          rw [← List.cons_append, skip_digits_append (d :: q1) t hc, hf]
    · rw [if_neg h46] at h ⊢
      injection h with h
      injection h with hf hp
      rw [← hf, ← hp]
      rfl

theorem parse_number_exp_append (p p3 t : List Nat) (f : Bool)
    (h : parse_number_exp p = .ok (f, p3)) (hc : p3 ≠ [] ∨ no_continuation t) :
    parse_number_exp (p ++ t) = .ok (f, p3 ++ t) := by
  cases p with
  | nil =>
    unfold parse_number_exp at h
    injection h with h
    injection h with hf hp
    subst hf hp
    rcases hc with hc | hc
    · exact absurd rfl hc
    · cases t with
      | nil => rfl
      | cons c t =>
        rw [List.nil_append]
        unfold parse_number_exp
        simp only
        have hn := no_continuation_cons c t hc
        rw [if_neg (by
          intro hh
          rcases hh with hh | hh
          · exact hn.2.2.1 hh
          · exact hn.2.2.2 hh)]
  | cons e q =>
    rw [List.cons_append]
    unfold parse_number_exp at h ⊢
    simp only at h ⊢
    by_cases he : e = 101 ∨ e = 69
    · rw [if_pos he] at h ⊢
      cases q with
      | nil => cases h
      | cons s q1 =>
        rw [List.cons_append]
        simp only at h ⊢
        by_cases hs : s = 43 ∨ s = 45
        · rw [if_pos hs] at h ⊢
          cases q1 with
          | nil => cases h
          | cons d q2 =>
            rw [List.cons_append]
            simp only at h ⊢
            by_cases hd : isdigit d = false
            · rw [if_pos hd] at h
              cases h
            · rw [if_neg hd] at h ⊢
              injection h with h
              injection h with hf hp
              rw [← hp] at hc ⊢
              rw [← List.cons_append, skip_digits_append (d :: q2) t hc, hf]
        · rw [if_neg hs] at h ⊢
          simp only [List.cons_append] at h ⊢
          by_cases hd : isdigit s = false
          · rw [if_pos hd] at h
            cases h
          · rw [if_neg hd] at h ⊢
            injection h with h
            injection h with hf hp
            rw [← hp] at hc ⊢
            rw [← List.cons_append, skip_digits_append (s :: q1) t hc, hf]
    · rw [if_neg he] at h ⊢
      injection h with h
      injection h with hf hp
      rw [← hf, ← hp]
      rfl

theorem parse_number_append (fcd : List Nat → Option ℚ) (inp rest t : List Nat) (v : Value)
    (h : parse_number fcd inp = .ok (v, rest)) (hc : rest ≠ [] ∨ no_continuation t) :
    parse_number fcd (inp ++ t) = .ok (v, rest ++ t) := by
  cases inp with
  | nil => unfold parse_number at h; cases h
  | cons c p0 =>
    rw [List.cons_append]
    unfold parse_number at h ⊢
    simp only at h ⊢
    have harg : (if c = 45 then p0 ++ t else c :: (p0 ++ t)) =
        (if c = 45 then p0 else c :: p0) ++ t := by
      split_ifs
      · rfl
      · rfl
    rw [harg]
    cases h1 : parse_number_int (if c = 45 then p0 else c :: p0) with
    | fail rem msg => rw [h1] at h; cases h
    | bounds => rw [h1] at h; cases h
    | fuel => rw [h1] at h; cases h
    | ok p1 =>
      rw [h1] at h
      simp only at h
      cases h2 : parse_number_frac p1 with
      | fail rem msg => rw [h2] at h; cases h
      | bounds => rw [h2] at h; cases h
      | fuel => rw [h2] at h; cases h
      | ok r2 =>
        obtain ⟨f1, p2⟩ := r2
        rw [h2] at h
        simp only at h
        cases h3 : parse_number_exp p2 with
        | fail rem msg => rw [h3] at h; cases h
        | bounds => rw [h3] at h; cases h
        | fuel => rw [h3] at h; cases h
        | ok r3 =>
          obtain ⟨f2, p3⟩ := r3
          rw [h3] at h
          simp only at h
          have hrest : p3 = rest := by
            revert h
            cases (if f1 = false ∧ f2 = false then
              from_chars_int64 (List.take ((c :: p0).length - p3.length) (c :: p0)) else none) with
            | some iv =>
              intro h
              injection h with h
              injection h with _ h
            | none =>
              cases fcd (List.take ((c :: p0).length - p3.length) (c :: p0)) with
              | none => intro h; cases h
              | some dv =>
                intro h
                injection h with h
                injection h with _ h
          have hc3 : p3 ≠ [] ∨ no_continuation t := by rw [hrest]; exact hc
          have hc2 : p2 ≠ [] ∨ no_continuation t := by
            rcases hc3 with hne | hn
            · left
              intro he
              rw [he] at h3
              unfold parse_number_exp at h3
              injection h3 with h3
              injection h3 with _ h3
              exact hne h3.symm
            · exact Or.inr hn
          have hc1 : p1 ≠ [] ∨ no_continuation t := by
            rcases hc2 with hne | hn
            · left
              intro he
              rw [he] at h2
              unfold parse_number_frac at h2
              injection h2 with h2
              injection h2 with _ h2
              exact hne h2.symm
            · exact Or.inr hn
          rw [parse_number_int_append _ p1 t h1 hc1]
          simp only
          rw [parse_number_frac_append p1 p2 t f1 h2 hc2]
          simp only
          rw [parse_number_exp_append p2 p3 t f2 h3 hc3]
          simp only
          have hlen : (c :: (p0 ++ t)).length - (p3 ++ t).length =
              (c :: p0).length - p3.length := by
            simp only [List.length_cons, List.length_append]
            omega
          have htake : List.take ((c :: p0).length - p3.length) (c :: (p0 ++ t)) =
              List.take ((c :: p0).length - p3.length) (c :: p0) := by
            rw [← List.cons_append]
            exact List.take_append_of_le_length (Nat.sub_le _ _)
          rw [hlen, htake]
          revert h
          cases (if f1 = false ∧ f2 = false then
            from_chars_int64 (List.take ((c :: p0).length - p3.length) (c :: p0)) else none) with
          | some iv =>
            intro h
            injection h with h
            injection h with hv hp
            simp only
            rw [hv, hp]
          | none =>
            simp only
            cases fcd (List.take ((c :: p0).length - p3.length) (c :: p0)) with
            | none => intro h; cases h
            | some dv =>
              intro h
              injection h with h
              injection h with hv hp
              simp only
              rw [hv, hp]

theorem skip_ws_ne_nil (p : List Nat) (h : skip_ws p ≠ []) : p ≠ [] := by
  intro hp
  rw [hp] at h
  exact h rfl

theorem parse_array_loop_append (t : List Nat) (pv : List Nat → Result (Value × List Nat))
    (hpv : Stable t pv) :
    ∀ (n : Nat) (p : List Nat) (out a : List Value) (rest : List Nat),
      parse_array_loop pv n p out = .ok (a, rest) →
      parse_array_loop pv n (p ++ t) out = .ok (a, rest ++ t) := by
  intro n
  induction n with
  | zero => intro p out a rest h; unfold parse_array_loop at h; cases h
  | succ n ih =>
    intro p out a rest h
    unfold parse_array_loop at h ⊢
    cases hv : pv (skip_ws p) with
    | fail rem msg => rw [hv] at h; cases h
    | bounds => rw [hv] at h; cases h
    | fuel => rw [hv] at h; cases h
    | ok r =>
      obtain ⟨v, p1⟩ := r
      have hne : skip_ws p ≠ [] := by
        intro he
        rw [he] at hv
        exact hpv.2 _ hv
      rw [hv] at h
      simp only at h
      cases hs : skip_ws p1 with
      | nil => rw [hs] at h; cases h
      | cons c p2 =>
        rw [hs] at h
        simp only at h
        have hne1 : skip_ws p1 ≠ [] := by rw [hs]; exact List.cons_ne_nil _ _
        rw [skip_ws_append p t hne,
          hpv.1 _ v p1 hv (Or.inr (Or.inl (skip_ws_ne_nil p1 hne1)))]
        simp only
        rw [skip_ws_append p1 t hne1, hs, List.cons_append]
        simp only
        by_cases h93 : c = 93
        · rw [if_pos h93] at h ⊢
          injection h with h
          injection h with ha hr
          rw [ha, hr]
        · rw [if_neg h93] at h ⊢
          by_cases h44 : c ≠ 44
          · rw [if_pos h44] at h
            cases h
          · rw [if_neg h44] at h ⊢
            exact ih _ _ _ _ h

theorem parse_array_append (t : List Nat) (pv : List Nat → Result (Value × List Nat))
    (hpv : Stable t pv) (fuel : Nat) (inp : List Nat) (a : List Value) (rest : List Nat)
    (h : parse_array pv fuel inp = .ok (a, rest)) :
    parse_array pv fuel (inp ++ t) = .ok (a, rest ++ t) := by
  cases inp with
  | nil => unfold parse_array at h; cases h
  | cons c p =>
    rw [List.cons_append]
    unfold parse_array at h ⊢
    simp only at h ⊢
    by_cases h91 : c ≠ 91
    · rw [if_pos h91] at h
      cases h
    · rw [if_neg h91] at h ⊢
      cases hs : skip_ws p with
      | nil =>
        rw [hs] at h
        simp only at h
        exfalso
        cases fuel with
        | zero => unfold parse_array_loop at h; cases h
        | succ n =>
          unfold parse_array_loop at h
          have hnil : skip_ws [] = [] := rfl
          rw [hnil] at h
          cases hv : pv [] with
          | ok r => exact hpv.2 _ hv
          | fail rem msg => rw [hv] at h; cases h
          | bounds => rw [hv] at h; cases h
          | fuel => rw [hv] at h; cases h
      | cons c1 p1 =>
        rw [hs] at h
        simp only at h
        rw [skip_ws_append p t (by rw [hs]; exact List.cons_ne_nil _ _), hs, List.cons_append]
        simp only
        by_cases h93 : c1 = 93
        · rw [if_pos h93] at h ⊢
          injection h with h
          injection h with ha hr
          rw [ha, hr]
        · rw [if_neg h93] at h ⊢
          rw [← List.cons_append]
          exact parse_array_loop_append t pv hpv fuel _ _ _ _ h

theorem parse_object_loop_append (t : List Nat) (pv : List Nat → Result (Value × List Nat))
    (hpv : Stable t pv) (fuel : Nat) :
    ∀ (n : Nat) (p : List Nat) (out o : List (Str × Value)) (rest : List Nat),
      parse_object_loop pv fuel n p out = .ok (o, rest) →
      parse_object_loop pv fuel n (p ++ t) out = .ok (o, rest ++ t) := by
  intro n
  induction n with
  | zero => intro p out o rest h; unfold parse_object_loop at h; cases h
  | succ n ih =>
    intro p out o rest h
    unfold parse_object_loop at h ⊢
    cases hs : skip_ws p with
    | nil => rw [hs] at h; cases h
    | cons q p1 =>
      rw [hs] at h
      simp only at h
      rw [skip_ws_append p t (by rw [hs]; exact List.cons_ne_nil _ _), hs, List.cons_append]
      simp only
      by_cases h34 : q ≠ 34
      · rw [if_pos h34] at h
        cases h
      · rw [if_neg h34] at h ⊢
        cases hk : parse_string fuel (q :: p1) with
        | fail rem msg => rw [hk] at h; cases h
        | bounds => rw [hk] at h; cases h
        | fuel => rw [hk] at h; cases h
        | ok r =>
          obtain ⟨key, p2⟩ := r
          rw [hk] at h
          simp only at h
          rw [← List.cons_append, parse_string_append t fuel (q :: p1) key p2 hk]
          simp only
          cases hs2 : skip_ws p2 with
          | nil => rw [hs2] at h; cases h
          | cons c p3 =>
            rw [hs2] at h
            simp only at h
            rw [skip_ws_append p2 t (by rw [hs2]; exact List.cons_ne_nil _ _), hs2,
              List.cons_append]
            simp only
            by_cases h58 : c ≠ 58
            · rw [if_pos h58] at h
              cases h
            · rw [if_neg h58] at h ⊢
              cases hv : pv (skip_ws p3) with
              | fail rem msg => rw [hv] at h; cases h
              | bounds => rw [hv] at h; cases h
              | fuel => rw [hv] at h; cases h
              | ok r4 =>
                obtain ⟨val, p4⟩ := r4
                have hne : skip_ws p3 ≠ [] := by
                  intro he
                  rw [he] at hv
                  exact hpv.2 _ hv
                rw [hv] at h
                simp only at h
                cases hs4 : skip_ws p4 with
                | nil => rw [hs4] at h; cases h
                | cons c1 p5 =>
                  rw [hs4] at h
                  simp only at h
                  have hne4 : skip_ws p4 ≠ [] := by rw [hs4]; exact List.cons_ne_nil _ _
                  rw [skip_ws_append p3 t hne,
                    hpv.1 _ val p4 hv (Or.inr (Or.inl (skip_ws_ne_nil p4 hne4)))]
                  simp only
                  rw [skip_ws_append p4 t hne4, hs4, List.cons_append]
                  simp only
                  by_cases h125 : c1 = 125
                  · rw [if_pos h125] at h ⊢
                    injection h with h
                    injection h with ha hr
                    rw [ha, hr]
                  · rw [if_neg h125] at h ⊢
                    by_cases h44 : c1 ≠ 44
                    · rw [if_pos h44] at h
                      cases h
                    · rw [if_neg h44] at h ⊢
                      exact ih _ _ _ _ h

theorem parse_object_append (t : List Nat) (pv : List Nat → Result (Value × List Nat))
    (hpv : Stable t pv) (fuel : Nat) (inp : List Nat) (o : List (Str × Value))
    (rest : List Nat) (h : parse_object pv fuel inp = .ok (o, rest)) :
    parse_object pv fuel (inp ++ t) = .ok (o, rest ++ t) := by
  cases inp with
  | nil => unfold parse_object at h; cases h
  | cons c p =>
    rw [List.cons_append]
    unfold parse_object at h ⊢
    simp only at h ⊢
    by_cases h123 : c ≠ 123
    · rw [if_pos h123] at h
      cases h
    · rw [if_neg h123] at h ⊢
      cases hs : skip_ws p with
      | nil =>
        rw [hs] at h
        simp only at h
        exfalso
        cases fuel with
        | zero => unfold parse_object_loop at h; cases h
        | succ n =>
          unfold parse_object_loop at h
          have hnil : skip_ws [] = [] := rfl
          rw [hnil] at h
          cases h
      | cons c1 p1 =>
        rw [hs] at h
        simp only at h
        rw [skip_ws_append p t (by rw [hs]; exact List.cons_ne_nil _ _), hs, List.cons_append]
        simp only
        by_cases h125 : c1 = 125
        · rw [if_pos h125] at h ⊢
          injection h with h
          injection h with ha hr
          rw [ha, hr]
        · rw [if_neg h125] at h ⊢
          rw [← List.cons_append]
          exact parse_object_loop_append t pv hpv fuel fuel _ _ _ _ h

theorem parse_number_is_num (fcd : List Nat → Option ℚ) (inp rest : List Nat) (v : Value)
    (h : parse_number fcd inp = .ok (v, rest)) : v.is_num = true := by
  cases inp with
  | nil => unfold parse_number at h; cases h
  | cons c p0 =>
    unfold parse_number at h
    simp only at h
    cases h1 : parse_number_int (if c = 45 then p0 else c :: p0) with
    | fail rem msg => rw [h1] at h; cases h
    | bounds => rw [h1] at h; cases h
    | fuel => rw [h1] at h; cases h
    | ok p1 =>
      rw [h1] at h
      simp only at h
      cases h2 : parse_number_frac p1 with
      | fail rem msg => rw [h2] at h; cases h
      | bounds => rw [h2] at h; cases h
      | fuel => rw [h2] at h; cases h
      | ok r2 =>
        obtain ⟨f1, p2⟩ := r2
        rw [h2] at h
        simp only at h
        cases h3 : parse_number_exp p2 with
        | fail rem msg => rw [h3] at h; cases h
        | bounds => rw [h3] at h; cases h
        | fuel => rw [h3] at h; cases h
        | ok r3 =>
          obtain ⟨f2, p3⟩ := r3
          rw [h3] at h
          simp only at h
          revert h
          cases (if f1 = false ∧ f2 = false then
            from_chars_int64 (List.take ((c :: p0).length - p3.length) (c :: p0)) else none) with
          | some iv =>
            intro h
            injection h with h
            injection h with hv _
            rw [← hv]
            rfl
          | none =>
            cases fcd (List.take ((c :: p0).length - p3.length) (c :: p0)) with
            | none => intro h; cases h
            | some dv =>
              intro h
              injection h with h
              injection h with hv _
              rw [← hv]
              rfl

/-- The function `parse_value` reads the same value when more text follows,
unless a number ends at the end of the text and the text that follows continues
it. -/
theorem parse_value_stable (fcd : List Nat → Option ℚ) (t : List Nat) :
    ∀ fuel, Stable t (parse_value fcd fuel) := by
  intro fuel
  induction fuel with
  | zero =>
    refine ⟨?_, ?_⟩
    · intro inp v rest h
      unfold parse_value at h
      cases h
    · intro r h
      unfold parse_value at h
      cases h
  | succ n ih =>
    refine ⟨?_, ?_⟩
    · intro inp v rest h hc
      cases inp with
      | nil => unfold parse_value at h; cases h
      | cons c q =>
        rw [List.cons_append]
        unfold parse_value at h ⊢
        simp only at h ⊢
        by_cases h1 : c = 110
        · rw [if_pos h1] at h ⊢
          rw [← List.cons_append]
          exact parse_lit_append _ _ _ _ _ t h
        rw [if_neg h1] at h ⊢
        by_cases h2 : c = 116
        · rw [if_pos h2] at h ⊢
          rw [← List.cons_append]
          exact parse_lit_append _ _ _ _ _ t h
        rw [if_neg h2] at h ⊢
        by_cases h3 : c = 102
        · rw [if_pos h3] at h ⊢
          rw [← List.cons_append]
          exact parse_lit_append _ _ _ _ _ t h
        rw [if_neg h3] at h ⊢
        by_cases h4 : c = 34
        · rw [if_pos h4] at h ⊢
          cases hs : parse_string n (c :: q) with
          | fail rem msg => rw [hs] at h; cases h
          | bounds => rw [hs] at h; cases h
          | fuel => rw [hs] at h; cases h
          | ok r =>
            obtain ⟨s, p⟩ := r
            rw [hs] at h
            rw [← List.cons_append, parse_string_append t n (c :: q) s p hs]
            simp only at h ⊢
            injection h with h
            injection h with hv hp
            rw [hv, hp]
        rw [if_neg h4] at h ⊢
        by_cases h5 : c = 91
        · rw [if_pos h5] at h ⊢
          cases hs : parse_array (parse_value fcd n) n (c :: q) with
          | fail rem msg => rw [hs] at h; cases h
          | bounds => rw [hs] at h; cases h
          | fuel => rw [hs] at h; cases h
          | ok r =>
            obtain ⟨a, p⟩ := r
            rw [hs] at h
            rw [← List.cons_append, parse_array_append t _ ih n (c :: q) a p hs]
            simp only at h ⊢
            injection h with h
            injection h with hv hp
            rw [hv, hp]
        rw [if_neg h5] at h ⊢
        by_cases h6 : c = 123
        · rw [if_pos h6] at h ⊢
          cases hs : parse_object (parse_value fcd n) n (c :: q) with
          | fail rem msg => rw [hs] at h; cases h
          | bounds => rw [hs] at h; cases h
          | fuel => rw [hs] at h; cases h
          | ok r =>
            obtain ⟨o, p⟩ := r
            rw [hs] at h
            rw [← List.cons_append, parse_object_append t _ ih n (c :: q) o p hs]
            simp only at h ⊢
            injection h with h
            injection h with hv hp
            rw [hv, hp]
        rw [if_neg h6] at h ⊢
        rw [← List.cons_append]
        refine parse_number_append fcd _ _ t v h ?_
        rcases hc with hc | hc | hc
        · rw [parse_number_is_num fcd _ _ v h] at hc
          cases hc
        · exact Or.inl hc
        · exact Or.inr hc
    · intro r h
      unfold parse_value at h
      cases h

/-! ## The characters left are the end of the text -/

theorem skip_ws_suffix (p : List Nat) : skip_ws p <:+ p := by
  induction p with
  | nil => exact List.suffix_refl _
  | cons c rest ih =>
    unfold skip_ws
    split_ifs
    · exact ih.trans (List.suffix_cons c rest)
    · exact List.suffix_refl _

theorem parse_lit_loop_suffix :
    ∀ (lit q r : List Nat), parse_lit_loop lit q = some r → r <:+ q := by
  intro lit
  induction lit with
  | nil =>
    intro q r h
    unfold parse_lit_loop at h
    injection h with h
    rw [h]
  | cons l lit ih =>
    intro q r h
    cases q with
    | nil => unfold parse_lit_loop at h; cases h
    | cons c q =>
      unfold parse_lit_loop at h
      split_ifs at h
      exact (ih q r h).trans (List.suffix_cons c q)

theorem parse_lit_suffix (lit : List Nat) (v w : Value) (inp rest : List Nat)
    (h : parse_lit lit v inp = .ok (w, rest)) : rest <:+ inp := by
  unfold parse_lit at h
  cases hl : parse_lit_loop lit inp with
  | none => rw [hl] at h; cases h
  | some q =>
    rw [hl] at h
    injection h with h
    injection h with _ h
    rw [← h]
    exact parse_lit_loop_suffix lit inp q hl

theorem parse_string_scan_suffix :
    ∀ (s plain : List Nat),
      (∀ view rest, parse_string_scan s plain = .closed view rest → rest <:+ s) ∧
      (∀ plain1 rest, parse_string_scan s plain = .stopped plain1 rest → rest <:+ s) := by
  intro s
  induction s with
  | nil =>
    intro plain
    refine ⟨?_, ?_⟩
    · intro view rest h
      unfold parse_string_scan at h
      cases h
    · intro plain1 rest h
      unfold parse_string_scan at h
      injection h with _ h
      rw [← h]
  | cons c s ih =>
    intro plain
    refine ⟨?_, ?_⟩
    · intro view rest h
      unfold parse_string_scan at h
      split_ifs at h
      · injection h with _ h
        rw [← h]
        exact List.suffix_cons c s
      · exact ((ih _).1 view rest h).trans (List.suffix_cons c s)
    · intro plain1 rest h
      unfold parse_string_scan at h
      split_ifs at h
      · injection h with _ h
        rw [← h]
      · exact ((ih _).2 plain1 rest h).trans (List.suffix_cons c s)

theorem suffix_of_drop (n : Nat) (p q : List Nat) (h : q = p.drop n) : q <:+ p := by
  rw [h]
  exact List.drop_suffix n p

theorem parse_string_u_suffix (p : List Nat) (cp : Nat) (p2 : List Nat)
    (h : parse_string_u p = .ok (cp, p2)) : p2 <:+ p := by
  match p, h with
  | c0 :: c1 :: c2 :: c3 :: p1, h =>
    unfold parse_string_u at h
    simp only at h
    cases hh : hex4 c0 c1 c2 c3 with
    | none => rw [hh] at h; cases h
    | some v =>
      rw [hh] at h
      simp only at h
      by_cases hs : v ≥ 0xD800 ∧ v ≤ 0xDBFF
      · rw [if_pos hs] at h
        match p1, h with
        | b :: u :: g0 :: g1 :: g2 :: g3 :: q, h =>
          simp only at h
          by_cases hb : b ≠ 92 ∨ u ≠ 117
          · rw [if_pos hb] at h
            cases h
          · rw [if_neg hb] at h
            cases hg : hex4 g0 g1 g2 g3 with
            | none => rw [hg] at h; cases h
            | some low =>
              rw [hg] at h
              simp only at h
              by_cases hl : low < 0xDC00 ∨ low > 0xDFFF
              · rw [if_pos hl] at h
                cases h
              · rw [if_neg hl] at h
                injection h with h
                injection h with _ h
                exact suffix_of_drop 10 _ _ h.symm
        | [], h => cases h
        | [_], h => cases h
        | [_, _], h => cases h
        | [_, _, _], h => cases h
        | [_, _, _, _], h => cases h
        | [_, _, _, _, _], h => cases h
      · rw [if_neg hs] at h
        by_cases hlo : v ≥ 0xDC00 ∧ v ≤ 0xDFFF
        · rw [if_pos hlo] at h
          cases h
        · rw [if_neg hlo] at h
          injection h with h
          injection h with _ h
          exact suffix_of_drop 4 _ _ h.symm
  | [], h => unfold parse_string_u at h; cases h
  | [_], h => unfold parse_string_u at h; cases h
  | [_, _], h => unfold parse_string_u at h; cases h
  | [_, _, _], h => unfold parse_string_u at h; cases h

theorem parse_string_escape_suffix (p bytes p1 : List Nat)
    (h : parse_string_escape p = .ok (bytes, p1)) : p1 <:+ p := by
  cases p with
  | nil => unfold parse_string_escape at h; cases h
  | cons e q =>
    unfold parse_string_escape at h
    simp only at h
    by_cases h0 : e = 34
    · rw [if_pos h0] at h
      injection h with h
      injection h with _ hb
      rw [← hb]
      exact List.suffix_cons e q
    rw [if_neg h0] at h
    by_cases h1 : e = 92
    · rw [if_pos h1] at h
      injection h with h
      injection h with _ hb
      rw [← hb]
      exact List.suffix_cons e q
    rw [if_neg h1] at h
    by_cases h2 : e = 47
    · rw [if_pos h2] at h
      injection h with h
      injection h with _ hb
      rw [← hb]
      exact List.suffix_cons e q
    rw [if_neg h2] at h
    by_cases h3 : e = 98
    · rw [if_pos h3] at h
      injection h with h
      injection h with _ hb
      rw [← hb]
      exact List.suffix_cons e q
    rw [if_neg h3] at h
    by_cases h4 : e = 102
    · rw [if_pos h4] at h
      injection h with h
      injection h with _ hb
      rw [← hb]
      exact List.suffix_cons e q
    rw [if_neg h4] at h
    by_cases h5 : e = 110
    · rw [if_pos h5] at h
      injection h with h
      injection h with _ hb
      rw [← hb]
      exact List.suffix_cons e q
    rw [if_neg h5] at h
    by_cases h6 : e = 114
    · rw [if_pos h6] at h
      injection h with h
      injection h with _ hb
      rw [← hb]
      exact List.suffix_cons e q
    rw [if_neg h6] at h
    by_cases h7 : e = 116
    · rw [if_pos h7] at h
      injection h with h
      injection h with _ hb
      rw [← hb]
      exact List.suffix_cons e q
    rw [if_neg h7] at h
    by_cases hu : e = 117
    · rw [if_pos hu] at h
      cases hp : parse_string_u q with
      | ok r =>
        rw [hp] at h
        injection h with h
        injection h with _ hb
        rw [← hb]
        exact (parse_string_u_suffix q r.1 r.2 hp).trans (List.suffix_cons e q)
      | fail rem msg => rw [hp] at h; cases h
      | bounds => rw [hp] at h; cases h
      | fuel => rw [hp] at h; cases h
    · rw [if_neg hu] at h
      cases h

theorem parse_string_slow_suffix :
    ∀ (n : Nat) (p buf : List Nat) (s : Str) (rest : List Nat),
      parse_string_slow n p buf = .ok (s, rest) → rest <:+ p := by
  intro n
  induction n with
  | zero =>
    intro p buf s rest h
    cases p with
    | nil => unfold parse_string_slow at h; cases h
    | cons c q => unfold parse_string_slow at h; cases h
  | succ n ih =>
    intro p buf s rest h
    cases p with
    | nil => unfold parse_string_slow at h; cases h
    | cons c q =>
      unfold parse_string_slow at h
      by_cases h34 : c = 34
      · rw [if_pos h34] at h
        injection h with h
        injection h with _ h
        rw [← h]
        exact List.suffix_cons c q
      · rw [if_neg h34] at h
        by_cases h92 : c = 92
        · rw [if_pos h92] at h
          cases he : parse_string_escape q with
          | ok r =>
            rw [he] at h
            exact ((ih _ _ _ _ h).trans (parse_string_escape_suffix q r.1 r.2 he)).trans
              (List.suffix_cons c q)
          | fail rem msg => rw [he] at h; cases h
          | bounds => rw [he] at h; cases h
          | fuel => rw [he] at h; cases h
        · rw [if_neg h92] at h
          split_ifs at h
          exact (ih _ _ _ _ h).trans (List.suffix_cons c q)

theorem parse_string_suffix (fuel : Nat) (inp : List Nat) (s : Str) (rest : List Nat)
    (h : parse_string fuel inp = .ok (s, rest)) : rest <:+ inp := by
  cases inp with
  | nil => unfold parse_string at h; cases h
  | cons c q =>
    unfold parse_string at h
    simp only at h
    split_ifs at h with hc
    cases hsc : parse_string_scan q [] with
    | closed view r =>
      rw [hsc] at h
      injection h with h
      injection h with _ h
      rw [← h]
      exact ((parse_string_scan_suffix q []).1 view r hsc).trans (List.suffix_cons c q)
    | stopped plain r =>
      rw [hsc] at h
      cases r with
      | nil => cases h
      | cons c1 r1 =>
        simp only at h
        exact ((parse_string_slow_suffix fuel (c1 :: r1) plain s rest h).trans
          ((parse_string_scan_suffix q []).2 plain (c1 :: r1) hsc)).trans (List.suffix_cons c q)

theorem skip_digits_suffix (p : List Nat) : skip_digits p <:+ p := by
  induction p with
  | nil => exact List.suffix_refl _
  | cons c rest ih =>
    unfold skip_digits
    split_ifs
    · exact ih.trans (List.suffix_cons c rest)
    · exact List.suffix_refl _

theorem parse_number_int_suffix (p p1 : List Nat) (h : parse_number_int p = .ok p1) :
    p1 <:+ p := by
  cases p with
  | nil => unfold parse_number_int at h; cases h
  | cons d q =>
    unfold parse_number_int at h
    simp only at h
    split_ifs at h
    · injection h with h
      rw [← h]
      exact List.suffix_cons d q
    · injection h with h
      rw [← h]
      exact skip_digits_suffix _

theorem parse_number_frac_suffix (p p2 : List Nat) (f : Bool)
    (h : parse_number_frac p = .ok (f, p2)) : p2 <:+ p := by
  cases p with
  | nil =>
    unfold parse_number_frac at h
    injection h with h
    injection h with _ h
    rw [← h]
  | cons c q =>
    unfold parse_number_frac at h
    simp only at h
    by_cases h46 : c = 46
    · rw [if_pos h46] at h
      cases q with
      | nil => cases h
      | cons d q1 =>
        simp only at h
        split_ifs at h
        injection h with h
        injection h with _ h
        rw [← h]
        exact (skip_digits_suffix _).trans (List.suffix_cons c _)
    · rw [if_neg h46] at h
      injection h with h
      injection h with _ h
      rw [← h]

theorem parse_number_exp_suffix (p p3 : List Nat) (f : Bool)
    (h : parse_number_exp p = .ok (f, p3)) : p3 <:+ p := by
  cases p with
  | nil =>
    unfold parse_number_exp at h
    injection h with h
    injection h with _ h
    rw [← h]
  | cons e q =>
    unfold parse_number_exp at h
    simp only at h
    by_cases he : e = 101 ∨ e = 69
    · rw [if_pos he] at h
      cases q with
      | nil => cases h
      | cons s q1 =>
        simp only at h
        by_cases hs : s = 43 ∨ s = 45
        · rw [if_pos hs] at h
          cases q1 with
          | nil => cases h
          | cons d q2 =>
            simp only at h
            split_ifs at h
            injection h with h
            injection h with _ h
            rw [← h]
            exact ((skip_digits_suffix _).trans (List.suffix_cons s _)).trans
              (List.suffix_cons e _)
        · rw [if_neg hs] at h
          simp only at h
          split_ifs at h
          injection h with h
          injection h with _ h
          rw [← h]
          exact (skip_digits_suffix _).trans (List.suffix_cons e _)
    · rw [if_neg he] at h
      injection h with h
      injection h with _ h
      rw [← h]

theorem parse_number_suffix (fcd : List Nat → Option ℚ) (inp rest : List Nat) (v : Value)
    (h : parse_number fcd inp = .ok (v, rest)) : rest <:+ inp := by
  cases inp with
  | nil => unfold parse_number at h; cases h
  | cons c p0 =>
    unfold parse_number at h
    simp only at h
    cases h1 : parse_number_int (if c = 45 then p0 else c :: p0) with
    | fail rem msg => rw [h1] at h; cases h
    | bounds => rw [h1] at h; cases h
    | fuel => rw [h1] at h; cases h
    | ok p1 =>
      rw [h1] at h
      simp only at h
      cases h2 : parse_number_frac p1 with
      | fail rem msg => rw [h2] at h; cases h
      | bounds => rw [h2] at h; cases h
      | fuel => rw [h2] at h; cases h
      | ok r2 =>
        obtain ⟨f1, p2⟩ := r2
        rw [h2] at h
        simp only at h
        cases h3 : parse_number_exp p2 with
        | fail rem msg => rw [h3] at h; cases h
        | bounds => rw [h3] at h; cases h
        | fuel => rw [h3] at h; cases h
        | ok r3 =>
          obtain ⟨f2, p3⟩ := r3
          rw [h3] at h
          simp only at h
          have hrest : p3 = rest := by
            revert h
            cases (if f1 = false ∧ f2 = false then
              from_chars_int64 (List.take ((c :: p0).length - p3.length) (c :: p0)) else none) with
            | some iv =>
              intro h
              injection h with h
              injection h with _ h
            | none =>
              cases fcd (List.take ((c :: p0).length - p3.length) (c :: p0)) with
              | none => intro h; cases h
              | some dv =>
                intro h
                injection h with h
                injection h with _ h
          have harg : (if c = 45 then p0 else c :: p0) <:+ c :: p0 := by
            split_ifs
            · exact List.suffix_cons c p0
            · exact List.suffix_refl _
          rw [← hrest]
          exact (((parse_number_exp_suffix p2 p3 f2 h3).trans
            (parse_number_frac_suffix p1 p2 f1 h2)).trans
            (parse_number_int_suffix _ p1 h1)).trans harg

theorem parse_array_loop_suffix (pv : List Nat → Result (Value × List Nat))
    (hpv : ∀ inp v rest, pv inp = .ok (v, rest) → rest <:+ inp) :
    ∀ (n : Nat) (p : List Nat) (out a : List Value) (rest : List Nat),
      parse_array_loop pv n p out = .ok (a, rest) → rest <:+ p := by
  intro n
  induction n with
  | zero => intro p out a rest h; unfold parse_array_loop at h; cases h
  | succ n ih =>
    intro p out a rest h
    unfold parse_array_loop at h
    cases hv : pv (skip_ws p) with
    | fail rem msg => rw [hv] at h; cases h
    | bounds => rw [hv] at h; cases h
    | fuel => rw [hv] at h; cases h
    | ok r =>
      obtain ⟨v, p1⟩ := r
      rw [hv] at h
      simp only at h
      have h1 : p1 <:+ p := (hpv _ v p1 hv).trans (skip_ws_suffix p)
      cases hs : skip_ws p1 with
      | nil => rw [hs] at h; cases h
      | cons c p2 =>
        rw [hs] at h
        simp only at h
        have h2 : p2 <:+ p := by
          have := skip_ws_suffix p1
          rw [hs] at this
          exact ((List.suffix_cons c p2).trans this).trans h1
        by_cases h93 : c = 93
        · rw [if_pos h93] at h
          injection h with h
          injection h with _ hr
          rw [← hr]
          exact h2
        · rw [if_neg h93] at h
          split_ifs at h
          exact (ih _ _ _ _ h).trans h2

theorem parse_array_suffix (pv : List Nat → Result (Value × List Nat))
    (hpv : ∀ inp v rest, pv inp = .ok (v, rest) → rest <:+ inp) (fuel : Nat)
    (inp : List Nat) (a : List Value) (rest : List Nat)
    (h : parse_array pv fuel inp = .ok (a, rest)) : rest <:+ inp := by
  cases inp with
  | nil => unfold parse_array at h; cases h
  | cons c p =>
    unfold parse_array at h
    simp only at h
    split_ifs at h with h91
    have hsuf := skip_ws_suffix p
    cases hs : skip_ws p with
    | nil =>
      rw [hs] at h
      simp only at h
      exact ((parse_array_loop_suffix pv hpv fuel _ _ _ _ h).trans List.nil_suffix).trans
        (List.suffix_cons c p)
    | cons c1 p1 =>
      rw [hs] at h hsuf
      simp only at h
      by_cases h93 : c1 = 93
      · rw [if_pos h93] at h
        injection h with h
        injection h with _ hr
        rw [← hr]
        exact ((List.suffix_cons c1 p1).trans hsuf).trans (List.suffix_cons c p)
      · rw [if_neg h93] at h
        exact ((parse_array_loop_suffix pv hpv fuel _ _ _ _ h).trans hsuf).trans
          (List.suffix_cons c p)

theorem parse_object_loop_suffix (pv : List Nat → Result (Value × List Nat))
    (hpv : ∀ inp v rest, pv inp = .ok (v, rest) → rest <:+ inp) (fuel : Nat) :
    ∀ (n : Nat) (p : List Nat) (out o : List (Str × Value)) (rest : List Nat),
      parse_object_loop pv fuel n p out = .ok (o, rest) → rest <:+ p := by
  intro n
  induction n with
  | zero => intro p out o rest h; unfold parse_object_loop at h; cases h
  | succ n ih =>
    intro p out o rest h
    unfold parse_object_loop at h
    have hsuf := skip_ws_suffix p
    cases hs : skip_ws p with
    | nil => rw [hs] at h; cases h
    | cons q p1 =>
      rw [hs] at h hsuf
      simp only at h
      split_ifs at h with h34
      cases hk : parse_string fuel (q :: p1) with
      | fail rem msg => rw [hk] at h; cases h
      | bounds => rw [hk] at h; cases h
      | fuel => rw [hk] at h; cases h
      | ok r =>
        obtain ⟨key, p2⟩ := r
        rw [hk] at h
        simp only at h
        have h2 : p2 <:+ p := (parse_string_suffix fuel _ key p2 hk).trans hsuf
        have hsuf2 := skip_ws_suffix p2
        cases hs2 : skip_ws p2 with
        | nil => rw [hs2] at h; cases h
        | cons c p3 =>
          rw [hs2] at h hsuf2
          simp only at h
          split_ifs at h with h58
          have h3 : p3 <:+ p := ((List.suffix_cons c p3).trans hsuf2).trans h2
          cases hv : pv (skip_ws p3) with
          | fail rem msg => rw [hv] at h; cases h
          | bounds => rw [hv] at h; cases h
          | fuel => rw [hv] at h; cases h
          | ok r4 =>
            obtain ⟨val, p4⟩ := r4
            rw [hv] at h
            simp only at h
            have h4 : p4 <:+ p := ((hpv _ val p4 hv).trans (skip_ws_suffix p3)).trans h3
            have hsuf4 := skip_ws_suffix p4
            cases hs4 : skip_ws p4 with
            | nil => rw [hs4] at h; cases h
            | cons c1 p5 =>
              rw [hs4] at h hsuf4
              simp only at h
              have h5 : p5 <:+ p := ((List.suffix_cons c1 p5).trans hsuf4).trans h4
              by_cases h125 : c1 = 125
              · rw [if_pos h125] at h
                injection h with h
                injection h with _ hr
                rw [← hr]
                exact h5
              · rw [if_neg h125] at h
                split_ifs at h
                exact (ih _ _ _ _ h).trans h5

theorem parse_object_suffix (pv : List Nat → Result (Value × List Nat))
    (hpv : ∀ inp v rest, pv inp = .ok (v, rest) → rest <:+ inp) (fuel : Nat)
    (inp : List Nat) (o : List (Str × Value)) (rest : List Nat)
    (h : parse_object pv fuel inp = .ok (o, rest)) : rest <:+ inp := by
  cases inp with
  | nil => unfold parse_object at h; cases h
  | cons c p =>
    unfold parse_object at h
    simp only at h
    split_ifs at h with h123
    have hsuf := skip_ws_suffix p
    cases hs : skip_ws p with
    | nil =>
      rw [hs] at h
      simp only at h
      exact ((parse_object_loop_suffix pv hpv fuel fuel _ _ _ _ h).trans List.nil_suffix).trans
        (List.suffix_cons c p)
    | cons c1 p1 =>
      rw [hs] at h hsuf
      simp only at h
      by_cases h125 : c1 = 125
      · rw [if_pos h125] at h
        injection h with h
        injection h with _ hr
        rw [← hr]
        exact ((List.suffix_cons c1 p1).trans hsuf).trans (List.suffix_cons c p)
      · rw [if_neg h125] at h
        exact ((parse_object_loop_suffix pv hpv fuel fuel _ _ _ _ h).trans hsuf).trans
          (List.suffix_cons c p)

/-- The characters that `parse_value` leaves are an end of its text. -/
theorem parse_value_suffix (fcd : List Nat → Option ℚ) :
    ∀ (fuel : Nat) (inp : List Nat) (v : Value) (rest : List Nat),
      parse_value fcd fuel inp = .ok (v, rest) → rest <:+ inp := by
  intro fuel
  induction fuel with
  | zero => intro inp v rest h; unfold parse_value at h; cases h
  | succ n ih =>
    intro inp v rest h
    cases inp with
    | nil => unfold parse_value at h; cases h
    | cons c q =>
      unfold parse_value at h
      simp only at h
      by_cases h1 : c = 110
      · rw [if_pos h1] at h
        exact parse_lit_suffix _ _ _ _ _ h
      rw [if_neg h1] at h
      by_cases h2 : c = 116
      · rw [if_pos h2] at h
        exact parse_lit_suffix _ _ _ _ _ h
      rw [if_neg h2] at h
      by_cases h3 : c = 102
      · rw [if_pos h3] at h
        exact parse_lit_suffix _ _ _ _ _ h
      rw [if_neg h3] at h
      by_cases h4 : c = 34
      · rw [if_pos h4] at h
        cases hs : parse_string n (c :: q) with
        | fail rem msg => rw [hs] at h; cases h
        | bounds => rw [hs] at h; cases h
        | fuel => rw [hs] at h; cases h
        | ok r =>
          rw [hs] at h
          injection h with h
          injection h with _ hp
          rw [← hp]
          exact parse_string_suffix n _ r.1 r.2 hs
      rw [if_neg h4] at h
      by_cases h5 : c = 91
      · rw [if_pos h5] at h
        cases hs : parse_array (parse_value fcd n) n (c :: q) with
        | fail rem msg => rw [hs] at h; cases h
        | bounds => rw [hs] at h; cases h
        | fuel => rw [hs] at h; cases h
        | ok r =>
          rw [hs] at h
          injection h with h
          injection h with _ hp
          rw [← hp]
          exact parse_array_suffix _ ih n _ r.1 r.2 hs
      rw [if_neg h5] at h
      by_cases h6 : c = 123
      · rw [if_pos h6] at h
        cases hs : parse_object (parse_value fcd n) n (c :: q) with
        | fail rem msg => rw [hs] at h; cases h
        | bounds => rw [hs] at h; cases h
        | fuel => rw [hs] at h; cases h
        | ok r =>
          rw [hs] at h
          injection h with h
          injection h with _ hp
          rw [← hp]
          exact parse_object_suffix _ ih n _ r.1 r.2 hs
      rw [if_neg h6] at h
      exact parse_number_suffix fcd _ _ v h

/-! ## `mj::parse` reads the whole text -/

theorem skip_ws_leading (json : List Nat) :
    ∃ ws, json = ws ++ skip_ws json ∧ ∀ a ∈ ws, is_ws a := by
  induction json with
  | nil => exact ⟨[], rfl, fun a ha => by simp at ha⟩
  | cons c rest ih =>
    unfold skip_ws
    by_cases hc : c = 32 ∨ c = 10 ∨ c = 13 ∨ c = 9
    · rw [if_pos hc]
      obtain ⟨ws, h1, h2⟩ := ih
      refine ⟨c :: ws, by rw [List.cons_append, ← h1], ?_⟩
      intro a ha
      rcases List.mem_cons.mp ha with h | h
      · rw [h]
        exact hc
      · exact h2 a h
    · rw [if_neg hc]
      exact ⟨[], rfl, fun a ha => by simp at ha⟩

theorem skip_ws_nil_iff (rest : List Nat) : skip_ws rest = [] ↔ ∀ a ∈ rest, is_ws a := by
  induction rest with
  | nil => exact ⟨fun _ a ha => by simp at ha, fun _ => rfl⟩
  | cons c rest ih =>
    unfold skip_ws
    by_cases hc : c = 32 ∨ c = 10 ∨ c = 13 ∨ c = 9
    · rw [if_pos hc, ih]
      constructor
      · intro h a ha
        rcases List.mem_cons.mp ha with h1 | h1
        · rw [h1]
          exact hc
        · exact h a h1
      · intro h a ha
        exact h a (List.mem_cons_of_mem c ha)
    · rw [if_neg hc]
      constructor
      · intro h
        cases h
      · intro h
        exact absurd (h c (List.mem_cons_self c rest)) hc

/-- The result `true` of `mj::parse`: a value is read after the leading
whitespace, and `skip_ws` reaches the end of the text after it. -/
theorem parse_success_iff (fcd : List Nat → Option ℚ) (fuel : Nat) (json : List Nat)
    (w : Value) :
    parse fcd fuel json = .ok (.success w) ↔
      ∃ rest, parse_value fcd fuel (skip_ws json) = .ok (w, rest) ∧ skip_ws rest = [] := by
  unfold parse Parser.parse
  cases hv : parse_value fcd fuel (skip_ws json) with
  | fail rem msg =>
    simp only
    constructor
    · intro h
      cases h
    · rintro ⟨rest, h, _⟩
      cases h
  | bounds =>
    simp only
    constructor
    · intro h
      cases h
    · rintro ⟨rest, h, _⟩
      cases h
  | fuel =>
    simp only
    constructor
    · intro h
      cases h
    · rintro ⟨rest, h, _⟩
      cases h
  | ok r =>
    obtain ⟨v, p⟩ := r
    simp only
    cases hs : skip_ws p with
    | nil =>
      simp only
      constructor
      · intro h
        injection h with h
        injection h with h
        exact ⟨p, by rw [h], hs⟩
      · rintro ⟨rest, h, _⟩
        injection h with h
        injection h with h _
        rw [h]
    | cons c p1 =>
      simp only
      constructor
      · intro h
        injection h with h
        cases h
      · rintro ⟨rest, h, hr⟩
        injection h with h
        injection h with _ h
        rw [← h, hs] at hr
        cases hr

/-- A value read up to trailing whitespace, followed by a character that is
not whitespace: `mj::parse` fails at that character. -/
theorem parse_trailing (fcd : List Nat → Option ℚ) (fuel : Nat) (json rest : List Nat)
    (v : Value) (c : Nat) (more : List Nat)
    (hv : parse_value fcd fuel (skip_ws json) = .ok (v, rest)) (hr : skip_ws rest = [])
    (hc : ¬ is_ws c) (hnum : v.is_num = false ∨ rest ≠ [] ∨ ¬ continues_number c) :
    parse fcd fuel (json ++ c :: more) =
      .ok (.failure ⟨json.length, "Trailing characters after JSON"⟩) := by
  have hst := parse_value_stable fcd (c :: more) fuel
  have hne : skip_ws json ≠ [] := by
    intro he
    rw [he] at hv
    exact hst.2 _ hv
  have hcond : v.is_num = false ∨ rest ≠ [] ∨ no_continuation (c :: more) := by
    rcases hnum with h | h | h
    · exact Or.inl h
    · exact Or.inr (Or.inl h)
    · refine Or.inr (Or.inr ?_)
      intro a ha
      simp only [List.head?_cons, Option.mem_def, Option.some.injEq] at ha
      rw [← ha]
      exact h
  unfold parse Parser.parse
  rw [skip_ws_append json (c :: more) hne, hst.1 _ v rest hv hcond]
  simp only
  rw [skip_ws_all rest (c :: more) hr, skip_ws_stop c more hc]
  simp only [List.length_append, List.length_cons, Nat.add_sub_cancel]

/-- The function `mj::find` returns the value of the first member with the
key. -/
theorem find_eq (key : List Nat) :
    ∀ obj : List (Str × Value),
      find obj key = (obj.find? (fun kv => decide (kv.1.sv = key))).map Prod.snd := by
  intro obj
  induction obj with
  | nil => rfl
  | cons kv rest ih =>
    obtain ⟨k, v⟩ := kv
    unfold find
    by_cases h : k.sv = key
    · rw [if_pos h, List.find?_cons_of_pos _ (by simpa using h)]
      rfl
    · rw [if_neg h, List.find?_cons_of_neg _ (by simpa using h)]
      exact ih

set_option maxRecDepth 100000 in
/-- The run of `mj::parse` on the text of `jsonHoge` when `std::from_chars`
yields the `double` value `d` for `3.14159`. -/
theorem parse_demo_some (fcd : List Nat → Option ℚ) (d : ℚ) :
    parse (fun sv => if sv = ascii "3.14159" then some d else fcd sv) 10 demo_json =
      .ok (.success (demo_value d)) := by
  rfl

set_option maxRecDepth 100000 in
/-- The run of `mj::parse` on the text of `jsonHoge` when `std::from_chars`
reports an error for `3.14159`. -/
theorem parse_demo_none (fcd : List Nat → Option ℚ) :
    parse (fun sv => if sv = ascii "3.14159" then none else fcd sv) 10 demo_json =
      .ok (.failure ⟨75, "Invalid number"⟩) := by
  rfl

theorem parse_demo (fcd : List Nat → Option ℚ) (w : Value)
    (h : parse fcd 10 demo_json = .ok (.success w)) :
    ∃ d, fcd (ascii "3.14159") = some d ∧ w = demo_value d := by
  have hf : fcd = (fun sv => if sv = ascii "3.14159" then fcd (ascii "3.14159") else fcd sv) := by
    funext sv
    by_cases hs : sv = ascii "3.14159"
    · rw [if_pos hs, hs]
    · rw [if_neg hs]
  rw [hf] at h
  cases hx : fcd (ascii "3.14159") with
  | none =>
    rw [hx, parse_demo_none fcd] at h
    injection h with h
    cases h
  | some d =>
    rw [hx, parse_demo_some fcd d] at h
    injection h with h
    injection h with h
    exact ⟨d, rfl, h.symm⟩

/-- C40 (amended). `mj::parse` consumes the whole text. When it returns `true`
with the value `v` for the text `json`: `json` is whitespace, then the text of
one value as `parse_value` reads it, then whitespace (and `true` is returned
exactly in this case); and for every character `c` that is not whitespace and
does not continue a number read as the value (a digit, `.`, `e` or `E` after a
number), and every text `more`, `mj::parse` returns `false` for
`json ++ c :: more` with the message `Trailing characters after JSON`, which is
not empty, and `err.offset` equal to the index of `c`. When `mj::parse` returns
`true` for the text of `jsonHoge`, the root is an object whose members are
`title`, `version`, `pi`, `ok`, `tags`, `meta` in this order, the order of the
text; and `mj::find` returns the value of the first member with the key, the
null pointer when there is none. -/
theorem C40_parse_consumes_input (fcd : List Nat → Option ℚ) (fuel : Nat) (json : List Nat)
    (v : Value) (c : Nat) (more : List Nat)
    (hv : parse fcd fuel json = .ok (.success v)) (hc : ¬ is_ws c)
    (hnum : v.is_num = false ∨ ¬ continues_number c) :
    (∃ ws body rest, json = ws ++ body ++ rest ∧ (∀ a ∈ ws, is_ws a) ∧ (∀ a ∈ rest, is_ws a) ∧
      parse_value fcd fuel (body ++ rest) = .ok (v, rest)) ∧
    (∀ w, parse fcd fuel json = .ok (.success w) ↔
      ∃ rest, parse_value fcd fuel (skip_ws json) = .ok (w, rest) ∧ ∀ a ∈ rest, is_ws a) ∧
    parse fcd fuel (json ++ c :: more) =
      .ok (.failure ⟨json.length, "Trailing characters after JSON"⟩) ∧
    (json ++ c :: more)[json.length]? = some c ∧
    "Trailing characters after JSON" ≠ "" ∧
    (∀ w, parse fcd 10 demo_json = .ok (.success w) →
      ∃ d members, fcd (ascii "3.14159") = some d ∧ w = demo_value d ∧ w = .object members ∧
        members.map (fun kv => kv.1.sv) =
          [ascii "title", ascii "version", ascii "pi", ascii "ok", ascii "tags", ascii "meta"]) ∧
    (∀ (obj : List (Str × Value)) (key : List Nat),
      find obj key = (obj.find? (fun kv => decide (kv.1.sv = key))).map Prod.snd) := by
  obtain ⟨rest, hpv, hrest⟩ := (parse_success_iff fcd fuel json v).mp hv
  refine ⟨?_, ?_, ?_, ?_, by decide, ?_, fun obj key => find_eq key obj⟩
  · obtain ⟨ws, hws, hall⟩ := skip_ws_leading json
    obtain ⟨body, hbody⟩ := parse_value_suffix fcd fuel _ v rest hpv
    refine ⟨ws, body, rest, ?_, hall, (skip_ws_nil_iff rest).mp hrest, ?_⟩
    · rw [List.append_assoc, hbody]
      exact hws
    · rw [hbody]
      exact hpv
  · intro w
    rw [parse_success_iff]
    constructor
    · rintro ⟨r, h1, h2⟩
      exact ⟨r, h1, (skip_ws_nil_iff r).mp h2⟩
    · rintro ⟨r, h1, h2⟩
      exact ⟨r, h1, (skip_ws_nil_iff r).mpr h2⟩
  · refine parse_trailing fcd fuel json rest v c more hpv hrest hc ?_
    rcases hnum with h | h
    · exact Or.inl h
    · exact Or.inr (Or.inr h)
  · rw [List.getElem?_append_right (le_refl _), Nat.sub_self]
    exact List.getElem?_cons_zero
  · intro w hw
    obtain ⟨d, hd, hwd⟩ := parse_demo fcd w hw
    exact ⟨d, _, hd, hwd, hwd, rfl⟩

/-- C40, witness: the text `[1, 2] `, followed by `x`. -/
theorem C40_parse_consumes_input_witness :
    (∃ ws body rest, ascii "[1, 2] " = ws ++ body ++ rest ∧ (∀ a ∈ ws, is_ws a) ∧
      (∀ a ∈ rest, is_ws a) ∧
      parse_value (fun _ => none) 3 (body ++ rest) =
        .ok (.array [.num_int 1, .num_int 2], rest)) ∧
    (∀ w, parse (fun _ => none) 3 (ascii "[1, 2] ") = .ok (.success w) ↔
      ∃ rest, parse_value (fun _ => none) 3 (skip_ws (ascii "[1, 2] ")) = .ok (w, rest) ∧
        ∀ a ∈ rest, is_ws a) ∧
    parse (fun _ => none) 3 (ascii "[1, 2] " ++ 120 :: []) =
      .ok (.failure ⟨(ascii "[1, 2] ").length, "Trailing characters after JSON"⟩) ∧
    (ascii "[1, 2] " ++ 120 :: [])[(ascii "[1, 2] ").length]? = some 120 ∧
    "Trailing characters after JSON" ≠ "" ∧
    (∀ w, parse (fun _ => none) 10 demo_json = .ok (.success w) →
      ∃ d members, (fun _ => none : List Nat → Option ℚ) (ascii "3.14159") = some d ∧
        w = demo_value d ∧ w = .object members ∧
        members.map (fun kv => kv.1.sv) =
          [ascii "title", ascii "version", ascii "pi", ascii "ok", ascii "tags", ascii "meta"]) ∧
    (∀ (obj : List (Str × Value)) (key : List Nat),
      find obj key = (obj.find? (fun kv => decide (kv.1.sv = key))).map Prod.snd) :=
  C40_parse_consumes_input (fun _ => none) 3 (ascii "[1, 2] ")
    (.array [.num_int 1, .num_int 2]) 120 [] rfl (by unfold is_ws; decide) (Or.inl rfl)

/-- C40 as stated fails. The text `1` is a valid value, and the character `2`
is not whitespace; the text `12` is parsed with the result `true`. The text
`1.` is rejected with the message `Invalid fraction` and the offset 2, which is
not the index 1 of the character that follows the value. -/
theorem C40_counterexample :
    (∀ fcd, parse fcd 2 (ascii "1") = .ok (.success (.num_int 1))) ∧
    ¬ is_ws 50 ∧
    (∀ fcd, parse fcd 2 (ascii "1" ++ [50]) = .ok (.success (.num_int 12))) ∧
    ¬ is_ws 46 ∧
    (∀ fcd, parse fcd 2 (ascii "1" ++ [46]) = .ok (.failure ⟨2, "Invalid fraction"⟩)) :=
  ⟨fun _ => rfl, by unfold is_ws; decide, fun _ => rfl, by unfold is_ws; decide, fun _ => rfl⟩

end mj
